import Mathlib

/-! Threadon 2.0 routines: ready queue and scheduler loop.

A shallow embedding of `src/lib/routines/routines.hpp` (with the coroutine of
`src/lib/routines/test.cpp`), followed by theorems about it.

Conventions of the embedding.

* `size_t` is 64 bits wide: arithmetic on indices is done in `Nat` and reduced
  modulo `2 ^ 64` wherever the C++ expression can wrap.
* A `std::coroutine_handle` is the address of a coroutine frame, a `Nat`; the
  null handle is `none`.
* `int` is 32 bits wide: the atomic counter `completed` is kept as its bit
  pattern, a `Nat` below `2 ^ 32`, and `fetch_add` wraps.
* Atomics are read and written sequentially: every operation of the queue is
  one atomic step of the embedding, so the memory orders do not appear.
* An access that C++ leaves undefined (a vector index out of range, a handle
  used after its frame was destroyed) and a retry loop that cannot make
  progress are reported as a `Fault` instead of a result.
-/

namespace Threadon

/-! ## Machine integers and faults -/

/-- Number of values of a `size_t`. -/
def SIZE_MOD : Nat := 2 ^ 64

/-- Number of values of an `int`. -/
def INT_MOD : Nat := 2 ^ 32

/-- Ways in which a call has no defined result. -/
inductive Fault where
  /-- A vector was indexed at or past its size. -/
  | outOfRange
  /-- A coroutine handle was used although no live frame is at its address. -/
  | dangling
  /-- A coroutine suspended at its final suspend point was resumed. -/
  | resumedDone
  /-- A yield-and-retry loop ran out of fuel. -/
  | noProgress
  deriving DecidableEq, Repr

/-! ## Task (routines.hpp 14-53) -/

/-- Address of a coroutine frame. -/
abbrev Handle := Nat

/-- The move-only wrapper `Task`: its only member is `coro`, null or a frame address. -/
structure Task where
  coro : Option Handle
  deriving DecidableEq, Repr

/-- Default constructor `Task() : coro(nullptr)`. -/
def Task.empty : Task := ⟨none⟩

instance : Inhabited Task := ⟨Task.empty⟩

/-- Move constructor `Task(Task&& other)`: returns the new object and the source after the move. -/
def Task.moveConstruct (other : Task) : Task × Task :=
  (⟨other.coro⟩, ⟨none⟩)

/-- Move assignment `dst = std::move(src)` between two distinct objects:
`if (coro) coro.destroy(); coro = other.coro; other.coro = nullptr;`.
Returns the destination, the source, and the handle on which `destroy` was called, if any. -/
def Task.moveAssign (dst src : Task) : Task × Task × Option Handle :=
  (⟨src.coro⟩, ⟨none⟩, dst.coro)

/-- Handles on which the destructors of a run of `Task` objects call `destroy`, in order. -/
def Task.destructAll (ts : List Task) : List Handle :=
  ts.filterMap Task.coro

/-! ## SpscQueue (routines.hpp 56-114) -/

/-- The members of `SpscQueue`. -/
structure SpscQueue where
  capacity : Nat
  mask : Nat
  buffer : List Task
  head : Nat
  tail : Nat
  deriving DecidableEq, Repr

/-- Constructor. `mask` is `capacity - 1` computed in `size_t`; the buffer holds `capacity`
default-constructed tasks; `none` when the assertion `(capacity & mask) == 0` fires. -/
def SpscQueue.new (capacity_power_of_two : Nat) : Option SpscQueue :=
  let capacity := capacity_power_of_two
  let mask := (capacity_power_of_two + SIZE_MOD - 1) % SIZE_MOD
  if capacity &&& mask = 0 then
    some { capacity := capacity, mask := mask,
           buffer := List.replicate capacity_power_of_two Task.empty,
           head := 0, tail := 0 }
  else none

/-- What `push` leaves behind: its return value, the queue, the argument object after the
call, and the handle destroyed by the move assignment into the slot, if any. -/
structure PushResult where
  ok : Bool
  q : SpscQueue
  t : Task
  released : Option Handle
  deriving DecidableEq, Repr

/-- The method `bool push(Task&& t)`. -/
def SpscQueue.push (q : SpscQueue) (t : Task) : Except Fault PushResult :=
  let h := q.head
  let next := ((h + 1) % SIZE_MOD) &&& q.mask
  if next = q.tail then
    .ok { ok := false, q := q, t := t, released := none }
  else
    match q.buffer[h]? with
    | none => .error .outOfRange
    | some slot =>
      let r := Task.moveAssign slot t
      .ok { ok := true, q := { q with buffer := q.buffer.set h r.1, head := next },
            t := r.2.1, released := r.2.2 }

/-- Local state of the loop of `pop_batch`. -/
structure BatchState where
  t : Nat
  count : Nat
  buffer : List Task
  out : List Task
  released : List Handle
  deriving DecidableEq, Repr

/-- The loop `while (t != h && count < max_batch) { out[count++] = std::move(buffer[t]);
t = (t + 1) & mask; }`. The first argument is `max_batch - count`, the loop variant:
`count < max_batch` holds exactly when it is not zero. -/
def SpscQueue.pop_batch_loop (mask h : Nat) : Nat → BatchState → Except Fault BatchState
  | 0, st => .ok st
  | rem + 1, st =>
    if st.t = h then .ok st
    else
      match st.buffer[st.t]?, st.out[st.count]? with
      | some src, some dst =>
        let r := Task.moveAssign dst src
        SpscQueue.pop_batch_loop mask h rem
          { t := ((st.t + 1) % SIZE_MOD) &&& mask,
            count := st.count + 1,
            buffer := st.buffer.set st.t r.2.1,
            out := st.out.set st.count r.1,
            released := st.released ++ r.2.2.toList }
      | _, _ => .error .outOfRange

/-- What `pop_batch` leaves behind: its return value, the queue, the vector `out`, and the
handles destroyed by move assignments into `out` and by `out.resize`. -/
structure PopBatchResult where
  ok : Bool
  q : SpscQueue
  out : List Task
  released : List Handle
  deriving DecidableEq, Repr

/-- The method `bool pop_batch(std::vector<Task>& out, size_t max_batch)`. -/
def SpscQueue.pop_batch (q : SpscQueue) (out : List Task) (max_batch : Nat) :
    Except Fault PopBatchResult :=
  match SpscQueue.pop_batch_loop q.mask q.head max_batch
      { t := q.tail, count := 0, buffer := q.buffer, out := out, released := [] } with
  | .error e => .error e
  | .ok st =>
    if 0 < st.count then
      .ok { ok := true, q := { q with buffer := st.buffer, tail := st.t },
            out := st.out.take st.count,
            released := st.released ++ Task.destructAll (st.out.drop st.count) }
    else
      .ok { ok := false, q := q, out := out, released := [] }

/-- What `pop` leaves behind: its return value, the queue, the object `out`, and the handle
destroyed by the move assignment into `out`, if any. -/
structure PopResult where
  ok : Bool
  q : SpscQueue
  out : Task
  released : Option Handle
  deriving DecidableEq, Repr

/-- The method `bool pop(Task& out)`. -/
def SpscQueue.pop (q : SpscQueue) (out : Task) : Except Fault PopResult :=
  let t := q.tail
  if t = q.head then
    .ok { ok := false, q := q, out := out, released := none }
  else
    match q.buffer[t]? with
    | none => .error .outOfRange
    | some src =>
      let r := Task.moveAssign out src
      .ok { ok := true,
            q := { q with buffer := q.buffer.set t r.2.1,
                          tail := ((t + 1) % SIZE_MOD) &&& q.mask },
            out := r.1, released := r.2.2 }

/-- The method `bool empty() const`. -/
def SpscQueue.empty (q : SpscQueue) : Bool :=
  decide (q.tail = q.head)

/-! ## Coroutine frames (`std::coroutine_handle<promise_type>`) -/

/-- One resumption step of a coroutine body: the code between two suspension points. The
one global that the coroutines of this repository touch is the counter `completed`; a step
is the amount that its `fetch_add` calls add to it. -/
structure Step where
  add : Nat
  deriving DecidableEq, Repr

/-- A coroutine function, cut at the suspension points of its body. `first` runs on the
first resume, since `initial_suspend` is `suspend_always`; after the last step the coroutine
is at `final_suspend`. -/
structure Coroutine where
  first : Step
  rest : List Step
  deriving DecidableEq, Repr

/-- State of a coroutine frame. -/
inductive Frame where
  /-- Suspended with `next` and then `rest` still to run. -/
  | suspended (next : Step) (rest : List Step)
  /-- Suspended at `final_suspend`. -/
  | finished
  deriving DecidableEq, Repr

/-- The state outside the scheduler object: the coroutine frames by address (`none` once
destroyed), the global `std::atomic<int> completed` (routines.hpp 202) as its bit pattern,
and two logs of the calls made on coroutine handles. -/
structure World where
  frames : List (Option Frame)
  completed : Nat
  resumed : List Handle
  destroyed : List Handle
  deriving DecidableEq, Repr

/-- State at program start. -/
def World.init : World :=
  { frames := [], completed := 0, resumed := [], destroyed := [] }

/-- The value of `completed` as an `int`. -/
def World.completedInt (w : World) : Int :=
  if w.completed < 2 ^ 31 then (w.completed : Int) else (w.completed : Int) - 2 ^ 32

/-- The frame at address `h`. -/
def World.frame (w : World) (h : Handle) : Except Fault Frame :=
  match w.frames[h]? with
  | some (some f) => .ok f
  | _ => .error .dangling

/-- Calling a coroutine function: the frame is allocated at a fresh address and suspended at
`initial_suspend`; `get_return_object` wraps its handle in a `Task`. -/
def World.create (w : World) (c : Coroutine) : Task × World :=
  (⟨some w.frames.length⟩,
   { w with frames := w.frames ++ [some (Frame.suspended c.first c.rest)] })

/-- The call `coro.done()`. -/
def World.done (w : World) (h : Handle) : Except Fault Bool :=
  match w.frame h with
  | .error e => .error e
  | .ok Frame.finished => .ok true
  | .ok (Frame.suspended _ _) => .ok false

/-- The call `coro.resume()`: runs the body up to its next suspension point. -/
def World.resume (w : World) (h : Handle) : Except Fault World :=
  match w.frame h with
  | .error e => .error e
  | .ok Frame.finished => .error .resumedDone
  | .ok (Frame.suspended s rest) =>
    .ok { frames := w.frames.set h (some (match rest with
                                          | [] => Frame.finished
                                          | s2 :: r => Frame.suspended s2 r)),
          completed := (w.completed + s.add) % INT_MOD,
          resumed := w.resumed ++ [h],
          destroyed := w.destroyed }

/-- The call `coro.destroy()`. -/
def World.destroy (w : World) (h : Handle) : Except Fault World :=
  match w.frame h with
  | .error e => .error e
  | .ok _ => .ok { w with frames := w.frames.set h none, destroyed := w.destroyed ++ [h] }

/-- The calls `coro.destroy()` on a run of handles, in order. -/
def World.destroyAll : List Handle → World → Except Fault World
  | [], w => .ok w
  | h :: hs, w =>
    match w.destroy h with
    | .error e => .error e
    | .ok w2 => World.destroyAll hs w2

/-- The method `bool done() const { return !coro || coro.done(); }`. -/
def Task.done (t : Task) (w : World) : Except Fault Bool :=
  match t.coro with
  | none => .ok true
  | some h => w.done h

/-- The method `void resume() { if (coro && !coro.done()) coro.resume(); }`. -/
def Task.resume (t : Task) (w : World) : Except Fault World :=
  match t.coro with
  | none => .ok w
  | some h =>
    match w.done h with
    | .error e => .error e
    | .ok true => .ok w
    | .ok false => w.resume h

/-- The method `void resume_if_needed() { if (!done()) resume(); }`. -/
def Task.resume_if_needed (t : Task) (w : World) : Except Fault World :=
  match t.done w with
  | .error e => .error e
  | .ok true => .ok w
  | .ok false => t.resume w

/-- The destructor `~Task() { if (coro) coro.destroy(); }`. -/
def Task.destruct (t : Task) (w : World) : Except Fault World :=
  match t.coro with
  | none => .ok w
  | some h => w.destroy h

/-- The loop `for (auto& task : batch) task.resume_if_needed();`. -/
def Task.resumeAll : List Task → World → Except Fault World
  | [], w => .ok w
  | t :: ts, w =>
    match t.resume_if_needed w with
    | .error e => .error e
    | .ok w2 => Task.resumeAll ts w2

/-- The coroutine of test.cpp: `completed.fetch_add(1); co_return;`. -/
def benchmarkRoutine (_name : String) : Coroutine :=
  { first := ⟨1⟩, rest := [] }

/-! ## Scheduler (routines.hpp 116-199) -/

/-- The members of `Scheduler` that the embedding keeps: the queue, the flag `running` and
the multimap `timers`, as the list of its entries in iteration order. Time points are
natural numbers. -/
structure Scheduler where
  queue : SpscQueue
  running : Bool
  timers : List (Nat × Handle)
  deriving DecidableEq, Repr

/-- Default capacity of a bare queue, `1 << 20`. -/
def SpscQueue.defaultCapacity : Nat := 1 <<< 20

/-- Default capacity of the queue of a scheduler, `1 << 21`. -/
def Scheduler.defaultCapacity : Nat := 1 <<< 21

/-- Constructor `Scheduler(size_t ring_capacity_pow2) : queue(ring_capacity_pow2)`. -/
def Scheduler.new (ring_capacity_pow2 : Nat) : Option Scheduler :=
  match SpscQueue.new ring_capacity_pow2 with
  | none => none
  | some q => some { queue := q, running := true, timers := [] }

/-- The loop `while (!queue.push(std::move(t))) std::this_thread::yield();`, run alone: a
yield changes nothing, so every attempt sees the state the previous one left. The last
argument bounds the number of attempts. Returns the scheduler, the world (a handle that the
move assignment into the slot released is destroyed in it) and the object `t`. -/
def Scheduler.push_retry (s : Scheduler) (w : World) (t : Task) :
    Nat → Except Fault (Scheduler × World × Task)
  | 0 => .error .noProgress
  | fuel + 1 =>
    match s.queue.push t with
    | .error e => .error e
    | .ok r =>
      match World.destroyAll r.released.toList w with
      | .error e => .error e
      | .ok w2 =>
        if r.ok then .ok ({ s with queue := r.q }, w2, r.t)
        else Scheduler.push_retry { s with queue := r.q } w2 r.t fuel

/-- The method `spawn(func, name)`: `Task t = func(std::move(name));`, the push loop, then
the destructor of the local `t`. -/
def Scheduler.spawn (s : Scheduler) (w : World) (func : String → Coroutine) (name : String)
    (fuel : Nat) : Except Fault (Scheduler × World) :=
  let c := w.create (func name)
  match s.push_retry c.2 c.1 fuel with
  | .error e => .error e
  | .ok r =>
    match r.2.2.destruct r.2.1 with
    | .error e => .error e
    | .ok w3 => .ok (r.1, w3)

/-- The method `stop_scheduler()`. -/
def Scheduler.stop_scheduler (s : Scheduler) : Scheduler :=
  { s with running := false }

/-- The method `enqueue_resume(handle)`: `Task t{from_address(handle.address())};`, the push
loop, then the destructor of the local `t`. -/
def Scheduler.enqueue_resume (s : Scheduler) (w : World) (handle : Handle) (fuel : Nat) :
    Except Fault (Scheduler × World) :=
  match s.push_retry w ⟨some handle⟩ fuel with
  | .error e => .error e
  | .ok r =>
    match r.2.2.destruct r.2.1 with
    | .error e => .error e
    | .ok w3 => .ok (r.1, w3)

/-- The call `timers.emplace(tp, h)` on a multimap: the entry goes after every entry whose
key is not greater. -/
def Scheduler.timersEmplace (tp : Nat) (h : Handle) : List (Nat × Handle) → List (Nat × Handle)
  | [] => [(tp, h)]
  | e :: es => if tp < e.1 then (tp, h) :: e :: es else e :: Scheduler.timersEmplace tp h es

/-- The method `schedule_after(h, d)`, called when the clock reads `now`. -/
def Scheduler.schedule_after (s : Scheduler) (now : Nat) (h : Handle) (d : Nat) : Scheduler :=
  let tp := now + d
  { s with timers := Scheduler.timersEmplace tp h s.timers }

/-- The loop `while (!timers.empty() && timers.begin()->first <= now) {
ready.push_back(timers.begin()->second); timers.erase(timers.begin()); }`: returns `ready`
and what is left of `timers`. -/
def Scheduler.sweep (now : Nat) : List (Nat × Handle) → List Handle × List (Nat × Handle)
  | [] => ([], [])
  | e :: es =>
    if e.1 ≤ now then
      let r := Scheduler.sweep now es
      (e.2 :: r.1, r.2)
    else ([], e :: es)

/-- The loop `for (auto h : ready) enqueue_resume(h);`. -/
def Scheduler.enqueueAll (fuel : Nat) : List Handle → Scheduler → World →
    Except Fault (Scheduler × World)
  | [], s, w => .ok (s, w)
  | h :: hs, s, w =>
    match s.enqueue_resume w h fuel with
    | .error e => .error e
    | .ok r => Scheduler.enqueueAll fuel hs r.1 r.2

/-- What one thread running `run_loop` works on: the scheduler, the local vector `batch`,
and the world. -/
structure LoopState where
  sched : Scheduler
  batch : List Task
  world : World
  deriving DecidableEq, Repr

/-- Size of the drain batch, the `64` of `batch.resize(64)`. -/
def Scheduler.BATCH : Nat := 64

/-- First part of the body of the loop of `run_loop` (routines.hpp 163-171):
`batch.clear(); batch.resize(64); if (queue.pop_batch(batch, batch.size()))
for (auto& task : batch) task.resume_if_needed();`. The elements of the batch are destroyed
in index order. -/
def Scheduler.drain (m : LoopState) : Except Fault LoopState :=
  -- batch.clear() runs the destructor of every element
  match World.destroyAll (Task.destructAll m.batch) m.world with
  | .error e => .error e
  | .ok w1 =>
    let batch := List.replicate Scheduler.BATCH Task.empty
    match m.sched.queue.pop_batch batch batch.length with
    | .error e => .error e
    | .ok r =>
      match World.destroyAll r.released w1 with
      | .error e => .error e
      | .ok w2 =>
        if r.ok then
          match Task.resumeAll r.out w2 with
          | .error e => .error e
          | .ok w3 => .ok { sched := { m.sched with queue := r.q }, batch := r.out, world := w3 }
        else
          .ok { sched := { m.sched with queue := r.q }, batch := r.out, world := w2 }

/-- Second part of the body of the loop of `run_loop` (routines.hpp 173-185): the sweep of
the timers at clock reading `now` and the re-enqueueing of the ready handles. The sleep that
ends the body changes no state. -/
def Scheduler.promote (now fuel : Nat) (m : LoopState) : Except Fault LoopState :=
  let r := Scheduler.sweep now m.sched.timers
  match Scheduler.enqueueAll fuel r.1 { m.sched with timers := r.2 } m.world with
  | .error e => .error e
  | .ok sw => .ok { sched := sw.1, batch := m.batch, world := sw.2 }

/-- One execution of the body of `while (running.load())` in `run_loop`. -/
def Scheduler.run_loop_body (now fuel : Nat) (m : LoopState) : Except Fault LoopState :=
  match Scheduler.drain m with
  | .error e => .error e
  | .ok m1 => Scheduler.promote now fuel m1

/-- The loop of `run_loop`, observed for as many iterations as there are clock readings:
each iteration tests `running` and runs the body with the next reading. When `running` is
found false the loop is left and the local `batch` is destroyed. -/
def Scheduler.run_loop (fuel : Nat) : List Nat → LoopState → Except Fault LoopState
  | [], m => .ok m
  | now :: clock, m =>
    if m.sched.running then
      match Scheduler.run_loop_body now fuel m with
      | .error e => .error e
      | .ok m1 => Scheduler.run_loop fuel clock m1
    else
      match World.destroyAll (Task.destructAll m.batch) m.world with
      | .error e => .error e
      | .ok w1 => .ok { m with batch := [], world := w1 }

/-- The loop of `main` in test.cpp: `for (i = 0; i < numCoroutines; ++i)
scheduler.spawn(benchmarkRoutine, "routine_" + std::to_string(i));`, from index `i`, with
`n` calls still to make. -/
def spawnBenchmark (fuel : Nat) : Nat → Nat → Scheduler → World → Except Fault (Scheduler × World)
  | 0, _, s, w => .ok (s, w)
  | n + 1, i, s, w =>
    match s.spawn w benchmarkRoutine ("routine_" ++ toString i) fuel with
    | .error e => .error e
    | .ok r => spawnBenchmark fuel n (i + 1) r.1 r.2

/-! ## Vocabulary of the statements -/

/-- Number of entries between `tail` and `head`, going round a ring of `C` slots:
`(head - tail) mod C`. -/
def ringSize (C h t : Nat) : Nat := (h + C - t) % C

/-- The `n` slots of `buf` from index `t` on, going round a ring of `C` slots. -/
def window (buf : List Task) (C t n : Nat) : List Task :=
  (List.range n).map (fun i => buf.getD ((t + i) % C) Task.empty)

/-- Number of live entries of a queue. -/
def SpscQueue.size (q : SpscQueue) : Nat := ringSize q.capacity q.head q.tail

/-- The live entries of a queue, oldest first: the slots from `tail` up to `head`. -/
def SpscQueue.live (q : SpscQueue) : List Task :=
  window q.buffer q.capacity q.tail q.size

/-- A queue of capacity `2 ^ k` as the constructor builds it and the methods keep it. -/
structure SpscQueue.WF (k : Nat) (q : SpscQueue) : Prop where
  hk : k < 64
  capacity_eq : q.capacity = 2 ^ k
  mask_eq : q.mask = 2 ^ k - 1
  length_eq : q.buffer.length = 2 ^ k
  head_lt : q.head < 2 ^ k
  tail_lt : q.tail < 2 ^ k

/-- Every slot of the ring `buf` that is not between `t` and `h` holds an empty task. -/
def ringClean (buf : List Task) (C h t : Nat) : Prop :=
  ∀ j, j < C → ringSize C h t ≤ ringSize C j t → buf.getD j Task.empty = Task.empty

/-- Every slot outside the live window holds an empty task. -/
def SpscQueue.Clean (q : SpscQueue) : Prop :=
  ringClean q.buffer q.capacity q.head q.tail

/-- A call on the queue. -/
inductive Call where
  | push (t : Task)
  | pop (out : Task)
  | pop_batch (out : List Task) (max_batch : Nat)
  deriving DecidableEq, Repr

/-- The precondition of a call: `pop_batch` indexes `out` below `max_batch`. -/
def Call.wf : Call → Bool
  | .pop_batch out max_batch => decide (max_batch ≤ out.length)
  | _ => true

/-- A queue together with the record of the calls made on it: the return values, the
arguments of the pushes that returned true, and the tasks handed out by the pops and batch
pops that returned true, each in call order. -/
structure History where
  q : SpscQueue
  returns : List Bool
  pushed : List Task
  popped : List Task
  deriving DecidableEq, Repr

/-- History of a queue on which no call was made. -/
def History.start (q : SpscQueue) : History :=
  { q := q, returns := [], pushed := [], popped := [] }

/-- One call. -/
def History.step (s : History) : Call → Except Fault History
  | .push t =>
    match s.q.push t with
    | .error e => .error e
    | .ok r => .ok { q := r.q, returns := s.returns ++ [r.ok],
                     pushed := if r.ok then s.pushed ++ [t] else s.pushed,
                     popped := s.popped }
  | .pop out =>
    match s.q.pop out with
    | .error e => .error e
    | .ok r => .ok { q := r.q, returns := s.returns ++ [r.ok],
                     pushed := s.pushed,
                     popped := if r.ok then s.popped ++ [r.out] else s.popped }
  | .pop_batch out max_batch =>
    match s.q.pop_batch out max_batch with
    | .error e => .error e
    | .ok r => .ok { q := r.q, returns := s.returns ++ [r.ok],
                     pushed := s.pushed,
                     popped := if r.ok then s.popped ++ r.out else s.popped }

/-- A sequence of calls. -/
def History.run (s : History) : List Call → Except Fault History
  | [] => .ok s
  | c :: cs =>
    match s.step c with
    | .error e => .error e
    | .ok s2 => s2.run cs

/-- Number of live entries by the record: successful pushes minus entries removed. -/
def History.liveCount (s : History) : Nat :=
  s.pushed.length - s.popped.length


/-- What every history of a queue of capacity `2 ^ k` satisfies: the queue is well formed
and the tasks pushed are those popped followed by those still queued. -/
structure History.Inv (k : Nat) (s : History) : Prop where
  wf : s.q.WF k
  fifo : s.pushed = s.popped ++ s.q.live


/-- A live frame is at address `h`. -/
def World.alive (w : World) (h : Handle) : Prop :=
  ∃ f, w.frames[h]? = some (some f)

/-- A live frame is at address `h` and it is not at its final suspend point. -/
def World.suspendedAt (w : World) (h : Handle) : Bool :=
  match w.frames[h]? with
  | some (some (Frame.suspended _ _)) => true
  | _ => false

/-- The frame after one resumption step. -/
def Frame.after : Frame → Frame
  | .suspended _ [] => .finished
  | .suspended _ (s2 :: r) => .suspended s2 r
  | .finished => .finished

/-- What the next resumption step of a frame adds to `completed`. -/
def Frame.gain : Frame → Nat
  | .suspended s _ => s.add
  | .finished => 0

/-- What resuming the handle `h` once adds to `completed`. -/
def World.gain (w : World) (h : Handle) : Nat :=
  match w.frames[h]? with
  | some (some f) => f.gain
  | _ => 0


/-- The tasks that hold the handles `a, a + 1, ..., a + n - 1`. -/
def tasksOf (a n : Nat) : List Task :=
  (List.range' a n).map (fun h => Task.mk (some h))

/-- State of the benchmark of test.cpp with `N` coroutines spawned on a queue of capacity
`2 ^ k`, once the coroutines below `a` were resumed and those below `a0` also destroyed:
the queue holds the handles from `a` on, the batch those from `a0` up to `a`. -/
structure BenchInv (k N a0 a : Nat) (m : LoopState) : Prop where
  wf : m.sched.queue.WF k
  clean : m.sched.queue.Clean
  running : m.sched.running = true
  timers : m.sched.timers = []
  live : m.sched.queue.live = tasksOf a (N - a)
  batch : Task.destructAll m.batch = List.range' a0 (a - a0)
  le0 : a0 ≤ a
  le1 : a ≤ N
  flen : m.world.frames.length = N
  gone : ∀ h, h < a0 → m.world.frames[h]? = some none
  finished : ∀ h, a0 ≤ h → h < a → m.world.frames[h]? = some (some Frame.finished)
  fresh : ∀ h, a ≤ h → h < N → m.world.frames[h]? = some (some (Frame.suspended ⟨1⟩ []))
  completed : m.world.completed = a % INT_MOD
  resumed : m.world.resumed = List.range a
  destroyed : m.world.destroyed = List.range a0

/-- A loop state for the examples: capacity 4, two queued handles, one finished coroutine in
the batch, one timer due at time 5. -/
def exampleLoop : LoopState :=
  { sched := { queue := ⟨4, 3, [⟨none⟩, ⟨some 1⟩, ⟨some 2⟩, ⟨none⟩], 3, 1⟩,
               running := true,
               timers := [(5, 3), (20, 0)] },
    batch := [⟨some 0⟩],
    world := { frames := [some Frame.finished, some (Frame.suspended ⟨1⟩ []),
                          some (Frame.suspended ⟨1⟩ [⟨2⟩]), some (Frame.suspended ⟨4⟩ [])],
               completed := 1, resumed := [0], destroyed := [] } }


/-- A run of `n` calls of `resume()` on one task. -/
def Task.resumeTimes (t : Task) : Nat → World → Except Fault World
  | 0, w => .ok w
  | n + 1, w =>
    match t.resume w with
    | .error e => .error e
    | .ok w2 => t.resumeTimes n w2

/-- The move constructor run on the object at index `j` of a store of tasks: the new object
is added at the end of the store. -/
def Task.moveConstructAt (objs : List Task) (j : Nat) : Except Fault (List Task) :=
  match objs[j]? with
  | none => .error .outOfRange
  | some other =>
    let r := Task.moveConstruct other
    .ok (objs.set j r.2 ++ [r.1])

/-- The whole of `Task& operator=(Task&& other)`, with `this` the object at index `i` and
`other` the object at index `j` of a store of tasks: `if (this != &other) { if (coro)
coro.destroy(); coro = other.coro; other.coro = nullptr; } return *this;`. -/
def Task.moveAssignAt (objs : List Task) (i j : Nat) (w : World) :
    Except Fault (List Task × World) :=
  if i = j then
    match objs[i]? with
    | none => .error .outOfRange
    | some _ => .ok (objs, w)
  else
    match objs[i]?, objs[j]? with
    | some dst, some src =>
      let r := Task.moveAssign dst src
      match World.destroyAll r.2.2.toList w with
      | .error e => .error e
      | .ok w2 => .ok ((objs.set i r.1).set j r.2.1, w2)
    | _, _ => .error .outOfRange

/-- The destructors of the objects at indices `i` and then `j` of a store of tasks. -/
def Task.destructTwo (objs : List Task) (i j : Nat) (w : World) : Except Fault World :=
  match objs[i]?, objs[j]? with
  | some a, some b =>
    match a.destruct w with
    | .error e => .error e
    | .ok w2 => b.destruct w2
  | _, _ => .error .outOfRange


/-- A call that touches the timer set: `schedule_after(h, d)` when the clock reads `now`, or
the sweep of one loop iteration that reads the clock at `now`. -/
inductive TimerCall where
  | schedule (now : Nat) (h : Handle) (d : Nat)
  | sweep (now : Nat)
  deriving DecidableEq, Repr

/-- The scheduler after one call on its timer set. Of the sweep only the removal from the
set is kept. -/
def Scheduler.timerStep (s : Scheduler) : TimerCall → Scheduler
  | .schedule now h d => s.schedule_after now h d
  | .sweep now => { s with timers := (Scheduler.sweep now s.timers).2 }

/-- The scheduler after a run of calls on its timer set. -/
def Scheduler.timerRun (s : Scheduler) : List TimerCall → Scheduler
  | [] => s
  | c :: cs => (s.timerStep c).timerRun cs

/-- The entries registered by a run of calls whose deadline was later than the clock
reading of every sweep that followed their registration, in the order of their
`schedule_after` calls; `ps` are the entries to start from. -/
def timerPending (ps : List (Nat × Handle)) : List TimerCall → List (Nat × Handle)
  | [] => ps
  | .schedule now h d :: cs => timerPending (ps ++ [(now + d, h)]) cs
  | .sweep now :: cs => timerPending (ps.filter (fun e => decide (now < e.1))) cs

/-- The timer set `ts` is in non-decreasing deadline order and holds the entries `ps`, those
of equal deadline in the order they have in `ps`. -/
def TimerStable (ps ts : List (Nat × Handle)) : Prop :=
  ts.Pairwise (fun a b => a.1 ≤ b.1) ∧
  ∀ d, ts.filter (fun e => decide (e.1 = d)) = ps.filter (fun e => decide (e.1 = d))


/-- A loop state for the timer examples: a fresh scheduler of the given queue, an empty
batch, and three suspended coroutines at the addresses 0, 1 and 2. -/
def timerExample (q : SpscQueue) : LoopState :=
  { sched := { queue := q, running := true, timers := [] },
    batch := [],
    world := { frames := [some (Frame.suspended ⟨1⟩ []), some (Frame.suspended ⟨1⟩ []),
                          some (Frame.suspended ⟨1⟩ [⟨1⟩])],
               completed := 0, resumed := [], destroyed := [] } }

/-- A ready queue of capacity 4 as the constructor leaves it. -/
def freshQueue4 : SpscQueue := ⟨4, 3, List.replicate 4 Task.empty, 0, 0⟩


/-! ## Calls on a scheduler -/

/-- A call on a scheduler by its owner or by its worker thread. -/
inductive SchedCall where
  /-- The call `spawn(func, name)`. -/
  | spawn (func : String → Coroutine) (name : String)
  /-- The call `schedule_after(h, d)` when the clock reads `now`. -/
  | schedule_after (now : Nat) (h : Handle) (d : Nat)
  /-- The call `enqueue_resume(h)`. -/
  | enqueue_resume (h : Handle)
  /-- The call `run()`. -/
  | run
  /-- The call `stop_scheduler()`. -/
  | stop_scheduler
  /-- One pass of the worker through `while (running.load())`: the test and, when it
  succeeds, the body with the clock read at `now`; when it fails the loop is left. -/
  | iterate (now : Nat)

/-- The state after one call. `run()` creates the worker thread, whose passes through the
loop are the `iterate` calls; it reads and writes none of the members that the embedding
keeps. -/
def Scheduler.call (fuel : Nat) (m : LoopState) : SchedCall → Except Fault LoopState
  | .spawn func name =>
    match m.sched.spawn m.world func name fuel with
    | .error e => .error e
    | .ok r => .ok { m with sched := r.1, world := r.2 }
  | .schedule_after now h d => .ok { m with sched := m.sched.schedule_after now h d }
  | .enqueue_resume h =>
    match m.sched.enqueue_resume m.world h fuel with
    | .error e => .error e
    | .ok r => .ok { m with sched := r.1, world := r.2 }
  | .run => .ok m
  | .stop_scheduler => .ok { m with sched := m.sched.stop_scheduler }
  | .iterate now => Scheduler.run_loop fuel [now] m

/-- The state after a run of calls. -/
def Scheduler.calls (fuel : Nat) : List SchedCall → LoopState → Except Fault LoopState
  | [], m => .ok m
  | c :: cs, m =>
    match Scheduler.call fuel m c with
    | .error e => .error e
    | .ok m2 => Scheduler.calls fuel cs m2

/-- The targets held by `Task` objects: the entries of the drain batch, then those of the
ready queue. -/
def LoopState.held (m : LoopState) : List Handle :=
  Task.destructAll m.batch ++ Task.destructAll m.sched.queue.live

/-- The targets that the timer set refers to. -/
def LoopState.pending (m : LoopState) : List Handle :=
  m.sched.timers.map Prod.snd

/-- Exclusive ownership in a loop state: the queue is well formed with its handles in the
live window, no target is held twice or both held and referred to by a timer or referred to
by two timers, every such target is a live frame, no target was released twice, and the
released frames are gone. -/
structure Exclusive (k : Nat) (m : LoopState) : Prop where
  wf : m.sched.queue.WF k
  clean : m.sched.queue.Clean
  nodup : (m.held ++ m.pending).Nodup
  alive : ∀ h ∈ m.held ++ m.pending, m.world.alive h
  once : m.world.destroyed.Nodup
  gone : ∀ h ∈ m.world.destroyed, m.world.frames[h]? = some none

/-- The handle `h` is a live frame that no `Task` holds and no timer refers to. -/
def LoopState.unowned (m : LoopState) (h : Handle) : Prop :=
  h ∉ m.held ++ m.pending ∧ m.world.alive h

/-- The call gives `schedule_after` or `enqueue_resume` no handle but a live frame that no
`Task` holds and no timer refers to. -/
def LoopState.admits (m : LoopState) : SchedCall → Prop
  | .schedule_after _ h _ => m.unowned h
  | .enqueue_resume h => m.unowned h
  | _ => True

/-- A run of calls in which every handle given to `schedule_after` or `enqueue_resume` is,
at the time of the call, a live frame that no `Task` holds and no timer refers to. -/
def Scheduler.admissible (fuel : Nat) : List SchedCall → LoopState → Prop
  | [], _ => True
  | c :: cs, m =>
    m.admits c ∧
    (match Scheduler.call fuel m c with
      | .error _ => True
      | .ok m2 => Scheduler.admissible fuel cs m2)

/-- A loop state for the shutdown examples: the state of `timerExample` on the queue `q`
after `schedule_after(1, 50)` and `schedule_after(2, 10)`, both called at time 0. -/
def timerDue (q : SpscQueue) : LoopState :=
  { timerExample q with
    sched := ((timerExample q).sched.schedule_after 0 1 50).schedule_after 0 2 10 }


/-! ## Exceptions in coroutine bodies (routines.hpp 46-52) -/

/-- How a call ends when it gives no result: by an access that C++ leaves undefined, or by
`std::terminate()`, which ends the process. -/
inductive Abort where
  | fault (f : Fault)
  | terminate
  deriving DecidableEq, Repr

/-- The member `void unhandled_exception() { std::terminate(); }` of `promise_type`: the
call does not return. -/
def Task.promise_type.unhandled_exception : Except Abort Unit :=
  .error .terminate

/-- The call `coro.resume()` when the bodies of the frames in `throwing` let an exception
escape from the step they are resumed into. The body of a coroutine runs inside
`try { ... } catch (...) { promise.unhandled_exception(); }`, and were the handler to
return the coroutine would go on to its final suspend point. -/
def World.resumeWith (throwing : Handle → Bool) (w : World) (h : Handle) : Except Abort World :=
  match w.frame h with
  | .error e => .error (.fault e)
  | .ok Frame.finished => .error (.fault .resumedDone)
  | .ok (Frame.suspended _ _) =>
    if throwing h then
      match Task.promise_type.unhandled_exception with
      | .error a => .error a
      | .ok _ =>
        .ok { w with frames := w.frames.set h (some Frame.finished),
                     resumed := w.resumed ++ [h] }
    else
      match w.resume h with
      | .error e => .error (.fault e)
      | .ok w2 => .ok w2

/-- The method `void resume() { if (coro && !coro.done()) coro.resume(); }`, which has no
handler of its own. -/
def Task.resumeWith (throwing : Handle → Bool) (t : Task) (w : World) : Except Abort World :=
  match t.coro with
  | none => .ok w
  | some h =>
    match w.done h with
    | .error e => .error (.fault e)
    | .ok true => .ok w
    | .ok false => w.resumeWith throwing h

/-- The method `void resume_if_needed() { if (!done()) resume(); }`, which has no handler
of its own. -/
def Task.resume_if_neededWith (throwing : Handle → Bool) (t : Task) (w : World) :
    Except Abort World :=
  match t.done w with
  | .error e => .error (.fault e)
  | .ok true => .ok w
  | .ok false => t.resumeWith throwing w

/-- The loop `for (auto& task : batch) task.resume_if_needed();` of `run_loop`, which has
no handler either. -/
def Task.resumeAllWith (throwing : Handle → Bool) : List Task → World → Except Abort World
  | [], w => .ok w
  | t :: ts, w =>
    match t.resume_if_neededWith throwing w with
    | .error a => .error a
    | .ok w2 => Task.resumeAllWith throwing ts w2


/-! ## Number theory (math.cpp 60-129)

The integer templates are embedded on `Int`, that is within the range where the machine
type does not overflow; `/` and `%` are the truncating division of C++. A `while` loop
takes the number of iterations it may run and gives `none` when they do not suffice. -/

/-- The loop `while (b != 0) { I t = a % b; a = b; b = t; }` of `math::gcd`. -/
def math.gcd_loop : Nat → Int → Int → Option Int
  | 0, _, _ => none
  | fuel + 1, a, b =>
    if b = 0 then some a
    else math.gcd_loop fuel b (a.tmod b)

/-- The function `math::gcd(a, b)`: `if (a < 0) a = -a; if (b < 0) b = -b;`, the loop,
`return a;`. -/
def math.gcd (fuel : Nat) (a b : Int) : Option Int :=
  let a1 := if a < 0 then -a else a
  let b1 := if b < 0 then -b else b
  math.gcd_loop fuel a1 b1

/-- The loop of `math::ext_gcd`: `while (b) { I q = a / b; I a2 = a - q*b; a = b; b = a2;
I x2 = x0 - q*x1; x0 = x1; x1 = x2; I y2 = y0 - q*y1; y0 = y1; y1 = y2; }`, then
`return {a, x0, y0};`. -/
def math.ext_gcd_loop : Nat → Int → Int → Int → Int → Int → Int → Option (Int × Int × Int)
  | 0, _, _, _, _, _, _ => none
  | fuel + 1, a, b, x0, y0, x1, y1 =>
    if b = 0 then some (a, x0, y0)
    else
      let q := a.tdiv b
      math.ext_gcd_loop fuel b (a - q * b) x1 y1 (x0 - q * x1) (y0 - q * y1)

/-- The function `math::ext_gcd(a, b)`: `I x0 = 1, y0 = 0, x1 = 0, y1 = 1;` and the loop. -/
def math.ext_gcd (fuel : Nat) (a b : Int) : Option (Int × Int × Int) :=
  math.ext_gcd_loop fuel a b 1 0 0 1

/-- Number of values of a `uint64_t`. -/
def U64_MOD : Nat := 2 ^ 64

/-- The value that a product computed in `__int128` has as it executes: the low 128 bits
of the exact product, read in two's complement. -/
def int128 (x : Int) : Int :=
  (x + 2 ^ 127) % 2 ^ 128 - 2 ^ 127

/-- The loop `for (uint64_t p : {2, 3, 5, ..., 37}) { if (n%p==0) return n==p; }` of
`is_probable_prime`: the value returned inside the loop, if any. -/
def math.trial (n : Nat) : List Nat → Option Bool
  | [] => none
  | p :: ps => if n % p = 0 then some (decide (n = p)) else math.trial n ps

/-- The lambda `decompose`, called on `d = n - 1` with `s = 0`:
`while ((d & 1) == 0) { d >>= 1; ++s; } return {d, s};`. -/
def math.decompose : Nat → Nat → Nat → Option (Nat × Nat)
  | 0, _, _ => none
  | fuel + 1, d, s =>
    if d % 2 = 0 then math.decompose fuel (d / 2) ((s + 1) % U64_MOD)
    else some (d, s)

/-- The loop `while (e) { if (e&1) x = (x*p) % n; p = (p*p) % n; e >>= 1; }` of the lambda
`check`. The variables `x`, `p` and `e` are `__int128`; `e` starts at `d` and is never
negative, so it is kept as a `Nat`; `n` is converted to `__int128` for `%`. -/
def math.pow_loop (n : Nat) : Nat → Int → Int → Nat → Option Int
  | 0, _, _, _ => none
  | fuel + 1, x, p, e =>
    if e = 0 then some x
    else
      let x2 := if e % 2 = 1 then (int128 (x * p)).tmod n else x
      let p2 := (int128 (p * p)).tmod n
      math.pow_loop n fuel x2 p2 (e / 2)

/-- The loop `for (uint64_t i=1;i<s;i++){ x=(x*x)%n; if (x==n-1) return true; }` of the
lambda `check` followed by its `return false;`. The first argument is `s - i`. -/
def math.square_loop (n : Nat) : Nat → Int → Bool
  | 0, _ => false
  | rem + 1, x =>
    let x2 := (int128 (x * x)).tmod n
    if x2 = (((n + U64_MOD - 1) % U64_MOD : Nat) : Int) then true
    else math.square_loop n rem x2

/-- The lambda `check` of `is_probable_prime`, with `n`, `d` and `s` captured. -/
def math.check (fuel n d s a : Nat) : Option Bool :=
  match math.pow_loop n fuel 1 ((a % n : Nat) : Int) d with
  | none => none
  | some x =>
    if x = 1 ∨ x = (((n + U64_MOD - 1) % U64_MOD : Nat) : Int) then some true
    else some (math.square_loop n (s - 1) x)

/-- The loop `for (uint64_t a : {2, 325, ...}) if (a % n && !check(a % n)) return false;`
followed by `return true;`. -/
def math.bases (fuel n d s : Nat) : List Nat → Option Bool
  | [] => some true
  | a :: as =>
    if a % n ≠ 0 then
      match math.check fuel n d s (a % n) with
      | none => none
      | some false => some false
      | some true => math.bases fuel n d s as
    else math.bases fuel n d s as

/-- The function `math::is_probable_prime(n)` for a `uint64_t n`. -/
def math.is_probable_prime (fuel n : Nat) : Option Bool :=
  if n < 2 then some false
  else
    match math.trial n [2, 3, 5, 7, 11, 13, 17, 19, 23, 29, 31, 37] with
    | some b => some b
    | none =>
      match math.decompose fuel ((n + U64_MOD - 1) % U64_MOD) 0 with
      | none => none
      | some ds =>
        math.bases fuel n ds.1 ds.2 [2, 325, 9375, 28178, 450775, 9780504, 1795265022]


/-- Power modulo `n` by repeated squaring, `acc * b ^ e mod n` for `e` below `2 ^ fuel`:
the arithmetic of the primality certificates in the theorems, not a function of the
repository. -/
def modPow (n : Nat) : Nat → Nat → Nat → Nat → Nat
  | 0, acc, _, _ => acc % n
  | fuel + 1, acc, b, e =>
    if e = 0 then acc % n
    else modPow n fuel (if e % 2 = 1 then acc * b % n else acc) (b * b % n) (e / 2)

/-- A prime of 64 bits that follows a product of powers of 2, 3, 5 and 7:
`2 ^ 16 * 3 ^ 3 * 5 ^ 16 * 7 ^ 2 + 1`. -/
def smoothPrime : Nat := 13230000000000000001


/-! ## json::object (json.cpp 41-112)

The class keeps the vector `items_` of key/value pairs and the `std::unordered_map`
`index_` from keys to positions. The values are of the type `json`, of which the methods of
`object` use nothing: the embedding takes any type `V` for it. An `unordered_map` is a
finite map with no order of its own; it is embedded as the function that looks a key up. -/

/-- Ways in which a call on an `object` gives no result. -/
inductive json.Failure where
  /-- The exception `std::out_of_range("key not found: ...")` thrown by `at`. -/
  | keyNotFound
  /-- A vector was indexed, or erased from, at or past its size. -/
  | outOfRange
  deriving DecidableEq, Repr

/-- The map `index_`: `find(key)` as a function. -/
abbrev json.Index := String → Option Nat

/-- The call `index_.emplace(key, idx)`: inserts only when the key is absent. -/
def json.Index.emplace (index : json.Index) (key : String) (idx : Nat) : json.Index :=
  fun k => if k = key then (match index k with
                            | some j => some j
                            | none => some idx)
           else index k

/-- The call `index_.erase(it)` for the iterator `it` found for `key`. -/
def json.Index.erase (index : json.Index) (key : String) : json.Index :=
  fun k => if k = key then none else index k

/-- The assignment `index_[key] = i`. -/
def json.Index.assign (index : json.Index) (key : String) (i : Nat) : json.Index :=
  fun k => if k = key then some i else index k

/-- The members of `json::object`. -/
structure json.object (V : Type) where
  items_ : List (String × V)
  index_ : json.Index

/-- The constructor `object() = default`. -/
def json.object.new {V : Type} : json.object V :=
  { items_ := [], index_ := fun _ => none }

/-- The method `contains(key)`. -/
def json.object.contains {V : Type} (o : json.object V) (key : String) : Bool :=
  (o.index_ key).isSome

/-- The method `find(key)`: the value pointed to, or `none` for the null pointer. -/
def json.object.find {V : Type} (o : json.object V) (key : String) :
    Except json.Failure (Option V) :=
  match o.index_ key with
  | none => .ok none
  | some i =>
    match o.items_[i]? with
    | none => .error .outOfRange
    | some kv => .ok (some kv.2)

/-- The method `at(key)`. -/
def json.object.at {V : Type} (o : json.object V) (key : String) : Except json.Failure V :=
  match o.find key with
  | .error e => .error e
  | .ok none => .error .keyNotFound
  | .ok (some v) => .ok v

/-- The method `set(key, value)`: the object after the call and the boolean returned; the
reference returned is to the value just stored. -/
def json.object.set {V : Type} (o : json.object V) (key : String) (value : V) :
    Except json.Failure (json.object V × Bool) :=
  match o.index_ key with
  | none =>
    let idx := o.items_.length
    .ok ({ items_ := o.items_ ++ [(key, value)], index_ := o.index_.emplace key idx }, true)
  | some i =>
    match o.items_[i]? with
    | none => .error .outOfRange
    | some kv => .ok ({ o with items_ := o.items_.set i (kv.1, value) }, false)

/-- The method `emplace(key, value)`: `if (contains(key)) return { at(key), false };
return set(std::move(key), std::move(value));`. -/
def json.object.emplace {V : Type} (o : json.object V) (key : String) (value : V) :
    Except json.Failure (json.object V × Bool) :=
  if o.contains key then
    match o.at key with
    | .error e => .error e
    | .ok _ => .ok (o, false)
  else o.set key value

/-- The loop `for (size_t i = idx; i < items_.size(); ++i) index_[items_[i].first] = i;` of
`erase`. The second argument is `items_.size() - i`. -/
def json.object.reindex {V : Type} (items : List (String × V)) :
    Nat → Nat → json.Index → json.Index
  | _, 0, index => index
  | i, rem + 1, index =>
    match items[i]? with
    | none => index
    | some kv => json.object.reindex items (i + 1) rem (index.assign kv.1 i)

/-- The method `erase(key)`: the object after the call and the boolean returned. -/
def json.object.erase {V : Type} (o : json.object V) (key : String) :
    Except json.Failure (json.object V × Bool) :=
  match o.index_ key with
  | none => .ok (o, false)
  | some idx =>
    if idx < o.items_.length then
      let items := o.items_.eraseIdx idx
      let index := o.index_.erase key
      .ok ({ items_ := items,
             index_ := json.object.reindex items idx (items.length - idx) index }, true)
    else .error .outOfRange

/-- A call that changes an `object`. -/
inductive json.ObjCall (V : Type) where
  | set (key : String) (value : V)
  | emplace (key : String) (value : V)
  | erase (key : String)

/-- The object after one call. -/
def json.object.call {V : Type} (o : json.object V) :
    json.ObjCall V → Except json.Failure (json.object V)
  | .set key value =>
    match o.set key value with
    | .error e => .error e
    | .ok r => .ok r.1
  | .emplace key value =>
    match o.emplace key value with
    | .error e => .error e
    | .ok r => .ok r.1
  | .erase key =>
    match o.erase key with
    | .error e => .error e
    | .ok r => .ok r.1

/-- The object after a run of calls. -/
def json.object.calls {V : Type} (o : json.object V) :
    List (json.ObjCall V) → Except json.Failure (json.object V)
  | [] => .ok o
  | c :: cs =>
    match o.call c with
    | .error e => .error e
    | .ok o2 => json.object.calls o2 cs

/-- The invariant of an `object`: the keys of `items_` are pairwise distinct, and `index_`
maps exactly the keys of `items_`, each to its position. -/
structure json.object.Inv {V : Type} (o : json.object V) : Prop where
  distinct : (o.items_.map Prod.fst).Nodup
  position : ∀ i kv, o.items_[i]? = some kv → o.index_ kv.1 = some i
  only : ∀ k i, o.index_ k = some i → ∃ v, o.items_[i]? = some (k, v)

/-- What the claim says a call does to the sequence of pairs that iteration visits: `set`
replaces the value of a key that is present where it stands and puts a new key last,
`emplace` leaves a key that is present alone and puts a new key last, `erase` removes the
pair of the key and keeps the others in their order. -/
def json.described {V : Type} (items : List (String × V)) : json.ObjCall V → List (String × V)
  | .set key value =>
    if key ∈ items.map Prod.fst then
      items.map (fun kv => if kv.1 = key then (key, value) else kv)
    else items ++ [(key, value)]
  | .emplace key value =>
    if key ∈ items.map Prod.fst then items else items ++ [(key, value)]
  | .erase key => items.filter (fun kv => decide (kv.1 ≠ key))

/-- The sequence of pairs that the claim describes after a run of calls. -/
def json.describedAll {V : Type} (items : List (String × V)) :
    List (json.ObjCall V) → List (String × V)
  | [] => items
  | c :: cs => json.describedAll (json.described items c) cs


/-- The key that a call inserts when the key is absent. -/
def json.ObjCall.inserted {V : Type} : json.ObjCall V → Option String
  | .set key _ => some key
  | .emplace key _ => some key
  | .erase _ => none

/-- The keys in the order of their first insertion, read from a run of calls alone: every
key of a `set` or `emplace` call, listed once, at its earliest such call. -/
def json.firstInserted {V : Type} (calls : List (json.ObjCall V)) : List String :=
  calls.foldl (fun seen c =>
    match c.inserted with
    | some key => if key ∈ seen then seen else seen ++ [key]
    | none => seen) []

/-- One step of the scan for a key that is inserted after an `erase` call for it: the keys
of the `erase` calls so far, and whether such an insertion was seen. -/
def json.reinsertStep {V : Type} (st : List String × Bool) :
    json.ObjCall V → List String × Bool
  | .set key _ => (st.1, st.2 || decide (key ∈ st.1))
  | .emplace key _ => (st.1, st.2 || decide (key ∈ st.1))
  | .erase key => (key :: st.1, st.2)

/-- Whether a run of calls has a `set` or `emplace` of a key after an `erase` of it. -/
def json.reinserts {V : Type} (calls : List (json.ObjCall V)) : Bool :=
  (calls.foldl json.reinsertStep ([], false)).2

/-- The calls of the insertion-order demonstration in `main` (json.cpp 618-623), with the
values abridged to numbers, followed by a `set` of a key that is present and an `erase`. -/
def json.demoCalls : List (json.ObjCall Nat) :=
  [.set "name" 0, .set "active" 1, .set "score" 2, .set "big" 3, .set "active" 4,
   .erase "name"]

/-- A run that erases a key and sets it again. -/
def json.reinsertCalls : List (json.ObjCall Nat) :=
  [.set "a" 1, .set "b" 2, .erase "a", .set "a" 3]


/-! ## Indices used on the vectors, and repeated `pop` -/

/-- The pairs `(t, count)` of the subscripts with which the loop of `pop_batch` executes
`out[count++] = std::move(buffer[t])`, in order: the loop with its data left out. The first
argument is `max_batch - count`. -/
def SpscQueue.pop_batch_trace (mask h : Nat) : Nat → Nat → Nat → List (Nat × Nat)
  | 0, _, _ => []
  | rem + 1, t, count =>
    if t = h then []
    else (t, count) ::
      SpscQueue.pop_batch_trace mask h rem (((t + 1) % SIZE_MOD) &&& mask) (count + 1)

/-- The subscripts with which a call indexes `buffer`: `push` uses `buffer[h]` when it does
not find the queue full, `pop` uses `buffer[t]` when it does not find it empty, `pop_batch`
uses `buffer[t]` once in every iteration of its loop. -/
def SpscQueue.slots (q : SpscQueue) : Call → List Nat
  | .push _ => if ((q.head + 1) % SIZE_MOD) &&& q.mask = q.tail then [] else [q.head]
  | .pop _ => if q.tail = q.head then [] else [q.tail]
  | .pop_batch _ max_batch =>
    (SpscQueue.pop_batch_trace q.mask q.head max_batch q.tail 0).map Prod.fst

/-- The subscripts with which `pop_batch(out, max_batch)` indexes `out`. -/
def SpscQueue.outSlots (q : SpscQueue) (max_batch : Nat) : List Nat :=
  (SpscQueue.pop_batch_trace q.mask q.head max_batch q.tail 0).map Prod.snd

/-- Calling `pop` once for each object of `outs`, in order, and stopping at the first call
that returns false: the queue after the last call made and the tasks that the calls that
returned true left in their `out`, in call order. -/
def SpscQueue.pop_repeat (q : SpscQueue) : List Task → Except Fault (SpscQueue × List Task)
  | [] => .ok (q, [])
  | out :: outs =>
    match q.pop out with
    | .error e => .error e
    | .ok r =>
      if r.ok then
        match SpscQueue.pop_repeat r.q outs with
        | .error e => .error e
        | .ok (q2, ts) => .ok (q2, r.out :: ts)
      else .ok (r.q, [])

/-- The return value of the first call of `pop_repeat`, when there is one. -/
def SpscQueue.first_pop (q : SpscQueue) : List Task → Option Bool
  | [] => none
  | out :: _ =>
    match q.pop out with
    | .error _ => none
    | .ok r => some r.ok

/-- Three pushes and a pop, as calls on a queue. -/
def sampleCalls : List Call :=
  [.push ⟨some 1⟩, .push ⟨some 2⟩, .push ⟨some 3⟩, .pop Task.empty]

/-- The history that `sampleCalls` leaves on a fresh queue of capacity 4. -/
def sampleHistory : History :=
  { q := ⟨4, 3, [⟨none⟩, ⟨some 2⟩, ⟨some 3⟩, ⟨none⟩], 3, 1⟩,
    returns := [true, true, true, true],
    pushed := [⟨some 1⟩, ⟨some 2⟩, ⟨some 3⟩],
    popped := [⟨some 1⟩] }


/-! ## Modular inverse and binomial coefficients (math.cpp 99-106, 135-144) -/

/-- The exceptions thrown by the functions of `math`. -/
inductive math.Thrown where
  /-- The exception `std::domain_error`. -/
  | domain_error
  deriving DecidableEq, Repr

/-- The function `math::mod_inv(a, mod)`: `auto [g, x, y] = ext_gcd(a, mod);
if (g != 1 && g != -1) throw std::domain_error(...); I r = x % mod; if (r < 0) r += mod;
return r;`. -/
def math.mod_inv (fuel : Nat) (a mod : Int) : Option (Except math.Thrown Int) :=
  match math.ext_gcd fuel a mod with
  | none => none
  | some (g, x, _) =>
    if g ≠ 1 ∧ g ≠ -1 then some (.error .domain_error)
    else
      let r := x.tmod mod
      some (.ok (if r < 0 then r + mod else r))

/-- Number of values of an `unsigned`. -/
def UINT_MOD : Nat := 2 ^ 32

/-- The body `res = (res * (n - k + i)) / i;` of the loop of `binom`: `n - k + i` is
computed in `unsigned`, the product in `unsigned long long`. -/
def math.binom_body (n k i res : Nat) : Nat :=
  (res * (((n + UINT_MOD - k) % UINT_MOD + i) % UINT_MOD)) % U64_MOD / i

/-- The loop `for (unsigned i = 1; i <= k; ++i) res = (res * (n - k + i)) / i;` of `binom`,
from the values `i` and `res`. -/
def math.binom_loop (n k : Nat) : Nat → Nat → Nat → Option Nat
  | 0, _, _ => none
  | fuel + 1, i, res =>
    if i ≤ k then math.binom_loop n k fuel ((i + 1) % UINT_MOD) (math.binom_body n k i res)
    else some res

/-- The value of `k` after `if (k > n - k) k = n - k;`, with `n - k` computed in
`unsigned`. -/
def math.binom_k (n k : Nat) : Nat :=
  if k > (n + UINT_MOD - k) % UINT_MOD then (n + UINT_MOD - k) % UINT_MOD else k

/-- The function `math::binom(n, k)`: `if (k > n) return 0; if (k == 0 || k == n) return 1;
if (k > n - k) k = n - k;`, the loop from `i = 1` and `res = 1`, `return res;`. -/
def math.binom (fuel n k : Nat) : Option Nat :=
  if k > n then some 0
  else if k = 0 ∨ k = n then some 1
  else math.binom_loop n (math.binom_k n k) fuel 1 1

/-- The value of `res` after the iterations `1, ..., j` of the loop of `binom` with the
reduced `k`. -/
def math.binom_acc (n k : Nat) : Nat → Nat
  | 0 => 1
  | j + 1 => math.binom_body n k (j + 1) (math.binom_acc n k j)

/-- The product `res * (n - k + i)` that iteration `i` of the loop of `binom` forms, before
it is reduced to 64 bits. -/
def math.binom_product (n k i : Nat) : Nat :=
  math.binom_acc n k (i - 1) * (((n + UINT_MOD - k) % UINT_MOD + i) % UINT_MOD)


/-! ## BigInt (sttlib.cpp 157-186)

The member `digits` is a `std::vector<uint32_t>`, least significant limb first. -/

/-- The constant `BASE = 1000000000`. -/
def BigInt.BASE : Nat := 1000000000

/-- The class `BigInt`. -/
structure BigInt where
  digits : List Nat
  deriving DecidableEq, Repr

/-- The loop `while (value > 0) { digits.push_back(value % BASE); value /= BASE; }` of the
constructor; `push_back` converts its argument to `uint32_t`. -/
def BigInt.new_loop : Nat → Nat → List Nat → Option (List Nat)
  | 0, _, _ => none
  | fuel + 1, value, digits =>
    if value > 0 then
      BigInt.new_loop fuel (value / BigInt.BASE)
        (digits ++ [(value % BigInt.BASE) % UINT_MOD])
    else some digits

/-- The constructor `BigInt(uint64_t value = 0)`. -/
def BigInt.new (fuel : Nat) (value : Nat) : Option BigInt :=
  match BigInt.new_loop fuel value [] with
  | none => none
  | some digits => some ⟨digits⟩

/-- The loop of `operator+`: `for (size_t i = 0; i < n || carry; ++i) { uint64_t sum =
carry; if (i < digits.size()) sum += digits[i]; if (i < other.digits.size())
sum += other.digits[i]; result.digits.push_back(sum % BASE); carry = sum / BASE; }`, from
the values `i`, `carry` and `result.digits`. -/
def BigInt.add_loop (a b : List Nat) (n : Nat) : Nat → Nat → Nat → List Nat →
    Option (List Nat)
  | 0, _, _, _ => none
  | fuel + 1, i, carry, result =>
    if i < n ∨ carry ≠ 0 then
      let sum0 := carry
      let sum1 := if i < a.length then (sum0 + a.getD i 0) % U64_MOD else sum0
      let sum2 := if i < b.length then (sum1 + b.getD i 0) % U64_MOD else sum1
      BigInt.add_loop a b n fuel ((i + 1) % SIZE_MOD) (sum2 / BigInt.BASE)
        (result ++ [(sum2 % BigInt.BASE) % UINT_MOD])
    else some result

/-- The method `operator+`: `result.digits.clear(); n = std::max(digits.size(),
other.digits.size()); carry = 0;`, the loop, `return result;`. -/
def BigInt.add (fuel : Nat) (x other : BigInt) : Option BigInt :=
  match BigInt.add_loop x.digits other.digits (max x.digits.length other.digits.length)
      fuel 0 0 [] with
  | none => none
  | some digits => some ⟨digits⟩

/-- The number that a `BigInt` stands for: the sum of `digits[i] * BASE ^ i`. -/
def BigInt.value (x : BigInt) : Nat :=
  ((List.range x.digits.length).map (fun i => x.digits.getD i 0 * BigInt.BASE ^ i)).sum

/-- The number that a run of limbs stands for, least significant first, by Horner's
rule. -/
def BigInt.horner : List Nat → Nat
  | [] => 0
  | d :: ds => d + BigInt.BASE * BigInt.horner ds

/-- No most-significant zero limb: the last limb, if there is one, is not zero. -/
def BigInt.Trim (ds : List Nat) : Prop :=
  ds.getLast? ≠ some 0


/-! ## json::parse on numbers (json.cpp 238-256, 365-418, 470-499)

The input is the sequence of characters before the terminating NUL of `s.c_str()`; the
pointer `p` is embedded as the characters from `p` on. The members `line`, `col` and `path`
only feed the text of error messages and are left out. -/

/-- The messages with which the number parser and `parse` call `fail`. -/
inductive json.Message where
  | invalidNumber
  | invalidFraction
  | invalidExponent
  | nonFiniteNumber
  | unexpectedCharacter
  | trailingCharacters
  deriving DecidableEq, Repr

/-- Ways in which a call of the parser gives no value. -/
inductive json.Stop where
  /-- The exception `parse_error` thrown by `fail`. -/
  | parse_error (msg : json.Message)
  /-- An operation without defined behaviour: signed overflow, `front()` of an empty view. -/
  | undefined
  deriving DecidableEq, Repr

/-- The result of `std::strtod` on a decimal text of the value `± mant * 10 ^ exp`: the
finite `double` nearest to that value (its bits are not modelled), or `± HUGE_VAL`. -/
inductive json.Double where
  | nearest (neg : Bool) (mant : Nat) (exp : Int)
  | huge (neg : Bool)
  deriving DecidableEq, Repr

/-- The function `std::isfinite`. -/
def json.Double.isfinite : json.Double → Bool
  | .nearest _ _ _ => true
  | .huge _ => false

/-- A `json` value made by the number parser: `json(val)` of an `int64_t` or `json(d)` of a
`double`. -/
inductive json.Number where
  | int (val : Int)
  | double (d : json.Double)
  deriving DecidableEq, Repr

/-- The method `peek()`, and `*p`: the character at `p`, NUL at the end of the input. -/
def json.peek (p : List Char) : Char := p.headD (Char.ofNat 0)

/-- The method `eof()`. -/
def json.eof (p : List Char) : Bool := decide (json.peek p = Char.ofNat 0)

/-- The method `advance()`, as far as `p` goes. -/
def json.advance (p : List Char) : List Char := p.tail

/-- The function `std::isdigit` on an `unsigned char`, in the C locale. -/
def json.isdigit (c : Char) : Bool := decide (48 ≤ c.toNat ∧ c.toNat ≤ 57)

/-- The function `std::isspace` on an `unsigned char`, in the C locale. -/
def json.isspace (c : Char) : Bool := decide (c.toNat = 32 ∨ (9 ≤ c.toNat ∧ c.toNat ≤ 13))

/-- The loop `while (std::isdigit(*p)) advance();`. -/
def json.skip_digits (p : List Char) : List Char := p.dropWhile json.isdigit

/-- The method `skip_ws()`. -/
def json.skip_ws (p : List Char) : List Char := p.dropWhile json.isspace

/-- The decimal value of a run of digits that continues the value `acc`. -/
def json.decimal (acc : Nat) : List Char → Nat
  | [] => acc
  | c :: cs => json.decimal (acc * 10 + (c.toNat - 48)) cs

/-- The least magnitude that `strtod` rounds to `HUGE_VAL`: half way between the largest
finite `double` and `2 ^ 1024` (IEEE 754 binary64, rounding to nearest). -/
def json.DBL_OVERFLOW : Nat := 2 ^ 1024 - 2 ^ 970

/-- The function `std::strtod` on a text of the form that `parse_number` has scanned: an
optional `-`, digits, an optional `.` with digits, an optional exponent. -/
def json.strtod (s : List Char) : json.Double :=
  let neg := decide (json.peek s = '-')
  let s1 := if neg then s.tail else s
  let ip := s1.takeWhile json.isdigit
  let r1 := s1.dropWhile json.isdigit
  let fp := if json.peek r1 = '.' then r1.tail.takeWhile json.isdigit else []
  let r2 := if json.peek r1 = '.' then r1.tail.dropWhile json.isdigit else r1
  let r3 := if json.peek r2 = 'e' ∨ json.peek r2 = 'E' then r2.tail else []
  let eneg := decide (json.peek r3 = '-')
  let r4 := if json.peek r3 = '+' ∨ json.peek r3 = '-' then r3.tail else r3
  let e : Int := json.decimal 0 (r4.takeWhile json.isdigit)
  let exp : Int := (if eneg then -e else e) - fp.length
  let mant := json.decimal 0 (ip ++ fp)
  if (if 0 ≤ exp then decide (json.DBL_OVERFLOW ≤ mant * 10 ^ exp.toNat)
      else decide (json.DBL_OVERFLOW * 10 ^ (-exp).toNat ≤ mant))
  then .huge neg else .nearest neg mant exp

/-- The first part of `parse_number`: `if (*p == '-') advance(); if (*p == '0') advance();
else { if (!isdigit(*p)) fail("invalid number"); while (isdigit(*p)) advance(); }`. -/
def json.scan_int (p : List Char) : Except json.Message (List Char) :=
  let p1 := if json.peek p = '-' then json.advance p else p
  if json.peek p1 = '0' then .ok (json.advance p1)
  else if !json.isdigit (json.peek p1) then .error .invalidNumber
  else .ok (json.skip_digits p1)

/-- The fraction part of `parse_number`: the new value of `is_float` and of `p`. -/
def json.scan_frac (p : List Char) : Except json.Message (Bool × List Char) :=
  if json.peek p = '.' then
    let p1 := json.advance p
    if !json.isdigit (json.peek p1) then .error .invalidFraction
    else .ok (true, json.skip_digits p1)
  else .ok (false, p)

/-- The exponent part of `parse_number`: the new value of `is_float` and of `p`. -/
def json.scan_exp (is_float : Bool) (p : List Char) : Except json.Message (Bool × List Char) :=
  if json.peek p = 'e' ∨ json.peek p = 'E' then
    let p1 := json.advance p
    let p2 := if json.peek p1 = '+' ∨ json.peek p1 = '-' then json.advance p1 else p1
    if !json.isdigit (json.peek p2) then .error .invalidExponent
    else .ok (true, json.skip_digits p2)
  else .ok (is_float, p)

/-- The least `int64_t`. -/
def INT64_MIN : Int := -(2 ^ 63)

/-- The greatest `int64_t`. -/
def INT64_MAX : Int := 2 ^ 63 - 1

/-- The loop `while (i < sv.size())` of `parse_number` followed by `return json(val);`, on
the characters of `sv` from `i` on. A character that is no digit sets `val = 0` and leaves
the loop; a digit that would take `val` out of the range of `int64_t` makes the function
return `json(d)`. The arithmetic on `val` is checked: a result outside `int64_t` has no
defined behaviour. -/
def json.int_loop (d : json.Double) (negative : Bool) :
    List Char → Int → Except json.Stop json.Number
  | [], val => .ok (.int val)
  | c :: cs, val =>
    if c.toNat < 48 ∨ c.toNat > 57 then .ok (.int 0)
    else
      let digit : Int := (c.toNat : Int) - 48
      if negative then
        if val < (INT64_MIN + digit).tdiv 10 then .ok (.double d)
        else if val * 10 - digit < INT64_MIN ∨ INT64_MAX < val * 10 - digit then
          .error .undefined
        else json.int_loop d negative cs (val * 10 - digit)
      else
        if val > (INT64_MAX - digit).tdiv 10 then .ok (.double d)
        else if val * 10 + digit < INT64_MIN ∨ INT64_MAX < val * 10 + digit then
          .error .undefined
        else json.int_loop d negative cs (val * 10 + digit)

/-- The method `parse_number()`: the value and the new `p`. -/
def json.parse_number (p : List Char) : Except json.Stop (json.Number × List Char) :=
  match json.scan_int p with
  | .error m => .error (.parse_error m)
  | .ok p1 =>
    match json.scan_frac p1 with
    | .error m => .error (.parse_error m)
    | .ok (f1, p2) =>
      match json.scan_exp f1 p2 with
      | .error m => .error (.parse_error m)
      | .ok (is_float, p3) =>
        let sv := p.take (p.length - p3.length)
        let d := json.strtod sv
        if !d.isfinite then .error (.parse_error .nonFiniteNumber)
        else if !is_float then
          match sv with
          | [] => .error .undefined
          | c :: _ =>
            let negative := decide (c = '-')
            match json.int_loop d negative (if negative then sv.tail else sv) 0 with
            | .error e => .error e
            | .ok n => .ok (n, p3)
        else .ok (.double d, p3)

/-- The method `parse_value()` where it leads to `parse_number` or to
`fail("unexpected character")`. The cases of the `switch` for the first characters `n`,
`t`, `f`, the double quote, `[` and the opening brace are outside this embedding: on them
the result is `none`. -/
def json.parse_value (p : List Char) : Option (Except json.Stop (json.Number × List Char)) :=
  let p1 := json.skip_ws p
  let c := json.peek p1
  if c = 'n' ∨ c = 't' ∨ c = 'f' ∨ c = Char.ofNat 34 ∨ c = '[' ∨ c = Char.ofNat 123 then none
  else if c = '-' ∨ c = '.' ∨ json.isdigit c then some (json.parse_number p1)
  else some (.error (.parse_error .unexpectedCharacter))

/-- The function `json::parse(s)`: `json j = st.parse_value(); st.skip_ws();
if (!st.eof()) st.fail("trailing characters after JSON value"); return j;`. -/
def json.parse (s : List Char) : Option (Except json.Stop json.Number) :=
  match json.parse_value s with
  | none => none
  | some (.error e) => some (.error e)
  | some (.ok (j, p)) =>
    if !json.eof (json.skip_ws p) then some (.error (.parse_error .trailingCharacters))
    else some (.ok j)

/-- An integer literal without its sign: `0`, or a digit other than `0` followed by
digits. -/
def json.IntLiteral (ds : List Char) : Prop :=
  ds = ['0'] ∨ (∃ c cs, ds = c :: cs ∧ 49 ≤ c.toNat ∧ c.toNat ≤ 57 ∧
    ∀ x ∈ cs, 48 ≤ x.toNat ∧ x.toNat ≤ 57)

/-- The text of an integer literal: an optional `-` and the digits. -/
def json.literal (neg : Bool) (ds : List Char) : List Char :=
  (if neg then ['-'] else []) ++ ds

/-- The value of an integer literal. -/
def json.literalValue (neg : Bool) (ds : List Char) : Int :=
  if neg then -(json.decimal 0 ds : Int) else (json.decimal 0 ds : Int)

/-- The digits of `10 ^ 400`. -/
def json.bigLiteral : List Char := '1' :: List.replicate 400 '0'

/-- The digits of `2 ^ 63`. -/
def json.minLiteral : List Char :=
  ['9', '2', '2', '3', '3', '7', '2', '0', '3', '6', '8', '5', '4', '7', '7', '5', '8', '0',
   '8']


/-! ## The life of a spawned computation -/

/-- The computation `h` is gone: its frame was released, once, after one resumption. -/
def LoopState.released (m : LoopState) (h : Handle) (r : Nat) : Prop :=
  m.world.frames[h]? = some none ∧
  m.world.resumed.count h = r + 1 ∧ m.world.destroyed.count h = 1

theorem mod_cases (x C : Nat) (h : x < 2 * C) :
    (x < C ∧ x % C = x) ∨ (C ≤ x ∧ x % C + C = x) := by
  by_cases hx : x < C
  · exact Or.inl ⟨hx, Nat.mod_eq_of_lt hx⟩
  · right
    refine ⟨by omega, ?_⟩
    rw [Nat.mod_eq_sub_mod (by omega), Nat.mod_eq_of_lt (by omega)]
    omega

theorem next_index (k h : Nat) (hk : k < 64) (hh : h < 2 ^ k) :
    ((h + 1) % SIZE_MOD) &&& (2 ^ k - 1) = (h + 1) % 2 ^ k := by
  have h1 : 2 ^ k < 2 ^ 64 := Nat.pow_lt_pow_right (by norm_num) hk
  have h2 : (h + 1) % SIZE_MOD = h + 1 := Nat.mod_eq_of_lt (by unfold SIZE_MOD; omega)
  rw [h2, Nat.and_pow_two_sub_one_eq_mod]

theorem mask_eq (k : Nat) (hk : k < 64) : (2 ^ k + SIZE_MOD - 1) % SIZE_MOD = 2 ^ k - 1 := by
  have h1 : 2 ^ k < 2 ^ 64 := Nat.pow_lt_pow_right (by norm_num) hk
  have h2 : 0 < 2 ^ k := Nat.two_pow_pos k
  unfold SIZE_MOD
  omega

theorem ringSize_lt (C h t : Nat) (hC : 0 < C) : ringSize C h t < C :=
  Nat.mod_lt _ hC

theorem ringSize_eq_zero_iff (C h t : Nat) (hh : h < C) (ht : t < C) :
    ringSize C h t = 0 ↔ t = h := by
  unfold ringSize
  have a := mod_cases (h + C - t) C (by omega)
  omega

theorem ringSize_full_iff (C h t : Nat) (hh : h < C) (ht : t < C) :
    (h + 1) % C = t ↔ ringSize C h t = C - 1 := by
  unfold ringSize
  have a := mod_cases (h + C - t) C (by omega)
  have b := mod_cases (h + 1) C (by omega)
  omega

theorem ringSize_push (C h t : Nat) (hh : h < C) (ht : t < C) (hne : (h + 1) % C ≠ t) :
    ringSize C ((h + 1) % C) t = ringSize C h t + 1 := by
  unfold ringSize
  have a := mod_cases (h + C - t) C (by omega)
  have b := mod_cases (h + 1) C (by omega)
  have c := mod_cases ((h + 1) % C + C - t) C (by omega)
  omega

theorem ringSize_pop (C h t : Nat) (hh : h < C) (ht : t < C) (hne : t ≠ h) :
    ringSize C h t = ringSize C h ((t + 1) % C) + 1 := by
  unfold ringSize
  have a := mod_cases (h + C - t) C (by omega)
  have b := mod_cases (t + 1) C (by omega)
  have c := mod_cases (h + C - (t + 1) % C) C (by omega)
  omega

theorem ring_index_head (C h t : Nat) (hh : h < C) (ht : t < C) :
    (t + ringSize C h t) % C = h := by
  unfold ringSize
  have a := mod_cases (h + C - t) C (by omega)
  have b := mod_cases (t + (h + C - t) % C) C (by omega)
  omega

theorem ring_index_ne_head (C h t i : Nat) (hh : h < C) (ht : t < C)
    (hi : i < ringSize C h t) : (t + i) % C ≠ h := by
  unfold ringSize at hi
  have a := mod_cases (h + C - t) C (by omega)
  have b := mod_cases (t + i) C (by omega)
  omega

theorem ring_index_succ (C t i : Nat) :
    ((t + 1) % C + i) % C = (t + (i + 1)) % C := by
  rw [Nat.add_mod, Nat.mod_mod, ← Nat.add_mod]
  congr 1
  omega

theorem ring_index_ne_tail (C t i : Nat) (ht : t < C) (hi : i + 1 < C) :
    (t + (i + 1)) % C ≠ t := by
  have b := mod_cases (t + (i + 1)) C (by omega)
  omega


/-! ## The live window -/

theorem window_length (buf : List Task) (C t n : Nat) : (window buf C t n).length = n := by
  simp [window]

theorem window_zero (buf : List Task) (C t : Nat) : window buf C t 0 = [] := rfl

theorem window_snoc (buf : List Task) (C t n : Nat) :
    window buf C t (n + 1) = window buf C t n ++ [buf.getD ((t + n) % C) Task.empty] := by
  simp [window, List.range_succ]

theorem window_cons (buf : List Task) (C t n : Nat) (ht : t < C) :
    window buf C t (n + 1) = buf.getD t Task.empty :: window buf C ((t + 1) % C) n := by
  simp only [window, List.range_succ_eq_map, List.map_cons, List.map_map, Nat.add_zero,
    Nat.mod_eq_of_lt ht]
  congr 1
  apply List.map_congr_left
  intro i _
  simp only [Function.comp, ring_index_succ]

theorem window_set (buf : List Task) (C t n j : Nat) (x : Task)
    (hj : ∀ i, i < n → (t + i) % C ≠ j) :
    window (buf.set j x) C t n = window buf C t n := by
  unfold window
  apply List.map_congr_left
  intro i hi
  have hi2 : i < n := List.mem_range.mp hi
  have := hj i hi2
  simp only [List.getD_eq_getElem?_getD]
  rw [List.getElem?_set_ne (Ne.symm this)]

theorem new_eq (k : Nat) (hk : k < 64) :
    SpscQueue.new (2 ^ k)
      = some ⟨2 ^ k, 2 ^ k - 1, List.replicate (2 ^ k) Task.empty, 0, 0⟩ := by
  unfold SpscQueue.new
  simp only [mask_eq k hk]
  rw [Nat.and_pow_two_sub_one_eq_mod, Nat.mod_self]
  simp

theorem WF_new (k : Nat) (hk : k < 64) :
    ∃ q, SpscQueue.new (2 ^ k) = some q ∧ q.WF k ∧ q.head = 0 ∧ q.tail = 0 :=
  ⟨_, new_eq k hk, ⟨hk, rfl, rfl, by simp, Nat.two_pow_pos k, Nat.two_pow_pos k⟩, rfl, rfl⟩

theorem push_full (k : Nat) (q : SpscQueue) (t : Task) (hq : q.WF k)
    (hfull : (q.head + 1) % 2 ^ k = q.tail) :
    q.push t = .ok { ok := false, q := q, t := t, released := none } := by
  unfold SpscQueue.push
  simp only [hq.mask_eq, next_index k q.head hq.hk hq.head_lt, hfull, if_true]

theorem push_free (k : Nat) (q : SpscQueue) (t : Task) (hq : q.WF k)
    (hfree : (q.head + 1) % 2 ^ k ≠ q.tail) :
    q.push t = .ok { ok := true,
                     q := { q with buffer := q.buffer.set q.head t,
                                   head := (q.head + 1) % 2 ^ k },
                     t := Task.empty,
                     released := (q.buffer.getD q.head Task.empty).coro } := by
  unfold SpscQueue.push
  have hlt : q.head < q.buffer.length := by rw [hq.length_eq]; exact hq.head_lt
  simp only [hq.mask_eq, next_index k q.head hq.hk hq.head_lt, hfree, if_false,
    List.getElem?_eq_getElem hlt, Task.moveAssign, List.getD_eq_getElem?_getD,
    Option.getD_some]
  rfl

theorem pop_empty (q : SpscQueue) (out : Task) (he : q.tail = q.head) :
    q.pop out = .ok { ok := false, q := q, out := out, released := none } := by
  unfold SpscQueue.pop
  simp only [he, if_true]

theorem pop_nonempty (k : Nat) (q : SpscQueue) (out : Task) (hq : q.WF k)
    (hne : q.tail ≠ q.head) :
    q.pop out = .ok { ok := true,
                      q := { q with buffer := q.buffer.set q.tail Task.empty,
                                    tail := (q.tail + 1) % 2 ^ k },
                      out := q.buffer.getD q.tail Task.empty,
                      released := out.coro } := by
  unfold SpscQueue.pop
  have hlt : q.tail < q.buffer.length := by rw [hq.length_eq]; exact hq.tail_lt
  simp only [hq.mask_eq, next_index k q.tail hq.hk hq.tail_lt, hne, if_false,
    List.getElem?_eq_getElem hlt, Task.moveAssign, List.getD_eq_getElem?_getD,
    Option.getD_some]
  rfl


/-! ## The constructor's check -/

theorem pow_two_of_and_pred (c : Nat) : 0 < c → c &&& (c - 1) = 0 → ∃ k, c = 2 ^ k := by
  induction c using Nat.strong_induction_on with
  | _ c ih =>
    intro hpos hand
    have hdiv : c / 2 &&& (c - 1) / 2 = 0 := by
      rw [← Nat.and_div_two, hand]
    rcases Nat.mod_two_eq_zero_or_one c with h0 | h1
    · -- c is even: c / 2 passes the same check
      have e : (c - 1) / 2 = c / 2 - 1 := by omega
      rw [e] at hdiv
      obtain ⟨j, hj⟩ := ih (c / 2) (by omega) (by omega) hdiv
      exact ⟨j + 1, by rw [Nat.pow_succ, ← hj]; omega⟩
    · -- c is odd: c - 1 has the other bits of c, so they are all zero
      have e : (c - 1) / 2 = c / 2 := by omega
      rw [e, Nat.and_self] at hdiv
      exact ⟨0, by simp only [Nat.pow_zero]; omega⟩

/-- For every capacity from 1 up to the largest `size_t`, the constructor's assertion holds
exactly for the powers of two. -/
theorem new_eq_none_iff (c : Nat) (hpos : 0 < c) (hlt : c < 2 ^ 64) :
    SpscQueue.new c = none ↔ ¬ ∃ k, c = 2 ^ k := by
  have hm : (c + SIZE_MOD - 1) % SIZE_MOD = c - 1 := by
    unfold SIZE_MOD
    omega
  unfold SpscQueue.new
  simp only [hm]
  constructor
  · intro h ⟨k, hk⟩
    subst hk
    rw [Nat.and_pow_two_sub_one_eq_mod, Nat.mod_self] at h
    simp at h
  · intro h
    by_cases hz : c &&& (c - 1) = 0
    · exact absurd (pow_two_of_and_pred c hpos hz) h
    · simp [hz]


theorem WF_push (k : Nat) (q : SpscQueue) (t : Task) (hq : q.WF k) :
    SpscQueue.WF k { q with buffer := q.buffer.set q.head t, head := (q.head + 1) % 2 ^ k } :=
  ⟨hq.hk, hq.capacity_eq, hq.mask_eq, by simp [hq.length_eq],
    Nat.mod_lt _ (Nat.two_pow_pos k), hq.tail_lt⟩

theorem WF_pop (k : Nat) (q : SpscQueue) (hq : q.WF k) :
    SpscQueue.WF k { q with buffer := q.buffer.set q.tail Task.empty,
                            tail := (q.tail + 1) % 2 ^ k } :=
  ⟨hq.hk, hq.capacity_eq, hq.mask_eq, by simp [hq.length_eq], hq.head_lt,
    Nat.mod_lt _ (Nat.two_pow_pos k)⟩

theorem live_push (k : Nat) (q : SpscQueue) (t : Task) (hq : q.WF k)
    (hfree : (q.head + 1) % 2 ^ k ≠ q.tail) :
    SpscQueue.live { q with buffer := q.buffer.set q.head t, head := (q.head + 1) % 2 ^ k }
      = q.live ++ [t] := by
  have hlt : q.head < q.buffer.length := by rw [hq.length_eq]; exact hq.head_lt
  simp only [SpscQueue.live, SpscQueue.size, hq.capacity_eq]
  rw [ringSize_push _ _ _ hq.head_lt hq.tail_lt hfree, window_snoc,
    ring_index_head _ _ _ hq.head_lt hq.tail_lt,
    window_set _ _ _ _ _ _ (fun i hi => ring_index_ne_head _ _ _ _ hq.head_lt hq.tail_lt hi)]
  simp [List.getD_eq_getElem?_getD, hlt]

theorem window_pop (C h t : Nat) (buf : List Task) (hh : h < C) (ht : t < C) (hne : t ≠ h) :
    window buf C t (ringSize C h t)
      = buf.getD t Task.empty ::
          window (buf.set t Task.empty) C ((t + 1) % C) (ringSize C h ((t + 1) % C)) := by
  have hlt := ringSize_lt C h t (by omega)
  rw [ringSize_pop _ _ _ hh ht hne] at hlt ⊢
  rw [window_cons _ _ _ _ ht, window_set]
  intro i hi
  rw [ring_index_succ]
  exact ring_index_ne_tail _ _ _ ht (by omega)

theorem live_pop (k : Nat) (q : SpscQueue) (hq : q.WF k) (hne : q.tail ≠ q.head) :
    q.live = q.buffer.getD q.tail Task.empty ::
      SpscQueue.live { q with buffer := q.buffer.set q.tail Task.empty,
                              tail := (q.tail + 1) % 2 ^ k } := by
  simp only [SpscQueue.live, SpscQueue.size, hq.capacity_eq]
  exact window_pop _ _ _ _ hq.head_lt hq.tail_lt hne

theorem getD_set_ne (buf : List Task) (i j : Nat) (x : Task) (hne : i ≠ j) :
    (buf.set i x).getD j Task.empty = buf.getD j Task.empty := by
  simp only [List.getD_eq_getElem?_getD]
  rw [List.getElem?_set_ne hne]

theorem getD_set_eq (buf : List Task) (i : Nat) (x : Task) (hi : i < buf.length) :
    (buf.set i x).getD i Task.empty = x := by
  simp [List.getD_eq_getElem?_getD, hi]

theorem ringClean_pop (C h t : Nat) (buf : List Task) (hh : h < C) (ht : t < C) (hne : t ≠ h)
    (hcl : ringClean buf C h t) : ringClean (buf.set t Task.empty) C h ((t + 1) % C) := by
  intro j hj hle
  by_cases hjt : t = j
  · subst hjt
    simp only [List.getD_eq_getElem?_getD]
    by_cases hlen : t < buf.length
    · simp [hlen]
    · rw [List.getElem?_eq_none (by simpa using hlen)]
      rfl
  · rw [getD_set_ne _ _ _ _ hjt]
    apply hcl j hj
    have h1 := ringSize_pop C h t hh ht hne
    have h2 := ringSize_pop C j t hj ht hjt
    omega

theorem ringClean_push (C h t : Nat) (buf : List Task) (x : Task) (hh : h < C) (ht : t < C)
    (hne : (h + 1) % C ≠ t) (hcl : ringClean buf C h t) :
    ringClean (buf.set h x) C ((h + 1) % C) t := by
  intro j hj hle
  have h1 := ringSize_push C h t hh ht hne
  have hjh : h ≠ j := by
    intro e
    subst e
    omega
  rw [getD_set_ne _ _ _ _ hjh]
  exact hcl j hj (by omega)

theorem ringClean_head (C h t : Nat) (buf : List Task) (hh : h < C)
    (hcl : ringClean buf C h t) : buf.getD h Task.empty = Task.empty :=
  hcl h hh (Nat.le_refl _)

theorem take_succ_set (l : List Task) (c : Nat) (x : Task) (h : c < l.length) :
    (l.set c x).take (c + 1) = l.take c ++ [x] := by
  rw [List.take_succ, List.set_take, List.set_eq_of_length_le (by simp)]
  simp [h]

theorem drop_eq_getD_cons (l : List Task) (c : Nat) (h : c < l.length) :
    l.drop c = l.getD c Task.empty :: l.drop (c + 1) := by
  rw [List.drop_eq_getElem_cons h]
  simp [List.getD_eq_getElem?_getD, h]

theorem destructAll_cons (a : Task) (l : List Task) :
    Task.destructAll (a :: l) = a.coro.toList ++ Task.destructAll l := by
  unfold Task.destructAll
  cases h : a.coro <;> simp [List.filterMap_cons, h]

theorem pop_batch_loop_spec (k h : Nat) (hk : k < 64) (hh : h < 2 ^ k) :
    ∀ (rem : Nat) (st : BatchState) (m : Nat),
      st.buffer.length = 2 ^ k → st.t < 2 ^ k → st.count ≤ st.out.length →
      m = min rem (ringSize (2 ^ k) h st.t) →
      (st.count + m ≤ st.out.length →
        ∃ st2, SpscQueue.pop_batch_loop (2 ^ k - 1) h rem st = .ok st2 ∧
          st2.buffer.length = 2 ^ k ∧ st2.t < 2 ^ k ∧
          ringSize (2 ^ k) h st2.t + m = ringSize (2 ^ k) h st.t ∧
          st2.count = st.count + m ∧
          window st2.buffer (2 ^ k) st2.t (ringSize (2 ^ k) h st2.t)
            = (window st.buffer (2 ^ k) st.t (ringSize (2 ^ k) h st.t)).drop m ∧
          st2.out = st.out.take st.count ++
            (window st.buffer (2 ^ k) st.t (ringSize (2 ^ k) h st.t)).take m ++
            st.out.drop (st.count + m) ∧
          st2.released = st.released ++ Task.destructAll ((st.out.drop st.count).take m) ∧
          (ringClean st.buffer (2 ^ k) h st.t → ringClean st2.buffer (2 ^ k) h st2.t)) ∧
      (st.out.length < st.count + m →
        SpscQueue.pop_batch_loop (2 ^ k - 1) h rem st = .error .outOfRange) := by
  intro rem
  induction rem with
  | zero =>
    intro st m hb ht hc hm
    have hm0 : m = 0 := by simpa using hm
    subst hm0
    refine ⟨fun _ => ⟨st, rfl, hb, ht, rfl, rfl, by simp, by simp, by simp [Task.destructAll],
      fun hcl => hcl⟩, fun hlt => by omega⟩
  | succ rem ih =>
    intro st m hb ht hc hm
    by_cases hth : st.t = h
    · have hz : ringSize (2 ^ k) h st.t = 0 := (ringSize_eq_zero_iff _ _ _ hh ht).mpr hth
      have hm0 : m = 0 := by rw [hm, hz]; simp
      subst hm0
      have hl : SpscQueue.pop_batch_loop (2 ^ k - 1) h (rem + 1) st = .ok st := by
        simp [SpscQueue.pop_batch_loop, hth]
      refine ⟨fun _ => ⟨st, hl, hb, ht, rfl, rfl, by simp, by simp,
        by simp [Task.destructAll], fun hcl => hcl⟩, fun hlt => by omega⟩
    · have hpop := ringSize_pop _ _ _ hh ht hth
      have hbl : st.t < st.buffer.length := by rw [hb]; exact ht
      have hm1 : m = min rem (ringSize (2 ^ k) h ((st.t + 1) % 2 ^ k)) + 1 := by
        rw [hm, hpop]; omega
      by_cases hcl : st.count < st.out.length
      · -- the slot of `out` exists: one iteration, then the rest of the loop
        have hstep : SpscQueue.pop_batch_loop (2 ^ k - 1) h (rem + 1) st
            = SpscQueue.pop_batch_loop (2 ^ k - 1) h rem
                { t := (st.t + 1) % 2 ^ k, count := st.count + 1,
                  buffer := st.buffer.set st.t Task.empty,
                  out := st.out.set st.count (st.buffer.getD st.t Task.empty),
                  released := st.released ++ (st.out.getD st.count Task.empty).coro.toList } := by
          rw [SpscQueue.pop_batch_loop]
          simp only [hth, if_false, List.getElem?_eq_getElem hbl, List.getElem?_eq_getElem hcl,
            Task.moveAssign, next_index k st.t hk ht, List.getD_eq_getElem?_getD,
            Option.getD_some]
          rfl
        have ih2 := ih
          { t := (st.t + 1) % 2 ^ k, count := st.count + 1,
            buffer := st.buffer.set st.t Task.empty,
            out := st.out.set st.count (st.buffer.getD st.t Task.empty),
            released := st.released ++ (st.out.getD st.count Task.empty).coro.toList }
          (min rem (ringSize (2 ^ k) h ((st.t + 1) % 2 ^ k)))
          (by simp [hb]) (Nat.mod_lt _ (Nat.two_pow_pos k)) (by simp; omega) rfl
        simp only [List.length_set] at ih2
        have hd : ∀ j, st.count < j →
            (st.out.set st.count (st.buffer.getD st.t Task.empty)).drop j = st.out.drop j :=
          fun j hj => List.drop_set_of_lt _ _ hj
        rw [hstep]
        constructor
        · intro hle
          obtain ⟨st2, e1, e2, e3, e4, e5, e6, e7, e8, e9⟩ := ih2.1 (by omega)
          refine ⟨st2, e1, e2, e3, by omega, by rw [e5]; omega, ?_, ?_, ?_,
            fun hcl => e9 (ringClean_pop _ _ _ _ hh ht hth hcl)⟩
          · rw [e6, window_pop _ _ _ _ hh ht hth, hm1, List.drop_succ_cons]
          · rw [e7, window_pop _ _ _ _ hh ht hth, hm1, List.take_succ_cons]
            rw [take_succ_set _ _ _ hcl, hd _ (Nat.lt_add_right _ (Nat.lt_succ_self _))]
            have hix : st.count + 1 + min rem (ringSize (2 ^ k) h ((st.t + 1) % 2 ^ k))
                = st.count + (min rem (ringSize (2 ^ k) h ((st.t + 1) % 2 ^ k)) + 1) := by omega
            rw [hix]
            simp only [List.append_assoc, List.singleton_append]
          · rw [e8, hm1, drop_eq_getD_cons _ _ hcl, List.take_succ_cons, destructAll_cons,
              hd _ (Nat.lt_succ_self _), List.append_assoc]
        · intro hlt
          exact ih2.2 (by omega)
      · have hl : SpscQueue.pop_batch_loop (2 ^ k - 1) h (rem + 1) st = .error .outOfRange := by
          rw [SpscQueue.pop_batch_loop]
          have hnone : st.out[st.count]? = none := List.getElem?_eq_none (by omega)
          simp only [hth, if_false, List.getElem?_eq_getElem hbl, hnone]
        exact ⟨fun hle => by omega, fun _ => hl⟩


theorem destructAll_append (a b : List Task) :
    Task.destructAll (a ++ b) = Task.destructAll a ++ Task.destructAll b := by
  simp [Task.destructAll, List.filterMap_append]

theorem size_lt (k : Nat) (q : SpscQueue) (hq : q.WF k) : q.size < 2 ^ k := by
  unfold SpscQueue.size
  rw [hq.capacity_eq]
  exact ringSize_lt _ _ _ (Nat.two_pow_pos k)

theorem live_length (q : SpscQueue) : q.live.length = q.size := by
  simp [SpscQueue.live, window_length]

/-- What `pop_batch` does on a well-formed queue. -/
theorem pop_batch_spec (k : Nat) (q : SpscQueue) (out : List Task) (max_batch m : Nat)
    (hq : q.WF k) (hm : m = min max_batch q.size) :
    (m = 0 → q.pop_batch out max_batch = .ok { ok := false, q := q, out := out, released := [] }) ∧
    (0 < m → m ≤ out.length →
      ∃ r, q.pop_batch out max_batch = .ok r ∧ r.ok = true ∧ r.q.WF k ∧
        r.q.head = q.head ∧ r.q.size + m = q.size ∧
        r.out = q.live.take m ∧ r.q.live = q.live.drop m ∧
        r.released = Task.destructAll out ∧ (q.Clean → r.q.Clean)) ∧
    (out.length < m → q.pop_batch out max_batch = .error .outOfRange) := by
  have hspec := pop_batch_loop_spec k q.head hq.hk hq.head_lt max_batch
    { t := q.tail, count := 0, buffer := q.buffer, out := out, released := [] } m
    hq.length_eq hq.tail_lt (Nat.zero_le _) (by rw [hm, SpscQueue.size, hq.capacity_eq])
  simp only [Nat.zero_add, List.take_zero, List.nil_append, List.drop_zero] at hspec
  refine ⟨?_, ?_, ?_⟩
  · intro h0
    obtain ⟨st, e1, _, _, _, e5, _, _, _, _⟩ := hspec.1 (by omega)
    unfold SpscQueue.pop_batch
    rw [hq.mask_eq, e1]
    simp [e5, h0]
  · intro hpos hle
    obtain ⟨st, e1, e2, e3, e4, e5, e6, e7, e8, e9⟩ := hspec.1 hle
    have hlen : (List.take m (window q.buffer (2 ^ k) q.tail (ringSize (2 ^ k) q.head q.tail))).length
        = m := by
      rw [List.length_take, window_length]
      have : m ≤ q.size := by rw [hm]; exact Nat.min_le_right _ _
      rw [SpscQueue.size, hq.capacity_eq] at this
      omega
    refine ⟨{ ok := true, q := { q with buffer := st.buffer, tail := st.t },
              out := st.out.take st.count,
              released := st.released ++ Task.destructAll (st.out.drop st.count) }, ?_, rfl,
      ⟨hq.hk, hq.capacity_eq, hq.mask_eq, e2, hq.head_lt, e3⟩, rfl, ?_, ?_, ?_, ?_, ?_⟩
    · unfold SpscQueue.pop_batch
      rw [hq.mask_eq, e1]
      simp [e5, hpos]
    · simp only [SpscQueue.size, hq.capacity_eq]
      exact e4
    · simp only [SpscQueue.live, SpscQueue.size, hq.capacity_eq]
      rw [e7, e5, List.take_append_of_le_length (by omega), List.take_of_length_le (by omega)]
    · simp only [SpscQueue.live, SpscQueue.size, hq.capacity_eq]
      exact e6
    · simp only []
      rw [e8, e7, e5, List.drop_append_of_le_length (by omega), List.drop_of_length_le (by omega),
        List.nil_append, ← destructAll_append, List.take_append_drop]
    · intro hcl
      simp only [SpscQueue.Clean, hq.capacity_eq] at hcl ⊢
      exact e9 hcl
  · intro hlt
    unfold SpscQueue.pop_batch
    rw [hq.mask_eq, hspec.2 hlt]


/-! ## Histories -/

theorem step_push_inv (k : Nat) (s : History) (t : Task) (h : s.Inv k) :
    ∃ s2, s.step (.push t) = .ok s2 ∧ s2.Inv k := by
  by_cases hfull : (s.q.head + 1) % 2 ^ k = s.q.tail
  · refine ⟨_, by simp only [History.step, push_full k s.q t h.wf hfull]; rfl, ?_⟩
    exact ⟨h.wf, by simpa using h.fifo⟩
  · refine ⟨_, by simp only [History.step, push_free k s.q t h.wf hfull]; rfl, ?_⟩
    refine ⟨WF_push k s.q t h.wf, ?_⟩
    simp only [if_true]
    rw [live_push k s.q t h.wf hfull, h.fifo, List.append_assoc]

theorem step_pop_inv (k : Nat) (s : History) (out : Task) (h : s.Inv k) :
    ∃ s2, s.step (.pop out) = .ok s2 ∧ s2.Inv k := by
  by_cases he : s.q.tail = s.q.head
  · refine ⟨_, by simp only [History.step, pop_empty s.q out he]; rfl, ?_⟩
    exact ⟨h.wf, by simpa using h.fifo⟩
  · refine ⟨_, by simp only [History.step, pop_nonempty k s.q out h.wf he]; rfl, ?_⟩
    refine ⟨WF_pop k s.q h.wf, ?_⟩
    simp only [if_true]
    rw [h.fifo, live_pop k s.q h.wf he, List.append_assoc, List.singleton_append]

theorem step_pop_batch_inv (k : Nat) (s : History) (out : List Task) (max_batch : Nat)
    (h : s.Inv k) :
    (∀ s2, s.step (.pop_batch out max_batch) = .ok s2 → s2.Inv k) ∧
    (max_batch ≤ out.length → ∃ s2, s.step (.pop_batch out max_batch) = .ok s2) := by
  obtain ⟨h0, hpos, herr⟩ := pop_batch_spec k s.q out max_batch _ h.wf rfl
  rcases Nat.eq_zero_or_pos (min max_batch s.q.size) with hz | hp
  · have e := h0 hz
    constructor
    · intro s2 hs
      simp only [History.step, e] at hs
      cases hs
      exact ⟨h.wf, by simpa using h.fifo⟩
    · intro _
      exact ⟨_, by simp only [History.step, e]; rfl⟩
  · constructor
    · intro s2 hs
      by_cases hle : min max_batch s.q.size ≤ out.length
      · obtain ⟨r, e, rok, rwf, _, _, rout, rlive, _, _⟩ := hpos hp hle
        simp only [History.step, e] at hs
        cases hs
        refine ⟨rwf, ?_⟩
        simp only [rok, if_true]
        rw [h.fifo, rout, rlive, List.append_assoc, List.take_append_drop]
      · have e := herr (by omega)
        simp only [History.step, e] at hs
        cases hs
    · intro hmax
      have hle : min max_batch s.q.size ≤ out.length :=
        Nat.le_trans (Nat.min_le_left _ _) hmax
      obtain ⟨r, e, _⟩ := hpos hp hle
      exact ⟨_, by simp only [History.step, e]; rfl⟩

theorem step_inv (k : Nat) (s s2 : History) (c : Call) (h : s.Inv k)
    (hs : s.step c = .ok s2) : s2.Inv k := by
  cases c with
  | push t =>
    obtain ⟨s3, e, hi⟩ := step_push_inv k s t h
    rw [e] at hs; cases hs; exact hi
  | pop out =>
    obtain ⟨s3, e, hi⟩ := step_pop_inv k s out h
    rw [e] at hs; cases hs; exact hi
  | pop_batch out max_batch => exact (step_pop_batch_inv k s out max_batch h).1 s2 hs

theorem step_ok (k : Nat) (s : History) (c : Call) (h : s.Inv k) (hc : c.wf = true) :
    ∃ s2, s.step c = .ok s2 := by
  cases c with
  | push t => obtain ⟨s3, e, _⟩ := step_push_inv k s t h; exact ⟨s3, e⟩
  | pop out => obtain ⟨s3, e, _⟩ := step_pop_inv k s out h; exact ⟨s3, e⟩
  | pop_batch out max_batch =>
    exact (step_pop_batch_inv k s out max_batch h).2 (by simpa [Call.wf] using hc)

theorem run_inv (k : Nat) (cs : List Call) :
    ∀ (s r : History), s.Inv k → s.run cs = .ok r → r.Inv k := by
  induction cs with
  | nil => intro s r h hr; simp only [History.run] at hr; cases hr; exact h
  | cons c cs ih =>
    intro s r h hr
    simp only [History.run] at hr
    cases hs : s.step c with
    | error e => rw [hs] at hr; cases hr
    | ok s2 =>
      rw [hs] at hr
      exact ih s2 r (step_inv k s s2 c h hs) hr

theorem run_ok (k : Nat) (cs : List Call) :
    ∀ (s : History), s.Inv k → (∀ c ∈ cs, c.wf = true) → ∃ r, s.run cs = .ok r := by
  induction cs with
  | nil => intro s _ _; exact ⟨s, rfl⟩
  | cons c cs ih =>
    intro s h hwf
    obtain ⟨s2, hs⟩ := step_ok k s c h (hwf c (List.mem_cons_self _ _))
    obtain ⟨r, hr⟩ := ih s2 (step_inv k s s2 c h hs)
      (fun c2 hc2 => hwf c2 (List.mem_cons_of_mem _ hc2))
    exact ⟨r, by simp only [History.run, hs, hr]⟩

theorem live_new (k : Nat) (q : SpscQueue) (hq : q.WF k) (hh : q.head = 0) (ht : q.tail = 0) :
    q.live = [] := by
  have hz : q.size = 0 := by
    unfold SpscQueue.size
    rw [hq.capacity_eq, hh, ht]
    simp [ringSize]
  rw [SpscQueue.live, hz]
  rfl

theorem start_inv (k : Nat) (q : SpscQueue) (hq : q.WF k) (hh : q.head = 0) (ht : q.tail = 0) :
    (History.start q).Inv k :=
  ⟨hq, by simp [History.start, live_new k q hq hh ht]⟩

theorem liveCount_eq (k : Nat) (s : History) (h : s.Inv k) : s.liveCount = s.q.size := by
  unfold History.liveCount
  rw [h.fifo, List.length_append, live_length]
  omega


theorem run_append (a b : List Call) :
    ∀ (s : History), s.run (a ++ b) =
      match s.run a with
      | .error e => .error e
      | .ok s2 => s2.run b := by
  induction a with
  | nil => intro s; rfl
  | cons c cs ih =>
    intro s
    simp only [List.cons_append, History.run]
    cases s.step c with
    | error e => rfl
    | ok s2 => exact ih s2

theorem step_push_full (k : Nat) (s : History) (t : Task) (h : s.Inv k)
    (hfull : s.q.size = 2 ^ k - 1) :
    s.step (.push t) = .ok { s with returns := s.returns ++ [false] } := by
  have hf : (s.q.head + 1) % 2 ^ k = s.q.tail := by
    rw [ringSize_full_iff _ _ _ h.wf.head_lt h.wf.tail_lt]
    rw [SpscQueue.size, h.wf.capacity_eq] at hfull
    exact hfull
  simp only [History.step, push_full k s.q t h.wf hf]
  rfl

theorem step_push_free (k : Nat) (s : History) (t : Task) (h : s.Inv k)
    (hfree : s.q.size < 2 ^ k - 1) :
    ∃ s2, s.step (.push t) = .ok s2 ∧ s2.Inv k ∧ s2.returns = s.returns ++ [true] ∧
      s2.q.size = s.q.size + 1 ∧ s2.pushed = s.pushed ++ [t] ∧ s2.popped = s.popped := by
  have hf : (s.q.head + 1) % 2 ^ k ≠ s.q.tail := by
    rw [Ne, ringSize_full_iff _ _ _ h.wf.head_lt h.wf.tail_lt]
    rw [SpscQueue.size, h.wf.capacity_eq] at hfree
    omega
  obtain ⟨s2, e, hi⟩ := step_push_inv k s t h
  refine ⟨s2, e, hi, ?_⟩
  simp only [History.step, push_free k s.q t h.wf hf] at e
  cases e
  refine ⟨rfl, ?_, rfl, rfl⟩
  simp only [SpscQueue.size, h.wf.capacity_eq]
  exact ringSize_push _ _ _ h.wf.head_lt h.wf.tail_lt hf

theorem step_pop_nonempty (k : Nat) (s : History) (out : Task) (h : s.Inv k)
    (hne : 0 < s.q.size) :
    ∃ s2, s.step (.pop out) = .ok s2 ∧ s2.Inv k ∧ s2.returns = s.returns ++ [true] ∧
      s2.q.size + 1 = s.q.size ∧ s2.pushed = s.pushed ∧
      s2.popped = s.popped ++ s.q.live.take 1 := by
  have hf : s.q.tail ≠ s.q.head := by
    intro he
    have := (ringSize_eq_zero_iff _ _ _ h.wf.head_lt h.wf.tail_lt).mpr he
    rw [SpscQueue.size, h.wf.capacity_eq] at hne
    omega
  obtain ⟨s2, e, hi⟩ := step_pop_inv k s out h
  refine ⟨s2, e, hi, ?_⟩
  simp only [History.step, pop_nonempty k s.q out h.wf hf] at e
  cases e
  refine ⟨rfl, ?_, rfl, ?_⟩
  · simp only [SpscQueue.size, h.wf.capacity_eq]
    exact (ringSize_pop _ _ _ h.wf.head_lt h.wf.tail_lt hf).symm
  · simp only [if_true]
    rw [live_pop k s.q h.wf hf]
    rfl

theorem run_pushes (k : Nat) (ts : List Task) :
    ∀ (s : History), s.Inv k → s.q.size + ts.length ≤ 2 ^ k - 1 →
      ∃ r, s.run (ts.map Call.push) = .ok r ∧ r.Inv k ∧
        r.returns = s.returns ++ List.replicate ts.length true ∧
        r.q.size = s.q.size + ts.length ∧ r.pushed = s.pushed ++ ts ∧ r.popped = s.popped := by
  induction ts with
  | nil => intro s h _; exact ⟨s, rfl, h, by simp, rfl, by simp, rfl⟩
  | cons t ts ih =>
    intro s h hle
    simp only [List.length_cons] at hle
    obtain ⟨s2, e, hi, e1, e2, e3, e4⟩ := step_push_free k s t h (by omega)
    obtain ⟨r, f, hr, f1, f2, f3, f4⟩ := ih s2 hi (by omega)
    refine ⟨r, by simp only [List.map_cons, History.run, e, f], hr, ?_, ?_, ?_, ?_⟩
    · rw [f1, e1, List.length_cons, List.replicate_succ, List.append_assoc, List.singleton_append]
    · rw [f2, e2, List.length_cons]; omega
    · rw [f3, e3, List.append_assoc, List.singleton_append]
    · rw [f4, e4]


/-! ## Coroutine frames -/

theorem frame_of_get (w : World) (h : Handle) (f : Frame) (hf : w.frames[h]? = some (some f)) :
    w.frame h = .ok f := by
  simp only [World.frame, hf]

theorem destroy_alive (w : World) (h : Handle) (ha : w.alive h) :
    w.destroy h = .ok { w with frames := w.frames.set h none, destroyed := w.destroyed ++ [h] } := by
  obtain ⟨f, hf⟩ := ha
  simp only [World.destroy, frame_of_get w h f hf]

theorem destroyAll_spec (hs : List Handle) :
    ∀ (w : World), hs.Nodup → (∀ h ∈ hs, w.alive h) →
      ∃ w2, World.destroyAll hs w = .ok w2 ∧ w2.completed = w.completed ∧
        w2.resumed = w.resumed ∧ w2.destroyed = w.destroyed ++ hs ∧
        w2.frames.length = w.frames.length ∧
        (∀ h, h ∉ hs → w2.frames[h]? = w.frames[h]?) ∧
        (∀ h, h ∈ hs → w2.frames[h]? = some none) := by
  induction hs with
  | nil => intro w _ _; exact ⟨w, rfl, rfl, rfl, by simp, rfl, fun _ _ => rfl, fun _ h => by simp at h⟩
  | cons a hs ih =>
    intro w hnd hal
    have ha := hal a (List.mem_cons_self _ _)
    have hnd2 := List.nodup_cons.mp hnd
    have hlt : a < w.frames.length := by
      obtain ⟨f, hf⟩ := ha
      exact (List.getElem?_eq_some_iff.mp hf).1
    obtain ⟨w2, e, c1, c2, c3, c4, c5, c6⟩ :=
      ih { w with frames := w.frames.set a none, destroyed := w.destroyed ++ [a] } hnd2.2
        (fun h hh => by
          obtain ⟨f, hf⟩ := hal h (List.mem_cons_of_mem _ hh)
          refine ⟨f, ?_⟩
          have hne : a ≠ h := fun e => hnd2.1 (e ▸ hh)
          simp only [List.getElem?_set_ne hne, hf])
    refine ⟨w2, by simp only [World.destroyAll, destroy_alive w a ha, e], c1, c2,
      by rw [c3]; simp, by rw [c4]; simp, ?_, ?_⟩
    · intro h hh
      have hne : a ≠ h := fun e => hh (e ▸ List.mem_cons_self _ _)
      rw [c5 h (fun hm => hh (List.mem_cons_of_mem _ hm))]
      simp only [List.getElem?_set_ne hne]
    · intro h hh
      by_cases hm : h ∈ hs
      · exact c6 h hm
      · have hha : h = a := by
          rcases List.mem_cons.mp hh with e | e
          · exact e
          · exact absurd e hm
        subst hha
        rw [c5 h hm]
        simp [hlt]

theorem resume_if_needed_null (t : Task) (w : World) (hn : t.coro = none) :
    t.resume_if_needed w = .ok w := by
  simp only [Task.resume_if_needed, Task.done, hn]

theorem resume_if_needed_finished (t : Task) (w : World) (h : Handle) (hc : t.coro = some h)
    (hf : w.frames[h]? = some (some Frame.finished)) :
    t.resume_if_needed w = .ok w := by
  simp only [Task.resume_if_needed, Task.done, hc, World.done, frame_of_get w h _ hf]

theorem resume_if_needed_suspended (t : Task) (w : World) (h : Handle) (s : Step)
    (rest : List Step) (hc : t.coro = some h)
    (hf : w.frames[h]? = some (some (Frame.suspended s rest))) :
    t.resume_if_needed w = .ok
      { frames := w.frames.set h (some (Frame.suspended s rest).after),
        completed := (w.completed + s.add) % INT_MOD,
        resumed := w.resumed ++ [h],
        destroyed := w.destroyed } := by
  simp only [Task.resume_if_needed, Task.done, hc, World.done, frame_of_get w h _ hf,
    Task.resume, World.resume]
  cases rest <;> rfl

/-- A call of `resume_if_needed` that returns either changes nothing or resumes the handle
of its task once. -/
theorem resume_if_needed_log (t : Task) (w w2 : World) (hr : t.resume_if_needed w = .ok w2) :
    w2.resumed = w.resumed ++ ((Task.destructAll [t]).filter w.suspendedAt) := by
  cases hc : t.coro with
  | none =>
    rw [resume_if_needed_null t w hc] at hr
    cases hr
    simp [Task.destructAll, hc]
  | some h =>
    have hd : Task.destructAll [t] = [h] := by simp [Task.destructAll, hc]
    rw [hd]
    cases hf : w.frames[h]? with
    | none =>
      simp [Task.resume_if_needed, Task.done, hc, World.done, World.frame, hf] at hr
    | some o =>
      cases o with
      | none =>
        simp [Task.resume_if_needed, Task.done, hc, World.done, World.frame, hf] at hr
      | some f =>
        cases f with
        | finished =>
          rw [resume_if_needed_finished t w h hc hf] at hr
          cases hr
          simp [World.suspendedAt, hf]
        | suspended s rest =>
          rw [resume_if_needed_suspended t w h s rest hc hf] at hr
          cases hr
          simp [World.suspendedAt, hf]


theorem resume_if_needed_alive (t : Task) (w : World) (h : Handle) (f : Frame)
    (hc : t.coro = some h) (hf : w.frames[h]? = some (some f)) :
    ∃ w2, t.resume_if_needed w = .ok w2 ∧ w2.destroyed = w.destroyed ∧
      w2.completed % INT_MOD = (w.completed + w.gain h) % INT_MOD ∧
      (w.completed < INT_MOD → w2.completed < INT_MOD) ∧
      w2.resumed = w.resumed ++ [h].filter w.suspendedAt ∧
      w2.frames.length = w.frames.length ∧
      (∀ h2, h2 ≠ h → w2.frames[h2]? = w.frames[h2]?) ∧
      w2.frames[h]? = some (some f.after) := by
  have hlt : h < w.frames.length := (List.getElem?_eq_some_iff.mp hf).1
  cases f with
  | finished =>
    refine ⟨w, resume_if_needed_finished t w h hc hf, rfl, ?_, fun hlt => hlt, ?_, rfl,
      fun _ _ => rfl, ?_⟩
    · simp [World.gain, hf, Frame.gain]
    · simp [World.suspendedAt, hf]
    · simpa [Frame.after] using hf
  | suspended s rest =>
    refine ⟨_, resume_if_needed_suspended t w h s rest hc hf, rfl, ?_,
      fun _ => Nat.mod_lt _ (by unfold INT_MOD; norm_num), ?_, ?_, ?_, ?_⟩
    · simp [World.gain, hf, Frame.gain]
    · simp [World.suspendedAt, hf]
    · simp
    · intro h2 hne
      simp only [List.getElem?_set_ne (Ne.symm hne)]
    · simp [hlt]

theorem resumeAll_log (ts : List Task) :
    ∀ (w w2 : World), Task.resumeAll ts w = .ok w2 →
      ∃ extra, w2.resumed = w.resumed ++ extra ∧ extra.Sublist (Task.destructAll ts) := by
  induction ts with
  | nil =>
    intro w w2 hr
    simp only [Task.resumeAll] at hr
    cases hr
    exact ⟨[], by simp, List.Sublist.refl _⟩
  | cons t ts ih =>
    intro w w2 hr
    simp only [Task.resumeAll] at hr
    cases h1 : t.resume_if_needed w with
    | error e => rw [h1] at hr; cases hr
    | ok w1 =>
      rw [h1] at hr
      obtain ⟨extra, e1, e2⟩ := ih w1 w2 hr
      refine ⟨(Task.destructAll [t]).filter w.suspendedAt ++ extra, ?_, ?_⟩
      · rw [e1, resume_if_needed_log t w w1 h1, List.append_assoc]
      · have hd : Task.destructAll (t :: ts) = Task.destructAll [t] ++ Task.destructAll ts := by
          rw [← destructAll_append]; rfl
        rw [hd]
        exact List.Sublist.append (List.filter_sublist _) e2

theorem resumeAll_spec (ts : List Task) :
    ∀ (w : World), (Task.destructAll ts).Nodup → (∀ h ∈ Task.destructAll ts, w.alive h) →
      ∃ w2, Task.resumeAll ts w = .ok w2 ∧ w2.destroyed = w.destroyed ∧
        w2.completed % INT_MOD
          = (w.completed + ((Task.destructAll ts).map w.gain).sum) % INT_MOD ∧
        (w.completed < INT_MOD → w2.completed < INT_MOD) ∧
        w2.resumed = w.resumed ++ (Task.destructAll ts).filter w.suspendedAt ∧
        w2.frames.length = w.frames.length ∧
        (∀ h, h ∉ Task.destructAll ts → w2.frames[h]? = w.frames[h]?) ∧
        (∀ h f, h ∈ Task.destructAll ts → w.frames[h]? = some (some f) →
          w2.frames[h]? = some (some f.after)) := by
  induction ts with
  | nil =>
    intro w _ _
    exact ⟨w, rfl, rfl, by simp [Task.destructAll], fun hlt => hlt, by simp [Task.destructAll],
      rfl, fun _ _ => rfl, fun _ _ h => by simp [Task.destructAll] at h⟩
  | cons t ts ih =>
    intro w hnd hal
    cases hc : t.coro with
    | none =>
      have hd : Task.destructAll (t :: ts) = Task.destructAll ts := by
        rw [destructAll_cons, hc]; rfl
      rw [hd] at hnd hal ⊢
      obtain ⟨w2, e, c⟩ := ih w hnd hal
      exact ⟨w2, by simp only [Task.resumeAll, resume_if_needed_null t w hc, e], c⟩
    | some h =>
      have hd : Task.destructAll (t :: ts) = h :: Task.destructAll ts := by
        rw [destructAll_cons, hc]; rfl
      rw [hd] at hnd hal ⊢
      have hnd2 := List.nodup_cons.mp hnd
      obtain ⟨f, hf⟩ := hal h (List.mem_cons_self _ _)
      obtain ⟨w1, e1, a1, a2, a2b, a3, a4, a5, a6⟩ := resume_if_needed_alive t w h f hc hf
      have hsame : ∀ h2 ∈ Task.destructAll ts, w1.frames[h2]? = w.frames[h2]? :=
        fun h2 hm => a5 h2 (fun e => hnd2.1 (e ▸ hm))
      obtain ⟨w2, e2, b1, b2, b2b, b3, b4, b5, b6⟩ := ih w1 hnd2.2
        (fun h2 hm => by
          obtain ⟨f2, hf2⟩ := hal h2 (List.mem_cons_of_mem _ hm)
          exact ⟨f2, by rw [hsame h2 hm, hf2]⟩)
      have hgain : (Task.destructAll ts).map w1.gain = (Task.destructAll ts).map w.gain :=
        List.map_congr_left (fun h2 hm => by simp only [World.gain, hsame h2 hm])
      have hfilt : (Task.destructAll ts).filter w1.suspendedAt
          = (Task.destructAll ts).filter w.suspendedAt :=
        List.filter_congr (fun h2 hm => by simp only [World.suspendedAt, hsame h2 hm])
      refine ⟨w2, by simp only [Task.resumeAll, e1, e2], by rw [b1, a1], ?_,
        fun hlt => b2b (a2b hlt), ?_, by rw [b4, a4], ?_, ?_⟩
      · rw [b2, hgain, List.map_cons, List.sum_cons, Nat.add_mod, a2, ← Nat.add_mod,
          Nat.add_assoc]
      · rw [b3, a3, hfilt, List.append_assoc, ← List.filter_append]
        rfl
      · intro h2 hm
        have hne : h2 ≠ h := fun e => hm (e ▸ List.mem_cons_self _ _)
        rw [b5 h2 (fun hm2 => hm (List.mem_cons_of_mem _ hm2)), a5 h2 hne]
      · intro h2 f2 hm hf2
        by_cases hm2 : h2 ∈ Task.destructAll ts
        · exact b6 h2 f2 hm2 (by rw [hsame h2 hm2, hf2])
        · have hh : h2 = h := by
            rcases List.mem_cons.mp hm with e | e
            · exact e
            · exact absurd e hm2
          subst hh
          rw [hf] at hf2
          cases hf2
          rw [b5 h2 hm2, a6]


/-! ## Scheduler -/

theorem clean_new (k : Nat) (hk : k < 64) :
    ∃ q, SpscQueue.new (2 ^ k) = some q ∧ q.WF k ∧ q.Clean ∧ q.live = [] ∧ q.size = 0 := by
  obtain ⟨q, hnew, hwf, hh, ht⟩ := WF_new k hk
  have hl := live_new k q hwf hh ht
  refine ⟨q, hnew, hwf, ?_, hl, by rw [← live_length, hl]; rfl⟩
  have hb : q.buffer = List.replicate (2 ^ k) Task.empty := by
    have := hnew
    rw [new_eq k hk] at this
    cases this
    rfl
  intro j hj _
  rw [hb]
  rw [hwf.capacity_eq] at hj
  simp [List.getD_eq_getElem?_getD, hj]

theorem size_full_iff (k : Nat) (q : SpscQueue) (hq : q.WF k) :
    (q.head + 1) % 2 ^ k = q.tail ↔ q.size = 2 ^ k - 1 := by
  rw [SpscQueue.size, hq.capacity_eq]
  exact ringSize_full_iff _ _ _ hq.head_lt hq.tail_lt

/-- A push on a well-formed, clean queue that is not full. -/
theorem push_clean_free (k : Nat) (q : SpscQueue) (t : Task) (hq : q.WF k) (hc : q.Clean)
    (hfree : q.size < 2 ^ k - 1) :
    ∃ q2, q.push t = .ok { ok := true, q := q2, t := Task.empty, released := none } ∧
      q2.WF k ∧ q2.Clean ∧ q2.live = q.live ++ [t] ∧ q2.size = q.size + 1 := by
  have hf : (q.head + 1) % 2 ^ k ≠ q.tail := by
    rw [Ne, size_full_iff k q hq]; omega
  have hrel : (q.buffer.getD q.head Task.empty).coro = none := by
    have := ringClean_head (2 ^ k) q.head q.tail q.buffer hq.head_lt
      (by simpa only [SpscQueue.Clean, hq.capacity_eq] using hc)
    rw [this]; rfl
  refine ⟨_, by rw [push_free k q t hq hf, hrel], WF_push k q t hq, ?_, live_push k q t hq hf, ?_⟩
  · simp only [SpscQueue.Clean, hq.capacity_eq] at hc ⊢
    exact ringClean_push _ _ _ _ _ hq.head_lt hq.tail_lt hf hc
  · simp only [SpscQueue.size, hq.capacity_eq]
    exact ringSize_push _ _ _ hq.head_lt hq.tail_lt hf

theorem push_retry_free (k : Nat) (s : Scheduler) (w : World) (t : Task) (fuel : Nat)
    (hq : s.queue.WF k) (hc : s.queue.Clean) (hfree : s.queue.size < 2 ^ k - 1) :
    ∃ q2, s.push_retry w t (fuel + 1) = .ok ({ s with queue := q2 }, w, Task.empty) ∧
      q2.WF k ∧ q2.Clean ∧ q2.live = s.queue.live ++ [t] ∧ q2.size = s.queue.size + 1 := by
  obtain ⟨q2, e, h⟩ := push_clean_free k s.queue t hq hc hfree
  exact ⟨q2, by simp only [Scheduler.push_retry, e, Option.toList, World.destroyAll, if_true], h⟩

theorem push_retry_full (k : Nat) (s : Scheduler) (w : World) (t : Task)
    (hq : s.queue.WF k) (hfull : s.queue.size = 2 ^ k - 1) :
    ∀ fuel, s.push_retry w t fuel = .error .noProgress := by
  intro fuel
  induction fuel with
  | zero => rfl
  | succ n ih =>
    have e := push_full k s.queue t hq ((size_full_iff k s.queue hq).mpr hfull)
    simp only [Scheduler.push_retry, e, Option.toList, World.destroyAll]
    exact ih

theorem enqueue_resume_free (k : Nat) (s : Scheduler) (w : World) (h : Handle) (fuel : Nat)
    (hq : s.queue.WF k) (hc : s.queue.Clean) (hfree : s.queue.size < 2 ^ k - 1) :
    ∃ q2, s.enqueue_resume w h (fuel + 1) = .ok ({ s with queue := q2 }, w) ∧
      q2.WF k ∧ q2.Clean ∧ q2.live = s.queue.live ++ [⟨some h⟩] ∧
      q2.size = s.queue.size + 1 := by
  obtain ⟨q2, e, hr⟩ := push_retry_free k s w ⟨some h⟩ fuel hq hc hfree
  exact ⟨q2, by simp only [Scheduler.enqueue_resume, e, Task.destruct, Task.empty], hr⟩

theorem enqueue_resume_full (k : Nat) (s : Scheduler) (w : World) (h : Handle) (fuel : Nat)
    (hq : s.queue.WF k) (hfull : s.queue.size = 2 ^ k - 1) :
    s.enqueue_resume w h fuel = .error .noProgress := by
  simp only [Scheduler.enqueue_resume, push_retry_full k s w _ hq hfull fuel]

theorem enqueue_resume_zero (s : Scheduler) (w : World) (h : Handle) :
    s.enqueue_resume w h 0 = .error .noProgress := rfl

/-- The loop over the ready handles, on a well-formed and clean queue: a run that returns
appended the handles to the queue in order and touched nothing else; with room for all of
them and fuel for one attempt each, the run returns. -/
theorem enqueueAll_spec (k fuel : Nat) (hs : List Handle) :
    ∀ (s : Scheduler) (w : World), s.queue.WF k → s.queue.Clean →
      (∀ r, Scheduler.enqueueAll fuel hs s w = .ok r →
        r.2 = w ∧ r.1.queue.WF k ∧ r.1.queue.Clean ∧ r.1.timers = s.timers ∧
        r.1.running = s.running ∧
        r.1.queue.live = s.queue.live ++ hs.map (fun h => Task.mk (some h)) ∧
        r.1.queue.size = s.queue.size + hs.length) ∧
      (1 ≤ fuel → s.queue.size + hs.length ≤ 2 ^ k - 1 →
        ∃ r, Scheduler.enqueueAll fuel hs s w = .ok r) := by
  induction hs with
  | nil =>
    intro s w hq hc
    refine ⟨fun r hr => ?_, fun _ _ => ⟨_, rfl⟩⟩
    simp only [Scheduler.enqueueAll] at hr
    cases hr
    exact ⟨rfl, hq, hc, rfl, rfl, by simp, rfl⟩
  | cons h hs ih =>
    intro s w hq hc
    have hlt := size_lt k s.queue hq
    by_cases hfree : s.queue.size < 2 ^ k - 1
    · cases fuel with
      | zero =>
        refine ⟨fun r hr => ?_, fun h1 _ => by omega⟩
        simp only [Scheduler.enqueueAll, enqueue_resume_zero] at hr
        cases hr
      | succ n =>
        obtain ⟨q2, e, wf2, cl2, lv2, sz2⟩ := enqueue_resume_free k s w h n hq hc hfree
        obtain ⟨ihA, ihB⟩ := ih { s with queue := q2 } w wf2 cl2
        constructor
        · intro r hr
          simp only [Scheduler.enqueueAll, e] at hr
          obtain ⟨r1, r2, r3, r4, r5, r6, r7⟩ := ihA r hr
          refine ⟨r1, r2, r3, r4, r5, ?_, ?_⟩
          · rw [r6]
            show q2.live ++ _ = _
            rw [lv2, List.append_assoc]
            rfl
          · rw [r7]
            show q2.size + _ = _
            rw [sz2, List.length_cons]
            omega
        · intro h1 hroom
          simp only [List.length_cons] at hroom
          obtain ⟨r, hr⟩ := ihB h1 (by show q2.size + _ ≤ _; omega)
          exact ⟨r, by simp only [Scheduler.enqueueAll, e, hr]⟩
    · have hfull : s.queue.size = 2 ^ k - 1 := by omega
      refine ⟨fun r hr => ?_, fun _ hroom => ?_⟩
      · simp only [Scheduler.enqueueAll, enqueue_resume_full k s w h fuel hq hfull] at hr
        cases hr
      · simp only [List.length_cons] at hroom
        omega


theorem destructAll_replicate_empty (n : Nat) :
    Task.destructAll (List.replicate n Task.empty) = [] := by
  induction n with
  | zero => rfl
  | succ n ih => rw [List.replicate_succ, destructAll_cons, ih]; rfl

theorem destroyAll_resumed (hs : List Handle) :
    ∀ (w w2 : World), World.destroyAll hs w = .ok w2 → w2.resumed = w.resumed := by
  induction hs with
  | nil => intro w w2 h; simp only [World.destroyAll] at h; cases h; rfl
  | cons a hs ih =>
    intro w w2 h
    simp only [World.destroyAll] at h
    cases hd : w.destroy a with
    | error e => rw [hd] at h; cases h
    | ok w1 =>
      rw [hd] at h
      rw [ih w1 w2 h]
      unfold World.destroy at hd
      cases hf : w.frame a with
      | error e => rw [hf] at hd; cases hd
      | ok f => rw [hf] at hd; cases hd; rfl

/-- The first part of the loop body on a well-formed and clean queue: the batch is cleared,
the `min(64, n)` oldest entries leave the queue and `resume_if_needed` runs once on each of
them, in queue order. -/
theorem drain_spec (k : Nat) (m : LoopState) (hq : m.sched.queue.WF k)
    (hc : m.sched.queue.Clean) :
    ∃ q2, q2.WF k ∧ q2.Clean ∧
      q2.live = m.sched.queue.live.drop (min Scheduler.BATCH m.sched.queue.size) ∧
      q2.size + min Scheduler.BATCH m.sched.queue.size = m.sched.queue.size ∧
      Scheduler.drain m =
        match World.destroyAll (Task.destructAll m.batch) m.world with
        | .error e => .error e
        | .ok w1 =>
          match Task.resumeAll
              (m.sched.queue.live.take (min Scheduler.BATCH m.sched.queue.size)) w1 with
          | .error e => .error e
          | .ok w3 =>
            .ok { sched := { m.sched with queue := q2 },
                  batch := if min Scheduler.BATCH m.sched.queue.size = 0
                           then List.replicate Scheduler.BATCH Task.empty
                           else m.sched.queue.live.take (min Scheduler.BATCH m.sched.queue.size),
                  world := w3 } := by
  obtain ⟨h0, hpos, _⟩ := pop_batch_spec k m.sched.queue
    (List.replicate Scheduler.BATCH Task.empty) Scheduler.BATCH _ hq rfl
  rcases Nat.eq_zero_or_pos (min Scheduler.BATCH m.sched.queue.size) with hz | hp
  · refine ⟨m.sched.queue, hq, hc, by rw [hz]; rfl, by omega, ?_⟩
    unfold Scheduler.drain
    cases World.destroyAll (Task.destructAll m.batch) m.world with
    | error e => rfl
    | ok w1 =>
      simp only [List.length_replicate, h0 hz, World.destroyAll, hz, List.take_zero,
        Bool.false_eq_true, if_false, if_true, Task.resumeAll]
  · obtain ⟨r, e, rok, rwf, _, rsz, rout, rlive, rrel, rcl⟩ :=
      hpos hp (by rw [List.length_replicate]; exact Nat.min_le_left _ _)
    refine ⟨r.q, rwf, rcl hc, rlive, rsz, ?_⟩
    unfold Scheduler.drain
    cases World.destroyAll (Task.destructAll m.batch) m.world with
    | error e => rfl
    | ok w1 =>
      have hne : ¬ min Scheduler.BATCH m.sched.queue.size = 0 := by omega
      simp only [List.length_replicate, e, rrel, destructAll_replicate_empty, World.destroyAll,
        rok, if_true, rout, hne, if_false]


/-! ## The benchmark of test.cpp -/

theorem destructAll_tasksOf (a n : Nat) : Task.destructAll (tasksOf a n) = List.range' a n := by
  unfold Task.destructAll tasksOf
  rw [List.filterMap_map]
  have : (Task.coro ∘ fun h => Task.mk (some h)) = (some : Handle → Option Handle) := rfl
  rw [this, List.filterMap_some]

theorem tasksOf_split (a n c : Nat) (hc : c ≤ n) :
    tasksOf a n = tasksOf a c ++ tasksOf (a + c) (n - c) := by
  unfold tasksOf
  rw [← List.map_append, List.range'_append_1]
  congr 2
  omega

theorem tasksOf_length (a n : Nat) : (tasksOf a n).length = n := by
  simp [tasksOf]

theorem tasksOf_take (a n c : Nat) (hc : c ≤ n) : (tasksOf a n).take c = tasksOf a c := by
  rw [tasksOf_split a n c hc, List.take_left' (tasksOf_length a c)]

theorem tasksOf_drop (a n c : Nat) (hc : c ≤ n) :
    (tasksOf a n).drop c = tasksOf (a + c) (n - c) := by
  rw [tasksOf_split a n c hc, List.drop_left' (tasksOf_length a c)]

theorem sum_map_eq_length (l : List Handle) (f : Handle → Nat) (hf : ∀ x ∈ l, f x = 1) :
    (l.map f).sum = l.length := by
  induction l with
  | nil => rfl
  | cons a l ih =>
    rw [List.map_cons, List.sum_cons, hf a (List.mem_cons_self _ _),
      ih (fun x hx => hf x (List.mem_cons_of_mem _ hx)), List.length_cons]
    omega

theorem range_append_range' (a n : Nat) :
    List.range a ++ List.range' a n = List.range (a + n) := by
  rw [List.range_eq_range', List.range_eq_range']
  have := List.range'_append_1 0 a n
  rw [Nat.zero_add, Nat.add_comm n a] at this
  exact this

theorem sweep_nil (now : Nat) : Scheduler.sweep now [] = ([], []) := rfl

/-- One iteration of the loop on a state of the benchmark. -/
theorem bench_step (k N a0 a now fuel : Nat) (m : LoopState) (h : BenchInv k N a0 a m) :
    ∃ m2, Scheduler.run_loop_body now fuel m = .ok m2 ∧ BenchInv k N a (min (a + 64) N) m2 := by
  obtain ⟨q2, wf2, cl2, lv2, sz2, hdrain⟩ := drain_spec k m h.wf h.clean
  have hsize : m.sched.queue.size = N - a := by
    rw [← live_length, h.live, tasksOf_length]
  simp only [Scheduler.BATCH, hsize] at lv2 sz2 hdrain
  have hcle : min 64 (N - a) ≤ N - a := Nat.min_le_right _ _
  have ha := h.le1
  have ha0 := h.le0
  have hnew : min (a + 64) N = a + min 64 (N - a) := by omega
  rw [h.live, tasksOf_take a _ _ hcle] at hdrain
  rw [h.live, tasksOf_drop a _ _ hcle] at lv2
  -- batch.clear()
  obtain ⟨w1, hd, d1, d2, d3, d4, d5, d6⟩ :=
    destroyAll_spec (Task.destructAll m.batch) m.world
      (by rw [h.batch]; exact List.nodup_range' _ _)
      (fun x hx => by
        rw [h.batch, List.mem_range'_1] at hx
        exact ⟨_, h.finished x hx.1 (by omega)⟩)
  -- the resumptions
  have hfresh1 : ∀ x, a ≤ x → x < N → w1.frames[x]? = some (some (Frame.suspended ⟨1⟩ [])) := by
    intro x hx1 hx2
    rw [d5 x (by rw [h.batch, List.mem_range'_1]; omega)]
    exact h.fresh x hx1 hx2
  obtain ⟨w3, hres, c1, c2, c2b, c3, c4, c5, c6⟩ :=
    resumeAll_spec (tasksOf a (min 64 (N - a))) w1
      (by rw [destructAll_tasksOf]; exact List.nodup_range' _ _)
      (fun x hx => by
        rw [destructAll_tasksOf, List.mem_range'_1] at hx
        exact ⟨_, hfresh1 x hx.1 (by omega)⟩)
  rw [destructAll_tasksOf] at c2 c3 c5 c6
  refine ⟨{ sched := { queue := q2, running := m.sched.running, timers := [] },
            batch := if min 64 (N - a) = 0 then List.replicate 64 Task.empty
                     else tasksOf a (min 64 (N - a)),
            world := w3 }, ?_, ?_⟩
  · unfold Scheduler.run_loop_body
    rw [hdrain, hd]
    simp only [hres, Scheduler.promote, h.timers, sweep_nil, Scheduler.enqueueAll]
  · refine
      { wf := wf2, clean := cl2, running := h.running, timers := rfl,
        live := ?_, batch := ?_, le0 := by omega, le1 := by omega, flen := by rw [c4, d4, h.flen],
        gone := ?_, finished := ?_, fresh := ?_, completed := ?_, resumed := ?_,
        destroyed := ?_ }
    · show q2.live = _
      rw [lv2, hnew]
      congr 1
      omega
    · show Task.destructAll (if min 64 (N - a) = 0 then _ else _) = _
      rw [hnew]
      split
      · rename_i hz
        rw [destructAll_replicate_empty, hz]
        simp
      · rw [destructAll_tasksOf]
        congr 1
        omega
    · intro x hx
      show w3.frames[x]? = _
      rw [c5 x (by rw [List.mem_range'_1]; omega)]
      by_cases hx0 : x < a0
      · rw [d5 x (by rw [h.batch, List.mem_range'_1]; omega)]
        exact h.gone x hx0
      · exact d6 x (by rw [h.batch, List.mem_range'_1]; omega)
    · intro x hx1 hx2
      show w3.frames[x]? = _
      exact c6 x _ (by rw [List.mem_range'_1]; omega) (hfresh1 x hx1 (by omega))
    · intro x hx1 hx2
      show w3.frames[x]? = _
      rw [c5 x (by rw [List.mem_range'_1]; omega)]
      exact hfresh1 x (by omega) hx2
    · show w3.completed = _
      have hM : 0 < INT_MOD := by unfold INT_MOD; norm_num
      have hlt1 : w1.completed < INT_MOD := by
        rw [d1, h.completed]; exact Nat.mod_lt _ hM
      have hsum : ((List.range' a (min 64 (N - a))).map w1.gain).sum = min 64 (N - a) := by
        rw [sum_map_eq_length, List.length_range']
        intro x hx
        rw [List.mem_range'_1] at hx
        simp only [World.gain, hfresh1 x hx.1 (by omega), Frame.gain]
      rw [← Nat.mod_eq_of_lt (c2b hlt1), c2, hsum, d1, h.completed, hnew, Nat.mod_add_mod]
    · show w3.resumed = _
      rw [c3, d2, h.resumed, hnew, List.filter_eq_self.mpr, range_append_range']
      intro x hx
      rw [List.mem_range'_1] at hx
      simp only [World.suspendedAt, hfresh1 x hx.1 (by omega)]
    · show w3.destroyed = _
      rw [c1, d3, h.destroyed, h.batch, range_append_range']
      congr 1
      omega


/-! ## Claims about the ready queue -/

/-- C1 (FIFO). On a freshly constructed queue of capacity `2 ^ k`, after any sequence of
`push`, `pop` and `pop_batch` calls that has a defined result, the tasks whose push returned
true are exactly the tasks handed out by the pops, in call order, followed by the tasks
still queued: what was handed out is an initial segment of what was pushed, nothing
duplicated or skipped, however often head and tail wrapped. Every sequence whose `pop_batch`
calls respect `max_batch <= out.size()` has a defined result. -/
theorem C1_fifo (k : Nat) (hk : k < 64) (cs : List Call) :
    ∃ q0, SpscQueue.new (2 ^ k) = some q0 ∧
      (∀ r, (History.start q0).run cs = .ok r → r.pushed = r.popped ++ r.q.live) ∧
      ((∀ c ∈ cs, c.wf = true) → ∃ r, (History.start q0).run cs = .ok r) := by
  obtain ⟨q0, hnew, hwf, hh, ht⟩ := WF_new k hk
  have hinv := start_inv k q0 hwf hh ht
  exact ⟨q0, hnew, fun r hr => (run_inv k cs _ r hinv hr).fifo, run_ok k cs _ hinv⟩

/-- C1, at capacity 4 on a sequence that wraps head and tail round the ring. -/
theorem C1_fifo_witness :
    2 < 64 ∧ ∃ q0, SpscQueue.new (2 ^ 2) = some q0 ∧
      (∀ r, (History.start q0).run
          [.push ⟨some 1⟩, .push ⟨some 2⟩, .push ⟨some 3⟩, .push ⟨some 4⟩, .pop ⟨none⟩,
           .push ⟨some 5⟩, .pop_batch [⟨none⟩, ⟨none⟩] 2, .push ⟨some 6⟩, .push ⟨some 7⟩,
           .pop ⟨none⟩] = .ok r → r.pushed = r.popped ++ r.q.live) ∧
      ((∀ c ∈ [Call.push ⟨some 1⟩, .push ⟨some 2⟩, .push ⟨some 3⟩, .push ⟨some 4⟩, .pop ⟨none⟩,
           .push ⟨some 5⟩, .pop_batch [⟨none⟩, ⟨none⟩] 2, .push ⟨some 6⟩, .push ⟨some 7⟩,
           .pop ⟨none⟩], c.wf = true) → ∃ r, (History.start q0).run
          [.push ⟨some 1⟩, .push ⟨some 2⟩, .push ⟨some 3⟩, .push ⟨some 4⟩, .pop ⟨none⟩,
           .push ⟨some 5⟩, .pop_batch [⟨none⟩, ⟨none⟩] 2, .push ⟨some 6⟩, .push ⟨some 7⟩,
           .pop ⟨none⟩] = .ok r) :=
  ⟨by decide, C1_fifo 2 (by decide) _⟩

/-- C2, as stated, fails at capacity 1: no push is accepted, so the `pop` that should
remove an entry returns false, and so does the push after it. -/
theorem C2_counterexample :
    ∃ q0, SpscQueue.new (2 ^ 0) = some q0 ∧
      ∃ r, (History.start q0).run
          ((List.replicate (2 ^ 0 - 1) Task.empty).map Call.push ++
            [.push ⟨some 1⟩, .pop ⟨none⟩, .push ⟨some 2⟩, .push ⟨some 3⟩]) = .ok r ∧
        r.returns = [false, false, false, false] ∧
        r.returns ≠ List.replicate (2 ^ 0 - 1) true ++ [false, true, true, false] :=
  ⟨_, rfl, _, rfl, rfl, by decide⟩

/-- C2 (full/empty disambiguation), amended to capacities `2 ^ k >= 2`. On a fresh queue the
first `2 ^ k - 1` pushes return true and the next returns false; a `pop` then returns true
and hands out the task pushed first; the push after it returns true and the one after that
returns false. -/
theorem C2_full_empty (k : Nat) (hk1 : 1 ≤ k) (hk : k < 64) (ts : List Task)
    (hts : ts.length = 2 ^ k - 1) (a b c out : Task) :
    ∃ q0, SpscQueue.new (2 ^ k) = some q0 ∧
      ∃ r, (History.start q0).run
          (ts.map Call.push ++ [.push a, .pop out, .push b, .push c]) = .ok r ∧
        r.returns = List.replicate (2 ^ k - 1) true ++ [false, true, true, false] ∧
        r.pushed = ts ++ [b] ∧ r.popped = ts.take 1 := by
  obtain ⟨q0, hnew, hwf, hh, ht⟩ := WF_new k hk
  have hinv := start_inv k q0 hwf hh ht
  have h2 : 2 ≤ 2 ^ k := by
    calc 2 = 2 ^ 1 := rfl
      _ ≤ 2 ^ k := Nat.pow_le_pow_right (by decide) hk1
  have hsz : (History.start q0).q.size = 0 := by
    have := liveCount_eq k _ hinv
    simpa [History.liveCount, History.start] using this.symm
  obtain ⟨r1, e1, i1, ret1, sz1, pu1, po1⟩ := run_pushes k ts _ hinv (by rw [hsz, hts]; omega)
  rw [hsz, Nat.zero_add, hts] at sz1
  have e2 := step_push_full k r1 a i1 sz1
  have i2 : History.Inv k { r1 with returns := r1.returns ++ [false] } := ⟨i1.wf, i1.fifo⟩
  obtain ⟨r3, e3, i3, ret3, sz3, pu3, po3⟩ :=
    step_pop_nonempty k { r1 with returns := r1.returns ++ [false] } out i2
      (by show 0 < r1.q.size; omega)
  obtain ⟨r4, e4, i4, ret4, sz4, pu4, po4⟩ := step_push_free k r3 b i3
    (by have : r3.q.size + 1 = r1.q.size := sz3
        omega)
  have e5 := step_push_full k r4 c i4
    (by have : r3.q.size + 1 = r1.q.size := sz3
        omega)
  refine ⟨q0, hnew, { r4 with returns := r4.returns ++ [false] }, ?_, ?_, ?_, ?_⟩
  · rw [run_append, e1]
    simp only [History.run, e2, e3, e4, e5]
  · simp only [ret4, ret3, ret1, hts]
    simp [History.start]
  · simp only [pu4, pu3, pu1]
    simp [History.start]
  · simp only [po4, po3, po1]
    have hl : r1.q.live = ts := by
      have := i1.fifo
      rw [pu1, po1] at this
      simpa [History.start] using this.symm
    show (History.start q0).popped ++ r1.q.live.take 1 = ts.take 1
    rw [hl]
    simp [History.start]

/-- C2 at capacity 4 with tasks A = 10, B = 11, C = 12, D = 13, and the scenario of the
specification: A, B, C are accepted, D is refused, `pop_batch(max = 2)` hands out A, B,
D is then accepted, and `pop_batch(max = 4)` hands out C, D. -/
theorem C2_full_empty_witness :
    (1 ≤ 2 ∧ 2 < 64 ∧ [Task.mk (some 10), ⟨some 11⟩, ⟨some 12⟩].length = 2 ^ 2 - 1) ∧
    (∃ q0, SpscQueue.new (2 ^ 2) = some q0 ∧
      ∃ r, (History.start q0).run
          ([Task.mk (some 10), ⟨some 11⟩, ⟨some 12⟩].map Call.push ++
            [.push ⟨some 13⟩, .pop ⟨none⟩, .push ⟨some 13⟩, .push ⟨some 14⟩]) = .ok r ∧
        r.returns = List.replicate (2 ^ 2 - 1) true ++ [false, true, true, false] ∧
        r.pushed = [Task.mk (some 10), ⟨some 11⟩, ⟨some 12⟩] ++ [⟨some 13⟩] ∧
        r.popped = [Task.mk (some 10), ⟨some 11⟩, ⟨some 12⟩].take 1) ∧
    (∃ q0, SpscQueue.new 4 = some q0 ∧
      ∃ r, (History.start q0).run
          [.push ⟨some 10⟩, .push ⟨some 11⟩, .push ⟨some 12⟩, .push ⟨some 13⟩,
           .pop_batch (List.replicate 2 Task.empty) 2, .push ⟨some 13⟩,
           .pop_batch (List.replicate 4 Task.empty) 4] = .ok r ∧
        r.returns = [true, true, true, false, true, true, true] ∧
        r.popped = [⟨some 10⟩, ⟨some 11⟩, ⟨some 12⟩, ⟨some 13⟩] ∧
        r.q.live = []) :=
  ⟨⟨by decide, by decide, by decide⟩,
   C2_full_empty 2 (by decide) (by decide) _ (by decide) _ _ _ _,
   ⟨_, rfl, _, rfl, rfl, rfl, rfl⟩⟩

/-- C3 (push on a full queue). On a well-formed queue `push` returns, and it returns false
exactly when `(head + 1) mod C == tail`; when it returns false the queue is unchanged, the
argument still holds its handle, and no handle was destroyed. -/
theorem C3_push_false_iff_full (k : Nat) (q : SpscQueue) (t : Task) (hq : q.WF k) :
    ∃ r, q.push t = .ok r ∧
      (r.ok = false ↔ (q.head + 1) % q.capacity = q.tail) ∧
      (r.ok = false → r.q = q ∧ r.t = t ∧ r.released = none) := by
  rw [hq.capacity_eq]
  by_cases hfull : (q.head + 1) % 2 ^ k = q.tail
  · exact ⟨_, push_full k q t hq hfull, by simp [hfull], fun _ => ⟨rfl, rfl, rfl⟩⟩
  · exact ⟨_, push_free k q t hq hfull, by simp [hfull], fun h => by simp at h⟩

/-- C3 on a full queue of capacity 4 (head 2, tail 3). -/
theorem C3_push_false_iff_full_witness :
    SpscQueue.WF 2 ⟨4, 3, [⟨some 7⟩, ⟨some 8⟩, ⟨none⟩, ⟨some 6⟩], 2, 3⟩ ∧
    ∃ r, SpscQueue.push ⟨4, 3, [⟨some 7⟩, ⟨some 8⟩, ⟨none⟩, ⟨some 6⟩], 2, 3⟩ ⟨some 9⟩ = .ok r ∧
      (r.ok = false ↔ (2 + 1) % 4 = 3) ∧
      (r.ok = false →
        r.q = ⟨4, 3, [⟨some 7⟩, ⟨some 8⟩, ⟨none⟩, ⟨some 6⟩], 2, 3⟩ ∧ r.t = ⟨some 9⟩ ∧
        r.released = none) :=
  ⟨⟨by decide, rfl, rfl, rfl, by decide, by decide⟩,
   C3_push_false_iff_full 2 _ _ ⟨by decide, rfl, rfl, rfl, by decide, by decide⟩⟩


/-- C4 (`pop_batch`). On a well-formed queue holding `n = q.size` live entries, with
`max_batch <= out.size()`, `pop_batch` returns; it returns false exactly when
`min(max_batch, n) = 0`, and then the queue and `out` are unchanged; when it returns true,
`out` has length `min(max_batch, n)` and holds the oldest `min(max_batch, n)` entries, oldest
first; in both cases the other `n - min(max_batch, n)` entries stay queued in order. -/
theorem C4_pop_batch (k : Nat) (q : SpscQueue) (out : List Task) (max_batch : Nat)
    (hq : q.WF k) (hout : max_batch ≤ out.length) :
    q.live.length = q.size ∧
    ∃ r, q.pop_batch out max_batch = .ok r ∧
      (r.ok = false ↔ min max_batch q.size = 0) ∧
      (r.ok = false → r.q = q ∧ r.out = out) ∧
      (r.ok = true → r.out.length = min max_batch q.size ∧
        r.out = q.live.take (min max_batch q.size)) ∧
      r.q.live = q.live.drop (min max_batch q.size) ∧
      r.q.size = q.size - min max_batch q.size := by
  refine ⟨live_length q, ?_⟩
  obtain ⟨h0, hpos, _⟩ := pop_batch_spec k q out max_batch _ hq rfl
  rcases Nat.eq_zero_or_pos (min max_batch q.size) with hz | hp
  · refine ⟨_, h0 hz, by simp [hz], fun _ => ⟨rfl, rfl⟩, fun h => by simp at h, ?_, ?_⟩
    · rw [hz]; rfl
    · rw [hz]; rfl
  · have hle : min max_batch q.size ≤ out.length := Nat.le_trans (Nat.min_le_left _ _) hout
    obtain ⟨r, e, rok, _, _, rsz, rout, rlive, _, _⟩ := hpos hp hle
    refine ⟨r, e, ?_, ?_, ?_, rlive, by omega⟩
    · rw [rok]
      constructor
      · intro h; cases h
      · intro h; omega
    · intro h; rw [rok] at h; cases h
    · intro _
      refine ⟨?_, rout⟩
      rw [rout, List.length_take, live_length]
      exact Nat.min_eq_left (Nat.min_le_right _ _)

/-- C4 on a queue of capacity 4 holding three entries across the wrap, drained two at a
time into a vector of size 3. -/
theorem C4_pop_batch_witness :
    (SpscQueue.WF 2 ⟨4, 3, [⟨some 7⟩, ⟨some 8⟩, ⟨none⟩, ⟨some 6⟩], 2, 3⟩ ∧
      2 ≤ [Task.mk none, ⟨none⟩, ⟨none⟩].length) ∧
    (SpscQueue.live ⟨4, 3, [⟨some 7⟩, ⟨some 8⟩, ⟨none⟩, ⟨some 6⟩], 2, 3⟩).length
      = SpscQueue.size ⟨4, 3, [⟨some 7⟩, ⟨some 8⟩, ⟨none⟩, ⟨some 6⟩], 2, 3⟩ ∧
    ∃ r, SpscQueue.pop_batch ⟨4, 3, [⟨some 7⟩, ⟨some 8⟩, ⟨none⟩, ⟨some 6⟩], 2, 3⟩
        [⟨none⟩, ⟨none⟩, ⟨none⟩] 2 = .ok r ∧
      (r.ok = false ↔
        min 2 (SpscQueue.size ⟨4, 3, [⟨some 7⟩, ⟨some 8⟩, ⟨none⟩, ⟨some 6⟩], 2, 3⟩) = 0) ∧
      (r.ok = false → r.q = ⟨4, 3, [⟨some 7⟩, ⟨some 8⟩, ⟨none⟩, ⟨some 6⟩], 2, 3⟩ ∧
        r.out = [⟨none⟩, ⟨none⟩, ⟨none⟩]) ∧
      (r.ok = true →
        r.out.length
          = min 2 (SpscQueue.size ⟨4, 3, [⟨some 7⟩, ⟨some 8⟩, ⟨none⟩, ⟨some 6⟩], 2, 3⟩) ∧
        r.out = (SpscQueue.live ⟨4, 3, [⟨some 7⟩, ⟨some 8⟩, ⟨none⟩, ⟨some 6⟩], 2, 3⟩).take
          (min 2 (SpscQueue.size ⟨4, 3, [⟨some 7⟩, ⟨some 8⟩, ⟨none⟩, ⟨some 6⟩], 2, 3⟩))) ∧
      r.q.live = (SpscQueue.live ⟨4, 3, [⟨some 7⟩, ⟨some 8⟩, ⟨none⟩, ⟨some 6⟩], 2, 3⟩).drop
        (min 2 (SpscQueue.size ⟨4, 3, [⟨some 7⟩, ⟨some 8⟩, ⟨none⟩, ⟨some 6⟩], 2, 3⟩)) ∧
      r.q.size = SpscQueue.size ⟨4, 3, [⟨some 7⟩, ⟨some 8⟩, ⟨none⟩, ⟨some 6⟩], 2, 3⟩
        - min 2 (SpscQueue.size ⟨4, 3, [⟨some 7⟩, ⟨some 8⟩, ⟨none⟩, ⟨some 6⟩], 2, 3⟩) :=
  ⟨⟨⟨by decide, rfl, rfl, rfl, by decide, by decide⟩, by decide⟩,
   C4_pop_batch 2 _ _ _ ⟨by decide, rfl, rfl, rfl, by decide, by decide⟩ (by decide)⟩

/-- C5 (`pop`). On a well-formed queue `pop` returns; it returns false exactly when
`head == tail`, and then the queue and `out` are unchanged; otherwise it returns true, `out`
receives the task of the slot at index `tail`, which is the oldest live entry, tail becomes
`(tail + 1) mod C`, head is unchanged and the other entries stay queued in order. -/
theorem C5_pop (k : Nat) (q : SpscQueue) (out : Task) (hq : q.WF k) :
    ∃ r, q.pop out = .ok r ∧
      (r.ok = false ↔ q.head = q.tail) ∧
      (r.ok = false → r.q = q ∧ r.out = out) ∧
      (r.ok = true →
        r.out = q.buffer.getD q.tail Task.empty ∧ q.live = r.out :: r.q.live ∧
        r.q.tail = (q.tail + 1) % q.capacity ∧ r.q.head = q.head) := by
  by_cases he : q.tail = q.head
  · exact ⟨_, pop_empty q out he, by simp [he], fun _ => ⟨rfl, rfl⟩, fun h => by simp at h⟩
  · refine ⟨_, pop_nonempty k q out hq he, ?_, fun h => by simp at h, fun _ => ⟨rfl, ?_, ?_, rfl⟩⟩
    · constructor
      · intro h; cases h
      · intro h; exact absurd h.symm he
    · exact live_pop k q hq he
    · rw [hq.capacity_eq]

/-- C5 on a queue of capacity 4 whose tail is at the last slot. -/
theorem C5_pop_witness :
    SpscQueue.WF 2 ⟨4, 3, [⟨some 7⟩, ⟨some 8⟩, ⟨none⟩, ⟨some 6⟩], 2, 3⟩ ∧
    ∃ r, SpscQueue.pop ⟨4, 3, [⟨some 7⟩, ⟨some 8⟩, ⟨none⟩, ⟨some 6⟩], 2, 3⟩ ⟨none⟩ = .ok r ∧
      (r.ok = false ↔ 2 = 3) ∧
      (r.ok = false → r.q = ⟨4, 3, [⟨some 7⟩, ⟨some 8⟩, ⟨none⟩, ⟨some 6⟩], 2, 3⟩ ∧
        r.out = ⟨none⟩) ∧
      (r.ok = true →
        r.out = [Task.mk (some 7), ⟨some 8⟩, ⟨none⟩, ⟨some 6⟩].getD 3 Task.empty ∧
        SpscQueue.live ⟨4, 3, [⟨some 7⟩, ⟨some 8⟩, ⟨none⟩, ⟨some 6⟩], 2, 3⟩
          = r.out :: r.q.live ∧
        r.q.tail = (3 + 1) % 4 ∧ r.q.head = 2) :=
  ⟨⟨by decide, rfl, rfl, rfl, by decide, by decide⟩,
   C5_pop 2 _ _ ⟨by decide, rfl, rfl, rfl, by decide, by decide⟩⟩

/-- C6, as stated, fails at capacity 1: the fresh queue is full (a push returns false),
it holds `C - 1 = 0` entries, and `empty()` reports it empty. -/
theorem C6_counterexample :
    ∃ q0, SpscQueue.new (2 ^ 0) = some q0 ∧
      (∃ r, q0.push ⟨some 1⟩ = .ok r ∧ r.ok = false) ∧
      (History.start q0).liveCount = 2 ^ 0 - 1 ∧
      q0.empty = true :=
  ⟨_, rfl, ⟨_, rfl, rfl⟩, rfl, rfl⟩

/-- C6 (`empty`), amended in its last part to capacities `2 ^ k >= 2`. After any sequence of
calls on a fresh queue of capacity `2 ^ k`, `empty()` returns true exactly when the number of
live entries (successful pushes minus entries removed) is zero; when `2 ^ k >= 2`, a queue
holding `2 ^ k - 1` entries is not reported empty. `empty()` is a function of the queue
alone and returns nothing but its boolean. -/
theorem C6_empty (k : Nat) (hk : k < 64) (cs : List Call) :
    ∃ q0, SpscQueue.new (2 ^ k) = some q0 ∧
      (∀ r, (History.start q0).run cs = .ok r →
        (r.q.empty = true ↔ r.liveCount = 0) ∧
        (1 ≤ k → r.liveCount = 2 ^ k - 1 → r.q.empty = false)) ∧
      ((∀ c ∈ cs, c.wf = true) → ∃ r, (History.start q0).run cs = .ok r) := by
  obtain ⟨q0, hnew, hwf, hh, ht⟩ := WF_new k hk
  have hinv := start_inv k q0 hwf hh ht
  refine ⟨q0, hnew, fun r hr => ?_, run_ok k cs _ hinv⟩
  have hi := run_inv k cs _ r hinv hr
  have hiff : r.q.empty = true ↔ r.liveCount = 0 := by
    rw [liveCount_eq k r hi, SpscQueue.size, hi.wf.capacity_eq,
      ringSize_eq_zero_iff _ _ _ hi.wf.head_lt hi.wf.tail_lt]
    simp [SpscQueue.empty]
  refine ⟨hiff, fun hk1 hfull => ?_⟩
  have h2 : 2 ≤ 2 ^ k := by
    calc 2 = 2 ^ 1 := rfl
      _ ≤ 2 ^ k := Nat.pow_le_pow_right (by decide) hk1
  cases hb : r.q.empty with
  | false => rfl
  | true =>
    have := hiff.mp hb
    omega

/-- C6 at capacity 4. -/
theorem C6_empty_witness :
    2 < 64 ∧ ∃ q0, SpscQueue.new (2 ^ 2) = some q0 ∧
      (∀ r, (History.start q0).run
          [.push ⟨some 1⟩, .push ⟨some 2⟩, .push ⟨some 3⟩, .pop ⟨none⟩] = .ok r →
        (r.q.empty = true ↔ r.liveCount = 0) ∧
        (1 ≤ 2 → r.liveCount = 2 ^ 2 - 1 → r.q.empty = false)) ∧
      ((∀ c ∈ [Call.push ⟨some 1⟩, .push ⟨some 2⟩, .push ⟨some 3⟩, .pop ⟨none⟩],
          c.wf = true) →
        ∃ r, (History.start q0).run
          [.push ⟨some 1⟩, .push ⟨some 2⟩, .push ⟨some 3⟩, .pop ⟨none⟩] = .ok r) :=
  ⟨by decide, C6_empty 2 (by decide) _⟩

/-- C7, at capacity 0: zero is not a power of two, yet `capacity & mask` is
`0 & (2^64 - 1) = 0`, the assertion holds and the constructor returns a queue with an empty
buffer, on which the first `push` indexes slot 0 of an empty vector. -/
theorem C7_zero_capacity_accepted :
    SpscQueue.new 0 = some ⟨0, 2 ^ 64 - 1, [], 0, 0⟩ ∧
    (¬ ∃ k : Nat, 0 = 2 ^ k) ∧
    SpscQueue.push ⟨0, 2 ^ 64 - 1, [], 0, 0⟩ ⟨some 1⟩ = .error .outOfRange := by
  refine ⟨rfl, ?_, rfl⟩
  rintro ⟨k, hk⟩
  have := Nat.two_pow_pos k
  omega

/-- C8 (queue invariant). After any sequence of calls on a fresh queue of capacity `2 ^ k`,
`head < 2 ^ k`, `tail < 2 ^ k`, and the number of live entries (successful pushes minus
entries removed) equals `(head - tail) mod 2 ^ k`, computed in the naturals as
`(head + 2 ^ k - tail) mod 2 ^ k` or in the integers, and is at most `2 ^ k - 1`. -/
theorem C8_queue_invariant (k : Nat) (hk : k < 64) (cs : List Call) :
    ∃ q0, SpscQueue.new (2 ^ k) = some q0 ∧
      (∀ r, (History.start q0).run cs = .ok r →
        r.q.head < 2 ^ k ∧ r.q.tail < 2 ^ k ∧
        r.liveCount = (r.q.head + 2 ^ k - r.q.tail) % 2 ^ k ∧
        (r.liveCount : Int) = ((r.q.head : Int) - (r.q.tail : Int)) % (2 ^ k : Int) ∧
        r.liveCount ≤ 2 ^ k - 1) ∧
      ((∀ c ∈ cs, c.wf = true) → ∃ r, (History.start q0).run cs = .ok r) := by
  obtain ⟨q0, hnew, hwf, hh, ht⟩ := WF_new k hk
  have hinv := start_inv k q0 hwf hh ht
  refine ⟨q0, hnew, fun r hr => ?_, run_ok k cs _ hinv⟩
  have hi := run_inv k cs _ r hinv hr
  have hc : r.liveCount = (r.q.head + 2 ^ k - r.q.tail) % 2 ^ k := by
    rw [liveCount_eq k r hi, SpscQueue.size, hi.wf.capacity_eq, ringSize]
  have hlt : r.liveCount < 2 ^ k := by rw [hc]; exact Nat.mod_lt _ (Nat.two_pow_pos k)
  refine ⟨hi.wf.head_lt, hi.wf.tail_lt, hc, ?_, by omega⟩
  rw [hc]
  have ht := hi.wf.tail_lt
  have e : ((r.q.head + 2 ^ k - r.q.tail : Nat) : Int)
      = ((r.q.head : Int) - (r.q.tail : Int)) + (2 ^ k : Int) := by
    rw [Nat.cast_sub (by omega)]
    push_cast
    ring
  rw [Int.natCast_mod, e]
  push_cast
  rw [Int.add_emod_self]

/-- C8 at capacity 4. -/
theorem C8_queue_invariant_witness :
    2 < 64 ∧ ∃ q0, SpscQueue.new (2 ^ 2) = some q0 ∧
      (∀ r, (History.start q0).run
          [.push ⟨some 1⟩, .pop_batch [⟨none⟩] 1, .push ⟨some 2⟩, .push ⟨some 3⟩] = .ok r →
        r.q.head < 2 ^ 2 ∧ r.q.tail < 2 ^ 2 ∧
        r.liveCount = (r.q.head + 2 ^ 2 - r.q.tail) % 2 ^ 2 ∧
        (r.liveCount : Int) = ((r.q.head : Int) - (r.q.tail : Int)) % (2 ^ 2 : Int) ∧
        r.liveCount ≤ 2 ^ 2 - 1) ∧
      ((∀ c ∈ [Call.push ⟨some 1⟩, .pop_batch [⟨none⟩] 1, .push ⟨some 2⟩, .push ⟨some 3⟩],
          c.wf = true) →
        ∃ r, (History.start q0).run
          [.push ⟨some 1⟩, .pop_batch [⟨none⟩] 1, .push ⟨some 2⟩, .push ⟨some 3⟩] = .ok r) :=
  ⟨by decide, C8_queue_invariant 2 (by decide) _⟩


/-! ## Claims about the scheduler loop -/

/-- C9 (one iteration of the scheduler loop). Let the ready queue be well formed and clean
and hold `n` entries, `L` oldest first, and let `c = min(64, n)`.
First part: whenever the iteration returns, the world it leaves is the one obtained by
clearing the old batch and then running `resume_if_needed` once on each of the `c` oldest
entries, in queue order; the coroutine resumptions logged during the iteration are a
sublist of the handles of those `c` entries, so no other entry is resumed; the batch holds
the `c` entries; and the queue holds the other `n - c` entries in order, followed by the
handles promoted from the timers.
Second part: when the handles of the old batch and of the `c` oldest entries are pairwise
distinct and have live frames, and the queue has room for the promoted handles, the
iteration returns and the resumptions logged are exactly the handles of the `c` oldest
entries that were not yet complete, each once, in queue order. -/
theorem C9_loop_iteration (k : Nat) (m : LoopState) (now fuel : Nat)
    (hq : m.sched.queue.WF k) (hc : m.sched.queue.Clean) :
    (∀ m2, Scheduler.run_loop_body now fuel m = .ok m2 →
      ∃ w1, World.destroyAll (Task.destructAll m.batch) m.world = .ok w1 ∧
        Task.resumeAll (m.sched.queue.live.take (min 64 m.sched.queue.size)) w1
          = .ok m2.world ∧
        (∃ extra, m2.world.resumed = m.world.resumed ++ extra ∧
          extra.Sublist
            (Task.destructAll (m.sched.queue.live.take (min 64 m.sched.queue.size)))) ∧
        (0 < min 64 m.sched.queue.size →
          m2.batch = m.sched.queue.live.take (min 64 m.sched.queue.size)) ∧
        m2.sched.queue.live = m.sched.queue.live.drop (min 64 m.sched.queue.size) ++
          (Scheduler.sweep now m.sched.timers).1.map (fun h => Task.mk (some h))) ∧
    ((Task.destructAll m.batch ++
        Task.destructAll (m.sched.queue.live.take (min 64 m.sched.queue.size))).Nodup →
      (∀ h ∈ Task.destructAll m.batch ++
        Task.destructAll (m.sched.queue.live.take (min 64 m.sched.queue.size)),
        m.world.alive h) →
      1 ≤ fuel →
      m.sched.queue.size - min 64 m.sched.queue.size
        + (Scheduler.sweep now m.sched.timers).1.length ≤ 2 ^ k - 1 →
      ∃ m2, Scheduler.run_loop_body now fuel m = .ok m2 ∧
        m2.world.resumed = m.world.resumed ++
          (Task.destructAll (m.sched.queue.live.take (min 64 m.sched.queue.size))).filter
            m.world.suspendedAt) := by
  obtain ⟨q2, wf2, cl2, lv2, sz2, hdrain⟩ := drain_spec k m hq hc
  simp only [Scheduler.BATCH] at lv2 sz2 hdrain
  constructor
  · intro m2 hrun
    unfold Scheduler.run_loop_body at hrun
    rw [hdrain] at hrun
    cases hd : World.destroyAll (Task.destructAll m.batch) m.world with
    | error e => rw [hd] at hrun; cases hrun
    | ok w1 =>
      rw [hd] at hrun
      simp only at hrun
      cases hres : Task.resumeAll (m.sched.queue.live.take (min 64 m.sched.queue.size)) w1 with
      | error e => rw [hres] at hrun; cases hrun
      | ok w3 =>
        rw [hres] at hrun
        simp only [Scheduler.promote] at hrun
        cases hen : Scheduler.enqueueAll fuel (Scheduler.sweep now m.sched.timers).1
            { queue := q2, running := m.sched.running,
              timers := (Scheduler.sweep now m.sched.timers).2 } w3 with
        | error e => rw [hen] at hrun; cases hrun
        | ok sw =>
          rw [hen] at hrun
          cases hrun
          obtain ⟨r1, _, _, _, _, r6, _⟩ :=
            (enqueueAll_spec k fuel _ _ w3 wf2 cl2).1 sw hen
          obtain ⟨extra, x1, x2⟩ := resumeAll_log _ w1 w3 hres
          refine ⟨w1, rfl, by rw [hres, r1], ⟨extra, ?_, x2⟩, ?_, ?_⟩
          · show sw.2.resumed = _
            rw [r1, x1, destroyAll_resumed _ _ _ hd]
          · intro hpos
            have hne : ¬ min 64 m.sched.queue.size = 0 := by omega
            simp only [hne, if_false]
          · show sw.1.queue.live = _
            rw [r6]
            show q2.live ++ _ = _
            rw [lv2]
  · intro hnd hal hfuel hroom
    have hnd1 := (List.nodup_append.mp hnd)
    obtain ⟨w1, hd, d1, d2, d3, d4, d5, d6⟩ :=
      destroyAll_spec (Task.destructAll m.batch) m.world hnd1.1
        (fun h hh => hal h (List.mem_append_left _ hh))
    have hsame : ∀ h ∈ Task.destructAll
        (m.sched.queue.live.take (min 64 m.sched.queue.size)),
        w1.frames[h]? = m.world.frames[h]? :=
      fun h hh => d5 h (fun hb => hnd1.2.2 hb hh)
    obtain ⟨w3, hres, c1, c2, _, c3, c4, c5, c6⟩ :=
      resumeAll_spec (m.sched.queue.live.take (min 64 m.sched.queue.size)) w1 hnd1.2.1
        (fun h hh => by
          obtain ⟨f, hf⟩ := hal h (List.mem_append_right _ hh)
          exact ⟨f, by rw [hsame h hh, hf]⟩)
    obtain ⟨sw, hen⟩ := (enqueueAll_spec k fuel (Scheduler.sweep now m.sched.timers).1
      { queue := q2, running := m.sched.running,
        timers := (Scheduler.sweep now m.sched.timers).2 } w3 wf2 cl2).2 hfuel
        (by show q2.size + _ ≤ _; omega)
    obtain ⟨r1, _⟩ := (enqueueAll_spec k fuel _ _ w3 wf2 cl2).1 sw hen
    refine ⟨{ sched := sw.1,
              batch := if min 64 m.sched.queue.size = 0 then List.replicate 64 Task.empty
                       else m.sched.queue.live.take (min 64 m.sched.queue.size),
              world := sw.2 }, ?_, ?_⟩
    · unfold Scheduler.run_loop_body
      rw [hdrain, hd]
      simp only [hres, Scheduler.promote, hen]
    · show sw.2.resumed = _
      rw [r1, c3, d2]
      congr 1
      exact List.filter_congr (fun h hh => by simp only [World.suspendedAt, hsame h hh])


/-- C9 on `exampleLoop` at time 10, with the result of the iteration: the coroutine of the
old batch is destroyed, handles 1 and 2 are resumed in that order, the timer due at 5 is
promoted behind them and the timer due at 20 stays. -/
theorem C9_loop_iteration_witness :
    (SpscQueue.WF 2 exampleLoop.sched.queue ∧ exampleLoop.sched.queue.Clean) ∧
    ((∀ m2, Scheduler.run_loop_body 10 1 exampleLoop = .ok m2 →
      ∃ w1, World.destroyAll (Task.destructAll exampleLoop.batch) exampleLoop.world = .ok w1 ∧
        Task.resumeAll
          (exampleLoop.sched.queue.live.take (min 64 exampleLoop.sched.queue.size)) w1
          = .ok m2.world ∧
        (∃ extra, m2.world.resumed = exampleLoop.world.resumed ++ extra ∧
          extra.Sublist (Task.destructAll
            (exampleLoop.sched.queue.live.take (min 64 exampleLoop.sched.queue.size)))) ∧
        (0 < min 64 exampleLoop.sched.queue.size →
          m2.batch = exampleLoop.sched.queue.live.take (min 64 exampleLoop.sched.queue.size)) ∧
        m2.sched.queue.live
          = exampleLoop.sched.queue.live.drop (min 64 exampleLoop.sched.queue.size) ++
            (Scheduler.sweep 10 exampleLoop.sched.timers).1.map (fun h => Task.mk (some h))) ∧
    ((Task.destructAll exampleLoop.batch ++ Task.destructAll
        (exampleLoop.sched.queue.live.take (min 64 exampleLoop.sched.queue.size))).Nodup →
      (∀ h ∈ Task.destructAll exampleLoop.batch ++ Task.destructAll
        (exampleLoop.sched.queue.live.take (min 64 exampleLoop.sched.queue.size)),
        exampleLoop.world.alive h) →
      1 ≤ 1 →
      exampleLoop.sched.queue.size - min 64 exampleLoop.sched.queue.size
        + (Scheduler.sweep 10 exampleLoop.sched.timers).1.length ≤ 2 ^ 2 - 1 →
      ∃ m2, Scheduler.run_loop_body 10 1 exampleLoop = .ok m2 ∧
        m2.world.resumed = exampleLoop.world.resumed ++
          (Task.destructAll
            (exampleLoop.sched.queue.live.take (min 64 exampleLoop.sched.queue.size))).filter
            exampleLoop.world.suspendedAt)) ∧
    Scheduler.run_loop_body 10 1 exampleLoop = .ok
      { sched := { queue := ⟨4, 3, [⟨none⟩, ⟨none⟩, ⟨none⟩, ⟨some 3⟩], 0, 3⟩,
                   running := true, timers := [(20, 0)] },
        batch := [⟨some 1⟩, ⟨some 2⟩],
        world := { frames := [none, some Frame.finished, some (Frame.suspended ⟨2⟩ []),
                              some (Frame.suspended ⟨4⟩ [])],
                   completed := 3, resumed := [0, 1, 2], destroyed := [0] } } :=
  ⟨⟨⟨by decide, rfl, rfl, rfl, by decide, by decide⟩,
    by unfold SpscQueue.Clean ringClean; decide⟩,
   C9_loop_iteration 2 exampleLoop 10 1 ⟨by decide, rfl, rfl, rfl, by decide, by decide⟩
    (by unfold SpscQueue.Clean ringClean; decide),
   rfl⟩


theorem bench_run (k N fuel : Nat) (clock : List Nat) :
    ∀ (m : LoopState) (a0 a : Nat), BenchInv k N a0 a m →
      ∃ m2 b0, Scheduler.run_loop fuel clock m = .ok m2 ∧
        BenchInv k N b0 (min (a + 64 * clock.length) N) m2 := by
  induction clock with
  | nil =>
    intro m a0 a h
    have := h.le1
    refine ⟨m, a0, rfl, ?_⟩
    have e : min (a + 64 * ([] : List Nat).length) N = a := by
      simp only [List.length_nil]; omega
    rw [e]
    exact h
  | cons now clock ih =>
    intro m a0 a h
    obtain ⟨m1, e1, h1⟩ := bench_step k N a0 a now fuel m h
    obtain ⟨m2, b0, e2, h2⟩ := ih m1 a (min (a + 64) N) h1
    refine ⟨m2, b0, by simp only [Scheduler.run_loop, h.running, if_true, e1, e2], ?_⟩
    have e : min (a + 64 * (now :: clock).length) N
        = min (min (a + 64) N + 64 * clock.length) N := by
      simp only [List.length_cons]; omega
    rw [e]
    exact h2

theorem bench_init (k : Nat) (hk : k < 64) :
    ∃ s0, Scheduler.new (2 ^ k) = some s0 ∧ BenchInv k 0 0 0 ⟨s0, [], World.init⟩ := by
  obtain ⟨q, hnew, hwf, hcl, hl, _⟩ := clean_new k hk
  refine ⟨{ queue := q, running := true, timers := [] },
    by simp only [Scheduler.new, hnew], ?_⟩
  exact
    { wf := hwf, clean := hcl, running := rfl, timers := rfl, live := by rw [hl]; rfl,
      batch := rfl, le0 := Nat.le_refl _, le1 := Nat.le_refl _, flen := rfl,
      gone := fun h hh => by omega, finished := fun h _ hh => by omega,
      fresh := fun h _ hh => by omega, completed := rfl, resumed := rfl, destroyed := rfl }

theorem spawn_step (k j fuel : Nat) (s : Scheduler) (w : World) (name : String)
    (h : BenchInv k j 0 0 ⟨s, [], w⟩) (hj : j < 2 ^ k - 1) :
    ∃ s2 w2, s.spawn w benchmarkRoutine name (fuel + 1) = .ok (s2, w2) ∧
      BenchInv k (j + 1) 0 0 ⟨s2, [], w2⟩ := by
  have hsize : s.queue.size = j := by
    have := h.live
    rw [← live_length]
    show s.queue.live.length = j
    rw [show s.queue.live = tasksOf 0 (j - 0) from this, tasksOf_length]
    omega
  have hwf : s.queue.WF k := h.wf
  have hcl : s.queue.Clean := h.clean
  have hflen : w.frames.length = j := h.flen
  obtain ⟨q2, e, wf2, cl2, lv2, sz2⟩ := push_retry_free k s
    { w with frames := w.frames ++ [some (Frame.suspended ⟨1⟩ [])] } ⟨some j⟩ fuel hwf hcl
    (by omega)
  refine ⟨{ s with queue := q2 },
    { w with frames := w.frames ++ [some (Frame.suspended ⟨1⟩ [])] }, ?_, ?_⟩
  · simp only [Scheduler.spawn, World.create, benchmarkRoutine, hflen, e, Task.destruct,
      Task.empty]
  · exact
      { wf := wf2, clean := cl2, running := h.running, timers := h.timers,
        live := by
          show q2.live = _
          rw [lv2, show s.queue.live = tasksOf 0 (j - 0) from h.live]
          simp only [tasksOf, Nat.sub_zero, Nat.add_sub_cancel, List.range'_1_concat,
            List.map_append, List.map_cons, List.map_nil, Nat.zero_add]
        batch := rfl, le0 := Nat.le_refl _, le1 := Nat.zero_le _,
        flen := by
          show (w.frames ++ _).length = _
          rw [List.length_append, hflen]; rfl
        gone := fun x hx => by omega
        finished := fun x _ hx => by omega
        fresh := fun x _ hx => by
          show (w.frames ++ [some (Frame.suspended ⟨1⟩ [])])[x]? = _
          by_cases hxj : x < j
          · rw [List.getElem?_append_left (by omega)]
            exact h.fresh x (Nat.zero_le _) hxj
          · have : x = j := by omega
            subst this
            rw [List.getElem?_append_right (by omega), hflen]
            simp
        completed := h.completed, resumed := h.resumed, destroyed := h.destroyed }

theorem spawn_run (k fuel : Nat) (n : Nat) :
    ∀ (i : Nat) (s : Scheduler) (w : World), BenchInv k i 0 0 ⟨s, [], w⟩ →
      i + n ≤ 2 ^ k - 1 →
      ∃ s2 w2, spawnBenchmark (fuel + 1) n i s w = .ok (s2, w2) ∧
        BenchInv k (i + n) 0 0 ⟨s2, [], w2⟩ := by
  induction n with
  | zero => intro i s w h _; exact ⟨s, w, rfl, h⟩
  | succ n ih =>
    intro i s w h hle
    obtain ⟨s1, w1, e1, h1⟩ := spawn_step k i fuel s w ("routine_" ++ toString i) h (by omega)
    obtain ⟨s2, w2, e2, h2⟩ := ih (i + 1) s1 w1 h1 (by omega)
    refine ⟨s2, w2, by simp only [spawnBenchmark, e1, e2], ?_⟩
    have e : i + (n + 1) = i + 1 + n := by omega
    rw [e]
    exact h2

/-- C10 (the benchmark). On a scheduler of capacity `2 ^ k`, spawn `N <= 2 ^ k - 1` copies
of `benchmarkRoutine` as `main` of test.cpp does, `N` being an `int`, then let the loop run
one iteration per clock reading. The spawns return, having resumed nothing; the loop returns; the completion
counter is `min(64 * iterations, N)` and the resumptions logged are the handles
`0 .. min(64 * iterations, N) - 1`, each once. So after `ceil(N / 64)` iterations every body
ran exactly once and `completed == N`, and after fewer the counter is below `N` and some
spawned handle was never resumed. -/
theorem C10_benchmark (k N fuel : Nat) (clock : List Nat) (hk : k < 64)
    (hN : N ≤ 2 ^ k - 1) (hint : N < 2 ^ 31) (hfuel : 1 ≤ fuel) :
    ∃ s0, Scheduler.new (2 ^ k) = some s0 ∧
      ∃ s1 w1, spawnBenchmark fuel N 0 s0 World.init = .ok (s1, w1) ∧
        w1.frames.length = N ∧ w1.completed = 0 ∧ w1.resumed = [] ∧
        ∃ m2, Scheduler.run_loop fuel clock ⟨s1, [], w1⟩ = .ok m2 ∧
          m2.world.completedInt = (min (64 * clock.length) N : Nat) ∧
          m2.world.resumed = List.range (min (64 * clock.length) N) ∧
          ((N + 63) / 64 ≤ clock.length →
            m2.world.completedInt = (N : Nat) ∧ m2.world.resumed = List.range N) ∧
          (clock.length < (N + 63) / 64 →
            m2.world.completedInt < (N : Nat) ∧ ∃ h, h < N ∧ h ∉ m2.world.resumed) := by
  obtain ⟨s0, hnew, h0⟩ := bench_init k hk
  obtain ⟨f, rfl⟩ : ∃ f, fuel = f + 1 := ⟨fuel - 1, by omega⟩
  obtain ⟨s1, w1, e1, h1⟩ := spawn_run k f N 0 s0 World.init h0 (by omega)
  rw [Nat.zero_add] at h1
  obtain ⟨m2, b0, e2, h2⟩ := bench_run k N (f + 1) clock ⟨s1, [], w1⟩ 0 0 h1
  rw [Nat.zero_add] at h2
  have hc2 : m2.world.completed = min (64 * clock.length) N := by
    have := h2.completed
    show m2.world.completed = _
    rw [this]
    exact Nat.mod_eq_of_lt (by unfold INT_MOD; omega)
  have hci : m2.world.completedInt = (min (64 * clock.length) N : Nat) := by
    unfold World.completedInt
    rw [hc2, if_pos (by omega)]
  refine ⟨s0, hnew, s1, w1, e1, h1.flen, h1.completed, h1.resumed, m2, e2, hci,
    h2.resumed, fun hle => ?_, fun hlt => ?_⟩
  · have e : min (64 * clock.length) N = N := by omega
    rw [hci, h2.resumed, e]
    exact ⟨rfl, rfl⟩
  · have e : min (64 * clock.length) N = 64 * clock.length := by omega
    have hlt2 : 64 * clock.length < N := by omega
    refine ⟨by rw [hci, e]; exact_mod_cast hlt2, 64 * clock.length, hlt2, ?_⟩
    rw [h2.resumed, e, List.mem_range]
    omega

/-- C10 with the numbers of test.cpp: the default capacity `2 ^ 21` and 5000 coroutines,
which take `ceil(5000 / 64) = 79` iterations. -/
theorem C10_benchmark_witness :
    (21 < 64 ∧ 5000 ≤ 2 ^ 21 - 1 ∧ 5000 < 2 ^ 31 ∧ 1 ≤ 1) ∧
    ∃ s0, Scheduler.new (2 ^ 21) = some s0 ∧
      ∃ s1 w1, spawnBenchmark 1 5000 0 s0 World.init = .ok (s1, w1) ∧
        w1.frames.length = 5000 ∧ w1.completed = 0 ∧ w1.resumed = [] ∧
        ∃ m2, Scheduler.run_loop 1 (List.replicate 79 0) ⟨s1, [], w1⟩ = .ok m2 ∧
          m2.world.completedInt = (min (64 * (List.replicate 79 0).length) 5000 : Nat) ∧
          m2.world.resumed = List.range (min (64 * (List.replicate 79 0).length) 5000) ∧
          ((5000 + 63) / 64 ≤ (List.replicate 79 0).length →
            m2.world.completedInt = (5000 : Nat) ∧ m2.world.resumed = List.range 5000) ∧
          ((List.replicate 79 0).length < (5000 + 63) / 64 →
            m2.world.completedInt < (5000 : Nat) ∧ ∃ h, h < 5000 ∧ h ∉ m2.world.resumed) :=
  ⟨⟨by decide, by norm_num, by norm_num, by decide⟩,
   C10_benchmark 21 5000 1 (List.replicate 79 0) (by decide) (by norm_num) (by norm_num)
    (by decide)⟩


/-! ## Claims about spawn and the task handle -/

/-- The push loop on a well-formed and clean queue: when it returns, the queue was not
full, one attempt was enough, the task is the newest entry and the world is untouched. -/
theorem push_retry_ok (k : Nat) (s : Scheduler) (w : World) (t : Task) (fuel : Nat)
    (hq : s.queue.WF k) (hc : s.queue.Clean) (r : Scheduler × World × Task)
    (hr : s.push_retry w t fuel = .ok r) :
    s.queue.size < 2 ^ k - 1 ∧ s.push_retry w t 1 = .ok r ∧
    ∃ q2, r = ({ s with queue := q2 }, w, Task.empty) ∧ q2.WF k ∧ q2.Clean ∧
      q2.live = s.queue.live ++ [t] ∧ q2.size = s.queue.size + 1 := by
  have hlt := size_lt k s.queue hq
  by_cases hfree : s.queue.size < 2 ^ k - 1
  · cases fuel with
    | zero => simp only [Scheduler.push_retry] at hr; cases hr
    | succ n =>
      obtain ⟨q2, e, h⟩ := push_clean_free k s.queue t hq hc hfree
      have hn : ∀ n, s.push_retry w t (n + 1)
          = .ok ({ s with queue := q2 }, w, Task.empty) := fun n => by
        simp only [Scheduler.push_retry, e, Option.toList, World.destroyAll, if_true]
      rw [hn n] at hr
      cases hr
      exact ⟨hfree, hn 0, q2, rfl, h⟩
  · rw [push_retry_full k s w t hq (by omega) fuel] at hr
    cases hr

/-- C11 (`spawn`). On a well-formed and clean ready queue whose handles are addresses of
frames already allocated: whenever `spawn` returns, no resumption was logged and the counter
is unchanged, the new frame is suspended before the first step of the body, the new handle
is the newest entry of the queue behind the unchanged older entries and occurs in the queue
exactly once, timers and the running flag are unchanged, the queue was not full on entry,
and a retry loop allowed a single push attempt returns the same result. When the queue is
not full on entry, `spawn` returns. -/
theorem C11_spawn (k : Nat) (s : Scheduler) (w : World) (func : String → Coroutine)
    (name : String) (fuel : Nat) (hq : s.queue.WF k) (hc : s.queue.Clean)
    (hold : ∀ h ∈ Task.destructAll s.queue.live, h < w.frames.length) :
    (∀ r, s.spawn w func name fuel = .ok r →
      r.2.resumed = w.resumed ∧ r.2.completed = w.completed ∧ r.2.destroyed = w.destroyed ∧
      r.2.frames = w.frames ++ [some (Frame.suspended (func name).first (func name).rest)] ∧
      Task.done ⟨some w.frames.length⟩ r.2 = .ok false ∧
      r.1.queue.live = s.queue.live ++ [⟨some w.frames.length⟩] ∧
      (Task.destructAll r.1.queue.live).count w.frames.length = 1 ∧
      r.1.timers = s.timers ∧ r.1.running = s.running ∧
      s.queue.size < 2 ^ k - 1 ∧ s.spawn w func name 1 = .ok r) ∧
    (s.queue.size < 2 ^ k - 1 → 1 ≤ fuel → ∃ r, s.spawn w func name fuel = .ok r) := by
  constructor
  · intro r hr
    unfold Scheduler.spawn at hr
    simp only at hr
    cases hp : s.push_retry (w.create (func name)).2 (w.create (func name)).1 fuel with
    | error e => rw [hp] at hr; cases hr
    | ok pr =>
      obtain ⟨hfree, h1, q2, e, wf2, cl2, lv2, sz2⟩ :=
        push_retry_ok k s _ _ fuel hq hc pr hp
      subst e
      rw [hp] at hr
      simp only [Task.destruct, Task.empty] at hr
      cases hr
      have hnew : (w.frames ++ [some (Frame.suspended (func name).first (func name).rest)])[
          w.frames.length]? = some (some (Frame.suspended (func name).first (func name).rest)) := by
        rw [List.getElem?_append_right (Nat.le_refl _)]
        simp
      refine ⟨rfl, rfl, rfl, rfl, ?_, lv2, ?_, rfl, rfl, hfree, ?_⟩
      · simp only [Task.done, World.done, World.create, World.frame, hnew]
      · show (Task.destructAll q2.live).count w.frames.length = 1
        rw [lv2, destructAll_append, List.count_append]
        have hnot : w.frames.length ∉ Task.destructAll s.queue.live :=
          fun hm => Nat.lt_irrefl _ (hold _ hm)
        rw [List.count_eq_zero_of_not_mem hnot]
        simp [Task.destructAll, World.create]
      · unfold Scheduler.spawn
        simp only [h1, Task.destruct, Task.empty]
  · intro hfree hfuel
    obtain ⟨f, rfl⟩ : ∃ f, fuel = f + 1 := ⟨fuel - 1, by omega⟩
    obtain ⟨q2, e, _⟩ := push_retry_free k s (w.create (func name)).2 (w.create (func name)).1
      f hq hc hfree
    exact ⟨({ s with queue := q2 }, (w.create (func name)).2),
      by simp only [Scheduler.spawn, e, Task.destruct, Task.empty]⟩

/-- C11 on the scheduler and world of `exampleLoop`, spawning `benchmarkRoutine`. -/
theorem C11_spawn_witness :
    (SpscQueue.WF 2 exampleLoop.sched.queue ∧ exampleLoop.sched.queue.Clean ∧
      ∀ h ∈ Task.destructAll exampleLoop.sched.queue.live,
        h < exampleLoop.world.frames.length) ∧
    ((∀ r, exampleLoop.sched.spawn exampleLoop.world benchmarkRoutine "a" 3 = .ok r →
      r.2.resumed = exampleLoop.world.resumed ∧
      r.2.completed = exampleLoop.world.completed ∧
      r.2.destroyed = exampleLoop.world.destroyed ∧
      r.2.frames = exampleLoop.world.frames ++
        [some (Frame.suspended (benchmarkRoutine "a").first (benchmarkRoutine "a").rest)] ∧
      Task.done ⟨some exampleLoop.world.frames.length⟩ r.2 = .ok false ∧
      r.1.queue.live
        = exampleLoop.sched.queue.live ++ [⟨some exampleLoop.world.frames.length⟩] ∧
      (Task.destructAll r.1.queue.live).count exampleLoop.world.frames.length = 1 ∧
      r.1.timers = exampleLoop.sched.timers ∧ r.1.running = exampleLoop.sched.running ∧
      exampleLoop.sched.queue.size < 2 ^ 2 - 1 ∧
      exampleLoop.sched.spawn exampleLoop.world benchmarkRoutine "a" 1 = .ok r) ∧
    (exampleLoop.sched.queue.size < 2 ^ 2 - 1 → 1 ≤ 3 →
      ∃ r, exampleLoop.sched.spawn exampleLoop.world benchmarkRoutine "a" 3 = .ok r)) :=
  ⟨⟨⟨by decide, rfl, rfl, rfl, by decide, by decide⟩,
    by unfold SpscQueue.Clean ringClean; decide, by decide⟩,
   C11_spawn 2 exampleLoop.sched exampleLoop.world benchmarkRoutine "a" 3
    ⟨by decide, rfl, rfl, rfl, by decide, by decide⟩
    (by unfold SpscQueue.Clean ringClean; decide) (by decide)⟩


theorem resume_null (t : Task) (w : World) (hn : t.coro = none) : t.resume w = .ok w := by
  simp only [Task.resume, hn]

theorem resume_finished (t : Task) (w : World) (h : Handle) (hc : t.coro = some h)
    (hf : w.frames[h]? = some (some Frame.finished)) : t.resume w = .ok w := by
  simp only [Task.resume, hc, World.done, frame_of_get w h _ hf]

theorem resume_suspended (t : Task) (w : World) (h : Handle) (s : Step) (rest : List Step)
    (hc : t.coro = some h) (hf : w.frames[h]? = some (some (Frame.suspended s rest))) :
    t.resume w = .ok
      { frames := w.frames.set h (some (Frame.suspended s rest).after),
        completed := (w.completed + s.add) % INT_MOD,
        resumed := w.resumed ++ [h],
        destroyed := w.destroyed } := by
  simp only [Task.resume, hc, World.done, frame_of_get w h _ hf, World.resume]
  cases rest <;> rfl

theorem resumeTimes_fixed (t : Task) (w : World) (hfix : t.resume w = .ok w) :
    ∀ n, t.resumeTimes n w = .ok w := by
  intro n
  induction n with
  | zero => rfl
  | succ n ih => simp only [Task.resumeTimes, hfix, ih]

/-- C12 (`Task::resume`). On a task whose frame is suspended before a step, `resume()`
runs exactly that step: the frame moves past it, the step's effect reaches `completed`, and
one resumption of the handle is logged. On a task whose frame is at its final suspend point,
and on an empty task, any number of `resume()` calls leave the world as it is. Once the
last step has run, further calls add nothing to the first. `resume_if_needed()` does what
`resume()` does. The method does not write the member `coro`. -/
theorem C12_resume (t : Task) (w : World) :
    (∀ h s rest, t.coro = some h → w.frames[h]? = some (some (Frame.suspended s rest)) →
      t.resume w = .ok
        { frames := w.frames.set h (some (Frame.suspended s rest).after),
          completed := (w.completed + s.add) % INT_MOD,
          resumed := w.resumed ++ [h],
          destroyed := w.destroyed }) ∧
    (∀ h, t.coro = some h → w.frames[h]? = some (some Frame.finished) →
      ∀ n, t.resumeTimes n w = .ok w) ∧
    (t.coro = none → ∀ n, t.resumeTimes n w = .ok w) ∧
    (∀ h s, t.coro = some h → w.frames[h]? = some (some (Frame.suspended s [])) →
      ∀ n, t.resumeTimes (n + 1) w = t.resume w) ∧
    (∀ h f, t.coro = some h → w.frames[h]? = some (some f) →
      t.resume_if_needed w = t.resume w) ∧
    (t.coro = none → t.resume_if_needed w = t.resume w) := by
  refine ⟨fun h s rest hc hf => resume_suspended t w h s rest hc hf,
    fun h hc hf => resumeTimes_fixed t w (resume_finished t w h hc hf),
    fun hn => resumeTimes_fixed t w (resume_null t w hn), ?_, ?_, ?_⟩
  · intro h s hc hf n
    have e := resume_suspended t w h s [] hc hf
    have hlt : h < w.frames.length := (List.getElem?_eq_some_iff.mp hf).1
    simp only [Task.resumeTimes, e]
    apply resumeTimes_fixed
    apply resume_finished t _ h hc
    simp [Frame.after, hlt]
  · intro h f hc hf
    cases f with
    | finished => rw [resume_if_needed_finished t w h hc hf, resume_finished t w h hc hf]
    | suspended s rest =>
      rw [resume_if_needed_suspended t w h s rest hc hf, resume_suspended t w h s rest hc hf]
  · intro hn
    rw [resume_if_needed_null t w hn, resume_null t w hn]

/-- C12 on the world of `exampleLoop`: handle 2 has two steps left and one `resume()` runs
the first; handle 0 is complete and five calls change nothing; handle 1 has one step left
and five calls do what one does. -/
theorem C12_resume_witness :
    Task.resume ⟨some 2⟩ exampleLoop.world = .ok
      { frames := [some Frame.finished, some (Frame.suspended ⟨1⟩ []),
                   some (Frame.suspended ⟨2⟩ []), some (Frame.suspended ⟨4⟩ [])],
        completed := 2, resumed := [0, 2], destroyed := [] } ∧
    Task.resumeTimes ⟨some 0⟩ 5 exampleLoop.world = .ok exampleLoop.world ∧
    Task.resumeTimes ⟨none⟩ 5 exampleLoop.world = .ok exampleLoop.world ∧
    Task.resumeTimes ⟨some 1⟩ (4 + 1) exampleLoop.world
      = Task.resume ⟨some 1⟩ exampleLoop.world :=
  ⟨(C12_resume ⟨some 2⟩ exampleLoop.world).1 2 ⟨1⟩ [⟨2⟩] rfl rfl,
   (C12_resume ⟨some 0⟩ exampleLoop.world).2.1 0 rfl rfl 5,
   (C12_resume ⟨none⟩ exampleLoop.world).2.2.1 rfl 5,
   (C12_resume ⟨some 1⟩ exampleLoop.world).2.2.2.1 1 ⟨1⟩ rfl rfl 4⟩

/-- C13 (`Task::done`). The method returns a boolean and nothing else, so it leaves the
task and the world as they are. It returns true on an empty task, and on a task with a
live frame exactly when the frame is at its final suspend point; the task that a coroutine
call has just returned reports false, and so does every task whose frame is suspended. -/
theorem C13_done (t : Task) (w : World) :
    (t.coro = none → t.done w = .ok true) ∧
    (∀ h f, t.coro = some h → w.frames[h]? = some (some f) →
      t.done w = .ok (decide (f = Frame.finished))) ∧
    (∀ c, (w.create c).1.done (w.create c).2 = .ok false) := by
  refine ⟨fun hn => by simp only [Task.done, hn], ?_, ?_⟩
  · intro h f hc hf
    simp only [Task.done, hc, World.done, frame_of_get w h f hf]
    cases f <;> simp
  · intro c
    have hnew : (w.frames ++ [some (Frame.suspended c.first c.rest)])[w.frames.length]?
        = some (some (Frame.suspended c.first c.rest)) := by
      rw [List.getElem?_append_right (Nat.le_refl _)]
      simp
    simp only [Task.done, World.done, World.create, World.frame, hnew]

/-- C13 on the world of `exampleLoop`: the empty task and the task of the finished frame 0
report true, the task of the suspended frame 1 reports false. -/
theorem C13_done_witness :
    Task.done ⟨none⟩ exampleLoop.world = .ok true ∧
    Task.done ⟨some 0⟩ exampleLoop.world = .ok (decide (Frame.finished = Frame.finished)) ∧
    Task.done ⟨some 1⟩ exampleLoop.world
      = .ok (decide (Frame.suspended ⟨1⟩ [] = Frame.finished)) ∧
    Task.done ⟨some 1⟩ exampleLoop.world = .ok false :=
  ⟨(C13_done ⟨none⟩ exampleLoop.world).1 rfl,
   (C13_done ⟨some 0⟩ exampleLoop.world).2.1 0 _ rfl rfl,
   (C13_done ⟨some 1⟩ exampleLoop.world).2.1 1 _ rfl rfl,
   rfl⟩


theorem destruct_spec (t : Task) (w : World) (ha : ∀ a, t.coro = some a → w.alive a) :
    ∃ w2, t.destruct w = .ok w2 ∧ w2.destroyed = w.destroyed ++ t.coro.toList ∧
      w2.resumed = w.resumed ∧ w2.completed = w.completed ∧
      (∀ b, w.alive b → (∀ a, t.coro = some a → a ≠ b) → w2.alive b) := by
  cases hc : t.coro with
  | none => exact ⟨w, by simp only [Task.destruct, hc], by simp, rfl, rfl, fun b hb _ => hb⟩
  | some a =>
    refine ⟨{ w with frames := w.frames.set a none, destroyed := w.destroyed ++ [a] },
      by simp only [Task.destruct, hc, destroy_alive w a (ha a hc)], rfl, rfl, rfl, ?_⟩
    intro b hb hne
    obtain ⟨f, hf⟩ := hb
    exact ⟨f, by simp only [List.getElem?_set_ne (hne a rfl), hf]⟩

theorem destruct_empty (w : World) : (Task.mk none).destruct w = .ok w := rfl

theorem destroyAll_toList (t : Task) (w : World) :
    World.destroyAll t.coro.toList w = t.destruct w := by
  cases hc : t.coro with
  | none => simp [Task.destruct, hc, World.destroyAll]
  | some a =>
    simp only [Option.toList, World.destroyAll, Task.destruct, hc]
    cases w.destroy a <;> rfl

/-- C14, as stated, fails for a move assignment of a task to itself: the guard
`this != &other` makes it do nothing, so the source still holds its target afterwards and
the previous target of the destination is not released. -/
theorem C14_counterexample :
    ∃ objs2 w2, Task.moveAssignAt [⟨some 0⟩] 0 0 ⟨[some Frame.finished], 0, [], []⟩
        = .ok (objs2, w2) ∧
      objs2[0]? = some ⟨some 0⟩ ∧ objs2[0]? ≠ some ⟨none⟩ ∧
      w2.destroyed = [] ∧ w2.destroyed ≠ [0] :=
  ⟨_, _, rfl, rfl, by decide, rfl, by decide⟩

/-- C14 (move semantics), amended to two distinct objects. Let the tasks at the distinct
indices `i` and `j` of a store hold targets that are live and differ from each other.
Move construction from the task at `j` leaves it empty and gives its target to the new
task, with nothing released; destroying both afterwards releases that target once.
Move assignment of the task at `j` to the task at `i` releases the previous target of the
destination once, leaves the source empty and the destination holding the former target of
the source; destroying both afterwards releases the target of the source once, so the
releases in all are the two targets, each once, whatever the state of their frames. -/
theorem C14_move (objs : List Task) (i j : Nat) (w : World) (dst src : Task)
    (hij : i ≠ j) (hi : objs[i]? = some dst) (hj : objs[j]? = some src)
    (hd : ∀ a, dst.coro = some a → w.alive a) (hs : ∀ b, src.coro = some b → w.alive b)
    (hne : ∀ a b, dst.coro = some a → src.coro = some b → a ≠ b) :
    (∃ objs1, Task.moveConstructAt objs j = .ok objs1 ∧
      objs1[j]? = some ⟨none⟩ ∧ objs1[objs.length]? = some ⟨src.coro⟩ ∧
      ∃ w2, Task.destructTwo objs1 objs.length j w = .ok w2 ∧
        w2.destroyed = w.destroyed ++ src.coro.toList) ∧
    (∃ objs2 w1, Task.moveAssignAt objs i j w = .ok (objs2, w1) ∧
      objs2[i]? = some ⟨src.coro⟩ ∧ objs2[j]? = some ⟨none⟩ ∧
      w1.destroyed = w.destroyed ++ dst.coro.toList ∧
      ∃ w2, Task.destructTwo objs2 i j w1 = .ok w2 ∧
        w2.destroyed = w.destroyed ++ (dst.coro.toList ++ src.coro.toList) ∧
        (dst.coro.toList ++ src.coro.toList).Nodup) := by
  have hil : i < objs.length := (List.getElem?_eq_some_iff.mp hi).1
  have hjl : j < objs.length := (List.getElem?_eq_some_iff.mp hj).1
  constructor
  · have h1 : (objs.set j ⟨none⟩ ++ [Task.mk src.coro])[j]? = some ⟨none⟩ := by
      rw [List.getElem?_append_left (by simpa using hjl)]
      simp [hjl]
    have h2 : (objs.set j ⟨none⟩ ++ [Task.mk src.coro])[objs.length]? = some ⟨src.coro⟩ := by
      rw [List.getElem?_append_right (by simp)]
      simp
    obtain ⟨wA, eA, dA, _⟩ := destruct_spec ⟨src.coro⟩ w hs
    exact ⟨objs.set j ⟨none⟩ ++ [⟨src.coro⟩],
      by simp only [Task.moveConstructAt, hj, Task.moveConstruct], h1, h2, wA,
      by simp only [Task.destructTwo, h1, h2, eA, destruct_empty], dA⟩
  · obtain ⟨w1, e1, d1, _, _, a1⟩ := destruct_spec dst w hd
    have g1 : ((objs.set i ⟨src.coro⟩).set j ⟨none⟩)[i]? = some ⟨src.coro⟩ := by
      rw [List.getElem?_set_ne (Ne.symm hij)]
      simp [hil]
    have g2 : ((objs.set i ⟨src.coro⟩).set j ⟨none⟩)[j]? = some ⟨none⟩ := by
      simp [hjl]
    obtain ⟨w2, e2, d2, _⟩ := destruct_spec ⟨src.coro⟩ w1
      (fun b hb => a1 b (hs b hb) (fun a ha => hne a b ha hb))
    refine ⟨(objs.set i ⟨src.coro⟩).set j ⟨none⟩, w1, ?_, g1, g2, d1, w2, ?_, ?_, ?_⟩
    · simp only [Task.moveAssignAt, hij, if_false, hi, hj, Task.moveAssign,
        destroyAll_toList, e1]
    · simp only [Task.destructTwo, g1, g2, e2, destruct_empty]
    · rw [d2, d1, List.append_assoc]
    · cases hc : dst.coro with
      | none => cases src.coro <;> simp
      | some a =>
        cases hb : src.coro with
        | none => simp
        | some b => simpa using hne a b hc hb

/-- C14 on a store of two tasks holding the finished frame 0 and the suspended frame 1 of
the world of `exampleLoop`. -/
theorem C14_move_witness :
    (0 ≠ 1 ∧ [Task.mk (some 0), ⟨some 1⟩][0]? = some ⟨some 0⟩ ∧
      [Task.mk (some 0), ⟨some 1⟩][1]? = some ⟨some 1⟩ ∧
      (∀ a, (Task.mk (some 0)).coro = some a → exampleLoop.world.alive a) ∧
      (∀ b, (Task.mk (some 1)).coro = some b → exampleLoop.world.alive b) ∧
      (∀ a b, (Task.mk (some 0)).coro = some a → (Task.mk (some 1)).coro = some b → a ≠ b)) ∧
    ((∃ objs1, Task.moveConstructAt [⟨some 0⟩, ⟨some 1⟩] 1 = .ok objs1 ∧
      objs1[1]? = some ⟨none⟩ ∧
      objs1[[Task.mk (some 0), ⟨some 1⟩].length]? = some ⟨(Task.mk (some 1)).coro⟩ ∧
      ∃ w2, Task.destructTwo objs1 [Task.mk (some 0), ⟨some 1⟩].length 1 exampleLoop.world
          = .ok w2 ∧
        w2.destroyed = exampleLoop.world.destroyed ++ (Task.mk (some 1)).coro.toList) ∧
    (∃ objs2 w1, Task.moveAssignAt [⟨some 0⟩, ⟨some 1⟩] 0 1 exampleLoop.world
        = .ok (objs2, w1) ∧
      objs2[0]? = some ⟨(Task.mk (some 1)).coro⟩ ∧ objs2[1]? = some ⟨none⟩ ∧
      w1.destroyed = exampleLoop.world.destroyed ++ (Task.mk (some 0)).coro.toList ∧
      ∃ w2, Task.destructTwo objs2 0 1 w1 = .ok w2 ∧
        w2.destroyed = exampleLoop.world.destroyed ++
          ((Task.mk (some 0)).coro.toList ++ (Task.mk (some 1)).coro.toList) ∧
        ((Task.mk (some 0)).coro.toList ++ (Task.mk (some 1)).coro.toList).Nodup)) ∧
    Task.moveAssignAt [⟨some 0⟩, ⟨some 1⟩] 0 1 exampleLoop.world
      = .ok ([⟨some 1⟩, ⟨none⟩],
          { frames := [none, some (Frame.suspended ⟨1⟩ []),
                       some (Frame.suspended ⟨1⟩ [⟨2⟩]), some (Frame.suspended ⟨4⟩ [])],
            completed := 1, resumed := [0], destroyed := [0] }) :=
  ⟨⟨by decide, rfl, rfl,
    fun a ha => by cases ha; exact ⟨_, rfl⟩,
    fun b hb => by cases hb; exact ⟨_, rfl⟩,
    fun a b ha hb => by cases ha; cases hb; decide⟩,
   C14_move [⟨some 0⟩, ⟨some 1⟩] 0 1 exampleLoop.world ⟨some 0⟩ ⟨some 1⟩ (by decide) rfl rfl
    (fun a ha => by cases ha; exact ⟨_, rfl⟩)
    (fun b hb => by cases hb; exact ⟨_, rfl⟩)
    (fun a b ha hb => by cases ha; cases hb; decide),
   rfl⟩


/-! ## The timer set -/

theorem sweep_fst (now : Nat) (ts : List (Nat × Handle)) :
    (Scheduler.sweep now ts).1
      = (ts.takeWhile (fun e => decide (e.1 ≤ now))).map Prod.snd := by
  induction ts with
  | nil => rfl
  | cons e es ih =>
    by_cases h : e.1 ≤ now
    · simp only [Scheduler.sweep, h, if_true, ih]
      rw [List.takeWhile_cons_of_pos (by simpa using h)]
      rfl
    · simp only [Scheduler.sweep, h, if_false]
      rw [List.takeWhile_cons_of_neg (by simpa using h)]
      rfl

theorem sweep_snd (now : Nat) (ts : List (Nat × Handle)) :
    (Scheduler.sweep now ts).2 = ts.dropWhile (fun e => decide (e.1 ≤ now)) := by
  induction ts with
  | nil => rfl
  | cons e es ih =>
    by_cases h : e.1 ≤ now
    · simp only [Scheduler.sweep, h, if_true, ih]
      rw [List.dropWhile_cons_of_pos (by simpa using h)]
    · simp only [Scheduler.sweep, h, if_false]
      rw [List.dropWhile_cons_of_neg (by simpa using h)]

theorem sorted_takeWhile (now : Nat) (ts : List (Nat × Handle))
    (hs : ts.Pairwise (fun a b => a.1 ≤ b.1)) :
    ts.takeWhile (fun e => decide (e.1 ≤ now)) = ts.filter (fun e => decide (e.1 ≤ now)) := by
  induction ts with
  | nil => rfl
  | cons e es ih =>
    rw [List.pairwise_cons] at hs
    by_cases h : e.1 ≤ now
    · rw [List.takeWhile_cons_of_pos (by simpa using h), List.filter_cons_of_pos (by simpa using h),
        ih hs.2]
    · rw [List.takeWhile_cons_of_neg (by simpa using h), List.filter_cons_of_neg (by simpa using h)]
      symm
      rw [List.filter_eq_nil_iff]
      intro a ha
      have := hs.1 a ha
      simp only [decide_eq_true_eq]
      omega

theorem sorted_dropWhile (now : Nat) (ts : List (Nat × Handle))
    (hs : ts.Pairwise (fun a b => a.1 ≤ b.1)) :
    ts.dropWhile (fun e => decide (e.1 ≤ now)) = ts.filter (fun e => decide (now < e.1)) := by
  induction ts with
  | nil => rfl
  | cons e es ih =>
    rw [List.pairwise_cons] at hs
    by_cases h : e.1 ≤ now
    · rw [List.dropWhile_cons_of_pos (by simpa using h),
        List.filter_cons_of_neg (by simpa using h), ih hs.2]
    · rw [List.dropWhile_cons_of_neg (by simpa using h),
        List.filter_cons_of_pos (by simpa using h)]
      congr 1
      symm
      rw [List.filter_eq_self]
      intro a ha
      have := hs.1 a ha
      simp only [decide_eq_true_eq]
      omega

theorem mem_timersEmplace (tp : Nat) (h : Handle) (ts : List (Nat × Handle))
    (x : Nat × Handle) :
    x ∈ Scheduler.timersEmplace tp h ts ↔ x = (tp, h) ∨ x ∈ ts := by
  induction ts with
  | nil => simp [Scheduler.timersEmplace]
  | cons e es ih =>
    by_cases hlt : tp < e.1
    · simp [Scheduler.timersEmplace, hlt]
    · simp only [Scheduler.timersEmplace, hlt, if_false, List.mem_cons, ih]
      constructor
      · rintro (h1 | h1 | h1)
        · exact Or.inr (Or.inl h1)
        · exact Or.inl h1
        · exact Or.inr (Or.inr h1)
      · rintro (h1 | h1 | h1)
        · exact Or.inr (Or.inl h1)
        · exact Or.inl h1
        · exact Or.inr (Or.inr h1)

theorem timersEmplace_sorted (tp : Nat) (h : Handle) (ts : List (Nat × Handle))
    (hs : ts.Pairwise (fun a b => a.1 ≤ b.1)) :
    (Scheduler.timersEmplace tp h ts).Pairwise (fun a b => a.1 ≤ b.1) := by
  induction ts with
  | nil => simp [Scheduler.timersEmplace]
  | cons e es ih =>
    have hs2 := List.pairwise_cons.mp hs
    by_cases hlt : tp < e.1
    · simp only [Scheduler.timersEmplace, hlt, if_true]
      refine List.pairwise_cons.mpr ⟨?_, hs⟩
      intro a ha
      rcases List.mem_cons.mp ha with e1 | e1
      · subst e1
        exact Nat.le_of_lt hlt
      · have := hs2.1 a e1
        show tp ≤ a.1
        omega
    · simp only [Scheduler.timersEmplace, hlt, if_false]
      refine List.pairwise_cons.mpr ⟨?_, ih hs2.2⟩
      intro a ha
      rcases (mem_timersEmplace tp h es a).mp ha with e1 | e1
      · subst e1
        show e.1 ≤ tp
        omega
      · exact hs2.1 a e1

theorem timersEmplace_split (tp : Nat) (h : Handle) (ts : List (Nat × Handle)) :
    Scheduler.timersEmplace tp h ts
      = ts.takeWhile (fun e => decide (e.1 ≤ tp)) ++
        (tp, h) :: ts.dropWhile (fun e => decide (e.1 ≤ tp)) := by
  induction ts with
  | nil => rfl
  | cons e es ih =>
    by_cases hlt : tp < e.1
    · have hn : ¬ e.1 ≤ tp := by omega
      simp only [Scheduler.timersEmplace, hlt, if_true]
      rw [List.takeWhile_cons_of_neg (by simpa using hn),
        List.dropWhile_cons_of_neg (by simpa using hn)]
      rfl
    · have hp : e.1 ≤ tp := by omega
      simp only [Scheduler.timersEmplace, hlt, if_false]
      rw [List.takeWhile_cons_of_pos (by simpa using hp),
        List.dropWhile_cons_of_pos (by simpa using hp), ih]
      rfl

theorem timersEmplace_filter (tp : Nat) (h : Handle) (ts : List (Nat × Handle))
    (hs : ts.Pairwise (fun a b => a.1 ≤ b.1)) (d : Nat) :
    (Scheduler.timersEmplace tp h ts).filter (fun e => decide (e.1 = d))
      = ts.filter (fun e => decide (e.1 = d)) ++
        [(tp, h)].filter (fun e => decide (e.1 = d)) := by
  induction ts with
  | nil => rfl
  | cons e es ih =>
    have hs2 := List.pairwise_cons.mp hs
    by_cases hlt : tp < e.1
    · simp only [Scheduler.timersEmplace, hlt, if_true]
      by_cases htd : tp = d
      · have hnil : (e :: es).filter (fun x => decide (x.1 = d)) = [] := by
          rw [List.filter_eq_nil_iff]
          intro a ha
          simp only [decide_eq_true_eq]
          rcases List.mem_cons.mp ha with e1 | e1
          · subst e1; omega
          · have := hs2.1 a e1; omega
        rw [List.filter_cons_of_pos (by simpa using htd), hnil,
          List.filter_cons_of_pos (by simpa using htd)]
        rfl
      · simp [List.filter_cons, htd]
    · simp only [Scheduler.timersEmplace, hlt, if_false, List.filter_cons, ih hs2.2]
      split <;> simp

theorem filter_swap (p q : Nat × Handle → Bool) (l : List (Nat × Handle)) :
    (l.filter p).filter q = (l.filter q).filter p := by
  rw [List.filter_filter, List.filter_filter]
  congr 1
  funext a
  exact Bool.and_comm _ _

theorem stable_nil : TimerStable [] [] :=
  ⟨List.Pairwise.nil, fun _ => rfl⟩

theorem stable_emplace (ps ts : List (Nat × Handle)) (tp : Nat) (h : Handle)
    (hst : TimerStable ps ts) :
    TimerStable (ps ++ [(tp, h)]) (Scheduler.timersEmplace tp h ts) :=
  ⟨timersEmplace_sorted tp h ts hst.1, fun d => by
    rw [timersEmplace_filter tp h ts hst.1 d, hst.2 d, List.filter_append]⟩

theorem stable_sweep (ps ts : List (Nat × Handle)) (now : Nat) (hst : TimerStable ps ts) :
    TimerStable (ps.filter (fun e => decide (now < e.1))) (Scheduler.sweep now ts).2 := by
  rw [sweep_snd, sorted_dropWhile now ts hst.1]
  refine ⟨hst.1.filter _, fun d => ?_⟩
  rw [filter_swap, filter_swap _ _ ps, hst.2 d]

theorem stable_run (cs : List TimerCall) :
    ∀ (s : Scheduler) (ps : List (Nat × Handle)), TimerStable ps s.timers →
      TimerStable (timerPending ps cs) (s.timerRun cs).timers := by
  induction cs with
  | nil => intro s ps h; exact h
  | cons c cs ih =>
    intro s ps h
    cases c with
    | schedule now hd d =>
      exact ih _ _ (stable_emplace ps s.timers (now + d) hd h)
    | sweep now =>
      exact ih _ _ (stable_sweep ps s.timers now h)


/-- The second part of the loop body on a well-formed and clean queue: when it returns, the
handles collected by the sweep were appended to the queue in the order of their collection,
the collected entries left the timer set, and the world and the batch are as before. -/
theorem promote_spec (k now fuel : Nat) (m m2 : LoopState) (hq : m.sched.queue.WF k)
    (hc : m.sched.queue.Clean) (hp : Scheduler.promote now fuel m = .ok m2) :
    m2.world = m.world ∧ m2.batch = m.batch ∧
    m2.sched.timers = (Scheduler.sweep now m.sched.timers).2 ∧
    m2.sched.running = m.sched.running ∧
    m2.sched.queue.WF k ∧ m2.sched.queue.Clean ∧
    m2.sched.queue.live = m.sched.queue.live ++
      (Scheduler.sweep now m.sched.timers).1.map (fun h => Task.mk (some h)) := by
  unfold Scheduler.promote at hp
  simp only at hp
  cases hen : Scheduler.enqueueAll fuel (Scheduler.sweep now m.sched.timers).1
      { m.sched with timers := (Scheduler.sweep now m.sched.timers).2 } m.world with
  | error e => rw [hen] at hp; cases hp
  | ok sw =>
    rw [hen] at hp
    cases hp
    obtain ⟨r1, r2, r3, r4, r5, r6, _⟩ :=
      (enqueueAll_spec k fuel (Scheduler.sweep now m.sched.timers).1
        { m.sched with timers := (Scheduler.sweep now m.sched.timers).2 } m.world hq hc).1
        sw hen
    exact ⟨r1, rfl, r4, r5, r2, r3, r6⟩

theorem sweep_partition (s : Scheduler) (hs : s.timers = []) (cs : List TimerCall)
    (now : Nat) :
    (Scheduler.sweep now (s.timerRun cs).timers).1
      = ((s.timerRun cs).timers.filter (fun e => decide (e.1 ≤ now))).map Prod.snd ∧
    (Scheduler.sweep now (s.timerRun cs).timers).2
      = (s.timerRun cs).timers.filter (fun e => decide (now < e.1)) ∧
    (s.timerRun cs).timers.filter (fun e => decide (e.1 ≤ now)) ++
      (Scheduler.sweep now (s.timerRun cs).timers).2 = (s.timerRun cs).timers ∧
    ((s.timerRun cs).timers.filter (fun e => decide (e.1 ≤ now)) ++
      (Scheduler.sweep now (s.timerRun cs).timers).2).Perm (s.timerRun cs).timers := by
  have hst : TimerStable (timerPending [] cs) (s.timerRun cs).timers :=
    stable_run cs s [] (by rw [hs]; exact stable_nil)
  have h1 := sweep_fst now (s.timerRun cs).timers
  have h2 := sweep_snd now (s.timerRun cs).timers
  have h3 := sorted_takeWhile now _ hst.1
  have h4 := sorted_dropWhile now _ hst.1
  have h5 : (s.timerRun cs).timers.filter (fun e => decide (e.1 ≤ now)) ++
      (Scheduler.sweep now (s.timerRun cs).timers).2 = (s.timerRun cs).timers := by
    rw [h2, ← h3, List.takeWhile_append_dropWhile]
  exact ⟨by rw [h1, h3], by rw [h2, h4], h5, by rw [h5]⟩

/-- C15 (timer sweep). After any run of `schedule_after` calls and sweeps on an empty timer
set, a sweep at clock reading `now` collects the handles of exactly the entries with
`deadline <= now`, in the order of the set, and leaves exactly the entries with
`deadline > now`; the collected entries followed by the entries left are the set as it
was, so nothing is dropped or duplicated. -/
theorem C15_sweep_partition (s : Scheduler) (hs : s.timers = []) (cs : List TimerCall)
    (now : Nat) :
    (Scheduler.sweep now (s.timerRun cs).timers).1
      = ((s.timerRun cs).timers.filter (fun e => decide (e.1 ≤ now))).map Prod.snd ∧
    (Scheduler.sweep now (s.timerRun cs).timers).2
      = (s.timerRun cs).timers.filter (fun e => decide (now < e.1)) ∧
    (s.timerRun cs).timers.filter (fun e => decide (e.1 ≤ now)) ++
      (Scheduler.sweep now (s.timerRun cs).timers).2 = (s.timerRun cs).timers ∧
    ((s.timerRun cs).timers.filter (fun e => decide (e.1 ≤ now)) ++
      (Scheduler.sweep now (s.timerRun cs).timers).2).Perm (s.timerRun cs).timers :=
  sweep_partition s hs cs now

/-- C15 on a timer set built by four calls and swept once before the sweep at time 30:
the entries (10, 2) and (30, 0) are collected, (50, 1) stays. -/
theorem C15_sweep_partition_witness :
    ({ exampleLoop.sched with timers := [] } : Scheduler).timers = [] ∧
    (Scheduler.sweep 30
        (Scheduler.timerRun { exampleLoop.sched with timers := [] }
          [.schedule 0 1 50, .schedule 0 2 10, .schedule 0 3 5, .sweep 7,
           .schedule 8 0 22]).timers).1
      = ((Scheduler.timerRun { exampleLoop.sched with timers := [] }
          [.schedule 0 1 50, .schedule 0 2 10, .schedule 0 3 5, .sweep 7,
           .schedule 8 0 22]).timers.filter (fun e => decide (e.1 ≤ 30))).map Prod.snd ∧
    (Scheduler.sweep 30
        (Scheduler.timerRun { exampleLoop.sched with timers := [] }
          [.schedule 0 1 50, .schedule 0 2 10, .schedule 0 3 5, .sweep 7,
           .schedule 8 0 22]).timers)
      = ([2, 0], [(50, 1)]) :=
  ⟨rfl,
   (C15_sweep_partition { exampleLoop.sched with timers := [] } rfl
      [.schedule 0 1 50, .schedule 0 2 10, .schedule 0 3 5, .sweep 7, .schedule 8 0 22] 30).1,
   rfl⟩

/-- C16 (timer order). After any run of `schedule_after` calls and sweeps on an empty timer
set, the entries `due` collected by a sweep at clock reading `now` are in non-decreasing
deadline order, and those of them with one same deadline are in the order in which their
`schedule_after` calls were made; the handles are collected in that order and, when the
re-enqueueing returns, stand in that order at the back of the ready queue. -/
theorem C16_timer_order (s : Scheduler) (hs : s.timers = []) (cs : List TimerCall)
    (now : Nat) :
    ∃ due, due ++ (Scheduler.sweep now (s.timerRun cs).timers).2 = (s.timerRun cs).timers ∧
      (Scheduler.sweep now (s.timerRun cs).timers).1 = due.map Prod.snd ∧
      due.Pairwise (fun a b => a.1 ≤ b.1) ∧
      (∀ d, due.filter (fun e => decide (e.1 = d))
        = ((timerPending [] cs).filter (fun e => decide (e.1 ≤ now))).filter
            (fun e => decide (e.1 = d))) ∧
      (∀ k fuel m m2, m.sched.timers = (s.timerRun cs).timers → m.sched.queue.WF k →
        m.sched.queue.Clean → Scheduler.promote now fuel m = .ok m2 →
        m2.sched.queue.live
          = m.sched.queue.live ++ due.map (fun e => Task.mk (some e.2))) := by
  have hst : TimerStable (timerPending [] cs) (s.timerRun cs).timers :=
    stable_run cs s [] (by rw [hs]; exact stable_nil)
  obtain ⟨c1, _, c3, _⟩ := sweep_partition s hs cs now
  refine ⟨(s.timerRun cs).timers.filter (fun e => decide (e.1 ≤ now)), c3, c1,
    hst.1.filter _, fun d => ?_, ?_⟩
  · rw [filter_swap, hst.2 d, filter_swap]
  · intro k fuel m m2 ht hq hc hp
    obtain ⟨_, _, _, _, _, _, r7⟩ := promote_spec k now fuel m m2 hq hc hp
    rw [r7, ht, c1, List.map_map]
    rfl

/-- C16 on three calls, two of them with the deadline 10: the sweep at time 20 collects
handle 2 before handle 3, as they were registered, and leaves the entry of handle 1. -/
theorem C16_timer_order_witness :
    ({ exampleLoop.sched with timers := [] } : Scheduler).timers = [] ∧
    (∃ due, due ++ (Scheduler.sweep 20
          (Scheduler.timerRun { exampleLoop.sched with timers := [] }
            [.schedule 0 1 50, .schedule 0 2 10, .schedule 4 3 6]).timers).2
        = (Scheduler.timerRun { exampleLoop.sched with timers := [] }
            [.schedule 0 1 50, .schedule 0 2 10, .schedule 4 3 6]).timers ∧
      (Scheduler.sweep 20
          (Scheduler.timerRun { exampleLoop.sched with timers := [] }
            [.schedule 0 1 50, .schedule 0 2 10, .schedule 4 3 6]).timers).1
        = due.map Prod.snd ∧
      due.Pairwise (fun a b => a.1 ≤ b.1) ∧
      (∀ d, due.filter (fun e => decide (e.1 = d))
        = ((timerPending [] [.schedule 0 1 50, .schedule 0 2 10, .schedule 4 3 6]).filter
            (fun e => decide (e.1 ≤ 20))).filter (fun e => decide (e.1 = d))) ∧
      (∀ k fuel m m2, m.sched.timers
          = (Scheduler.timerRun { exampleLoop.sched with timers := [] }
              [.schedule 0 1 50, .schedule 0 2 10, .schedule 4 3 6]).timers →
        m.sched.queue.WF k → m.sched.queue.Clean → Scheduler.promote 20 fuel m = .ok m2 →
        m2.sched.queue.live
          = m.sched.queue.live ++ due.map (fun e => Task.mk (some e.2)))) ∧
    Scheduler.sweep 20
        (Scheduler.timerRun { exampleLoop.sched with timers := [] }
          [.schedule 0 1 50, .schedule 0 2 10, .schedule 4 3 6]).timers
      = ([2, 3], [(50, 1)]) :=
  ⟨rfl,
   C16_timer_order { exampleLoop.sched with timers := [] } rfl
    [.schedule 0 1 50, .schedule 0 2 10, .schedule 4 3 6] 20,
   rfl⟩

/-- The loop body on a well-formed and clean queue when no timer is registered. -/
theorem body_no_timers (k now fuel : Nat) (m : LoopState) (hq : m.sched.queue.WF k)
    (hc : m.sched.queue.Clean) (ht : m.sched.timers = []) :
    ∃ q2, q2.WF k ∧ q2.Clean ∧
      q2.live = m.sched.queue.live.drop (min 64 m.sched.queue.size) ∧
      q2.size + min 64 m.sched.queue.size = m.sched.queue.size ∧
      Scheduler.run_loop_body now fuel m =
        match World.destroyAll (Task.destructAll m.batch) m.world with
        | .error e => .error e
        | .ok w1 =>
          match Task.resumeAll (m.sched.queue.live.take (min 64 m.sched.queue.size)) w1 with
          | .error e => .error e
          | .ok w3 =>
            .ok { sched := { queue := q2, running := m.sched.running, timers := [] },
                  batch := if min 64 m.sched.queue.size = 0
                           then List.replicate 64 Task.empty
                           else m.sched.queue.live.take (min 64 m.sched.queue.size),
                  world := w3 } := by
  obtain ⟨q2, wf2, cl2, lv2, sz2, hdrain⟩ := drain_spec k m hq hc
  simp only [Scheduler.BATCH] at lv2 sz2 hdrain
  refine ⟨q2, wf2, cl2, lv2, sz2, ?_⟩
  unfold Scheduler.run_loop_body
  rw [hdrain]
  cases World.destroyAll (Task.destructAll m.batch) m.world with
  | error e => rfl
  | ok w1 =>
    simp only
    cases Task.resumeAll (m.sched.queue.live.take (min 64 m.sched.queue.size)) w1 with
    | error e => rfl
    | ok w3 => simp only [Scheduler.promote, ht, sweep_nil, Scheduler.enqueueAll]

/-- A loop state with nothing to do: empty queue, no timers, no handle in the batch. -/
theorem idle_run (k fuel : Nat) (clock : List Nat) :
    ∀ (m : LoopState), m.sched.queue.WF k → m.sched.queue.Clean → m.sched.queue.size = 0 →
      m.sched.timers = [] → Task.destructAll m.batch = [] →
      ∃ m2, Scheduler.run_loop fuel clock m = .ok m2 ∧ m2.world = m.world ∧
        m2.sched.queue.live = [] ∧ m2.sched.timers = [] ∧ Task.destructAll m2.batch = [] := by
  induction clock with
  | nil =>
    intro m _ _ hz ht hb
    refine ⟨m, rfl, rfl, ?_, ht, hb⟩
    have := live_length m.sched.queue
    rw [hz] at this
    exact List.length_eq_zero.mp this
  | cons now clock ih =>
    intro m hq hc hz ht hb
    by_cases hrun : m.sched.running = true
    · obtain ⟨q2, wf2, cl2, lv2, sz2, hbody⟩ := body_no_timers k now fuel m hq hc ht
      rw [hb, hz] at hbody
      simp only [World.destroyAll, Nat.min_zero, List.take_zero, Task.resumeAll, if_true]
        at hbody
      rw [hz] at sz2
      obtain ⟨m2, e2, r1, r2, r3, r4⟩ :=
        ih { sched := { queue := q2, running := m.sched.running, timers := [] },
             batch := List.replicate 64 Task.empty, world := m.world }
          wf2 cl2 (by show q2.size = 0; omega) rfl (destructAll_replicate_empty 64)
      rw [hrun] at e2
      exact ⟨m2, by simp only [Scheduler.run_loop, hrun, if_true, hbody, e2], r1, r2, r3, r4⟩
    · refine ⟨{ m with batch := [], world := m.world }, ?_, rfl, ?_, ht, rfl⟩
      · simp only [Scheduler.run_loop, hrun, hb, World.destroyAll]
        rfl
      · have := live_length m.sched.queue
        rw [hz] at this
        exact List.length_eq_zero.mp this


/-! ## One iteration under exclusive ownership -/

/-- One iteration of the loop when the handles of the old batch and of the entries it
drains are pairwise distinct and have live frames, and the queue has room for the promoted
handles: the iteration returns, and the state it leaves is described in full. -/
theorem body_step (k now fuel : Nat) (m : LoopState) (hq : m.sched.queue.WF k)
    (hc : m.sched.queue.Clean)
    (hnd : (Task.destructAll m.batch ++
      Task.destructAll (m.sched.queue.live.take (min 64 m.sched.queue.size))).Nodup)
    (hal : ∀ h ∈ Task.destructAll m.batch ++
      Task.destructAll (m.sched.queue.live.take (min 64 m.sched.queue.size)),
      m.world.alive h)
    (hfuel : 1 ≤ fuel)
    (hroom : m.sched.queue.size - min 64 m.sched.queue.size
      + (Scheduler.sweep now m.sched.timers).1.length ≤ 2 ^ k - 1) :
    ∃ m2, Scheduler.run_loop_body now fuel m = .ok m2 ∧
      m2.sched.queue.WF k ∧ m2.sched.queue.Clean ∧
      m2.sched.running = m.sched.running ∧
      m2.sched.timers = (Scheduler.sweep now m.sched.timers).2 ∧
      m2.sched.queue.live = m.sched.queue.live.drop (min 64 m.sched.queue.size) ++
        (Scheduler.sweep now m.sched.timers).1.map (fun h => Task.mk (some h)) ∧
      Task.destructAll m2.batch
        = Task.destructAll (m.sched.queue.live.take (min 64 m.sched.queue.size)) ∧
      m2.world.resumed = m.world.resumed ++
        (Task.destructAll (m.sched.queue.live.take (min 64 m.sched.queue.size))).filter
          m.world.suspendedAt ∧
      m2.world.destroyed = m.world.destroyed ++ Task.destructAll m.batch ∧
      (∀ h, h ∉ Task.destructAll m.batch →
        h ∉ Task.destructAll (m.sched.queue.live.take (min 64 m.sched.queue.size)) →
        m2.world.frames[h]? = m.world.frames[h]?) ∧
      (∀ h ∈ Task.destructAll (m.sched.queue.live.take (min 64 m.sched.queue.size)),
        m2.world.alive h) ∧
      (∀ h ∈ Task.destructAll m.batch, m2.world.frames[h]? = some none) := by
  obtain ⟨q2, wf2, cl2, lv2, sz2, hdrain⟩ := drain_spec k m hq hc
  simp only [Scheduler.BATCH] at lv2 sz2 hdrain
  have hnd1 := (List.nodup_append.mp hnd)
  obtain ⟨w1, hd, _, d2, d3, _, d5, d6⟩ :=
    destroyAll_spec (Task.destructAll m.batch) m.world hnd1.1
      (fun h hh => hal h (List.mem_append_left _ hh))
  have hsame : ∀ h ∈ Task.destructAll
      (m.sched.queue.live.take (min 64 m.sched.queue.size)),
      w1.frames[h]? = m.world.frames[h]? :=
    fun h hh => d5 h (fun hb => hnd1.2.2 hb hh)
  obtain ⟨w3, hres, c1, _, _, c3, _, c5, c6⟩ :=
    resumeAll_spec (m.sched.queue.live.take (min 64 m.sched.queue.size)) w1 hnd1.2.1
      (fun h hh => by
        obtain ⟨f, hf⟩ := hal h (List.mem_append_right _ hh)
        exact ⟨f, by rw [hsame h hh, hf]⟩)
  obtain ⟨sw, hen⟩ := (enqueueAll_spec k fuel (Scheduler.sweep now m.sched.timers).1
    { queue := q2, running := m.sched.running,
      timers := (Scheduler.sweep now m.sched.timers).2 } w3 wf2 cl2).2 hfuel
      (by show q2.size + _ ≤ _; omega)
  obtain ⟨r1, r2, r3, r4, r5, r6, _⟩ := (enqueueAll_spec k fuel _ _ w3 wf2 cl2).1 sw hen
  refine ⟨{ sched := sw.1,
            batch := if min 64 m.sched.queue.size = 0 then List.replicate 64 Task.empty
                     else m.sched.queue.live.take (min 64 m.sched.queue.size),
            world := sw.2 }, ?_, r2, r3, r5, r4, ?_, ?_, ?_, ?_, ?_, ?_, ?_⟩
  · unfold Scheduler.run_loop_body
    rw [hdrain, hd]
    simp only [hres, Scheduler.promote, hen]
  · show sw.1.queue.live = _
    rw [r6]
    show q2.live ++ _ = _
    rw [lv2]
  · show Task.destructAll (if _ then _ else _) = _
    by_cases h0 : min 64 m.sched.queue.size = 0
    · rw [if_pos h0, h0, List.take_zero, destructAll_replicate_empty]
      rfl
    · rw [if_neg h0]
  · show sw.2.resumed = _
    rw [r1, c3, d2]
    congr 1
    exact List.filter_congr (fun h hh => by simp only [World.suspendedAt, hsame h hh])
  · show sw.2.destroyed = _
    rw [r1, c1, d3]
  · intro h hb ht
    show sw.2.frames[h]? = _
    rw [r1, c5 h ht, d5 h hb]
  · intro h hh
    show sw.2.alive h
    rw [r1]
    obtain ⟨f, hf⟩ := hal h (List.mem_append_right _ hh)
    exact ⟨f.after, c6 h f hh (by rw [hsame h hh, hf])⟩
  · intro h hb
    show sw.2.frames[h]? = _
    rw [r1, c5 h (fun ht => hnd1.2.2 hb ht), d6 h hb]


theorem destructAll_take_sublist (l : List Task) (n : Nat) :
    (Task.destructAll (l.take n)).Sublist (Task.destructAll l) :=
  (List.take_sublist n l).filterMap _

theorem destructAll_map_mk (hs : List Handle) :
    Task.destructAll (hs.map (fun h => Task.mk (some h))) = hs := by
  induction hs with
  | nil => rfl
  | cons h hs ih =>
    show h :: Task.destructAll (hs.map (fun h => Task.mk (some h))) = _
    rw [ih]

/-- What an iteration that returns went through: the drain, then the promotion on the state
the drain left. -/
theorem body_split (k now fuel : Nat) (m m2 : LoopState) (hq : m.sched.queue.WF k)
    (hc : m.sched.queue.Clean) (hrun : Scheduler.run_loop_body now fuel m = .ok m2) :
    ∃ m1, Scheduler.drain m = .ok m1 ∧ Scheduler.promote now fuel m1 = .ok m2 ∧
      m1.sched.queue.WF k ∧ m1.sched.queue.Clean ∧
      m1.sched.timers = m.sched.timers ∧
      m1.sched.queue.live = m.sched.queue.live.drop (min 64 m.sched.queue.size) ∧
      ∃ extra, m1.world.resumed = m.world.resumed ++ extra ∧
        extra.Sublist
          (Task.destructAll (m.sched.queue.live.take (min 64 m.sched.queue.size))) := by
  obtain ⟨q2, wf2, cl2, lv2, sz2, hdrain⟩ := drain_spec k m hq hc
  simp only [Scheduler.BATCH] at lv2 sz2 hdrain
  unfold Scheduler.run_loop_body at hrun
  cases hd : World.destroyAll (Task.destructAll m.batch) m.world with
  | error e =>
    rw [hdrain, hd] at hrun
    cases hrun
  | ok w1 =>
    cases hres : Task.resumeAll (m.sched.queue.live.take (min 64 m.sched.queue.size)) w1 with
    | error e =>
      rw [hdrain, hd] at hrun
      simp only [hres] at hrun
      cases hrun
    | ok w3 =>
      rw [hd] at hdrain
      simp only [hres] at hdrain
      rw [hdrain] at hrun
      obtain ⟨extra, x1, x2⟩ := resumeAll_log _ w1 w3 hres
      exact ⟨_, hdrain, hrun, wf2, cl2, rfl, lv2, extra,
        by rw [x1, destroyAll_resumed _ _ _ hd], x2⟩


/-! ## Timers served by the loop -/

theorem timersEmplace_perm (tp : Nat) (h : Handle) (ts : List (Nat × Handle)) :
    (Scheduler.timersEmplace tp h ts).Perm (ts ++ [(tp, h)]) := by
  rw [timersEmplace_split]
  refine List.perm_middle.trans ?_
  rw [List.takeWhile_append_dropWhile]
  exact (List.perm_append_singleton _ _).symm

/-- C19 (promoted handles wait for a later iteration). Let the ready queue be well formed
and clean, `c = min(64, size)` and `P` the handles that the sweep of this iteration takes
from the timer set.
First part: `spawn` is `enqueue_resume` on the handle of the frame it has just created, so
both go through the same push loop.
Second part: an iteration that returns is the drain followed by the promotion on the state
the drain left; the promotion changes neither the world nor the batch, so every resumption
of the iteration is one of the drain, among the handles of the `c` oldest entries of the
queue; and the queue ends as the entries not drained, in order, followed by `P`.
Third part: when the handles of the old batch, of the queue and of `P` are pairwise
distinct and have live frames and the queue has room for `P`, the iteration returns, no
handle of `P` is among the resumptions it logs, and the next iteration, if the queue has
room for what it promotes, returns and resumes the not yet complete ones among the first
`min(64, size)` entries of the queue that this iteration left, which holds `P` behind the
entries that were queued before. -/
theorem C19_promoted_later (k : Nat) (m : LoopState) (now fuel : Nat)
    (hq : m.sched.queue.WF k) (hc : m.sched.queue.Clean) :
    (∀ (s : Scheduler) (w : World) (func : String → Coroutine) (name : String),
      s.spawn w func name fuel
        = s.enqueue_resume (w.create (func name)).2 w.frames.length fuel) ∧
    (∀ m2, Scheduler.run_loop_body now fuel m = .ok m2 →
      ∃ m1, Scheduler.drain m = .ok m1 ∧ Scheduler.promote now fuel m1 = .ok m2 ∧
        m2.world = m1.world ∧ m2.batch = m1.batch ∧
        (∃ extra, m2.world.resumed = m.world.resumed ++ extra ∧
          extra.Sublist
            (Task.destructAll (m.sched.queue.live.take (min 64 m.sched.queue.size)))) ∧
        m2.sched.queue.live = m.sched.queue.live.drop (min 64 m.sched.queue.size) ++
          (Scheduler.sweep now m.sched.timers).1.map (fun h => Task.mk (some h))) ∧
    ((Task.destructAll m.batch ++ (Task.destructAll m.sched.queue.live ++
        (Scheduler.sweep now m.sched.timers).1)).Nodup →
      (∀ h ∈ Task.destructAll m.batch ++ (Task.destructAll m.sched.queue.live ++
        (Scheduler.sweep now m.sched.timers).1), m.world.alive h) →
      1 ≤ fuel →
      m.sched.queue.size - min 64 m.sched.queue.size
        + (Scheduler.sweep now m.sched.timers).1.length ≤ 2 ^ k - 1 →
      ∃ m2, Scheduler.run_loop_body now fuel m = .ok m2 ∧
        m2.world.resumed = m.world.resumed ++
          (Task.destructAll (m.sched.queue.live.take (min 64 m.sched.queue.size))).filter
            m.world.suspendedAt ∧
        (∀ h ∈ (Scheduler.sweep now m.sched.timers).1,
          h ∉ (Task.destructAll
            (m.sched.queue.live.take (min 64 m.sched.queue.size))).filter
              m.world.suspendedAt) ∧
        m2.sched.queue.live = m.sched.queue.live.drop (min 64 m.sched.queue.size) ++
          (Scheduler.sweep now m.sched.timers).1.map (fun h => Task.mk (some h)) ∧
        ∀ now2, m2.sched.queue.size - min 64 m2.sched.queue.size
            + (Scheduler.sweep now2 m2.sched.timers).1.length ≤ 2 ^ k - 1 →
          ∃ m3, Scheduler.run_loop_body now2 fuel m2 = .ok m3 ∧
            m3.world.resumed = m2.world.resumed ++
              (Task.destructAll ((m.sched.queue.live.drop (min 64 m.sched.queue.size) ++
                (Scheduler.sweep now m.sched.timers).1.map
                  (fun h => Task.mk (some h))).take (min 64 m2.sched.queue.size))).filter
                m.world.suspendedAt) := by
  refine ⟨fun s w func name => rfl, ?_, ?_⟩
  · intro m2 hrun
    obtain ⟨m1, hd, hp, wf1, cl1, ht1, lv1, extra, x1, x2⟩ :=
      body_split k now fuel m m2 hq hc hrun
    obtain ⟨p1, p2, _, _, _, _, p7⟩ := promote_spec k now fuel m1 m2 wf1 cl1 hp
    refine ⟨m1, hd, hp, p1, p2, ⟨extra, by rw [p1, x1], x2⟩, ?_⟩
    rw [p7, lv1, ht1]
  · intro hnd hal hfuel hroom
    have hsplit : Task.destructAll m.sched.queue.live
        = Task.destructAll (m.sched.queue.live.take (min 64 m.sched.queue.size)) ++
          Task.destructAll (m.sched.queue.live.drop (min 64 m.sched.queue.size)) := by
      rw [← destructAll_append, List.take_append_drop]
    obtain ⟨nb, nqp, dbq⟩ := List.nodup_append.mp hnd
    rw [hsplit, List.append_assoc] at nqp
    obtain ⟨nt, ndp, dtd⟩ := List.nodup_append.mp nqp
    have hsub : (Task.destructAll (m.sched.queue.live.take (min 64 m.sched.queue.size))).Sublist
        (Task.destructAll m.sched.queue.live ++ (Scheduler.sweep now m.sched.timers).1) :=
      (destructAll_take_sublist _ _).trans (List.sublist_append_left _ _)
    obtain ⟨m2, hrun, wf2, cl2, _, _, lv2, b2, r2, _, f2, a2, _⟩ :=
      body_step k now fuel m hq hc
        (List.nodup_append.mpr ⟨nb, nt, fun h hb ht => dbq hb (hsub.subset ht)⟩)
        (fun h hh => by
          rcases List.mem_append.mp hh with hb | ht
          · exact hal h (List.mem_append_left _ hb)
          · exact hal h (List.mem_append_right _ (hsub.subset ht)))
        hfuel hroom
    refine ⟨m2, hrun, r2, ?_, lv2, ?_⟩
    · intro h hp hf
      exact dtd (List.mem_filter.mp hf).1 (List.mem_append_right _ hp)
    · intro now2 hroom2
      have hsub2 : (Task.destructAll
          (m2.sched.queue.live.take (min 64 m2.sched.queue.size))).Sublist
          (Task.destructAll (m.sched.queue.live.drop (min 64 m.sched.queue.size)) ++
            (Scheduler.sweep now m.sched.timers).1) := by
        refine (destructAll_take_sublist _ _).trans ?_
        rw [lv2, destructAll_append, destructAll_map_mk]
      have hkeep : ∀ h ∈ Task.destructAll
          (m2.sched.queue.live.take (min 64 m2.sched.queue.size)),
          m2.world.frames[h]? = m.world.frames[h]? := by
        intro h hh
        have hdp := hsub2.subset hh
        refine f2 h (fun hb => dbq hb ?_) (fun ht => dtd ht hdp)
        rw [hsplit, List.append_assoc]
        exact List.mem_append_right _ hdp
      obtain ⟨m3, hrun3, _, _, _, _, _, _, r3, _⟩ :=
        body_step k now2 fuel m2 wf2 cl2
          (by
            rw [b2]
            exact List.nodup_append.mpr ⟨nt, ndp.sublist hsub2,
              fun h ht hh => dtd ht (hsub2.subset hh)⟩)
          (fun h hh => by
            rw [b2] at hh
            rcases List.mem_append.mp hh with ht | hq2
            · exact a2 h ht
            · obtain ⟨f, hf⟩ := hal h (by
                refine List.mem_append_right _ ?_
                rw [hsplit, List.append_assoc]
                exact List.mem_append_right _ (hsub2.subset hq2))
              exact ⟨f, by rw [hkeep h hq2, hf]⟩)
          hfuel hroom2
      refine ⟨m3, hrun3, ?_⟩
      rw [r3, ← lv2]
      congr 1
      exact List.filter_congr (fun h hh => by simp only [World.suspendedAt, hkeep h hh])


/-- C19 on `exampleLoop`: the iteration at time 10 resumes the queued handles 1 and 2 and
promotes handle 3, whose timer was due at 5, without resuming it; the iteration at time 12
resumes handle 3. -/
theorem C19_promoted_later_witness :
    (SpscQueue.WF 2 exampleLoop.sched.queue ∧ exampleLoop.sched.queue.Clean) ∧
    (Scheduler.sweep 10 exampleLoop.sched.timers).1 = [3] ∧
    (∃ m2, Scheduler.run_loop_body 10 1 exampleLoop = .ok m2 ∧
      m2.world.resumed = [0, 1, 2] ∧ m2.sched.queue.live = [⟨some 3⟩] ∧
      ∃ m3, Scheduler.run_loop_body 12 1 m2 = .ok m3 ∧
        m3.world.resumed = [0, 1, 2, 3]) := by
  have hq : SpscQueue.WF 2 exampleLoop.sched.queue :=
    ⟨by decide, rfl, rfl, rfl, by decide, by decide⟩
  have hc : exampleLoop.sched.queue.Clean := by
    unfold SpscQueue.Clean ringClean
    decide
  refine ⟨⟨hq, hc⟩, rfl, ?_⟩
  obtain ⟨m2, h1, h2, _, h4, h5⟩ :=
    (C19_promoted_later 2 exampleLoop 10 1 hq hc).2.2 (by decide)
      (fun h hh => by
        have hm : h ∈ [0, 1, 2, 3] := hh
        simp only [List.mem_cons, List.mem_singleton, List.not_mem_nil, or_false] at hm
        rcases hm with rfl | rfl | rfl | rfl <;> exact ⟨_, rfl⟩)
      (by decide) (by decide)
  have e2 : m2 =
      { sched := { queue := ⟨4, 3, [⟨none⟩, ⟨none⟩, ⟨none⟩, ⟨some 3⟩], 0, 3⟩,
                   running := true, timers := [(20, 0)] },
        batch := [⟨some 1⟩, ⟨some 2⟩],
        world := { frames := [none, some Frame.finished, some (Frame.suspended ⟨2⟩ []),
                              some (Frame.suspended ⟨4⟩ [])],
                   completed := 3, resumed := [0, 1, 2], destroyed := [0] } } :=
    Except.ok.inj (h1.symm.trans rfl)
  subst e2
  obtain ⟨m3, h6, h7⟩ := h5 12 (by decide)
  exact ⟨_, h1, rfl, rfl, m3, h6, h7⟩


/-! ## Exclusive ownership over runs of calls -/

/-- The push loop on a well-formed queue returns or runs out of attempts. -/
theorem push_retry_cases (k : Nat) (s : Scheduler) (w : World) (t : Task) (fuel : Nat)
    (hq : s.queue.WF k) (hc : s.queue.Clean) :
    (∃ r, s.push_retry w t fuel = .ok r) ∨ s.push_retry w t fuel = .error .noProgress := by
  by_cases hfree : s.queue.size < 2 ^ k - 1
  · cases fuel with
    | zero => exact Or.inr rfl
    | succ n =>
      obtain ⟨q2, e, _⟩ := push_retry_free k s w t n hq hc hfree
      exact Or.inl ⟨_, e⟩
  · have hlt := size_lt k s.queue hq
    exact Or.inr (push_retry_full k s w t hq (by omega) fuel)

/-- What `enqueue_resume` does on a well-formed and clean queue. -/
theorem enqueue_resume_cases (k : Nat) (s : Scheduler) (w : World) (h : Handle) (fuel : Nat)
    (hq : s.queue.WF k) (hc : s.queue.Clean) :
    (∃ q2, s.enqueue_resume w h fuel = .ok ({ s with queue := q2 }, w) ∧
      q2.WF k ∧ q2.Clean ∧ q2.live = s.queue.live ++ [⟨some h⟩]) ∨
    s.enqueue_resume w h fuel = .error .noProgress := by
  rcases push_retry_cases k s w ⟨some h⟩ fuel hq hc with ⟨r, hr⟩ | he
  · obtain ⟨_, _, q2, rfl, wf2, cl2, lv2, _⟩ := push_retry_ok k s w _ fuel hq hc r hr
    refine Or.inl ⟨q2, ?_, wf2, cl2, lv2⟩
    simp only [Scheduler.enqueue_resume, hr, Task.destruct, Task.empty]
  · exact Or.inr (by simp only [Scheduler.enqueue_resume, he])

/-- What `spawn` does on a well-formed and clean queue. -/
theorem spawn_cases (k : Nat) (s : Scheduler) (w : World) (func : String → Coroutine)
    (name : String) (fuel : Nat) (hq : s.queue.WF k) (hc : s.queue.Clean) :
    (∃ q2, s.spawn w func name fuel = .ok ({ s with queue := q2 }, (w.create (func name)).2) ∧
      q2.WF k ∧ q2.Clean ∧ q2.live = s.queue.live ++ [⟨some w.frames.length⟩]) ∨
    s.spawn w func name fuel = .error .noProgress :=
  enqueue_resume_cases k s (w.create (func name)).2 w.frames.length fuel hq hc

/-- The loop over the ready handles returns or runs out of attempts. -/
theorem enqueueAll_cases (k fuel : Nat) (hs : List Handle) :
    ∀ (s : Scheduler) (w : World), s.queue.WF k → s.queue.Clean →
      (∃ r, Scheduler.enqueueAll fuel hs s w = .ok r) ∨
      Scheduler.enqueueAll fuel hs s w = .error .noProgress := by
  induction hs with
  | nil => intro s w _ _; exact Or.inl ⟨_, rfl⟩
  | cons h hs ih =>
    intro s w hq hc
    rcases enqueue_resume_cases k s w h fuel hq hc with ⟨q2, e, wf2, cl2, _⟩ | he
    · rcases ih { s with queue := q2 } w wf2 cl2 with ⟨r, hr⟩ | hr
      · exact Or.inl ⟨r, by simp only [Scheduler.enqueueAll, e, hr]⟩
      · exact Or.inr (by simp only [Scheduler.enqueueAll, e, hr])
    · exact Or.inr (by simp only [Scheduler.enqueueAll, he])

/-- The drain of an iteration when the handles of the old batch and of the entries it
drains are pairwise distinct and have live frames: the drain returns, and the state it
leaves is described in full. -/
theorem drain_step (k : Nat) (m : LoopState) (hq : m.sched.queue.WF k)
    (hc : m.sched.queue.Clean)
    (hnd : (Task.destructAll m.batch ++
      Task.destructAll (m.sched.queue.live.take (min 64 m.sched.queue.size))).Nodup)
    (hal : ∀ h ∈ Task.destructAll m.batch ++
      Task.destructAll (m.sched.queue.live.take (min 64 m.sched.queue.size)),
      m.world.alive h) :
    ∃ m1, Scheduler.drain m = .ok m1 ∧
      m1.sched.queue.WF k ∧ m1.sched.queue.Clean ∧
      m1.sched.running = m.sched.running ∧ m1.sched.timers = m.sched.timers ∧
      m1.sched.queue.live = m.sched.queue.live.drop (min 64 m.sched.queue.size) ∧
      Task.destructAll m1.batch
        = Task.destructAll (m.sched.queue.live.take (min 64 m.sched.queue.size)) ∧
      m1.world.resumed = m.world.resumed ++
        (Task.destructAll (m.sched.queue.live.take (min 64 m.sched.queue.size))).filter
          m.world.suspendedAt ∧
      m1.world.destroyed = m.world.destroyed ++ Task.destructAll m.batch ∧
      (∀ h, h ∉ Task.destructAll m.batch →
        h ∉ Task.destructAll (m.sched.queue.live.take (min 64 m.sched.queue.size)) →
        m1.world.frames[h]? = m.world.frames[h]?) ∧
      (∀ h ∈ Task.destructAll (m.sched.queue.live.take (min 64 m.sched.queue.size)),
        m1.world.alive h) ∧
      (∀ h ∈ Task.destructAll m.batch, m1.world.frames[h]? = some none) := by
  obtain ⟨q2, wf2, cl2, lv2, sz2, hdrain⟩ := drain_spec k m hq hc
  simp only [Scheduler.BATCH] at lv2 sz2 hdrain
  have hnd1 := (List.nodup_append.mp hnd)
  obtain ⟨w1, hd, _, d2, d3, _, d5, d6⟩ :=
    destroyAll_spec (Task.destructAll m.batch) m.world hnd1.1
      (fun h hh => hal h (List.mem_append_left _ hh))
  have hsame : ∀ h ∈ Task.destructAll
      (m.sched.queue.live.take (min 64 m.sched.queue.size)),
      w1.frames[h]? = m.world.frames[h]? :=
    fun h hh => d5 h (fun hb => hnd1.2.2 hb hh)
  obtain ⟨w3, hres, c1, _, _, c3, _, c5, c6⟩ :=
    resumeAll_spec (m.sched.queue.live.take (min 64 m.sched.queue.size)) w1 hnd1.2.1
      (fun h hh => by
        obtain ⟨f, hf⟩ := hal h (List.mem_append_right _ hh)
        exact ⟨f, by rw [hsame h hh, hf]⟩)
  refine ⟨{ sched := { m.sched with queue := q2 },
            batch := if min 64 m.sched.queue.size = 0 then List.replicate 64 Task.empty
                     else m.sched.queue.live.take (min 64 m.sched.queue.size),
            world := w3 }, ?_, wf2, cl2, rfl, rfl, lv2, ?_, ?_, ?_, ?_, ?_, ?_⟩
  · rw [hdrain, hd]
    simp only [hres]
  · show Task.destructAll (if _ then _ else _) = _
    by_cases h0 : min 64 m.sched.queue.size = 0
    · rw [if_pos h0, h0, List.take_zero, destructAll_replicate_empty]
      rfl
    · rw [if_neg h0]
  · show w3.resumed = _
    rw [c3, d2]
    congr 1
    exact List.filter_congr (fun h hh => by simp only [World.suspendedAt, hsame h hh])
  · show w3.destroyed = _
    rw [c1, d3]
  · intro h hb ht
    show w3.frames[h]? = _
    rw [c5 h ht, d5 h hb]
  · intro h hh
    show w3.alive h
    obtain ⟨f, hf⟩ := hal h (List.mem_append_right _ hh)
    exact ⟨f.after, c6 h f hh (by rw [hsame h hh, hf])⟩
  · intro h hb
    show w3.frames[h]? = _
    rw [c5 h (fun ht => hnd1.2.2 hb ht), d6 h hb]


theorem alive_lt (w : World) (h : Handle) (ha : w.alive h) : h < w.frames.length := by
  obtain ⟨f, hf⟩ := ha
  by_contra hge
  rw [List.getElem?_eq_none (Nat.le_of_not_lt hge)] at hf
  cases hf

theorem sweep_map_snd (now : Nat) (ts : List (Nat × Handle)) :
    ts.map Prod.snd = (Scheduler.sweep now ts).1 ++ (Scheduler.sweep now ts).2.map Prod.snd := by
  rw [sweep_fst, sweep_snd, ← List.map_append, List.takeWhile_append_dropWhile]

/-- Releasing the batch keeps exclusive ownership: what `batch.clear()` and the destructor
of `batch` do. -/
theorem excl_release (k : Nat) (m : LoopState) (hex : Exclusive k m) :
    ∃ w1, World.destroyAll (Task.destructAll m.batch) m.world = .ok w1 ∧
      Exclusive k { m with batch := [], world := w1 } := by
  have hnd := hex.nodup
  have hal := hex.alive
  unfold LoopState.held at hnd hal
  rw [List.append_assoc] at hnd hal
  obtain ⟨nb, nrest, dis⟩ := List.nodup_append.mp hnd
  obtain ⟨w1, hd, _, _, d3, _, d5, d6⟩ :=
    destroyAll_spec (Task.destructAll m.batch) m.world nb
      (fun h hh => hal h (List.mem_append_left _ hh))
  have hdis : ∀ h ∈ m.world.destroyed, h ∉ Task.destructAll m.batch := by
    intro h hd hb
    obtain ⟨f, hf⟩ := hal h (List.mem_append_left _ hb)
    rw [hex.gone h hd] at hf
    cases hf
  refine ⟨w1, hd, hex.wf, hex.clean, ?_, ?_, ?_, ?_⟩
  · show (([] : List Handle) ++ Task.destructAll m.sched.queue.live ++ m.pending).Nodup
    rw [List.nil_append]
    exact nrest
  · intro h hh
    have hh2 : h ∈ Task.destructAll m.sched.queue.live ++ m.pending := by
      have : h ∈ ([] : List Handle) ++ Task.destructAll m.sched.queue.live ++ m.pending := hh
      rwa [List.nil_append] at this
    obtain ⟨f, hf⟩ := hal h (List.mem_append_right _ hh2)
    exact ⟨f, by
      show w1.frames[h]? = _
      rw [d5 h (fun hb => dis hb hh2), hf]⟩
  · show w1.destroyed.Nodup
    rw [d3]
    exact List.nodup_append.mpr ⟨hex.once, nb, fun h hd hb => hdis h hd hb⟩
  · intro h hh
    show w1.frames[h]? = some none
    have hh2 : h ∈ m.world.destroyed ++ Task.destructAll m.batch := by
      have : h ∈ w1.destroyed := hh
      rwa [d3] at this
    rcases List.mem_append.mp hh2 with hd | hb
    · rw [d5 h (hdis h hd)]
      exact hex.gone h hd
    · exact d6 h hb

/-- The body of the loop keeps exclusive ownership, and it returns unless the push loop of
a promoted handle runs out of attempts. -/
theorem excl_body (k now fuel : Nat) (m : LoopState) (hex : Exclusive k m) :
    (∃ m2, Scheduler.run_loop_body now fuel m = .ok m2 ∧ Exclusive k m2 ∧
      m2.sched.running = m.sched.running) ∨
    Scheduler.run_loop_body now fuel m = .error .noProgress := by
  have hnd := hex.nodup
  have hal := hex.alive
  have hL : Task.destructAll m.sched.queue.live
      = Task.destructAll (m.sched.queue.live.take (min 64 m.sched.queue.size)) ++
        Task.destructAll (m.sched.queue.live.drop (min 64 m.sched.queue.size)) := by
    rw [← destructAll_append, List.take_append_drop]
  unfold LoopState.held LoopState.pending at hnd hal
  rw [hL, sweep_map_snd now m.sched.timers] at hnd hal
  simp only [List.append_assoc] at hnd hal
  obtain ⟨nb, nrest, dis⟩ := List.nodup_append.mp hnd
  obtain ⟨nt, nrest2, dis2⟩ := List.nodup_append.mp nrest
  obtain ⟨m1, hdrain, wf1, cl1, run1, tim1, lv1, b1, _, des1, f1, a1, g1⟩ :=
    drain_step k m hex.wf hex.clean
      (List.nodup_append.mpr ⟨nb, nt, fun h hb ht => dis hb (List.mem_append_left _ ht)⟩)
      (fun h hh => by
        rcases List.mem_append.mp hh with hb | ht
        · exact hal h (List.mem_append_left _ hb)
        · exact hal h (List.mem_append_right _ (List.mem_append_left _ ht)))
  rcases enqueueAll_cases k fuel (Scheduler.sweep now m1.sched.timers).1
      { m1.sched with timers := (Scheduler.sweep now m1.sched.timers).2 } m1.world wf1 cl1
    with ⟨r, hr⟩ | he
  · have hp : Scheduler.promote now fuel m1
        = .ok { sched := r.1, batch := m1.batch, world := r.2 } := by
      simp only [Scheduler.promote, hr]
    obtain ⟨p1, p2, p3, p4, p5, p6, p7⟩ := promote_spec k now fuel m1 _ wf1 cl1 hp
    rw [tim1] at p3 p7
    have hdis : ∀ h ∈ m.world.destroyed, h ∉ Task.destructAll m.batch ∧
        h ∉ Task.destructAll (m.sched.queue.live.take (min 64 m.sched.queue.size)) := by
      intro h hd
      constructor
      · intro hb
        obtain ⟨f, hf⟩ := hal h (List.mem_append_left _ hb)
        rw [hex.gone h hd] at hf
        cases hf
      · intro ht
        obtain ⟨f, hf⟩ := hal h (List.mem_append_right _ (List.mem_append_left _ ht))
        rw [hex.gone h hd] at hf
        cases hf
    refine Or.inl ⟨_, by unfold Scheduler.run_loop_body; rw [hdrain]; exact hp,
      ⟨p5, p6, ?_, ?_, ?_, ?_⟩, p4.trans run1⟩
    · unfold LoopState.held LoopState.pending
      rw [p2, b1, p7, lv1, destructAll_append, destructAll_map_mk, p3]
      simp only [List.append_assoc]
      exact nrest
    · intro h hh
      unfold LoopState.held LoopState.pending at hh
      rw [p2, b1, p7, lv1, destructAll_append, destructAll_map_mk, p3] at hh
      simp only [List.append_assoc] at hh
      rw [p1]
      rcases List.mem_append.mp hh with ht | hrest
      · exact a1 h ht
      · obtain ⟨f, hf⟩ := hal h (List.mem_append_right _ (List.mem_append_right _ hrest))
        exact ⟨f, by
          rw [f1 h (fun hb => dis hb (List.mem_append_right _ hrest))
            (fun ht => dis2 ht hrest), hf]⟩
    · rw [p1, des1]
      exact List.nodup_append.mpr ⟨hex.once, nb, fun h hd hb => (hdis h hd).1 hb⟩
    · intro h hh
      rw [p1] at hh ⊢
      rw [des1] at hh
      rcases List.mem_append.mp hh with hd | hb
      · rw [f1 h (hdis h hd).1 (hdis h hd).2]
        exact hex.gone h hd
      · exact g1 h hb
  · exact Or.inr (by
      unfold Scheduler.run_loop_body
      rw [hdrain]
      simp only [Scheduler.promote, he])


/-- Exclusive ownership is kept when a handle that nothing holds is added at the back of
the queue, in a world that keeps the frames there were. -/
theorem excl_enqueue (k : Nat) (m : LoopState) (q2 : SpscQueue) (w2 : World) (a : Handle)
    (hex : Exclusive k m) (wf2 : q2.WF k) (cl2 : q2.Clean)
    (lv2 : q2.live = m.sched.queue.live ++ [⟨some a⟩])
    (hfr : ∀ h, h < m.world.frames.length → w2.frames[h]? = m.world.frames[h]?)
    (hdes : w2.destroyed = m.world.destroyed) (ha : w2.alive a)
    (hnew : a ∉ m.held ++ m.pending) :
    Exclusive k { m with sched := { m.sched with queue := q2 }, world := w2 } := by
  have hheld : LoopState.held { m with sched := { m.sched with queue := q2 }, world := w2 }
      ++ LoopState.pending { m with sched := { m.sched with queue := q2 }, world := w2 }
      = Task.destructAll m.batch ++ (Task.destructAll m.sched.queue.live ++
          (a :: m.pending)) := by
    show (Task.destructAll m.batch ++ Task.destructAll q2.live) ++ m.pending = _
    rw [lv2, destructAll_append]
    simp only [List.append_assoc]
    rfl
  have hold : m.held ++ m.pending = Task.destructAll m.batch ++
      (Task.destructAll m.sched.queue.live ++ m.pending) := by
    unfold LoopState.held
    rw [List.append_assoc]
  have hmem : ∀ h, h ∈ Task.destructAll m.batch ++ (Task.destructAll m.sched.queue.live ++
      (a :: m.pending)) ↔ h = a ∨ h ∈ m.held ++ m.pending := by
    intro h
    rw [hold]
    simp only [List.mem_append, List.mem_cons]
    tauto
  refine ⟨wf2, cl2, ?_, ?_, ?_, ?_⟩
  · rw [hheld, ← List.append_assoc, List.nodup_middle, List.append_assoc, ← hold]
    exact List.nodup_cons.mpr ⟨hnew, hex.nodup⟩
  · intro h hh
    rw [hheld] at hh
    rcases (hmem h).mp hh with rfl | hold2
    · exact ha
    · obtain ⟨f, hf⟩ := hex.alive h hold2
      exact ⟨f, by
        show w2.frames[h]? = _
        rw [hfr h (alive_lt _ _ ⟨f, hf⟩), hf]⟩
  · show w2.destroyed.Nodup
    rw [hdes]
    exact hex.once
  · intro h hh
    show w2.frames[h]? = some none
    have hd : h ∈ m.world.destroyed := by
      have : h ∈ w2.destroyed := hh
      rwa [hdes] at this
    have hg := hex.gone h hd
    have hlt : h < m.world.frames.length := by
      by_contra hge
      rw [List.getElem?_eq_none (Nat.le_of_not_lt hge)] at hg
      cases hg
    rw [hfr h hlt, hg]

/-- A call of `schedule_after` on a handle that nothing holds keeps exclusive ownership. -/
theorem excl_schedule (k : Nat) (m : LoopState) (now : Nat) (h : Handle) (d : Nat)
    (hex : Exclusive k m) (hun : m.unowned h) :
    Exclusive k { m with sched := m.sched.schedule_after now h d } := by
  have hp : (LoopState.pending { m with sched := m.sched.schedule_after now h d }).Perm
      (m.pending ++ [h]) := by
    show ((Scheduler.timersEmplace (now + d) h m.sched.timers).map Prod.snd).Perm _
    exact (timersEmplace_perm (now + d) h m.sched.timers).map Prod.snd |>.trans (by
      rw [List.map_append]
      exact List.Perm.refl _)
  have hall : (LoopState.held { m with sched := m.sched.schedule_after now h d } ++
      LoopState.pending { m with sched := m.sched.schedule_after now h d }).Perm
      (h :: (m.held ++ m.pending)) := by
    have h1 : (m.held ++ LoopState.pending
        { m with sched := m.sched.schedule_after now h d }).Perm
        (m.held ++ (m.pending ++ [h])) := hp.append_left _
    refine h1.trans ?_
    rw [← List.append_assoc]
    exact List.perm_append_singleton _ _
  refine ⟨hex.wf, hex.clean, hall.nodup_iff.mpr (List.nodup_cons.mpr ⟨hun.1, hex.nodup⟩),
    ?_, hex.once, hex.gone⟩
  intro x hx
  rcases List.mem_cons.mp (hall.subset hx) with rfl | hold
  · exact hun.2
  · exact hex.alive x hold

/-- Every call keeps exclusive ownership when the handles given to `schedule_after` and
`enqueue_resume` are held by nothing, and it returns unless a push loop runs out of
attempts; only `stop_scheduler` changes the flag `running`. -/
theorem excl_call (k fuel : Nat) (m : LoopState) (c : SchedCall) (hex : Exclusive k m)
    (hadm : m.admits c) :
    (∃ m2, Scheduler.call fuel m c = .ok m2 ∧ Exclusive k m2) ∨
    Scheduler.call fuel m c = .error .noProgress := by
  cases c with
  | spawn func name =>
    rcases spawn_cases k m.sched m.world func name fuel hex.wf hex.clean
      with ⟨q2, e, wf2, cl2, lv2⟩ | he
    · refine Or.inl ⟨{ m with sched := { m.sched with queue := q2 },
                              world := (m.world.create (func name)).2 },
        by simp only [Scheduler.call, e], ?_⟩
      refine excl_enqueue k m q2 _ m.world.frames.length hex wf2 cl2 lv2 ?_ rfl ?_ ?_
      · intro h hlt
        show (m.world.frames ++ _)[h]? = _
        exact List.getElem?_append_left hlt
      · refine ⟨Frame.suspended (func name).first (func name).rest, ?_⟩
        show (m.world.frames ++ _)[m.world.frames.length]? = _
        rw [List.getElem?_append_right (Nat.le_refl _)]
        simp
      · intro hin
        exact Nat.lt_irrefl _ (alive_lt _ _ (hex.alive _ hin))
    · exact Or.inr (by simp only [Scheduler.call, he])
  | schedule_after now h d =>
    exact Or.inl ⟨_, rfl, excl_schedule k m now h d hex hadm⟩
  | enqueue_resume h =>
    rcases enqueue_resume_cases k m.sched m.world h fuel hex.wf hex.clean
      with ⟨q2, e, wf2, cl2, lv2⟩ | he
    · refine Or.inl ⟨{ m with sched := { m.sched with queue := q2 }, world := m.world },
        by simp only [Scheduler.call, e], ?_⟩
      exact excl_enqueue k m q2 m.world h hex wf2 cl2 lv2 (fun _ _ => rfl) rfl hadm.2 hadm.1
    · exact Or.inr (by simp only [Scheduler.call, he])
  | run => exact Or.inl ⟨m, rfl, hex⟩
  | stop_scheduler =>
    exact Or.inl ⟨_, rfl, ⟨hex.wf, hex.clean, hex.nodup, hex.alive, hex.once, hex.gone⟩⟩
  | iterate now =>
    by_cases hrun : m.sched.running = true
    · rcases excl_body k now fuel m hex with ⟨m2, e, hex2, _⟩ | he
      · exact Or.inl ⟨m2, by simp only [Scheduler.call, Scheduler.run_loop, hrun, if_true, e],
          hex2⟩
      · exact Or.inr (by simp only [Scheduler.call, Scheduler.run_loop, hrun, if_true, he])
    · obtain ⟨w1, e, hex2⟩ := excl_release k m hex
      exact Or.inl ⟨_, by simp only [Scheduler.call, Scheduler.run_loop, hrun, e]; rfl, hex2⟩

/-- A run of calls keeps exclusive ownership when the handles given to `schedule_after` and
`enqueue_resume` are held by nothing, and it returns unless a push loop runs out of
attempts. -/
theorem excl_calls (k fuel : Nat) (cs : List SchedCall) :
    ∀ (m : LoopState), Exclusive k m → Scheduler.admissible fuel cs m →
      (∃ m2, Scheduler.calls fuel cs m = .ok m2 ∧ Exclusive k m2) ∨
      Scheduler.calls fuel cs m = .error .noProgress := by
  induction cs with
  | nil => intro m hex _; exact Or.inl ⟨m, rfl, hex⟩
  | cons c cs ih =>
    intro m hex hadm
    obtain ⟨h1, h2⟩ := hadm
    rcases excl_call k fuel m c hex h1 with ⟨m2, e, hex2⟩ | he
    · rw [e] at h2
      rcases ih m2 hex2 h2 with ⟨m3, e3, hex3⟩ | he3
      · exact Or.inl ⟨m3, by simp only [Scheduler.calls, e, e3], hex3⟩
      · exact Or.inr (by simp only [Scheduler.calls, e, he3])
    · exact Or.inr (by simp only [Scheduler.calls, he])


/-! ## The flag `running` -/

theorem push_retry_sched (fuel : Nat) :
    ∀ (s : Scheduler) (w : World) (t : Task) (r : Scheduler × World × Task),
      s.push_retry w t fuel = .ok r → r.1.running = s.running ∧ r.1.timers = s.timers := by
  induction fuel with
  | zero => intro s w t r h; cases h
  | succ n ih =>
    intro s w t r h
    rw [Scheduler.push_retry] at h
    cases hp : s.queue.push t with
    | error e => rw [hp] at h; cases h
    | ok pr =>
      rw [hp] at h
      simp only at h
      cases hd : World.destroyAll pr.released.toList w with
      | error e => rw [hd] at h; cases h
      | ok w2 =>
        rw [hd] at h
        simp only at h
        by_cases hok : pr.ok = true
        · rw [if_pos hok] at h
          cases h
          exact ⟨rfl, rfl⟩
        · rw [if_neg hok] at h
          exact ih { s with queue := pr.q } w2 pr.t r h

theorem enqueue_resume_sched (fuel : Nat) (s : Scheduler) (w : World) (h : Handle)
    (r : Scheduler × World) (hr : s.enqueue_resume w h fuel = .ok r) :
    r.1.running = s.running ∧ r.1.timers = s.timers := by
  unfold Scheduler.enqueue_resume at hr
  cases hp : s.push_retry w ⟨some h⟩ fuel with
  | error e => rw [hp] at hr; cases hr
  | ok pr =>
    rw [hp] at hr
    simp only at hr
    cases hd : pr.2.2.destruct pr.2.1 with
    | error e => rw [hd] at hr; cases hr
    | ok w3 =>
      rw [hd] at hr
      cases hr
      exact push_retry_sched fuel s w _ pr hp

theorem spawn_sched (fuel : Nat) (s : Scheduler) (w : World) (func : String → Coroutine)
    (name : String) (r : Scheduler × World) (hr : s.spawn w func name fuel = .ok r) :
    r.1.running = s.running ∧ r.1.timers = s.timers :=
  enqueue_resume_sched fuel s (w.create (func name)).2 w.frames.length r hr

theorem enqueueAll_sched (fuel : Nat) (hs : List Handle) :
    ∀ (s : Scheduler) (w : World) (r : Scheduler × World),
      Scheduler.enqueueAll fuel hs s w = .ok r →
      r.1.running = s.running ∧ r.1.timers = s.timers := by
  induction hs with
  | nil => intro s w r h; cases h; exact ⟨rfl, rfl⟩
  | cons a hs ih =>
    intro s w r h
    rw [Scheduler.enqueueAll] at h
    cases he : s.enqueue_resume w a fuel with
    | error e => rw [he] at h; cases h
    | ok r1 =>
      rw [he] at h
      obtain ⟨h1, h2⟩ := enqueue_resume_sched fuel s w a r1 he
      obtain ⟨h3, h4⟩ := ih _ _ r h
      exact ⟨h3.trans h1, h4.trans h2⟩

theorem drain_sched (m m1 : LoopState) (h : Scheduler.drain m = .ok m1) :
    m1.sched.running = m.sched.running ∧ m1.sched.timers = m.sched.timers := by
  unfold Scheduler.drain at h
  cases hd : World.destroyAll (Task.destructAll m.batch) m.world with
  | error e => rw [hd] at h; cases h
  | ok w1 =>
    rw [hd] at h
    simp only at h
    cases hp : m.sched.queue.pop_batch (List.replicate Scheduler.BATCH Task.empty)
        (List.replicate Scheduler.BATCH Task.empty).length with
    | error e => rw [hp] at h; cases h
    | ok r =>
      rw [hp] at h
      simp only at h
      cases hd2 : World.destroyAll r.released w1 with
      | error e => rw [hd2] at h; cases h
      | ok w2 =>
        rw [hd2] at h
        simp only at h
        by_cases hok : r.ok = true
        · rw [if_pos hok] at h
          cases hres : Task.resumeAll r.out w2 with
          | error e => rw [hres] at h; cases h
          | ok w3 =>
            rw [hres] at h
            cases h
            exact ⟨rfl, rfl⟩
        · rw [if_neg hok] at h
          cases h
          exact ⟨rfl, rfl⟩

/-- The body of the loop does not write the flag `running`. -/
theorem body_running (now fuel : Nat) (m m2 : LoopState)
    (h : Scheduler.run_loop_body now fuel m = .ok m2) :
    m2.sched.running = m.sched.running := by
  unfold Scheduler.run_loop_body at h
  cases hd : Scheduler.drain m with
  | error e => rw [hd] at h; cases h
  | ok m1 =>
    rw [hd] at h
    simp only [Scheduler.promote] at h
    cases he : Scheduler.enqueueAll fuel (Scheduler.sweep now m1.sched.timers).1
        { m1.sched with timers := (Scheduler.sweep now m1.sched.timers).2 } m1.world with
    | error e => rw [he] at h; cases h
    | ok r =>
      rw [he] at h
      cases h
      exact (enqueueAll_sched fuel _ _ _ r he).1.trans (drain_sched m m1 hd).1

/-- One pass of the worker through the loop does not write the flag `running`. -/
theorem pass_running (now fuel : Nat) (m m2 : LoopState)
    (h : Scheduler.run_loop fuel [now] m = .ok m2) :
    m2.sched.running = m.sched.running := by
  by_cases hrun : m.sched.running = true
  · simp only [Scheduler.run_loop, hrun, if_true] at h
    cases hb : Scheduler.run_loop_body now fuel m with
    | error e => rw [hb] at h; cases h
    | ok m1 =>
      rw [hb] at h
      cases h
      exact body_running now fuel m _ hb
  · simp only [Scheduler.run_loop, hrun] at h
    cases hd : World.destroyAll (Task.destructAll m.batch) m.world with
    | error e => rw [hd] at h; cases h
    | ok w1 =>
      rw [hd] at h
      cases h
      rfl

/-- Every call but `stop_scheduler` leaves the flag `running` as it is. -/
theorem call_running (fuel : Nat) (m m2 : LoopState) (c : SchedCall)
    (h : Scheduler.call fuel m c = .ok m2) :
    (c = .stop_scheduler ∧ m2.sched.running = false) ∨ m2.sched.running = m.sched.running := by
  cases c with
  | spawn func name =>
    simp only [Scheduler.call] at h
    cases hs : m.sched.spawn m.world func name fuel with
    | error e => rw [hs] at h; cases h
    | ok r =>
      rw [hs] at h
      cases h
      exact Or.inr (spawn_sched fuel _ _ _ _ r hs).1
  | schedule_after now hd d => cases h; exact Or.inr rfl
  | enqueue_resume hd =>
    simp only [Scheduler.call] at h
    cases hs : m.sched.enqueue_resume m.world hd fuel with
    | error e => rw [hs] at h; cases h
    | ok r =>
      rw [hs] at h
      cases h
      exact Or.inr (enqueue_resume_sched fuel _ _ _ r hs).1
  | run => cases h; exact Or.inr rfl
  | stop_scheduler => cases h; exact Or.inl ⟨rfl, rfl⟩
  | iterate now => exact Or.inr (pass_running now fuel m m2 h)

/-- Over a run of calls the flag `running` changes only at a `stop_scheduler`, and only to
false. -/
theorem calls_running (fuel : Nat) (cs : List SchedCall) :
    ∀ (m m2 : LoopState), Scheduler.calls fuel cs m = .ok m2 →
      (m.sched.running = false → m2.sched.running = false) ∧
      (m2.sched.running ≠ m.sched.running → SchedCall.stop_scheduler ∈ cs) := by
  induction cs with
  | nil =>
    intro m m2 h
    cases h
    exact ⟨fun h => h, fun h => absurd rfl h⟩
  | cons c cs ih =>
    intro m m2 h
    rw [Scheduler.calls] at h
    cases hc : Scheduler.call fuel m c with
    | error e => rw [hc] at h; cases h
    | ok m1 =>
      rw [hc] at h
      obtain ⟨i1, i2⟩ := ih m1 m2 h
      rcases call_running fuel m m1 c hc with ⟨rfl, hf⟩ | hsame
      · exact ⟨fun _ => i1 hf, fun _ => List.mem_cons_self _ _⟩
      · refine ⟨fun hm => i1 (hsame.trans hm), fun hne => List.mem_cons_of_mem _ (i2 ?_)⟩
        rw [hsame]
        exact hne


theorem admissible_cons (fuel : Nat) (c : SchedCall) (cs : List SchedCall) (m m2 : LoopState)
    (hc : Scheduler.call fuel m c = .ok m2)
    (hpre : m.admits c)
    (hrest : Scheduler.admissible fuel cs m2) :
    Scheduler.admissible fuel (c :: cs) m := by
  refine ⟨hpre, ?_⟩
  rw [hc]
  exact hrest

/-- The fresh scheduler in any world whose release log is consistent has exclusive
ownership. -/
theorem excl_new (k : Nat) (s : Scheduler) (w : World) (hk : k < 64)
    (hnew : Scheduler.new (2 ^ k) = some s) (hw1 : w.destroyed.Nodup)
    (hw2 : ∀ h ∈ w.destroyed, w.frames[h]? = some none) :
    Exclusive k ⟨s, [], w⟩ := by
  obtain ⟨q, hq, wf, cl, lv, _⟩ := clean_new k hk
  have hs : s = ⟨q, true, []⟩ := by
    unfold Scheduler.new at hnew
    rw [hq] at hnew
    exact (Option.some.inj hnew).symm
  subst hs
  have hh : LoopState.held ⟨⟨q, true, []⟩, [], w⟩ ++ LoopState.pending ⟨⟨q, true, []⟩, [], w⟩
      = [] := by
    show (Task.destructAll [] ++ Task.destructAll q.live) ++ [] = []
    rw [lv]
    rfl
  refine ⟨wf, cl, ?_, ?_, hw1, hw2⟩
  · rw [hh]
    exact List.nodup_nil
  · intro h hin
    rw [hh] at hin
    cases hin

/-- C21 as worded fails for a coroutine that registers itself with `schedule_after`, the
one way a coroutine of this scheduler can reach the timer set. On a fresh scheduler of
capacity 4 a coroutine of two steps is spawned (its frame is at address 0) and
`schedule_after(0, 10)` is called at time 0. The iteration at 0 resumes it and keeps its
task in the batch; the iteration at 5 clears the batch and so releases the frame, while the
timer still refers to it; the iteration at 20 wraps the reference in a new task and queues
it; the iteration at 25 resumes a released target. -/
theorem C21_counterexample :
    Scheduler.new 4 = some ⟨freshQueue4, true, []⟩ ∧
    ∃ m, Scheduler.calls 1
        [.spawn (fun _ => ⟨⟨1⟩, [⟨1⟩]⟩) "a", .schedule_after 0 0 10, .iterate 0, .iterate 5,
         .iterate 20]
        ⟨⟨freshQueue4, true, []⟩, [], World.init⟩ = .ok m ∧
      m.world.destroyed = [0] ∧ m.world.frames[0]? = some none ∧
      m.sched.queue.live = [⟨some 0⟩] ∧ m.held = [0] ∧
      Scheduler.calls 1 [.iterate 25] m = .error .dangling :=
  ⟨rfl, _, rfl, rfl, rfl, rfl, rfl, rfl⟩

/-- C21 (exclusive ownership), amended statement: every handle given to `schedule_after`
or `enqueue_resume` is, at the time of the call, a live frame that no task holds and no
timer refers to. From a fresh scheduler with a queue of capacity `2 ^ k`, in a world whose
release log is consistent, every run of `spawn`, `schedule_after`, `enqueue_resume`, `run`
and `stop_scheduler` calls and passes of the worker through its loop that returns leaves a
state in which the targets held by the batch entries and by the queue entries and those
referred to by the timers are pairwise distinct live frames, no target was released twice,
and every released frame is gone and held by nothing. A run that does not return ran out
of push attempts on a full queue: no call resumed or released a frame that was released
before, which the embedding reports as the fault `dangling`. -/
theorem C21_exclusive_ownership (k fuel : Nat) (s : Scheduler) (w : World)
    (calls : List SchedCall) (hk : k < 64) (hnew : Scheduler.new (2 ^ k) = some s)
    (hw1 : w.destroyed.Nodup) (hw2 : ∀ h ∈ w.destroyed, w.frames[h]? = some none)
    (hadm : Scheduler.admissible fuel calls ⟨s, [], w⟩) :
    (∀ m, Scheduler.calls fuel calls ⟨s, [], w⟩ = .ok m →
      (m.held ++ m.pending).Nodup ∧ (∀ h ∈ m.held ++ m.pending, m.world.alive h) ∧
      m.world.destroyed.Nodup ∧
      (∀ h ∈ m.world.destroyed, m.world.frames[h]? = some none) ∧
      (∀ h ∈ m.world.destroyed, h ∉ m.held ++ m.pending)) ∧
    (∀ e, Scheduler.calls fuel calls ⟨s, [], w⟩ = .error e → e = .noProgress) := by
  have hex := excl_new k s w hk hnew hw1 hw2
  rcases excl_calls k fuel calls _ hex hadm with ⟨m2, e2, hex2⟩ | he
  · refine ⟨fun m hm => ?_, fun e he => (by rw [e2] at he; cases he)⟩
    rw [e2] at hm
    cases hm
    refine ⟨hex2.nodup, hex2.alive, hex2.once, hex2.gone, fun h hd hin => ?_⟩
    obtain ⟨f, hf⟩ := hex2.alive h hin
    rw [hex2.gone h hd] at hf
    cases hf
  · refine ⟨fun m hm => (by rw [he] at hm; cases hm), fun e hee => ?_⟩
    rw [he] at hee
    cases hee
    rfl


/-- C21 on a fresh scheduler of capacity 4 in the world of `timerExample`, whose frames 0, 1
and 2 nothing holds: `benchmarkRoutine` is spawned (frame 3), `schedule_after(1, 5)` is
called at time 0, and the worker passes through its loop at 3, 10 and 11. Frame 3 is
resumed and released, frame 1 goes from the timer set through the queue to the batch. -/
theorem C21_exclusive_ownership_witness :
    (2 < 64 ∧ Scheduler.new (2 ^ 2) = some (timerExample freshQueue4).sched ∧
      (timerExample freshQueue4).world.destroyed.Nodup ∧
      Scheduler.admissible 1
        [.spawn benchmarkRoutine "a", .schedule_after 0 1 5, .iterate 3, .iterate 10,
         .iterate 11]
        ⟨(timerExample freshQueue4).sched, [], (timerExample freshQueue4).world⟩) ∧
    (∃ m, Scheduler.calls 1
        [.spawn benchmarkRoutine "a", .schedule_after 0 1 5, .iterate 3, .iterate 10,
         .iterate 11]
        ⟨(timerExample freshQueue4).sched, [], (timerExample freshQueue4).world⟩ = .ok m ∧
      m.held = [1] ∧ m.pending = [] ∧ m.world.destroyed = [3] ∧ m.world.resumed = [3, 1] ∧
      (m.held ++ m.pending).Nodup ∧ (∀ h ∈ m.held ++ m.pending, m.world.alive h) ∧
      m.world.destroyed.Nodup ∧
      (∀ h ∈ m.world.destroyed, m.world.frames[h]? = some none) ∧
      (∀ h ∈ m.world.destroyed, h ∉ m.held ++ m.pending)) := by
  have hadm : Scheduler.admissible 1
      [.spawn benchmarkRoutine "a", .schedule_after 0 1 5, .iterate 3, .iterate 10,
       .iterate 11]
      ⟨(timerExample freshQueue4).sched, [], (timerExample freshQueue4).world⟩ :=
    admissible_cons 1 _ _ _ _ rfl trivial
      (admissible_cons 1 _ _ _ _ rfl ⟨by decide, ⟨_, rfl⟩⟩
        (admissible_cons 1 _ _ _ _ rfl trivial
          (admissible_cons 1 _ _ _ _ rfl trivial
            (admissible_cons 1 _ _ _ _ rfl trivial trivial))))
  refine ⟨⟨by decide, rfl, List.nodup_nil, hadm⟩, _, rfl, rfl, rfl, rfl, rfl, ?_⟩
  exact (C21_exclusive_ownership 2 1 (timerExample freshQueue4).sched
    (timerExample freshQueue4).world _ (by decide) rfl List.nodup_nil
    (fun h hh => absurd hh (List.not_mem_nil h)) hadm).1 _ rfl

/-- C22 (`stop_scheduler`). The call sets the flag `running` to false and leaves the queue
(capacity, mask, every slot, head and tail) and the timer set as they were; as a call on a
loop state it leaves the batch and the world, with every frame and both logs, as they were,
so nothing is resumed, enqueued or released. -/
theorem C22_stop_scheduler (s : Scheduler) (fuel : Nat) (m : LoopState) :
    s.stop_scheduler.running = false ∧
    s.stop_scheduler.queue = s.queue ∧
    s.stop_scheduler.queue.head = s.queue.head ∧
    s.stop_scheduler.queue.tail = s.queue.tail ∧
    s.stop_scheduler.queue.buffer = s.queue.buffer ∧
    s.stop_scheduler.timers = s.timers ∧
    ∃ m2, Scheduler.call fuel m .stop_scheduler = .ok m2 ∧
      m2.sched = m.sched.stop_scheduler ∧ m2.batch = m.batch ∧ m2.world = m.world ∧
      m2.sched.queue.live = m.sched.queue.live ∧ m2.held = m.held ∧
      m2.pending = m.pending :=
  ⟨rfl, rfl, rfl, rfl, rfl, rfl, _, rfl, rfl, rfl, rfl, rfl, rfl, rfl⟩

/-- C23 (the flag `running` goes one way). The constructor sets the flag; every call but
`stop_scheduler` that returns leaves it as it was, and `stop_scheduler` leaves it false; a
body of the loop and a pass of the worker through the loop leave it as it was; over a run
of calls a flag that is false stays false, and a flag that has changed was changed by a
`stop_scheduler` of the run. -/
theorem C23_running_one_way (fuel : Nat) :
    (∀ c s, Scheduler.new c = some s → s.running = true) ∧
    (∀ m m2 c, Scheduler.call fuel m c = .ok m2 →
      (c = .stop_scheduler ∧ m2.sched.running = false) ∨
      m2.sched.running = m.sched.running) ∧
    (∀ m m2 c, Scheduler.call fuel m c = .ok m2 → m.sched.running = false →
      m2.sched.running = false) ∧
    (∀ now m m2, Scheduler.run_loop_body now fuel m = .ok m2 →
      m2.sched.running = m.sched.running) ∧
    (∀ now m m2, Scheduler.call fuel m (.iterate now) = .ok m2 →
      m2.sched.running = m.sched.running) ∧
    (∀ cs m m2, Scheduler.calls fuel cs m = .ok m2 →
      (m.sched.running = false → m2.sched.running = false) ∧
      (m2.sched.running ≠ m.sched.running → SchedCall.stop_scheduler ∈ cs)) := by
  refine ⟨?_, fun m m2 c h => call_running fuel m m2 c h, ?_,
    fun now m m2 h => body_running now fuel m m2 h,
    fun now m m2 h => pass_running now fuel m m2 h,
    fun cs m m2 h => calls_running fuel cs m m2 h⟩
  · intro c s h
    unfold Scheduler.new at h
    cases hq : SpscQueue.new c with
    | none => rw [hq] at h; cases h
    | some q =>
      rw [hq] at h
      cases h
      rfl
  · intro m m2 c h hf
    rcases call_running fuel m m2 c h with ⟨_, h2⟩ | h2
    · exact h2
    · exact h2.trans hf


/-! ## Shutdown -/

/-- A worker that finds the flag `running` false leaves the loop and releases its batch. -/
theorem exit_run (k fuel now : Nat) (clock : List Nat) (m : LoopState) (hex : Exclusive k m)
    (hstop : m.sched.running = false) :
    ∃ m3, Scheduler.run_loop fuel (now :: clock) m = .ok m3 ∧ m3.batch = [] ∧
      m3.sched = m.sched ∧ m3.world.resumed = m.world.resumed ∧
      m3.world.destroyed = m.world.destroyed ++ Task.destructAll m.batch := by
  obtain ⟨w1, e, _⟩ := excl_release k m hex
  have hnd := hex.nodup
  have hal := hex.alive
  unfold LoopState.held at hnd hal
  rw [List.append_assoc] at hnd hal
  obtain ⟨w2, e2, _, d2, d3, _⟩ := destroyAll_spec (Task.destructAll m.batch) m.world
    (List.nodup_append.mp hnd).1 (fun h hh => hal h (List.mem_append_left _ hh))
  rw [e] at e2
  cases e2
  refine ⟨{ m with batch := [], world := w1 }, ?_, rfl, rfl, d2, d3⟩
  simp only [Scheduler.run_loop, hstop, e]
  rfl

/-- C24 as worded fails on a scheduler whose queue has capacity 2 and whose timer set holds
two entries that are due: `stop_scheduler()` is called while the worker is in an iteration
that reads the clock at 60. The sweep of that iteration finds both entries due; the push of
handle 2 fills the queue and the push loop of `enqueue_resume` for handle 1, which does not
read the flag, finds the queue full at every attempt, since the worker itself is the one to
drain it. For every retry budget the iteration runs out of it: the worker does not finish
the iteration and `join()` does not return. -/
theorem C24_counterexample :
    Scheduler.new 2 = some (timerExample ⟨2, 1, [⟨none⟩, ⟨none⟩], 0, 0⟩).sched ∧
    (((timerExample ⟨2, 1, [⟨none⟩, ⟨none⟩], 0, 0⟩).sched.schedule_after 0 1
      50).schedule_after 0 2 10).stop_scheduler
      = ⟨⟨2, 1, [⟨none⟩, ⟨none⟩], 0, 0⟩, false, [(10, 2), (50, 1)]⟩ ∧
    ∀ fuel, Scheduler.run_loop_body 60 fuel
      { timerExample ⟨2, 1, [⟨none⟩, ⟨none⟩], 0, 0⟩ with
        sched := ⟨⟨2, 1, [⟨none⟩, ⟨none⟩], 0, 0⟩, false, [(10, 2), (50, 1)]⟩ }
      = .error .noProgress := by
  refine ⟨rfl, rfl, ?_⟩
  intro fuel
  have hfull : ∀ f, Scheduler.enqueue_resume
      ⟨⟨2, 1, [⟨some 2⟩, ⟨none⟩], 1, 0⟩, false, []⟩
      (timerExample ⟨2, 1, [⟨none⟩, ⟨none⟩], 0, 0⟩).world 1 f = .error .noProgress :=
    fun f => enqueue_resume_full 1 _ _ _ f ⟨by decide, rfl, rfl, rfl, by decide, by decide⟩
      (by decide)
  have hd : Scheduler.drain
      { timerExample ⟨2, 1, [⟨none⟩, ⟨none⟩], 0, 0⟩ with
        sched := ⟨⟨2, 1, [⟨none⟩, ⟨none⟩], 0, 0⟩, false, [(10, 2), (50, 1)]⟩ }
      = .ok { sched := ⟨⟨2, 1, [⟨none⟩, ⟨none⟩], 0, 0⟩, false, [(10, 2), (50, 1)]⟩,
              batch := List.replicate 64 Task.empty,
              world := (timerExample ⟨2, 1, [⟨none⟩, ⟨none⟩], 0, 0⟩).world } := rfl
  have hs : Scheduler.sweep 60 [(10, 2), (50, 1)] = ([2, 1], []) := rfl
  cases fuel with
  | zero =>
    simp only [Scheduler.run_loop_body, hd, Scheduler.promote, hs]
    rfl
  | succ f =>
    have h1 : Scheduler.enqueue_resume ⟨⟨2, 1, [⟨none⟩, ⟨none⟩], 0, 0⟩, false, []⟩
        (timerExample ⟨2, 1, [⟨none⟩, ⟨none⟩], 0, 0⟩).world 2 (f + 1)
        = .ok (⟨⟨2, 1, [⟨some 2⟩, ⟨none⟩], 1, 0⟩, false, []⟩,
          (timerExample ⟨2, 1, [⟨none⟩, ⟨none⟩], 0, 0⟩).world) := rfl
    simp only [Scheduler.run_loop_body, hd, Scheduler.promote, hs,
      Scheduler.enqueueAll, h1, hfull]

/-- C24 (shutdown), amended statement. Let `stop_scheduler()` be called in a state with
exclusive ownership. If the worker is then about to test the flag, it leaves the loop: the
batch is released and the scheduler is as the call left it. If the worker is then in an
iteration that reads the clock at `now`, and the queue has room for the timer entries that
are due once the iteration has drained it, the iteration returns with the due entries
behind the entries not drained (the body does not read the flag), and at its next test the
worker leaves the loop. With the loop left, `join()` returns. -/
theorem C24_shutdown (k fuel now : Nat) (m : LoopState) (hex : Exclusive k m)
    (hfuel : 1 ≤ fuel)
    (hroom : m.sched.queue.size - min 64 m.sched.queue.size
      + (Scheduler.sweep now m.sched.timers).1.length ≤ 2 ^ k - 1) :
    (∀ now2 clock, ∃ m3,
      Scheduler.run_loop fuel (now2 :: clock) { m with sched := m.sched.stop_scheduler }
        = .ok m3 ∧
      m3.batch = [] ∧ m3.sched = m.sched.stop_scheduler ∧
      m3.world.resumed = m.world.resumed) ∧
    (∃ m2, Scheduler.run_loop_body now fuel { m with sched := m.sched.stop_scheduler }
        = .ok m2 ∧
      m2.sched.running = false ∧
      m2.sched.timers = (Scheduler.sweep now m.sched.timers).2 ∧
      m2.sched.queue.live = m.sched.queue.live.drop (min 64 m.sched.queue.size) ++
        (Scheduler.sweep now m.sched.timers).1.map (fun h => Task.mk (some h)) ∧
      ∀ now2 clock, ∃ m3, Scheduler.run_loop fuel (now2 :: clock) m2 = .ok m3 ∧
        m3.batch = [] ∧ m3.sched = m2.sched ∧ m3.world.resumed = m2.world.resumed) := by
  have hex1 : Exclusive k { m with sched := m.sched.stop_scheduler } :=
    ⟨hex.wf, hex.clean, hex.nodup, hex.alive, hex.once, hex.gone⟩
  constructor
  · intro now2 clock
    obtain ⟨m3, e, h1, h2, h3, _⟩ := exit_run k fuel now2 clock _ hex1 rfl
    exact ⟨m3, e, h1, h2, h3⟩
  · have hnd := hex.nodup
    have hal := hex.alive
    unfold LoopState.held at hnd hal
    rw [List.append_assoc] at hnd hal
    obtain ⟨nb, nrest, dis⟩ := List.nodup_append.mp hnd
    have hsub : (Task.destructAll (m.sched.queue.live.take
        (min 64 m.sched.queue.size))).Sublist
        (Task.destructAll m.sched.queue.live ++ m.pending) :=
      (destructAll_take_sublist _ _).trans (List.sublist_append_left _ _)
    obtain ⟨m2, e, _, _, hr, ht, hl, _⟩ :=
      body_step k now fuel { m with sched := m.sched.stop_scheduler } hex.wf hex.clean
        (List.nodup_append.mpr ⟨nb, nrest.sublist hsub,
          fun h hb ht => dis hb (hsub.subset ht)⟩)
        (fun h hh => by
          rcases List.mem_append.mp hh with hb | ht
          · exact hal h (List.mem_append_left _ hb)
          · exact hal h (List.mem_append_right _ (hsub.subset ht)))
        hfuel hroom
    have hex2 : Exclusive k m2 := by
      rcases excl_body k now fuel _ hex1 with ⟨m2', e', hex2, _⟩ | he
      · rw [e] at e'
        cases e'
        exact hex2
      · rw [e] at he
        cases he
    refine ⟨m2, e, hr, ht, hl, fun now2 clock => ?_⟩
    obtain ⟨m3, e3, h1, h2, h3, _⟩ := exit_run k fuel now2 clock m2 hex2 hr
    exact ⟨m3, e3, h1, h2, h3⟩


/-! ## Who writes which index -/

/-- The loop of `pop_batch` writes only the slots it moves out of, and advances `t` by the
number of entries it moved. -/
theorem pop_batch_loop_frame (k h : Nat) (hk : k < 64) :
    ∀ (rem : Nat) (st st2 : BatchState), st.t < 2 ^ k →
      SpscQueue.pop_batch_loop (2 ^ k - 1) h rem st = .ok st2 →
      st.count ≤ st2.count ∧ st2.t = (st.t + (st2.count - st.count)) % 2 ^ k ∧
      st2.buffer.length = st.buffer.length ∧
      ∀ i, (∀ j, j < st2.count - st.count → i ≠ (st.t + j) % 2 ^ k) →
        st2.buffer[i]? = st.buffer[i]? := by
  intro rem
  induction rem with
  | zero =>
    intro st st2 ht hl
    cases hl
    refine ⟨Nat.le_refl _, ?_, rfl, fun _ _ => rfl⟩
    rw [Nat.sub_self, Nat.add_zero, Nat.mod_eq_of_lt ht]
  | succ rem ih =>
    intro st st2 ht hl
    rw [SpscQueue.pop_batch_loop] at hl
    by_cases hth : st.t = h
    · rw [if_pos hth] at hl
      cases hl
      refine ⟨Nat.le_refl _, ?_, rfl, fun _ _ => rfl⟩
      rw [Nat.sub_self, Nat.add_zero, Nat.mod_eq_of_lt ht]
    · rw [if_neg hth] at hl
      cases hb : st.buffer[st.t]? with
      | none => rw [hb] at hl; cases hl
      | some src =>
        cases ho : st.out[st.count]? with
        | none => rw [hb, ho] at hl; cases hl
        | some dst =>
          rw [hb, ho] at hl
          simp only [next_index k st.t hk ht] at hl
          obtain ⟨i1, i2, i3, i4⟩ := ih _ st2 (Nat.mod_lt _ (Nat.two_pow_pos k)) hl
          simp only [List.length_set] at i1 i2 i3 i4
          have hn : st2.count - st.count = (st2.count - (st.count + 1)) + 1 := by omega
          refine ⟨by omega, ?_, i3, ?_⟩
          · rw [i2, hn, Nat.mod_add_mod]
            congr 1
            omega
          · intro i hi
            rw [i4 i (fun j hj => by
              have := hi (j + 1) (by omega)
              rw [Nat.mod_add_mod]
              rw [show st.t + 1 + j = st.t + (j + 1) by omega]
              exact this)]
            have h0 := hi 0 (by omega)
            rw [Nat.add_zero, Nat.mod_eq_of_lt ht] at h0
            exact List.getElem?_set_ne (Ne.symm h0)

/-- C26 (index ownership). On a well-formed queue of capacity `2 ^ k`:
a `push` that returns leaves `tail`, the capacity and the mask as they were; when it
returns false the whole queue and the argument are as they were; when it returns true,
`head` is `(head + 1) mod C`, the slot at the old `head` holds the task pushed, and every
other slot is as it was.
A `pop` that returns leaves `head`, the capacity and the mask as they were; when it
returns false the whole queue and `out` are as they were; when it returns true, `tail` is
`(tail + 1) mod C`, the slot at the old `tail` is the moved-from, empty task and every
other slot is as it was.
A `pop_batch` that returns leaves `head`, the capacity and the mask as they were; when it
returns false the whole queue and `out` are as they were; when it returns true it handed
out `n = min(max_batch, size)` entries, `tail` is `(tail + n) mod C`, and every slot other
than the `n` slots from the old `tail` on is as it was. -/
theorem C26_index_ownership (k : Nat) (q : SpscQueue) (hq : q.WF k) :
    (∀ t r, q.push t = .ok r →
      r.q.tail = q.tail ∧ r.q.capacity = q.capacity ∧ r.q.mask = q.mask ∧
      (r.ok = false → r.q = q ∧ r.t = t) ∧
      (r.ok = true → r.q.head = (q.head + 1) % 2 ^ k ∧
        r.q.buffer = q.buffer.set q.head t ∧
        ∀ i, i ≠ q.head → r.q.buffer[i]? = q.buffer[i]?)) ∧
    (∀ out r, q.pop out = .ok r →
      r.q.head = q.head ∧ r.q.capacity = q.capacity ∧ r.q.mask = q.mask ∧
      (r.ok = false → r.q = q ∧ r.out = out) ∧
      (r.ok = true → r.q.tail = (q.tail + 1) % 2 ^ k ∧
        r.q.buffer = q.buffer.set q.tail Task.empty ∧
        ∀ i, i ≠ q.tail → r.q.buffer[i]? = q.buffer[i]?)) ∧
    (∀ out max_batch r, q.pop_batch out max_batch = .ok r →
      r.q.head = q.head ∧ r.q.capacity = q.capacity ∧ r.q.mask = q.mask ∧
      (r.ok = false → r.q = q ∧ r.out = out) ∧
      (r.ok = true → r.out.length = min max_batch q.size ∧
        r.q.tail = (q.tail + min max_batch q.size) % 2 ^ k ∧
        r.q.buffer.length = q.buffer.length ∧
        ∀ i, (∀ j, j < min max_batch q.size → i ≠ (q.tail + j) % 2 ^ k) →
          r.q.buffer[i]? = q.buffer[i]?)) := by
  refine ⟨?_, ?_, ?_⟩
  · intro t r h
    by_cases hfull : (q.head + 1) % 2 ^ k = q.tail
    · rw [push_full k q t hq hfull] at h
      cases h
      exact ⟨rfl, rfl, rfl, fun _ => ⟨rfl, rfl⟩, fun hc => (by cases hc)⟩
    · rw [push_free k q t hq hfull] at h
      cases h
      exact ⟨rfl, rfl, rfl, fun hc => (by cases hc),
        fun _ => ⟨rfl, rfl, fun i hi => List.getElem?_set_ne (Ne.symm hi)⟩⟩
  · intro out r h
    by_cases he : q.tail = q.head
    · rw [pop_empty q out he] at h
      cases h
      exact ⟨rfl, rfl, rfl, fun _ => ⟨rfl, rfl⟩, fun hc => (by cases hc)⟩
    · rw [pop_nonempty k q out hq he] at h
      cases h
      exact ⟨rfl, rfl, rfl, fun hc => (by cases hc),
        fun _ => ⟨rfl, rfl, fun i hi => List.getElem?_set_ne (Ne.symm hi)⟩⟩
  · intro out max_batch r h
    unfold SpscQueue.pop_batch at h
    cases hl : SpscQueue.pop_batch_loop q.mask q.head max_batch
        { t := q.tail, count := 0, buffer := q.buffer, out := out, released := [] } with
    | error e => rw [hl] at h; cases h
    | ok st2 =>
      rw [hl] at h
      simp only at h
      rw [hq.mask_eq] at hl
      have hsize : q.size = ringSize (2 ^ k) q.head q.tail := by
        rw [SpscQueue.size, hq.capacity_eq]
      have hspec := pop_batch_loop_spec k q.head hq.hk hq.head_lt max_batch
        { t := q.tail, count := 0, buffer := q.buffer, out := out, released := [] }
        (min max_batch q.size) hq.length_eq hq.tail_lt (Nat.zero_le _) (by rw [hsize])
      by_cases hle : 0 + min max_batch q.size ≤ out.length
      · obtain ⟨st3, e1, _, _, _, hc, _, ho, _⟩ := hspec.1 hle
        rw [hl] at e1
        cases e1
        have hcount : st2.count = min max_batch q.size := by simpa using hc
        have hlen : (st2.out.take st2.count).length = min max_batch q.size := by
          rw [ho, hcount]
          simp only [List.take_zero, List.nil_append, Nat.zero_add, List.length_take,
            List.length_append, window_length, List.length_drop]
          rw [← hsize]
          omega
        obtain ⟨_, f2, f3, f4⟩ := pop_batch_loop_frame k q.head hq.hk max_batch _ st2
          hq.tail_lt hl
        simp only [Nat.sub_zero] at f2 f4
        rw [hcount] at f2 f4
        by_cases hpos : 0 < st2.count
        · rw [if_pos hpos] at h
          cases h
          exact ⟨rfl, rfl, rfl, fun hc => (by cases hc), fun _ => ⟨hlen, f2, f3, f4⟩⟩
        · rw [if_neg hpos] at h
          cases h
          exact ⟨rfl, rfl, rfl, fun _ => ⟨rfl, rfl⟩, fun hc => (by cases hc)⟩
      · rw [hspec.2 (show out.length < 0 + min max_batch q.size by omega)] at hl
        cases hl


/-- C24 on a queue of capacity 4 whose timer set holds two due entries: the iteration that
is under way when the flag is cleared promotes both handles, and the worker leaves the loop
at its next test. -/
theorem C24_shutdown_witness :
    (Exclusive 2 (timerDue freshQueue4) ∧ 1 ≤ 1 ∧
      (timerDue freshQueue4).sched.queue.size - min 64 (timerDue freshQueue4).sched.queue.size
        + (Scheduler.sweep 60 (timerDue freshQueue4).sched.timers).1.length ≤ 2 ^ 2 - 1) ∧
    (∃ m3, Scheduler.run_loop 1 [61]
        { timerDue freshQueue4 with sched := (timerDue freshQueue4).sched.stop_scheduler }
        = .ok m3 ∧ m3.batch = []) ∧
    (∃ m2, Scheduler.run_loop_body 60 1
        { timerDue freshQueue4 with sched := (timerDue freshQueue4).sched.stop_scheduler }
        = .ok m2 ∧
      m2.sched.running = false ∧ m2.sched.timers = [] ∧
      m2.sched.queue.live = [⟨some 2⟩, ⟨some 1⟩] ∧
      ∃ m3, Scheduler.run_loop 1 [61] m2 = .ok m3 ∧ m3.batch = [] ∧ m3.sched = m2.sched) := by
  have hex : Exclusive 2 (timerDue freshQueue4) :=
    { wf := ⟨by decide, rfl, rfl, rfl, by decide, by decide⟩
      clean := by unfold SpscQueue.Clean ringClean; decide
      nodup := by decide
      alive := fun h hh => by
        have hm : h ∈ [2, 1] := hh
        simp only [List.mem_cons, List.mem_singleton, List.not_mem_nil, or_false] at hm
        rcases hm with rfl | rfl <;> exact ⟨_, rfl⟩
      once := List.nodup_nil
      gone := fun h hh => absurd hh (List.not_mem_nil h) }
  obtain ⟨h1, m2, e2, r2, t2, l2, h2⟩ :=
    C24_shutdown 2 1 60 (timerDue freshQueue4) hex (by decide) (by decide)
  obtain ⟨m3, e3, b3, _⟩ := h1 61 []
  obtain ⟨m4, e4, b4, s4, _⟩ := h2 61 []
  exact ⟨⟨hex, by decide, by decide⟩, ⟨m3, e3, b3⟩, m2, e2, r2, t2.trans rfl, l2.trans rfl,
    m4, e4, b4, s4⟩

/-- C26 on the queue of `exampleLoop` (capacity 4, `head` 3, `tail` 1): no `push` writes
`tail`, no `pop` and no `pop_batch` writes `head`, and the push of a task writes slot 3 and
moves `head` round to 0. -/
theorem C26_index_ownership_witness :
    SpscQueue.WF 2 exampleLoop.sched.queue ∧
    (∀ t r, exampleLoop.sched.queue.push t = .ok r →
      r.q.tail = exampleLoop.sched.queue.tail) ∧
    (∀ out r, exampleLoop.sched.queue.pop out = .ok r →
      r.q.head = exampleLoop.sched.queue.head) ∧
    (∀ out max_batch r, exampleLoop.sched.queue.pop_batch out max_batch = .ok r →
      r.q.head = exampleLoop.sched.queue.head) ∧
    exampleLoop.sched.queue.push ⟨some 7⟩ = .ok
      { ok := true, q := ⟨4, 3, [⟨none⟩, ⟨some 1⟩, ⟨some 2⟩, ⟨some 7⟩], 0, 1⟩,
        t := ⟨none⟩, released := none } :=
  ⟨⟨by decide, rfl, rfl, rfl, by decide, by decide⟩,
   fun t r h => ((C26_index_ownership 2 exampleLoop.sched.queue
     ⟨by decide, rfl, rfl, rfl, by decide, by decide⟩).1 t r h).1,
   fun out r h => ((C26_index_ownership 2 exampleLoop.sched.queue
     ⟨by decide, rfl, rfl, rfl, by decide, by decide⟩).2.1 out r h).1,
   fun out mb r h => ((C26_index_ownership 2 exampleLoop.sched.queue
     ⟨by decide, rfl, rfl, rfl, by decide, by decide⟩).2.2 out mb r h).1,
   rfl⟩


/-! ## Exceptions in coroutine bodies -/

theorem resumeWith_quiet (throwing : Handle → Bool) (w : World) (h : Handle)
    (hq : throwing h = false) :
    w.resumeWith throwing h
      = match w.resume h with
        | .error e => .error (.fault e)
        | .ok w2 => .ok w2 := by
  unfold World.resumeWith World.resume
  cases hf : w.frame h with
  | error e => rfl
  | ok f =>
    cases f with
    | finished => rfl
    | suspended s rest => simp only [hq, Bool.false_eq_true, if_false, World.resume, hf]

theorem resume_if_neededWith_quiet (throwing : Handle → Bool) (t : Task) (w : World)
    (hq : ∀ h, t.coro = some h → throwing h = false) :
    t.resume_if_neededWith throwing w
      = match t.resume_if_needed w with
        | .error e => .error (.fault e)
        | .ok w2 => .ok w2 := by
  unfold Task.resume_if_neededWith Task.resume_if_needed
  cases hd : t.done w with
  | error e => rfl
  | ok b =>
    cases b with
    | true => rfl
    | false =>
      simp only
      unfold Task.resumeWith Task.resume
      cases hc : t.coro with
      | none => rfl
      | some h =>
        simp only
        cases hd2 : w.done h with
        | error e => rfl
        | ok b2 =>
          cases b2 with
          | true => rfl
          | false => exact resumeWith_quiet throwing w h (hq h hc)

theorem resumeAllWith_quiet (throwing : Handle → Bool) (ts : List Task) :
    ∀ (w : World), (∀ h ∈ Task.destructAll ts, throwing h = false) →
      Task.resumeAllWith throwing ts w
        = match Task.resumeAll ts w with
          | .error e => .error (.fault e)
          | .ok w2 => .ok w2 := by
  induction ts with
  | nil => intro w _; rfl
  | cons t ts ih =>
    intro w hq
    have ht : ∀ h, t.coro = some h → throwing h = false := fun h hc =>
      hq h (by rw [destructAll_cons, hc]; exact List.mem_append_left _ (List.mem_singleton.mpr rfl))
    have hts : ∀ h ∈ Task.destructAll ts, throwing h = false := fun h hh =>
      hq h (by rw [destructAll_cons]; exact List.mem_append_right _ hh)
    rw [Task.resumeAllWith, Task.resumeAll, resume_if_neededWith_quiet throwing t w ht]
    cases hr : t.resume_if_needed w with
    | error e => rfl
    | ok w2 => exact ih w2 hts

theorem resumeAllWith_append (throwing : Handle → Bool) (pre : List Task) :
    ∀ (post : List Task) (w w1 : World), Task.resumeAllWith throwing pre w = .ok w1 →
      Task.resumeAllWith throwing (pre ++ post) w = Task.resumeAllWith throwing post w1 := by
  induction pre with
  | nil => intro post w w1 h; cases h; rfl
  | cons t ts ih =>
    intro post w w1 h
    rw [Task.resumeAllWith] at h
    rw [List.cons_append, Task.resumeAllWith]
    cases hr : t.resume_if_neededWith throwing w with
    | error a => rw [hr] at h; cases h
    | ok w2 =>
      rw [hr] at h
      exact ih post w2 w1 h

/-- C27 (an exception that leaves a coroutine body is fatal). Let the frame of a task be
suspended before a step from which an exception escapes. Then `resume()` on the task ends
in `std::terminate()`, and so does `resume_if_needed()`: neither returns a world. In the
loop over a batch, once the tasks before it were resumed with no exception, the loop ends
in `std::terminate()` whatever tasks follow: none of them is resumed and no state is left
in which the task is marked. When no body raises, the loop does what `resumeAll` does. -/
theorem C27_unhandled_exception (throwing : Handle → Bool) :
    Task.promise_type.unhandled_exception = .error .terminate ∧
    (∀ (t : Task) (w : World) h s rest, t.coro = some h →
      w.frames[h]? = some (some (Frame.suspended s rest)) → throwing h = true →
      w.resumeWith throwing h = .error .terminate ∧
      t.resumeWith throwing w = .error .terminate ∧
      t.resume_if_neededWith throwing w = .error .terminate) ∧
    (∀ (pre post : List Task) (t : Task) (w w1 : World) h s rest,
      (∀ a ∈ Task.destructAll pre, throwing a = false) → Task.resumeAll pre w = .ok w1 →
      t.coro = some h → w1.frames[h]? = some (some (Frame.suspended s rest)) →
      throwing h = true →
      Task.resumeAllWith throwing (pre ++ t :: post) w = .error .terminate) ∧
    (∀ (ts : List Task) (w : World), (∀ a ∈ Task.destructAll ts, throwing a = false) →
      Task.resumeAllWith throwing ts w
        = match Task.resumeAll ts w with
          | .error e => .error (.fault e)
          | .ok w2 => .ok w2) := by
  have hone : ∀ (t : Task) (w : World) h s rest, t.coro = some h →
      w.frames[h]? = some (some (Frame.suspended s rest)) → throwing h = true →
      w.resumeWith throwing h = .error .terminate ∧
      t.resumeWith throwing w = .error .terminate ∧
      t.resume_if_neededWith throwing w = .error .terminate := by
    intro t w h s rest hc hf ht
    have hfr : w.frame h = .ok (Frame.suspended s rest) := frame_of_get w h _ hf
    have h1 : w.resumeWith throwing h = .error .terminate := by
      simp only [World.resumeWith, hfr, ht, if_true, Task.promise_type.unhandled_exception]
    have hd : w.done h = .ok false := by
      simp only [World.done, hfr]
    have h2 : t.resumeWith throwing w = .error .terminate := by
      simp only [Task.resumeWith, hc, hd, h1]
    refine ⟨h1, h2, ?_⟩
    simp only [Task.resume_if_neededWith, Task.done, hc, hd, h2]
  refine ⟨rfl, hone, ?_, fun ts w hq => resumeAllWith_quiet throwing ts w hq⟩
  intro pre post t w w1 h s rest hq hpre hc hf ht
  have hp : Task.resumeAllWith throwing pre w = .ok w1 := by
    rw [resumeAllWith_quiet throwing pre w hq, hpre]
  rw [resumeAllWith_append throwing pre (t :: post) w w1 hp, Task.resumeAllWith,
    (hone t w1 h s rest hc hf ht).2.2]


/-! ## Greatest common divisors -/

theorem natAbs_tmod (a b : Int) : (a.tmod b).natAbs = a.natAbs % b.natAbs := by
  cases a <;> cases b <;> simp [Int.tmod, Int.natAbs_neg] <;> rfl

theorem gcd_tmod (a b : Int) : Int.gcd b (a.tmod b) = Int.gcd a b := by
  unfold Int.gcd
  rw [natAbs_tmod, Nat.gcd_comm a.natAbs, Nat.gcd_rec b.natAbs a.natAbs, Nat.gcd_comm]

theorem gcd_loop_spec (fuel : Nat) :
    ∀ (a b : Int), 0 ≤ a → 0 ≤ b → b.natAbs < fuel →
      math.gcd_loop fuel a b = some (Int.gcd a b : Int) := by
  induction fuel with
  | zero => intro a b _ _ h; omega
  | succ n ih =>
    intro a b ha hb hf
    rw [math.gcd_loop]
    by_cases h0 : b = 0
    · subst h0
      rw [if_pos rfl, Int.gcd_zero_right, Int.natAbs_of_nonneg ha]
    · rw [if_neg h0, ih b (a.tmod b) hb (Int.tmod_nonneg b ha) (by
        rw [natAbs_tmod]
        have : a.natAbs % b.natAbs < b.natAbs :=
          Nat.mod_lt _ (Int.natAbs_pos.mpr h0)
        omega), gcd_tmod]

theorem math_gcd_spec (fuel : Nat) (a b : Int) (hf : b.natAbs < fuel) :
    math.gcd fuel a b = some (Int.gcd a b : Int) := by
  unfold math.gcd
  have h1 : ∀ c : Int, 0 ≤ (if c < 0 then -c else c) ∧
      (if c < 0 then -c else c).natAbs = c.natAbs := by
    intro c
    by_cases hc : c < 0
    · rw [if_pos hc]
      exact ⟨by omega, Int.natAbs_neg c⟩
    · rw [if_neg hc]
      exact ⟨by omega, rfl⟩
  simp only
  rw [gcd_loop_spec fuel _ _ (h1 a).1 (h1 b).1 (by rw [(h1 b).2]; exact hf)]
  unfold Int.gcd
  rw [(h1 a).2, (h1 b).2]

theorem ext_gcd_loop_spec (A B : Int) (fuel : Nat) :
    ∀ (a b x0 y0 x1 y1 : Int), a = A * x0 + B * y0 → b = A * x1 + B * y1 →
      b.natAbs < fuel →
      ∃ g x y, math.ext_gcd_loop fuel a b x0 y0 x1 y1 = some (g, x, y) ∧
        A * x + B * y = g ∧ g.natAbs = Int.gcd a b ∧ (0 ≤ a → 0 ≤ b → 0 ≤ g) := by
  induction fuel with
  | zero => intro a b x0 y0 x1 y1 _ _ h; omega
  | succ n ih =>
    intro a b x0 y0 x1 y1 ha hb hf
    rw [math.ext_gcd_loop]
    by_cases h0 : b = 0
    · subst h0
      rw [if_pos rfl]
      exact ⟨a, x0, y0, rfl, ha.symm, by rw [Int.gcd_zero_right], fun h _ => h⟩
    · rw [if_neg h0]
      have hq : a - a.tdiv b * b = a.tmod b := by
        rw [Int.tmod_def, Int.mul_comm]
      have hlt : (a.tmod b).natAbs < n := by
        rw [natAbs_tmod]
        have : a.natAbs % b.natAbs < b.natAbs :=
          Nat.mod_lt _ (Int.natAbs_pos.mpr h0)
        omega
      obtain ⟨g, x, y, e, h1, h2, h3⟩ := ih b (a - a.tdiv b * b) x1 y1
        (x0 - a.tdiv b * x1) (y0 - a.tdiv b * y1) hb (by rw [ha, hb]; ring)
        (by rw [hq]; exact hlt)
      refine ⟨g, x, y, e, h1, ?_, fun hpa hpb => h3 hpb ?_⟩
      · rw [h2, hq, gcd_tmod]
      · rw [hq]
        exact Int.tmod_nonneg b hpa

/-- What `ext_gcd` returns within the loop budget: the identity of Bezout, and a first
component whose absolute value is the result of `math::gcd`. -/
theorem ext_gcd_spec (a b : Int) (fuel : Nat) (hfuel : b.natAbs < fuel) :
    ∃ g x y, math.ext_gcd fuel a b = some (g, x, y) ∧ a * x + b * y = g ∧
      math.gcd fuel a b = some (g.natAbs : Int) ∧
      g.natAbs = Int.gcd a b ∧
      (0 ≤ a → 0 ≤ b → 0 ≤ g ∧ math.gcd fuel a b = some g) := by
  obtain ⟨g, x, y, e, h1, h2, h3⟩ := ext_gcd_loop_spec a b fuel a b 1 0 0 1
    (by ring) (by ring) hfuel
  refine ⟨g, x, y, e, h1, ?_, h2, fun ha hb => ⟨h3 ha hb, ?_⟩⟩
  · rw [math_gcd_spec fuel a b hfuel, h2]
  · rw [math_gcd_spec fuel a b hfuel, ← h2, Int.natAbs_of_nonneg (h3 ha hb)]

/-- C28 (`ext_gcd`). The call `ext_gcd(4, -6)` returns `(-2, 1, 1)`: the identity
`4*1 + (-6)*1 = -2` holds, but the first component is `-2` while `math::gcd(4, -6)` returns
`2`, against the comment of `ext_gcd`, "returns (g, x, y) s.t. ax + by = g = gcd(a,b)".
For all integers `a` and `b`, with more iterations allowed than `|b|`, `ext_gcd(a, b)`
returns `(g, x, y)` with `a*x + b*y = g`, and `math::gcd(a, b)` returns `|g|`, the greatest
common divisor of `a` and `b`; when `a` and `b` are not negative, `g` is not negative and
`math::gcd(a, b)` returns `g` itself, as for `ext_gcd(240, 46) = (2, -9, 47)`. -/
theorem C28_ext_gcd :
    (math.ext_gcd 7 4 (-6) = some (-2, 1, 1) ∧ math.gcd 7 4 (-6) = some 2 ∧
      (4 : Int) * 1 + (-6) * 1 = -2 ∧ (-2 : Int) ≠ 2) ∧
    (∀ (a b : Int) (fuel : Nat), b.natAbs < fuel →
      ∃ g x y, math.ext_gcd fuel a b = some (g, x, y) ∧ a * x + b * y = g ∧
        math.gcd fuel a b = some (g.natAbs : Int) ∧
        g.natAbs = Int.gcd a b ∧
        (0 ≤ a → 0 ≤ b → 0 ≤ g ∧ math.gcd fuel a b = some g)) ∧
    (math.ext_gcd 50 240 46 = some (2, -9, 47) ∧ math.gcd 50 240 46 = some 2 ∧
      math.ext_gcd 50 (-240) (-46) = some (-2, -9, 47) ∧
      math.gcd 50 (-240) (-46) = some 2) :=
  ⟨by decide, ext_gcd_spec, by decide⟩


/-! ## A prime that the Miller-Rabin test rejects -/

theorem modPow_spec (n : Nat) (fuel : Nat) :
    ∀ (acc b e : Nat), e < 2 ^ fuel → modPow n fuel acc b e = acc * b ^ e % n := by
  induction fuel with
  | zero =>
    intro acc b e he
    have h0 : e = 0 := by simpa using he
    subst h0
    simp [modPow]
  | succ f ih =>
    intro acc b e he
    rw [modPow]
    by_cases h0 : e = 0
    · subst h0
      simp
    · rw [if_neg h0, ih _ _ _ (by rw [Nat.pow_succ] at he; omega)]
      have hb : (b * b % n) ^ (e / 2) % n = (b * b) ^ (e / 2) % n := by
        rw [Nat.pow_mod, Nat.mod_mod, ← Nat.pow_mod]
      have hsq : (b * b) ^ (e / 2) = b ^ (2 * (e / 2)) := by
        rw [Nat.pow_mul, Nat.pow_two]
      by_cases h1 : e % 2 = 1
      · rw [if_pos h1]
        have he2 : e = 2 * (e / 2) + 1 := by omega
        conv_rhs => rw [he2, Nat.pow_succ, ← hsq]
        rw [Nat.mul_mod, Nat.mod_mod, hb, ← Nat.mul_mod, Nat.mul_mod, ← Nat.mul_mod (acc * b)]
        congr 1
        ring
      · rw [if_neg h1]
        have he2 : e = 2 * (e / 2) := by omega
        conv_rhs => rw [he2, ← hsq]
        rw [Nat.mul_mod acc, hb, ← Nat.mul_mod]

theorem zmod_pow_eq_one_iff (n a e : Nat) (hn : 1 < n) (he : e < 2 ^ 64) :
    ((a : ZMod n)) ^ e = 1 ↔ modPow n 64 1 a e = 1 := by
  rw [modPow_spec n 64 1 a e he, Nat.one_mul, ← Nat.cast_pow, ← Nat.cast_one,
    ZMod.natCast_eq_natCast_iff', Nat.one_mod_eq_one.mpr (by omega)]

/-- The number `smoothPrime` is prime: 13 has order `smoothPrime - 1` modulo it. -/
theorem smoothPrime_prime : Nat.Prime smoothPrime := by
  have hn : (1 : Nat) < smoothPrime := by decide
  have hfac : smoothPrime - 1 = 2 ^ 16 * 3 ^ 3 * 5 ^ 16 * 7 ^ 2 := by decide
  have hcast : ((13 : Nat) : ZMod smoothPrime) = 13 := by norm_cast
  refine lucas_primality smoothPrime 13 ?_ ?_
  · rw [← hcast, zmod_pow_eq_one_iff smoothPrime 13 _ hn (by decide)]
    decide
  · intro q hq hdvd
    have hq4 : q = 2 ∨ q = 3 ∨ q = 5 ∨ q = 7 := by
      rw [hfac] at hdvd
      rcases (Nat.Prime.dvd_mul hq).mp hdvd with h | h
      · rcases (Nat.Prime.dvd_mul hq).mp h with h | h
        · rcases (Nat.Prime.dvd_mul hq).mp h with h | h
          · exact Or.inl ((Nat.prime_dvd_prime_iff_eq hq Nat.prime_two).mp
              (hq.dvd_of_dvd_pow h))
          · exact Or.inr (Or.inl ((Nat.prime_dvd_prime_iff_eq hq Nat.prime_three).mp
              (hq.dvd_of_dvd_pow h)))
        · exact Or.inr (Or.inr (Or.inl ((Nat.prime_dvd_prime_iff_eq hq Nat.prime_five).mp
            (hq.dvd_of_dvd_pow h))))
      · exact Or.inr (Or.inr (Or.inr ((Nat.prime_dvd_prime_iff_eq hq (by norm_num)).mp
          (hq.dvd_of_dvd_pow h))))
    rw [← hcast]
    rcases hq4 with rfl | rfl | rfl | rfl
    · rw [Ne, zmod_pow_eq_one_iff smoothPrime 13 _ hn (by decide)]
      decide
    · rw [Ne, zmod_pow_eq_one_iff smoothPrime 13 _ hn (by decide)]
      decide
    · rw [Ne, zmod_pow_eq_one_iff smoothPrime 13 _ hn (by decide)]
      decide
    · rw [Ne, zmod_pow_eq_one_iff smoothPrime 13 _ hn (by decide)]
      decide


theorem pow_loop_more (n : Nat) (fuel : Nat) :
    ∀ (x p : Int) (e : Nat) (r : Int) (k : Nat), math.pow_loop n fuel x p e = some r →
      math.pow_loop n (fuel + k) x p e = some r := by
  induction fuel with
  | zero => intro x p e r k h; cases h
  | succ f ih =>
    intro x p e r k h
    rw [Nat.add_right_comm, math.pow_loop]
    rw [math.pow_loop] at h
    by_cases h0 : e = 0
    · rw [if_pos h0] at h ⊢
      exact h
    · rw [if_neg h0] at h ⊢
      exact ih _ _ _ r k h

theorem decompose_more (fuel : Nat) :
    ∀ (d s : Nat) (r : Nat × Nat) (k : Nat), math.decompose fuel d s = some r →
      math.decompose (fuel + k) d s = some r := by
  induction fuel with
  | zero => intro d s r k h; cases h
  | succ f ih =>
    intro d s r k h
    rw [Nat.add_right_comm, math.decompose]
    rw [math.decompose] at h
    by_cases h0 : d % 2 = 0
    · rw [if_pos h0] at h ⊢
      exact ih _ _ r k h
    · rw [if_neg h0] at h ⊢
      exact h

theorem check_more (fuel n d s a : Nat) (b : Bool) (k : Nat)
    (h : math.check fuel n d s a = some b) : math.check (fuel + k) n d s a = some b := by
  unfold math.check at h ⊢
  cases hp : math.pow_loop n fuel 1 ((a % n : Nat) : Int) d with
  | none => rw [hp] at h; cases h
  | some x =>
    rw [hp] at h
    rw [pow_loop_more n fuel _ _ _ x k hp]
    exact h

theorem bases_more (fuel n d s : Nat) (k : Nat) (as : List Nat) :
    ∀ (b : Bool), math.bases fuel n d s as = some b →
      math.bases (fuel + k) n d s as = some b := by
  induction as with
  | nil => intro b h; exact h
  | cons a as ih =>
    intro b h
    rw [math.bases] at h ⊢
    by_cases h0 : a % n ≠ 0
    · rw [if_pos h0] at h ⊢
      cases hc : math.check fuel n d s (a % n) with
      | none => rw [hc] at h; cases h
      | some c =>
        rw [hc] at h
        rw [check_more fuel n d s (a % n) c k hc]
        cases c with
        | false => exact h
        | true => exact ih b h
    · rw [if_neg h0] at h ⊢
      exact ih b h

/-- A result of `is_probable_prime` does not change when more iterations are allowed. -/
theorem is_probable_prime_more (fuel n : Nat) (b : Bool) (k : Nat)
    (h : math.is_probable_prime fuel n = some b) :
    math.is_probable_prime (fuel + k) n = some b := by
  unfold math.is_probable_prime at h ⊢
  by_cases h2 : n < 2
  · rw [if_pos h2] at h ⊢
    exact h
  · rw [if_neg h2] at h ⊢
    cases ht : math.trial n [2, 3, 5, 7, 11, 13, 17, 19, 23, 29, 31, 37] with
    | some c =>
      rw [ht] at h
      exact h
    | none =>
      rw [ht] at h
      simp only at h ⊢
      cases hd : math.decompose fuel ((n + U64_MOD - 1) % U64_MOD) 0 with
      | none => rw [hd] at h; cases h
      | some ds =>
        rw [hd] at h
        rw [decompose_more fuel _ _ ds k hd]
        exact bases_more fuel n ds.1 ds.2 k _ b h

set_option maxRecDepth 100000 in
/-- C29 fails at the prime `13230000000000000001 = 2^16 * 3^3 * 5^16 * 7^2 + 1`, which is
below `2 ^ 64`: for every number of loop iterations from 64 on, `is_probable_prime` returns
false. In the check of base 2 the square of `p = 13120977885674404375` is above
`2 ^ 127 - 1`; as an `__int128` it is negative, and so is its remainder modulo `n`. -/
theorem C29_prime_rejected :
    Nat.Prime smoothPrime ∧ smoothPrime < 2 ^ 64 ∧
    (∀ fuel, 64 ≤ fuel → math.is_probable_prime fuel smoothPrime = some false) ∧
    math.decompose 64 (smoothPrime - 1) 0 = some (201873779296875, 16) ∧
    math.check 64 smoothPrime 201873779296875 16 2 = some false ∧
    (2 : Int) ^ 127 - 1 < 13120977885674404375 * 13120977885674404375 ∧
    int128 (13120977885674404375 * 13120977885674404375)
      = -168122306244581700458075292420749070831 ∧
    (int128 (13120977885674404375 * 13120977885674404375)).tmod smoothPrime
      = -5687635108233447215 := by
  refine ⟨smoothPrime_prime, by decide, ?_, by decide, by decide, by decide, by decide,
    by decide⟩
  intro fuel hf
  obtain ⟨k, rfl⟩ := Nat.exists_eq_add_of_le hf
  exact is_probable_prime_more 64 smoothPrime false k (by decide)


/-! ## json::object -/

theorem key_unique {V : Type} (l : List (String × V)) (hnd : (l.map Prod.fst).Nodup)
    (i j : Nat) (a b : String × V) (hi : l[i]? = some a) (hj : l[j]? = some b)
    (hk : a.1 = b.1) : i = j := by
  have h1 : (l.map Prod.fst)[i]? = some a.1 := by rw [List.getElem?_map, hi]; rfl
  have h2 : (l.map Prod.fst)[j]? = some a.1 := by rw [List.getElem?_map, hj, hk]; rfl
  have hil : i < (l.map Prod.fst).length := (List.getElem?_eq_some.mp h1).1
  have hjl : j < (l.map Prod.fst).length := (List.getElem?_eq_some.mp h2).1
  have hne := List.nodup_iff_getElem?_ne_getElem?.mp hnd
  rcases Nat.lt_trichotomy i j with h | h | h
  · exact absurd (h1.trans h2.symm) (hne i j h hjl)
  · exact h
  · exact absurd (h2.trans h1.symm) (hne j i h hil)

theorem mem_keys_iff {V : Type} (o : json.object V) (hinv : o.Inv) (k : String) :
    k ∈ o.items_.map Prod.fst ↔ ∃ i, o.index_ k = some i := by
  constructor
  · intro hk
    obtain ⟨kv, hkv, rfl⟩ := List.mem_map.mp hk
    obtain ⟨i, hi⟩ := List.mem_iff_getElem?.mp hkv
    exact ⟨i, hinv.position i kv hi⟩
  · rintro ⟨i, hi⟩
    obtain ⟨v, hv⟩ := hinv.only k i hi
    exact List.mem_map.mpr ⟨(k, v), List.mem_iff_getElem?.mpr ⟨i, hv⟩, rfl⟩

theorem map_replace_eq_set {V : Type} (l : List (String × V)) (k : String) (v : V) :
    ∀ (i : Nat) (a : String × V), (l.map Prod.fst).Nodup → l[i]? = some a → a.1 = k →
      l.map (fun kv => if kv.1 = k then (k, v) else kv) = l.set i (k, v) := by
  induction l with
  | nil => intro i a _ h; cases h
  | cons x xs ih =>
    intro i a hnd h hk
    rw [List.map_cons, List.nodup_cons] at hnd
    cases i with
    | zero =>
      simp only [List.getElem?_cons_zero, Option.some.injEq] at h
      subst h
      rw [List.map_cons, if_pos hk, List.set_cons_zero]
      congr 1
      refine (List.map_congr_left fun kv hkv => ?_).trans (List.map_id _)
      rw [if_neg (fun hkk => hnd.1 (List.mem_map.mpr ⟨kv, hkv, by rw [hkk, hk]⟩))]
      rfl
    | succ n =>
      simp only [List.getElem?_cons_succ] at h
      have hx : x.1 ≠ k := by
        intro hxk
        exact hnd.1 (List.mem_map.mpr ⟨a, List.mem_iff_getElem?.mpr ⟨n, h⟩, by rw [hk, hxk]⟩)
      rw [List.map_cons, if_neg hx, List.set_cons_succ, ih n a hnd.2 h hk]

theorem eraseIdx_eq_filter {V : Type} (l : List (String × V)) (k : String) :
    ∀ (i : Nat) (a : String × V), (l.map Prod.fst).Nodup → l[i]? = some a → a.1 = k →
      l.eraseIdx i = l.filter (fun kv => decide (kv.1 ≠ k)) := by
  induction l with
  | nil => intro i a _ h; cases h
  | cons x xs ih =>
    intro i a hnd h hk
    rw [List.map_cons, List.nodup_cons] at hnd
    cases i with
    | zero =>
      simp only [List.getElem?_cons_zero, Option.some.injEq] at h
      subst h
      rw [List.eraseIdx_cons_zero, List.filter_cons_of_neg (by simpa using hk)]
      symm
      rw [List.filter_eq_self]
      intro kv hkv
      have : kv.1 ≠ k := by
        intro hkk
        exact hnd.1 (List.mem_map.mpr ⟨kv, hkv, by rw [hkk, hk]⟩)
      simpa using this
    | succ n =>
      simp only [List.getElem?_cons_succ] at h
      have hx : x.1 ≠ k := by
        intro hxk
        exact hnd.1 (List.mem_map.mpr ⟨a, List.mem_iff_getElem?.mpr ⟨n, h⟩, by rw [hk, hxk]⟩)
      rw [List.eraseIdx_cons_succ, List.filter_cons_of_pos (by simpa using hx),
        ih n a hnd.2 h hk]

/-- The loop of `erase`: the keys at the positions from `i` on are mapped to their
positions, and every other key is mapped as before. -/
theorem reindex_spec {V : Type} (items : List (String × V))
    (hnd : (items.map Prod.fst).Nodup) (rem : Nat) :
    ∀ (i : Nat) (index : json.Index), i + rem = items.length →
      (∀ j kv, i ≤ j → items[j]? = some kv →
        json.object.reindex items i rem index kv.1 = some j) ∧
      (∀ k, (∀ j kv, i ≤ j → items[j]? = some kv → kv.1 ≠ k) →
        json.object.reindex items i rem index k = index k) := by
  induction rem with
  | zero =>
    intro i index hlen
    refine ⟨fun j kv hij hj => ?_, fun k _ => rfl⟩
    have := (List.getElem?_eq_some.mp hj).1
    omega
  | succ r ih =>
    intro i index hlen
    have hil : i < items.length := by omega
    obtain ⟨a, ha⟩ : ∃ a, items[i]? = some a := ⟨items[i], List.getElem?_eq_getElem hil⟩
    obtain ⟨h1, h2⟩ := ih (i + 1) (index.assign a.1 i) (by omega)
    have hstep : ∀ k, json.object.reindex items i (r + 1) index k
        = json.object.reindex items (i + 1) r (index.assign a.1 i) k := by
      intro k
      rw [json.object.reindex, ha]
    refine ⟨fun j kv hij hj => ?_, fun k hk => ?_⟩
    · rw [hstep]
      by_cases hji : j = i
      · subst hji
        rw [ha] at hj
        cases hj
        rw [h2 a.1 (fun j' kv' hj' hkv' hkk => by
          have := key_unique items hnd j' j kv' a hkv' ha hkk
          omega)]
        simp [json.Index.assign]
      · exact h1 j kv (by omega) hj
    · rw [hstep, h2 k (fun j kv hj hkv => hk j kv (by omega) hkv)]
      have hne : k ≠ a.1 := fun hka => hk i a (Nat.le_refl _) ha hka.symm
      simp [json.Index.assign, hne]


theorem inv_new {V : Type} : (json.object.new : json.object V).Inv :=
  ⟨List.nodup_nil, (fun i kv h => by cases h), (fun k i h => by cases h)⟩

/-- The method `set` on an object that satisfies the invariant. -/
theorem set_spec {V : Type} (o : json.object V) (hinv : o.Inv) (key : String) (value : V) :
    ∃ o2 b, o.set key value = .ok (o2, b) ∧ o2.Inv ∧
      o2.items_ = json.described o.items_ (.set key value) ∧
      (b = true ↔ key ∉ o.items_.map Prod.fst) ∧
      (∀ i, o.index_ key = some i →
        o2.items_ = o.items_.set i (key, value) ∧ o2.index_ = o.index_ ∧
        o2.items_.map Prod.fst = o.items_.map Prod.fst) ∧
      (o.index_ key = none → o2.items_ = o.items_ ++ [(key, value)]) := by
  cases hk : o.index_ key with
  | none =>
    have hnot : key ∉ o.items_.map Prod.fst := by
      intro hin
      obtain ⟨i, hi⟩ := (mem_keys_iff o hinv key).mp hin
      rw [hk] at hi
      cases hi
    refine ⟨{ items_ := o.items_ ++ [(key, value)],
              index_ := o.index_.emplace key o.items_.length }, true, ?_, ?_, ?_,
      ⟨fun _ => hnot, fun _ => rfl⟩, (fun i hi => by cases hi), fun _ => rfl⟩
    · simp only [json.object.set, hk]
    · refine ⟨?_, ?_, ?_⟩
      · show ((o.items_ ++ [(key, value)]).map Prod.fst).Nodup
        rw [List.map_append, List.nodup_append]
        refine ⟨hinv.distinct, List.nodup_singleton _, ?_⟩
        intro a ha hb
        simp only [List.map_cons, List.map_nil, List.mem_singleton] at hb
        exact hnot (hb ▸ ha)
      · intro i kv hi
        show o.index_.emplace key o.items_.length kv.1 = some i
        by_cases hlt : i < o.items_.length
        · have hi2 : o.items_[i]? = some kv := by
            have : (o.items_ ++ [(key, value)])[i]? = some kv := hi
            rwa [List.getElem?_append_left hlt] at this
          have hne : kv.1 ≠ key := fun h =>
            hnot (List.mem_map.mpr ⟨kv, List.mem_iff_getElem?.mpr ⟨i, hi2⟩, h⟩)
          simp only [json.Index.emplace, hne, if_false]
          exact hinv.position i kv hi2
        · have hi3 : (o.items_ ++ [(key, value)])[i]? = some kv := hi
          rw [List.getElem?_append_right (Nat.le_of_not_lt hlt)] at hi3
          have hi0 : i - o.items_.length = 0 := by
            by_contra hne
            rw [List.getElem?_eq_none (by simp; omega)] at hi3
            cases hi3
          rw [hi0] at hi3
          simp only [List.getElem?_cons_zero, Option.some.injEq] at hi3
          subst hi3
          have hil : i = o.items_.length := by omega
          simp only [json.Index.emplace, if_true, hk, hil]
      · intro k i hi
        show ∃ v, (o.items_ ++ [(key, value)])[i]? = some (k, v)
        have hi2 : o.index_.emplace key o.items_.length k = some i := hi
        by_cases hkk : k = key
        · subst hkk
          simp only [json.Index.emplace, if_true, hk, Option.some.injEq] at hi2
          subst hi2
          exact ⟨value, by rw [List.getElem?_append_right (Nat.le_refl _)]; simp⟩
        · simp only [json.Index.emplace, hkk, if_false] at hi2
          obtain ⟨v, hv⟩ := hinv.only k i hi2
          exact ⟨v, by
            rw [List.getElem?_append_left (List.getElem?_eq_some.mp hv).1]
            exact hv⟩
    · show o.items_ ++ [(key, value)] = json.described o.items_ (.set key value)
      simp only [json.described, hnot, if_false]
  | some i =>
    obtain ⟨v0, hv0⟩ := hinv.only key i hk
    have hin : key ∈ o.items_.map Prod.fst :=
      List.mem_map.mpr ⟨(key, v0), List.mem_iff_getElem?.mpr ⟨i, hv0⟩, rfl⟩
    have hrep := map_replace_eq_set o.items_ key value i (key, v0) hinv.distinct hv0 rfl
    have hkeys : (o.items_.set i (key, value)).map Prod.fst = o.items_.map Prod.fst := by
      rw [← hrep, List.map_map]
      refine List.map_congr_left fun kv _ => ?_
      show (if kv.1 = key then (key, value) else kv).1 = kv.1
      by_cases h : kv.1 = key
      · rw [if_pos h, h]
      · rw [if_neg h]
    have hil : i < o.items_.length := (List.getElem?_eq_some.mp hv0).1
    refine ⟨{ o with items_ := o.items_.set i (key, value) }, false, ?_, ?_, ?_,
      ⟨(fun h => by cases h), fun h => absurd hin h⟩,
      (fun j hj => by cases hj; exact ⟨rfl, rfl, hkeys⟩), (fun h => by cases h)⟩
    · simp only [json.object.set, hk, hv0]
    · refine ⟨(by rw [hkeys]; exact hinv.distinct), ?_, ?_⟩
      · intro j kv hj
        show o.index_ kv.1 = some j
        have hj2 : (o.items_.set i (key, value))[j]? = some kv := hj
        rw [List.getElem?_set] at hj2
        by_cases hij : i = j
        · subst hij
          rw [if_pos rfl, if_pos hil] at hj2
          cases hj2
          exact hk
        · rw [if_neg hij] at hj2
          exact hinv.position j kv hj2
      · intro k j hj
        show ∃ v, (o.items_.set i (key, value))[j]? = some (k, v)
        obtain ⟨v, hv⟩ := hinv.only k j hj
        rw [List.getElem?_set]
        by_cases hij : i = j
        · subst hij
          rw [hv0] at hv
          cases hv
          exact ⟨value, by rw [if_pos rfl, if_pos hil]⟩
        · exact ⟨v, by rw [if_neg hij]; exact hv⟩
    · show o.items_.set i (key, value) = json.described o.items_ (.set key value)
      simp only [json.described, hin, if_true]
      exact hrep.symm

/-- The method `emplace` on an object that satisfies the invariant. -/
theorem emplace_spec {V : Type} (o : json.object V) (hinv : o.Inv) (key : String)
    (value : V) :
    ∃ o2 b, o.emplace key value = .ok (o2, b) ∧ o2.Inv ∧
      o2.items_ = json.described o.items_ (.emplace key value) ∧
      (b = true ↔ key ∉ o.items_.map Prod.fst) ∧
      (key ∈ o.items_.map Prod.fst → o2.items_ = o.items_ ∧ o2.index_ = o.index_) := by
  cases hk : o.index_ key with
  | none =>
    have hnot : key ∉ o.items_.map Prod.fst := by
      intro hin
      obtain ⟨i, hi⟩ := (mem_keys_iff o hinv key).mp hin
      rw [hk] at hi
      cases hi
    obtain ⟨o2, b, e, h1, h2, h3, _⟩ := set_spec o hinv key value
    refine ⟨o2, b, ?_, h1, ?_, h3, fun h => absurd h hnot⟩
    · simp only [json.object.emplace, json.object.contains, hk, Option.isSome_none,
        Bool.false_eq_true, if_false, e]
    · rw [h2]
      simp only [json.described, hnot, if_false]
  | some i =>
    obtain ⟨v0, hv0⟩ := hinv.only key i hk
    have hin : key ∈ o.items_.map Prod.fst :=
      List.mem_map.mpr ⟨(key, v0), List.mem_iff_getElem?.mpr ⟨i, hv0⟩, rfl⟩
    refine ⟨o, false, ?_, hinv, ?_, ⟨(fun h => by cases h), fun h => absurd hin h⟩,
      fun _ => ⟨rfl, rfl⟩⟩
    · simp only [json.object.emplace, json.object.contains, hk, Option.isSome_some, if_true,
        json.object.at, json.object.find, hv0]
    · simp only [json.described, hin, if_true]


/-- The method `erase` on an object that satisfies the invariant. -/
theorem erase_spec {V : Type} (o : json.object V) (hinv : o.Inv) (key : String) :
    ∃ o2 b, o.erase key = .ok (o2, b) ∧ o2.Inv ∧
      o2.items_ = json.described o.items_ (.erase key) ∧
      (b = true ↔ key ∈ o.items_.map Prod.fst) := by
  cases hk : o.index_ key with
  | none =>
    have hnot : key ∉ o.items_.map Prod.fst := by
      intro hin
      obtain ⟨i, hi⟩ := (mem_keys_iff o hinv key).mp hin
      rw [hk] at hi
      cases hi
    refine ⟨o, false, ?_, hinv, ?_, ⟨(fun h => by cases h), fun h => absurd h hnot⟩⟩
    · simp only [json.object.erase, hk]
    · show o.items_ = o.items_.filter (fun kv => decide (kv.1 ≠ key))
      symm
      rw [List.filter_eq_self]
      intro kv hkv
      have : kv.1 ≠ key := fun h => hnot (List.mem_map.mpr ⟨kv, hkv, h⟩)
      simpa using this
  | some idx =>
    obtain ⟨v0, hv0⟩ := hinv.only key idx hk
    have hin : key ∈ o.items_.map Prod.fst :=
      List.mem_map.mpr ⟨(key, v0), List.mem_iff_getElem?.mpr ⟨idx, hv0⟩, rfl⟩
    have hil : idx < o.items_.length := (List.getElem?_eq_some.mp hv0).1
    have hnd2 : ((o.items_.eraseIdx idx).map Prod.fst).Nodup :=
      hinv.distinct.sublist ((List.eraseIdx_sublist _ _).map _)
    have hlen : (o.items_.eraseIdx idx).length = o.items_.length - 1 :=
      List.length_eraseIdx_of_lt hil
    have hget : ∀ j, (o.items_.eraseIdx idx)[j]? =
        if j < idx then o.items_[j]? else o.items_[j + 1]? := fun j =>
      List.getElem?_eraseIdx _ _ _
    obtain ⟨hre1, hre2⟩ := reindex_spec (o.items_.eraseIdx idx) hnd2
      ((o.items_.eraseIdx idx).length - idx) idx (o.index_.erase key) (by omega)
    have hpos : ∀ j kv, (o.items_.eraseIdx idx)[j]? = some kv →
        json.object.reindex (o.items_.eraseIdx idx) idx
          ((o.items_.eraseIdx idx).length - idx) (o.index_.erase key) kv.1 = some j := by
      intro j kv hj
      by_cases hij : idx ≤ j
      · exact hre1 j kv hij hj
      · have hlt : j < idx := Nat.lt_of_not_le hij
        rw [hre2 kv.1 (fun j2 kv2 h2 hj2 hkk => by
          have := key_unique _ hnd2 j2 j kv2 kv hj2 hj hkk
          omega)]
        have hj0 : o.items_[j]? = some kv := by
          rw [hget, if_pos hlt] at hj
          exact hj
        have hne : kv.1 ≠ key := fun h => by
          have := key_unique _ hinv.distinct j idx kv (key, v0) hj0 hv0 h
          omega
        simp only [json.Index.erase, hne, if_false]
        exact hinv.position j kv hj0
    refine ⟨{ items_ := o.items_.eraseIdx idx,
              index_ := json.object.reindex (o.items_.eraseIdx idx) idx
                ((o.items_.eraseIdx idx).length - idx) (o.index_.erase key) }, true,
      ?_, ⟨hnd2, hpos, ?_⟩, ?_, ⟨fun _ => hin, fun _ => rfl⟩⟩
    · simp only [json.object.erase, hk, hil, if_true]
    · intro k j hj
      show ∃ v, (o.items_.eraseIdx idx)[j]? = some (k, v)
      have hj2 : json.object.reindex (o.items_.eraseIdx idx) idx
          ((o.items_.eraseIdx idx).length - idx) (o.index_.erase key) k = some j := hj
      by_cases hex : ∃ (j2 : Nat) (kv2 : String × V),
          (o.items_.eraseIdx idx)[j2]? = some kv2 ∧ kv2.1 = k
      · obtain ⟨j2, kv2, h2, hk2⟩ := hex
        have h3 := hpos j2 kv2 h2
        rw [hk2, hj2] at h3
        cases h3
        exact ⟨kv2.2, by rw [h2, ← hk2]⟩
      · exfalso
        rw [hre2 k (fun j2 kv2 _ hj3 hkk => hex ⟨j2, kv2, hj3, hkk⟩)] at hj2
        have hne : k ≠ key := by
          intro h
          simp only [json.Index.erase, h, if_true] at hj2
          cases hj2
        simp only [json.Index.erase, hne, if_false] at hj2
        obtain ⟨v, hv⟩ := hinv.only k j hj2
        have hjne : j ≠ idx := by
          intro h
          rw [h, hv0] at hv
          cases hv
          exact hne rfl
        by_cases hlt : j < idx
        · exact hex ⟨j, (k, v), by rw [hget, if_pos hlt]; exact hv, rfl⟩
        · have hj1 : j - 1 + 1 = j := by omega
          exact hex ⟨j - 1, (k, v), by
            rw [hget, if_neg (by omega), hj1]
            exact hv, rfl⟩
    · show o.items_.eraseIdx idx = o.items_.filter (fun kv => decide (kv.1 ≠ key))
      exact eraseIdx_eq_filter o.items_ key idx (key, v0) hinv.distinct hv0 rfl

/-- Every call on an object that satisfies the invariant returns, keeps the invariant and
changes the sequence of pairs as described. -/
theorem call_spec {V : Type} (o : json.object V) (hinv : o.Inv) (c : json.ObjCall V) :
    ∃ o2, o.call c = .ok o2 ∧ o2.Inv ∧ o2.items_ = json.described o.items_ c := by
  cases c with
  | set key value =>
    obtain ⟨o2, b, e, h1, h2, _⟩ := set_spec o hinv key value
    exact ⟨o2, by simp only [json.object.call, e], h1, h2⟩
  | emplace key value =>
    obtain ⟨o2, b, e, h1, h2, _⟩ := emplace_spec o hinv key value
    exact ⟨o2, by simp only [json.object.call, e], h1, h2⟩
  | erase key =>
    obtain ⟨o2, b, e, h1, h2, _⟩ := erase_spec o hinv key
    exact ⟨o2, by simp only [json.object.call, e], h1, h2⟩

theorem objCalls_spec {V : Type} (calls : List (json.ObjCall V)) :
    ∀ o : json.object V, o.Inv →
      ∃ o2, o.calls calls = .ok o2 ∧ o2.Inv ∧
        o2.items_ = json.describedAll o.items_ calls := by
  induction calls with
  | nil => intro o hinv; exact ⟨o, rfl, hinv, rfl⟩
  | cons c cs ih =>
    intro o hinv
    obtain ⟨o1, e1, h1, h2⟩ := call_spec o hinv c
    obtain ⟨o2, e2, h3, h4⟩ := ih o1 h1
    refine ⟨o2, ?_, h3, ?_⟩
    · simp only [json.object.calls, e1, e2]
    · rw [h4, h2]
      rfl


theorem describedAll_append {V : Type} (cs : List (json.ObjCall V)) (c : json.ObjCall V) :
    ∀ items : List (String × V),
      json.describedAll items (cs ++ [c]) = json.described (json.describedAll items cs) c := by
  induction cs with
  | nil => intro items; rfl
  | cons d ds ih => intro items; exact ih (json.described items d)

/-- The keys after a call, from the keys before it. -/
theorem described_keys {V : Type} (items : List (String × V)) (c : json.ObjCall V) :
    (json.described items c).map Prod.fst =
      match c with
      | .erase key => (items.map Prod.fst).filter (fun k => decide (k ≠ key))
      | .set key _ =>
        if key ∈ items.map Prod.fst then items.map Prod.fst else items.map Prod.fst ++ [key]
      | .emplace key _ =>
        if key ∈ items.map Prod.fst then items.map Prod.fst
        else items.map Prod.fst ++ [key] := by
  cases c with
  | set key value =>
    show (json.described items (.set key value)).map Prod.fst = _
    by_cases h : key ∈ items.map Prod.fst
    · simp only [json.described, h, if_true, List.map_map]
      refine List.map_congr_left fun kv _ => ?_
      show (if kv.1 = key then (key, value) else kv).1 = kv.1
      by_cases hk : kv.1 = key
      · rw [if_pos hk, hk]
      · rw [if_neg hk]
    · simp only [json.described, h, if_false, List.map_append, List.map_cons, List.map_nil]
  | emplace key value =>
    by_cases h : key ∈ items.map Prod.fst
    · simp only [json.described, h, if_true]
    · simp only [json.described, h, if_false, List.map_append, List.map_cons, List.map_nil]
  | erase key =>
    show (items.filter (fun kv => decide (kv.1 ≠ key))).map Prod.fst =
      (items.map Prod.fst).filter (fun k => decide (k ≠ key))
    rw [List.filter_map]
    rfl

theorem insert_keys (K S E : List String) (k : String)
    (hK : K = S.filter (fun s => decide (s ∈ K)))
    (hE : ∀ s ∈ S, s ∉ K → s ∈ E) (hk : k ∉ E) :
    (if k ∈ K then K else K ++ [k]) =
      (if k ∈ S then S else S ++ [k]).filter
        (fun s => decide (s ∈ (if k ∈ K then K else K ++ [k]))) ∧
    ∀ s ∈ (if k ∈ S then S else S ++ [k]), s ∉ (if k ∈ K then K else K ++ [k]) → s ∈ E := by
  by_cases h : k ∈ K
  · have hS : k ∈ S := by
      rw [hK] at h
      exact (List.mem_filter.mp h).1
    rw [if_pos h, if_pos hS]
    exact ⟨hK, hE⟩
  · have hS : k ∉ S := fun hs => hk (hE k hs h)
    rw [if_neg h, if_neg hS]
    constructor
    · rw [List.filter_append]
      have h1 : S.filter (fun s => decide (s ∈ K ++ [k])) =
          S.filter (fun s => decide (s ∈ K)) := by
        refine List.filter_congr fun s hs => ?_
        have hne : s ≠ k := fun e => hS (e ▸ hs)
        simp [hne]
      have h2 : [k].filter (fun s => decide (s ∈ K ++ [k])) = [k] := by
        simp
      rw [h1, h2, ← hK]
    · intro s hs hn
      rw [List.mem_append, List.mem_singleton] at hs hn
      rcases hs with hs | hs
      · exact hE s hs (fun h2 => hn (Or.inl h2))
      · exact absurd (Or.inr hs) hn

theorem erase_keys (K S E : List String) (k : String)
    (hK : K = S.filter (fun s => decide (s ∈ K)))
    (hE : ∀ s ∈ S, s ∉ K → s ∈ E) :
    K.filter (fun s => decide (s ≠ k)) =
      S.filter (fun s => decide (s ∈ K.filter (fun s => decide (s ≠ k)))) ∧
    ∀ s ∈ S, s ∉ K.filter (fun s => decide (s ≠ k)) → s ∈ k :: E := by
  constructor
  · conv_lhs => rw [hK]
    rw [List.filter_filter]
    refine List.filter_congr fun s _ => ?_
    by_cases h1 : s ∈ K <;> by_cases h2 : s = k <;> simp [List.mem_filter, h1, h2]
  · intro s hs hn
    by_cases h2 : s = k
    · rw [h2]
      exact List.mem_cons_self _ _
    · refine List.mem_cons_of_mem _ (hE s hs fun h1 => hn ?_)
      exact List.mem_filter.mpr ⟨h1, by simpa using h2⟩

/-- When no key is inserted after an `erase` call for it, the keys stand in the order of
their first insertion. -/
theorem first_insertion_order {V : Type} (calls : List (json.ObjCall V)) :
    json.reinserts calls = false →
      (json.describedAll [] calls).map Prod.fst =
        (json.firstInserted calls).filter
          (fun s => decide (s ∈ (json.describedAll [] calls).map Prod.fst)) ∧
      ∀ s ∈ json.firstInserted calls, s ∉ (json.describedAll [] calls).map Prod.fst →
        s ∈ (calls.foldl json.reinsertStep ([], false)).1 := by
  induction calls using List.reverseRecOn with
  | nil =>
    intro _
    exact ⟨rfl, fun s hs => by cases hs⟩
  | append_singleton cs c ih =>
    intro hbad
    have hbad2 : (json.reinsertStep (cs.foldl json.reinsertStep ([], false)) c).2 = false := by
      have := hbad
      simp only [json.reinserts, List.foldl_append, List.foldl_cons, List.foldl_nil] at this
      exact this
    rw [describedAll_append, described_keys]
    simp only [json.firstInserted, List.foldl_append, List.foldl_cons, List.foldl_nil]
    cases c with
    | set key value =>
      simp only [json.reinsertStep, Bool.or_eq_false_iff, decide_eq_false_iff_not] at hbad2
      obtain ⟨hK, hE⟩ := ih hbad2.1
      exact insert_keys _ _ _ key hK hE hbad2.2
    | emplace key value =>
      simp only [json.reinsertStep, Bool.or_eq_false_iff, decide_eq_false_iff_not] at hbad2
      obtain ⟨hK, hE⟩ := ih hbad2.1
      exact insert_keys _ _ _ key hK hE hbad2.2
    | erase key =>
      obtain ⟨hK, hE⟩ := ih hbad2
      exact erase_keys _ _ _ key hK hE


set_option maxRecDepth 100000 in
/-- C30, counterexample: the run `set a, set b, erase a, set a` from the empty object returns
an object whose pairs are `b, a`, while the first insertion of `a` is before that of `b`;
so iteration does not visit the surviving keys in the order of their first insertion. -/
theorem C30_counterexample :
    ∃ o, json.object.new.calls json.reinsertCalls = .ok o ∧
      o.items_ = [("b", 2), ("a", 3)] ∧
      json.firstInserted json.reinsertCalls = ["a", "b"] ∧
      json.reinserts json.reinsertCalls = true ∧
      o.items_.map Prod.fst ≠
        (json.firstInserted json.reinsertCalls).filter
          (fun s => decide (s ∈ o.items_.map Prod.fst)) :=
  ⟨_, rfl, by decide, by decide, by decide, by decide⟩

/-- C30, amended: every run of `set`, `emplace` and `erase` calls from the empty object
returns an object that satisfies the invariant (the keys of `items_` are pairwise distinct,
`index_` maps the key at each position to that position and has no other keys), and
`items_` is the sequence that arises when a `set` or `emplace` of an absent key puts the
pair last, a `set` of a present key replaces the value where it stands, an `emplace` of a
present key changes nothing and an `erase` removes the pair of its key and keeps the others
in their order. When no key is inserted after an `erase` call for it, the keys stand in the
order of their first insertion. On the object returned, `set` of a key at position `i`
changes only the pair at `i` and leaves `index_` alone, and `erase` returns, filters the key
out of `items_` and reports whether the key was present. -/
theorem C30_insertion_order {V : Type} (calls : List (json.ObjCall V)) :
    ∃ o, json.object.new.calls calls = .ok o ∧ o.Inv ∧
      o.items_ = json.describedAll [] calls ∧
      (json.reinserts calls = false →
        o.items_.map Prod.fst =
          (json.firstInserted calls).filter (fun s => decide (s ∈ o.items_.map Prod.fst))) ∧
      (∀ key value i, o.index_ key = some i →
        ∃ o2, o.set key value = .ok (o2, false) ∧
          o2.items_ = o.items_.set i (key, value) ∧ o2.index_ = o.index_ ∧
          o2.items_.map Prod.fst = o.items_.map Prod.fst) ∧
      (∀ key, ∃ o2 b, o.erase key = .ok (o2, b) ∧
        o2.items_ = o.items_.filter (fun kv => decide (kv.1 ≠ key)) ∧
        (b = true ↔ key ∈ o.items_.map Prod.fst)) := by
  obtain ⟨o, e, hinv, hitems⟩ := objCalls_spec calls json.object.new inv_new
  refine ⟨o, e, hinv, hitems, ?_, ?_, ?_⟩
  · intro hbad
    rw [hitems]
    exact (first_insertion_order calls hbad).1
  · intro key value i hi
    obtain ⟨o2, b, e2, _, _, hb, hset, _⟩ := set_spec o hinv key value
    obtain ⟨h1, h2, h3⟩ := hset i hi
    have hin : key ∈ o.items_.map Prod.fst := (mem_keys_iff o hinv key).mpr ⟨i, hi⟩
    have hbf : b = false := by
      cases b with
      | false => rfl
      | true => exact absurd hin (hb.mp rfl)
    rw [hbf] at e2
    exact ⟨o2, e2, h1, h2, h3⟩
  · intro key
    obtain ⟨o2, b, e2, _, h2, hb⟩ := erase_spec o hinv key
    exact ⟨o2, b, e2, h2, hb⟩

set_option maxRecDepth 100000 in
/-- C30, witness: the calls of the insertion-order demonstration of `main`, a second `set`
of `active` and an `erase` of `name` leave `active, score, big` with the new value of
`active` in its old place, which is the order of first insertion. -/
theorem C30_insertion_order_witness :
    ∃ o, json.object.new.calls json.demoCalls = .ok o ∧
      o.items_ = [("active", 4), ("score", 2), ("big", 3)] ∧
      json.firstInserted json.demoCalls = ["name", "active", "score", "big"] ∧
      o.items_.map Prod.fst =
        (json.firstInserted json.demoCalls).filter
          (fun s => decide (s ∈ o.items_.map Prod.fst)) := by
  obtain ⟨o, h1, _, h3, h4, _⟩ := C30_insertion_order json.demoCalls
  exact ⟨o, h1, h3.trans (by decide), by decide, h4 (by decide)⟩


/-- The loop of `pop_batch` returns exactly when every subscript it uses is in range, and
then the vectors keep their lengths. -/
theorem pop_batch_loop_range (mask h : Nat) :
    ∀ (rem : Nat) (st : BatchState),
      ((∀ p ∈ SpscQueue.pop_batch_trace mask h rem st.t st.count,
          p.1 < st.buffer.length ∧ p.2 < st.out.length) →
        ∃ st2, SpscQueue.pop_batch_loop mask h rem st = .ok st2 ∧
          st2.buffer.length = st.buffer.length ∧ st2.out.length = st.out.length) ∧
      ((∃ p ∈ SpscQueue.pop_batch_trace mask h rem st.t st.count,
          ¬ (p.1 < st.buffer.length ∧ p.2 < st.out.length)) →
        SpscQueue.pop_batch_loop mask h rem st = .error .outOfRange) := by
  intro rem
  induction rem with
  | zero =>
    intro st
    refine ⟨fun _ => ⟨st, rfl, rfl, rfl⟩, ?_⟩
    rintro ⟨p, hp, _⟩
    cases hp
  | succ rem ih =>
    intro st
    by_cases ht : st.t = h
    · refine ⟨fun _ => ⟨st, by simp only [SpscQueue.pop_batch_loop, ht, if_true], rfl, rfl⟩, ?_⟩
      rintro ⟨p, hp, _⟩
      simp only [SpscQueue.pop_batch_trace, ht, if_true] at hp
      cases hp
    · have htr : SpscQueue.pop_batch_trace mask h (rem + 1) st.t st.count =
          (st.t, st.count) :: SpscQueue.pop_batch_trace mask h rem
            (((st.t + 1) % SIZE_MOD) &&& mask) (st.count + 1) := by
        simp only [SpscQueue.pop_batch_trace, ht, if_false]
      rw [htr]
      by_cases hin : st.t < st.buffer.length ∧ st.count < st.out.length
      · obtain ⟨hb, ho⟩ := hin
        have e1 : st.buffer[st.t]? = some (st.buffer[st.t]) := List.getElem?_eq_getElem hb
        have e2 : st.out[st.count]? = some (st.out[st.count]) := List.getElem?_eq_getElem ho
        have hstep : SpscQueue.pop_batch_loop mask h (rem + 1) st =
            SpscQueue.pop_batch_loop mask h rem
              { t := ((st.t + 1) % SIZE_MOD) &&& mask,
                count := st.count + 1,
                buffer := st.buffer.set st.t
                  (Task.moveAssign (st.out[st.count]) (st.buffer[st.t])).2.1,
                out := st.out.set st.count
                  (Task.moveAssign (st.out[st.count]) (st.buffer[st.t])).1,
                released := st.released ++
                  (Task.moveAssign (st.out[st.count]) (st.buffer[st.t])).2.2.toList } := by
          simp only [SpscQueue.pop_batch_loop, ht, if_false, e1, e2]
        rw [hstep]
        obtain ⟨ih1, ih2⟩ := ih
          { t := ((st.t + 1) % SIZE_MOD) &&& mask,
            count := st.count + 1,
            buffer := st.buffer.set st.t
              (Task.moveAssign (st.out[st.count]) (st.buffer[st.t])).2.1,
            out := st.out.set st.count
              (Task.moveAssign (st.out[st.count]) (st.buffer[st.t])).1,
            released := st.released ++
              (Task.moveAssign (st.out[st.count]) (st.buffer[st.t])).2.2.toList }
        simp only [List.length_set] at ih1 ih2
        constructor
        · intro hall
          exact ih1 fun p hp => hall p (List.mem_cons_of_mem _ hp)
        · rintro ⟨p, hp, hbad⟩
          rcases List.mem_cons.mp hp with hp | hp
          · subst hp
            exact absurd ⟨hb, ho⟩ hbad
          · exact ih2 ⟨p, hp, hbad⟩
      · constructor
        · intro hall
          exact absurd (hall _ (List.mem_cons_self _ _)) hin
        · intro _
          have hcase : st.buffer[st.t]? = none ∨ st.out[st.count]? = none := by
            by_cases hb : st.t < st.buffer.length
            · right
              exact List.getElem?_eq_none (Nat.le_of_not_lt fun ho => hin ⟨hb, ho⟩)
            · left
              exact List.getElem?_eq_none (Nat.le_of_not_lt hb)
          rcases hcase with e | e
          · simp only [SpscQueue.pop_batch_loop, ht, if_false, e]
          · cases e1 : st.buffer[st.t]? with
            | none => simp only [SpscQueue.pop_batch_loop, ht, if_false, e1]
            | some x => simp only [SpscQueue.pop_batch_loop, ht, if_false, e1, e]

/-- The subscripts used on `out` count up from `count` and stay below `max_batch`. -/
theorem trace_snd (mask h : Nat) :
    ∀ (rem t count : Nat), ∀ p ∈ SpscQueue.pop_batch_trace mask h rem t count,
      count ≤ p.2 ∧ p.2 < count + rem := by
  intro rem
  induction rem with
  | zero => intro t count p hp; cases hp
  | succ rem ih =>
    intro t count p hp
    by_cases ht : t = h
    · simp only [SpscQueue.pop_batch_trace, ht, if_true] at hp
      cases hp
    · simp only [SpscQueue.pop_batch_trace, ht, if_false] at hp
      rcases List.mem_cons.mp hp with hp | hp
      · subst hp
        exact ⟨Nat.le_refl _, by show count < count + (rem + 1); omega⟩
      · have := ih _ _ p hp
        omega

/-- With the mask of a capacity `2 ^ k`, the subscripts used on `buffer` from a tail below
the capacity stay below the capacity. -/
theorem trace_fst (k h : Nat) (hk : k < 64) :
    ∀ (rem t count : Nat), t < 2 ^ k →
      ∀ p ∈ SpscQueue.pop_batch_trace (2 ^ k - 1) h rem t count, p.1 < 2 ^ k := by
  intro rem
  induction rem with
  | zero => intro t count _ p hp; cases hp
  | succ rem ih =>
    intro t count htk p hp
    by_cases ht : t = h
    · simp only [SpscQueue.pop_batch_trace, ht, if_true] at hp
      cases hp
    · simp only [SpscQueue.pop_batch_trace, ht, if_false] at hp
      rcases List.mem_cons.mp hp with hp | hp
      · subst hp
        exact htk
      · rw [next_index k t hk htk] at hp
        exact ih _ _ (Nat.mod_lt _ (Nat.two_pow_pos k)) p hp


/-- Every capacity below `2 ^ 64` other than zero that the constructor accepts is a power
of two, and every state reached from the fresh queue is well formed. -/
theorem reach_wf (c : Nat) (q0 : SpscQueue) (hc : c < 2 ^ 64) (h0 : c ≠ 0)
    (hnew : SpscQueue.new c = some q0) (cs : List Call) (r : History)
    (hrun : (History.start q0).run cs = .ok r) :
    ∃ k, k < 64 ∧ c = 2 ^ k ∧ r.Inv k := by
  have hex : ∃ k, c = 2 ^ k := by
    by_contra hno
    have := (new_eq_none_iff c (Nat.pos_of_ne_zero h0) hc).mpr hno
    rw [this] at hnew
    cases hnew
  obtain ⟨k, rfl⟩ := hex
  have hk : k < 64 := (Nat.pow_lt_pow_iff_right (by norm_num)).mp hc
  obtain ⟨q, e, hwf, hh, ht⟩ := WF_new k hk
  rw [e] at hnew
  obtain rfl : q = q0 := Option.some.inj hnew
  exact ⟨k, hk, rfl, run_inv k cs _ r (start_inv k q hwf hh ht) hrun⟩

/-- On a well-formed queue every subscript used on `buffer` is in range. -/
theorem slots_wf (k : Nat) (q : SpscQueue) (hq : q.WF k) (call : Call) :
    ∀ i ∈ q.slots call, i < q.buffer.length := by
  intro i hi
  rw [hq.length_eq]
  cases call with
  | push t =>
    by_cases hf : ((q.head + 1) % SIZE_MOD) &&& q.mask = q.tail
    · simp only [SpscQueue.slots, hf, if_true] at hi
      cases hi
    · simp only [SpscQueue.slots, hf, if_false, List.mem_singleton] at hi
      rw [hi]
      exact hq.head_lt
  | pop out =>
    by_cases hf : q.tail = q.head
    · simp only [SpscQueue.slots, hf, if_true] at hi
      cases hi
    · simp only [SpscQueue.slots, hf, if_false, List.mem_singleton] at hi
      rw [hi]
      exact hq.tail_lt
  | pop_batch out max_batch =>
    simp only [SpscQueue.slots, List.mem_map] at hi
    obtain ⟨p, hp, rfl⟩ := hi
    rw [hq.mask_eq] at hp
    exact trace_fst k q.head hq.hk max_batch q.tail 0 hq.tail_lt p hp

theorem push_fault_iff (q : SpscQueue) (t : Task) :
    q.push t = .error .outOfRange ↔ ∃ i ∈ q.slots (.push t), ¬ i < q.buffer.length := by
  by_cases hf : ((q.head + 1) % SIZE_MOD) &&& q.mask = q.tail
  · simp only [SpscQueue.push, SpscQueue.slots, hf, if_true, List.not_mem_nil, false_and,
      exists_false, iff_false]
    intro h
    cases h
  · simp only [SpscQueue.slots, hf, if_false, List.mem_singleton, exists_eq_left]
    by_cases hb : q.head < q.buffer.length
    · simp only [SpscQueue.push, hf, if_false, List.getElem?_eq_getElem hb, hb, not_true,
        iff_false]
      intro h
      cases h
    · simp only [SpscQueue.push, hf, if_false,
        List.getElem?_eq_none (Nat.le_of_not_lt hb), hb, not_false_iff]

theorem pop_fault_iff (q : SpscQueue) (out : Task) :
    q.pop out = .error .outOfRange ↔ ∃ i ∈ q.slots (.pop out), ¬ i < q.buffer.length := by
  by_cases hf : q.tail = q.head
  · simp only [SpscQueue.pop, SpscQueue.slots, hf, if_true, List.not_mem_nil, false_and,
      exists_false, iff_false]
    intro h
    cases h
  · simp only [SpscQueue.slots, hf, if_false, List.mem_singleton, exists_eq_left]
    by_cases hb : q.tail < q.buffer.length
    · simp only [SpscQueue.pop, hf, if_false, List.getElem?_eq_getElem hb, hb, not_true,
        iff_false]
      intro h
      cases h
    · simp only [SpscQueue.pop, hf, if_false,
        List.getElem?_eq_none (Nat.le_of_not_lt hb), hb, not_false_iff]

/-- The method `pop_batch` returns exactly when every subscript of its loop is in range. -/
theorem pop_batch_range (q : SpscQueue) (out : List Task) (max_batch : Nat) :
    ((∀ p ∈ SpscQueue.pop_batch_trace q.mask q.head max_batch q.tail 0,
        p.1 < q.buffer.length ∧ p.2 < out.length) →
      ∃ r, q.pop_batch out max_batch = .ok r) ∧
    ((∃ p ∈ SpscQueue.pop_batch_trace q.mask q.head max_batch q.tail 0,
        ¬ (p.1 < q.buffer.length ∧ p.2 < out.length)) →
      q.pop_batch out max_batch = .error .outOfRange) := by
  obtain ⟨h1, h2⟩ := pop_batch_loop_range q.mask q.head max_batch
    { t := q.tail, count := 0, buffer := q.buffer, out := out, released := [] }
  constructor
  · intro hall
    obtain ⟨st2, e, _, _⟩ := h1 hall
    by_cases hc : 0 < st2.count
    · simp only [SpscQueue.pop_batch, e, hc, if_true]
      exact ⟨_, rfl⟩
    · simp only [SpscQueue.pop_batch, e, hc, if_false]
      exact ⟨_, rfl⟩
  · intro hbad
    simp only [SpscQueue.pop_batch, h2 hbad]

theorem pop_batch_fault_iff (q : SpscQueue) (out : List Task) (max_batch : Nat)
    (hout : max_batch ≤ out.length) :
    q.pop_batch out max_batch = .error .outOfRange ↔
      ∃ i ∈ q.slots (.pop_batch out max_batch), ¬ i < q.buffer.length := by
  obtain ⟨h1, h2⟩ := pop_batch_range q out max_batch
  constructor
  · intro herr
    by_contra hno
    have hall : ∀ p ∈ SpscQueue.pop_batch_trace q.mask q.head max_batch q.tail 0,
        p.1 < q.buffer.length ∧ p.2 < out.length := by
      intro p hp
      refine ⟨?_, ?_⟩
      · by_contra hb
        exact hno ⟨p.1, List.mem_map.mpr ⟨p, hp, rfl⟩, hb⟩
      · have := trace_snd q.mask q.head max_batch q.tail 0 p hp
        omega
    obtain ⟨r, e⟩ := h1 hall
    rw [e] at herr
    cases herr
  · rintro ⟨i, hi, hb⟩
    simp only [SpscQueue.slots, List.mem_map] at hi
    obtain ⟨p, hp, rfl⟩ := hi
    exact h2 ⟨p, hp, fun h => hb h.1⟩

/-- C31 (slot indices). The constructor accepts capacity 0, and on the queue it returns the
first `push` uses `buffer[0]` on a buffer of length 0. For every other capacity below
`2 ^ 64` that the constructor accepts, in every state reached from the fresh queue by
`push`, `pop` and `pop_batch` calls, every subscript that a further `push`, `pop` or
`pop_batch` uses on `buffer` is below the length of `buffer`. The subscripts listed by
`slots` are those that the calls use: `push` and `pop` have no defined result exactly when
one of them is out of range, and so has `pop_batch` when `out` has `max_batch` elements. -/
theorem C31_slot_index :
    (SpscQueue.new 0 = some ⟨0, 2 ^ 64 - 1, [], 0, 0⟩ ∧
      SpscQueue.slots ⟨0, 2 ^ 64 - 1, [], 0, 0⟩ (.push ⟨some 1⟩) = [0] ∧
      (SpscQueue.mk 0 (2 ^ 64 - 1) [] 0 0).buffer.length = 0 ∧
      SpscQueue.push ⟨0, 2 ^ 64 - 1, [], 0, 0⟩ ⟨some 1⟩ = .error .outOfRange) ∧
    (∀ c q0, c < 2 ^ 64 → c ≠ 0 → SpscQueue.new c = some q0 →
      ∀ cs r, (History.start q0).run cs = .ok r →
        ∀ call, ∀ i ∈ r.q.slots call, i < r.q.buffer.length) ∧
    (∀ (q : SpscQueue) (t : Task),
      q.push t = .error .outOfRange ↔ ∃ i ∈ q.slots (.push t), ¬ i < q.buffer.length) ∧
    (∀ (q : SpscQueue) (out : Task),
      q.pop out = .error .outOfRange ↔ ∃ i ∈ q.slots (.pop out), ¬ i < q.buffer.length) ∧
    (∀ (q : SpscQueue) (out : List Task) (max_batch : Nat), max_batch ≤ out.length →
      (q.pop_batch out max_batch = .error .outOfRange ↔
        ∃ i ∈ q.slots (.pop_batch out max_batch), ¬ i < q.buffer.length)) := by
  refine ⟨⟨by decide, by decide, rfl, rfl⟩, ?_, push_fault_iff, pop_fault_iff,
    pop_batch_fault_iff⟩
  intro c q0 hc h0 hnew cs r hrun call
  obtain ⟨k, _, _, hinv⟩ := reach_wf c q0 hc h0 hnew cs r hrun
  exact slots_wf k r.q hinv.wf call


theorem frame_fault (w : World) (h : Handle) (e : Fault) (he : w.frame h = .error e) :
    e = .dangling := by
  unfold World.frame at he
  split at he
  · cases he
  · cases he
    rfl

theorem destroy_fault (w : World) (h : Handle) (e : Fault) (he : w.destroy h = .error e) :
    e = .dangling := by
  unfold World.destroy at he
  cases hf : w.frame h with
  | error e2 =>
    rw [hf] at he
    cases he
    exact frame_fault w h e hf
  | ok f =>
    rw [hf] at he
    cases he

theorem destroyAll_fault (hs : List Handle) :
    ∀ (w : World) (e : Fault), World.destroyAll hs w = .error e → e = .dangling := by
  induction hs with
  | nil => intro w e he; cases he
  | cons h hs ih =>
    intro w e he
    unfold World.destroyAll at he
    cases hd : w.destroy h with
    | error e2 =>
      rw [hd] at he
      cases he
      exact destroy_fault w h e hd
    | ok w2 =>
      rw [hd] at he
      exact ih w2 e he

theorem resume_if_needed_fault (t : Task) (w : World) (e : Fault)
    (he : t.resume_if_needed w = .error e) : e ≠ .outOfRange := by
  intro heq
  subst heq
  cases t with
  | mk coro =>
    cases coro with
    | none => simp [Task.resume_if_needed, Task.done] at he
    | some h =>
      cases hf : w.frame h with
      | error e2 =>
        have := frame_fault w h e2 hf
        subst this
        simp [Task.resume_if_needed, Task.done, World.done, hf] at he
      | ok f =>
        cases f with
        | finished => simp [Task.resume_if_needed, Task.done, World.done, hf] at he
        | suspended s rest =>
          simp [Task.resume_if_needed, Task.done, World.done, Task.resume, World.resume, hf] at he

theorem resumeAll_fault (ts : List Task) :
    ∀ (w : World) (e : Fault), Task.resumeAll ts w = .error e → e ≠ .outOfRange := by
  induction ts with
  | nil => intro w e he; cases he
  | cons t ts ih =>
    intro w e he
    unfold Task.resumeAll at he
    cases hd : t.resume_if_needed w with
    | error e2 =>
      rw [hd] at he
      cases he
      exact resume_if_needed_fault t w e hd
    | ok w2 =>
      rw [hd] at he
      exact ih w2 e he

/-- The drain of an iteration on a well-formed queue indexes no vector out of range. -/
theorem drain_range (k : Nat) (m : LoopState) (hq : m.sched.queue.WF k) :
    Scheduler.drain m ≠ .error .outOfRange := by
  intro herr
  unfold Scheduler.drain at herr
  cases hd : World.destroyAll (Task.destructAll m.batch) m.world with
  | error e =>
    rw [hd] at herr
    cases herr
    cases destroyAll_fault _ _ _ hd
  | ok w1 =>
    rw [hd] at herr
    simp only [] at herr
    obtain ⟨h0, h1, _⟩ := pop_batch_spec k m.sched.queue
      (List.replicate Scheduler.BATCH Task.empty)
      (List.replicate Scheduler.BATCH Task.empty).length
      (min (List.replicate Scheduler.BATCH Task.empty).length m.sched.queue.size) hq rfl
    have hok : ∃ r, m.sched.queue.pop_batch (List.replicate Scheduler.BATCH Task.empty)
        (List.replicate Scheduler.BATCH Task.empty).length = .ok r := by
      by_cases hm : min (List.replicate Scheduler.BATCH Task.empty).length
          m.sched.queue.size = 0
      · exact ⟨_, h0 hm⟩
      · obtain ⟨r, e, _⟩ := h1 (Nat.pos_of_ne_zero hm) (Nat.min_le_left _ _)
        exact ⟨r, e⟩
    obtain ⟨r, er⟩ := hok
    rw [er] at herr
    simp only [] at herr
    cases h2 : World.destroyAll r.released w1 with
    | error e =>
      rw [h2] at herr
      cases herr
      cases destroyAll_fault _ _ _ h2
    | ok w2 =>
      rw [h2] at herr
      simp only [] at herr
      by_cases hrok : r.ok = true
      · rw [if_pos hrok] at herr
        cases h3 : Task.resumeAll r.out w2 with
        | error e =>
          rw [h3] at herr
          cases herr
          exact resumeAll_fault _ _ _ h3 rfl
        | ok w3 =>
          rw [h3] at herr
          cases herr
      · rw [if_neg hrok] at herr
        cases herr

/-- The body of the loop on a well-formed and clean queue leaves such a queue and indexes
no vector out of range. -/
theorem body_range (k now fuel : Nat) (m : LoopState) (hq : m.sched.queue.WF k)
    (hc : m.sched.queue.Clean) :
    (∀ m2, Scheduler.run_loop_body now fuel m = .ok m2 →
      m2.sched.queue.WF k ∧ m2.sched.queue.Clean) ∧
    Scheduler.run_loop_body now fuel m ≠ .error .outOfRange := by
  obtain ⟨q2, hwf2, hcl2, _, _, hdrain⟩ := drain_spec k m hq hc
  have hno := drain_range k m hq
  cases hd : Scheduler.drain m with
  | error e =>
    refine ⟨fun m2 h => ?_, fun h => ?_⟩
    · simp only [Scheduler.run_loop_body, hd] at h
      cases h
    · simp only [Scheduler.run_loop_body, hd] at h
      cases h
      exact hno hd
  | ok m1 =>
    have hm1 : m1.sched.queue = q2 := by
      rw [hd] at hdrain
      cases h1 : World.destroyAll (Task.destructAll m.batch) m.world with
      | error e => rw [h1] at hdrain; cases hdrain
      | ok w1 =>
        rw [h1] at hdrain
        simp only [] at hdrain
        cases h2 : Task.resumeAll
            (m.sched.queue.live.take (min Scheduler.BATCH m.sched.queue.size)) w1 with
        | error e => rw [h2] at hdrain; cases hdrain
        | ok w3 =>
          rw [h2] at hdrain
          cases hdrain
          rfl
    obtain ⟨hsp, _⟩ := enqueueAll_spec k fuel (Scheduler.sweep now m1.sched.timers).1
      { m1.sched with timers := (Scheduler.sweep now m1.sched.timers).2 } m1.world
      (by rw [hm1]; exact hwf2) (by rw [hm1]; exact hcl2)
    have hcases := enqueueAll_cases k fuel (Scheduler.sweep now m1.sched.timers).1
      { m1.sched with timers := (Scheduler.sweep now m1.sched.timers).2 } m1.world
      (by rw [hm1]; exact hwf2) (by rw [hm1]; exact hcl2)
    cases he : Scheduler.enqueueAll fuel (Scheduler.sweep now m1.sched.timers).1
        { m1.sched with timers := (Scheduler.sweep now m1.sched.timers).2 } m1.world with
    | error e =>
      refine ⟨fun m2 h => ?_, fun h => ?_⟩
      · simp only [Scheduler.run_loop_body, hd, Scheduler.promote, he] at h
        cases h
      · simp only [Scheduler.run_loop_body, hd, Scheduler.promote, he] at h
        cases h
        rcases hcases with ⟨r, hr⟩ | hr
        · rw [he] at hr
          cases hr
        · rw [he] at hr
          cases hr
    | ok sw =>
      obtain ⟨_, hwf3, hcl3, _⟩ := hsp sw he
      refine ⟨fun m2 h => ?_, fun h => ?_⟩
      · simp only [Scheduler.run_loop_body, hd, Scheduler.promote, he] at h
        cases h
        exact ⟨hwf3, hcl3⟩
      · simp only [Scheduler.run_loop_body, hd, Scheduler.promote, he] at h
        cases h

/-- No iteration of the loop indexes a vector out of range. -/
theorem run_loop_range (k fuel : Nat) (clock : List Nat) :
    ∀ m : LoopState, m.sched.queue.WF k → m.sched.queue.Clean →
      Scheduler.run_loop fuel clock m ≠ .error .outOfRange := by
  induction clock with
  | nil => intro m _ _ h; cases h
  | cons now clock ih =>
    intro m hq hc h
    obtain ⟨hb1, hb2⟩ := body_range k now fuel m hq hc
    unfold Scheduler.run_loop at h
    by_cases hr : m.sched.running = true
    · rw [if_pos hr] at h
      cases hbody : Scheduler.run_loop_body now fuel m with
      | error e =>
        rw [hbody] at h
        cases h
        exact hb2 hbody
      | ok m1 =>
        rw [hbody] at h
        obtain ⟨h1, h2⟩ := hb1 m1 hbody
        exact ih m1 h1 h2 h
    · rw [if_neg hr] at h
      cases hd : World.destroyAll (Task.destructAll m.batch) m.world with
      | error e =>
        rw [hd] at h
        cases h
        cases destroyAll_fault _ _ _ hd
      | ok w1 =>
        rw [hd] at h
        cases h


/-- The subscripts used on `out` are `count`, `count + 1`, and so on. -/
theorem trace_snd_range (mask h : Nat) :
    ∀ (rem t count : Nat),
      (SpscQueue.pop_batch_trace mask h rem t count).map Prod.snd =
        List.range' count (SpscQueue.pop_batch_trace mask h rem t count).length ∧
      (SpscQueue.pop_batch_trace mask h rem t count).length ≤ rem := by
  intro rem
  induction rem with
  | zero => intro t count; exact ⟨rfl, Nat.le_refl _⟩
  | succ rem ih =>
    intro t count
    by_cases ht : t = h
    · simp only [SpscQueue.pop_batch_trace, ht, if_true]
      exact ⟨rfl, Nat.zero_le _⟩
    · simp only [SpscQueue.pop_batch_trace, ht, if_false, List.map_cons, List.length_cons,
        List.range'_succ]
      obtain ⟨h1, h2⟩ := ih (((t + 1) % SIZE_MOD) &&& mask) (count + 1)
      exact ⟨by rw [h1], by omega⟩

/-- C32 (`pop_batch` and the end of `out`). Let `max_batch <= out.size()`. On any queue, the
subscripts with which `pop_batch(out, max_batch)` indexes `out` are `0, 1, ...`, fewer than
`max_batch` of them, so each is below `out.size()`; a call with no defined result used a
subscript on `buffer` that is out of range, and on a well-formed queue the call returns and
`out` is not longer than before. The scheduler loop: in every state the drain calls
`pop_batch` with a batch of 64 elements and `max_batch = 64`, so the subscripts on the
batch are below its size; the drain on a well-formed queue, and every run of the loop from
a well-formed and clean queue, indexes no vector out of range. -/
theorem C32_pop_batch_bounds (q : SpscQueue) (out : List Task) (max_batch : Nat)
    (hout : max_batch ≤ out.length) :
    (∀ i ∈ q.outSlots max_batch, i < out.length) ∧
    q.outSlots max_batch = List.range (q.outSlots max_batch).length ∧
    (q.outSlots max_batch).length ≤ max_batch ∧
    (∀ e, q.pop_batch out max_batch = .error e →
      ∃ i ∈ q.slots (.pop_batch out max_batch), ¬ i < q.buffer.length) ∧
    (∀ k, q.WF k → ∃ r, q.pop_batch out max_batch = .ok r ∧ r.out.length ≤ out.length) ∧
    (∀ m : LoopState, ∀ i ∈ m.sched.queue.outSlots Scheduler.BATCH,
      i < (List.replicate Scheduler.BATCH Task.empty).length) ∧
    (∀ k (m : LoopState), m.sched.queue.WF k → Scheduler.drain m ≠ .error .outOfRange) ∧
    (∀ k fuel clock (m : LoopState), m.sched.queue.WF k → m.sched.queue.Clean →
      Scheduler.run_loop fuel clock m ≠ .error .outOfRange) := by
  have hsnd : ∀ (q : SpscQueue) (n : Nat), ∀ i ∈ q.outSlots n, i < n := by
    intro q n i hi
    simp only [SpscQueue.outSlots, List.mem_map] at hi
    obtain ⟨p, hp, rfl⟩ := hi
    have := trace_snd q.mask q.head n q.tail 0 p hp
    omega
  obtain ⟨hr1, hr2⟩ := trace_snd_range q.mask q.head max_batch q.tail 0
  refine ⟨fun i hi => Nat.lt_of_lt_of_le (hsnd q max_batch i hi) hout, ?_, ?_, ?_, ?_, ?_,
    drain_range, run_loop_range⟩
  · simp only [SpscQueue.outSlots, List.length_map]
    rw [hr1, List.range_eq_range']
  · simp only [SpscQueue.outSlots, List.length_map]
    exact hr2
  · intro e he
    obtain ⟨h1, h2⟩ := pop_batch_range q out max_batch
    by_contra hno
    have hall : ∀ p ∈ SpscQueue.pop_batch_trace q.mask q.head max_batch q.tail 0,
        p.1 < q.buffer.length ∧ p.2 < out.length := by
      intro p hp
      refine ⟨?_, ?_⟩
      · by_contra hb
        exact hno ⟨p.1, List.mem_map.mpr ⟨p, hp, rfl⟩, hb⟩
      · have := trace_snd q.mask q.head max_batch q.tail 0 p hp
        omega
    obtain ⟨r, er⟩ := h1 hall
    rw [er] at he
    cases he
  · intro k hq
    obtain ⟨h0, h1, _⟩ := pop_batch_spec k q out max_batch (min max_batch q.size) hq rfl
    by_cases hm : min max_batch q.size = 0
    · exact ⟨_, h0 hm, Nat.le_refl _⟩
    · obtain ⟨r, e, _, _, _, _, ho, _⟩ := h1 (Nat.pos_of_ne_zero hm)
        (Nat.le_trans (Nat.min_le_left _ _) hout)
      refine ⟨r, e, ?_⟩
      rw [ho, List.length_take]
      have := Nat.min_le_left max_batch q.size
      omega
  · intro m i hi
    rw [List.length_replicate]
    exact hsnd m.sched.queue Scheduler.BATCH i hi

/-- C32 on a queue of capacity 4 that holds two entries, with a vector of three elements
and `max_batch = 3`: the loop writes `out[0]` and `out[1]`. -/
theorem C32_pop_batch_bounds_witness :
    3 ≤ (List.replicate 3 Task.empty).length ∧
    SpscQueue.outSlots ⟨4, 3, [⟨some 1⟩, ⟨some 2⟩, ⟨none⟩, ⟨none⟩], 2, 0⟩ 3 = [0, 1] ∧
    (∀ i ∈ SpscQueue.outSlots ⟨4, 3, [⟨some 1⟩, ⟨some 2⟩, ⟨none⟩, ⟨none⟩], 2, 0⟩ 3,
      i < (List.replicate 3 Task.empty).length) ∧
    SpscQueue.pop_batch ⟨4, 3, [⟨some 1⟩, ⟨some 2⟩, ⟨none⟩, ⟨none⟩], 2, 0⟩
        (List.replicate 3 Task.empty) 3
      = .ok ⟨true, ⟨4, 3, [⟨none⟩, ⟨none⟩, ⟨none⟩, ⟨none⟩], 2, 2⟩, [⟨some 1⟩, ⟨some 2⟩],
          []⟩ :=
  ⟨by decide, by decide,
    (C32_pop_batch_bounds ⟨4, 3, [⟨some 1⟩, ⟨some 2⟩, ⟨none⟩, ⟨none⟩], 2, 0⟩
      (List.replicate 3 Task.empty) 3 (by decide)).1, rfl⟩


theorem pop_repeat_nil (q : SpscQueue) : q.pop_repeat [] = .ok (q, []) := rfl

/-- The loop of `pop_batch` and repeated `pop`, step by step. -/
theorem loop_eq_pops (k : Nat) :
    ∀ (outs : List Task) (st : BatchState) (q : SpscQueue), q.WF k → q.tail = st.t →
      q.buffer = st.buffer → st.count + outs.length ≤ st.out.length →
      ∃ st2 ts, SpscQueue.pop_batch_loop (2 ^ k - 1) q.head outs.length st = .ok st2 ∧
        q.pop_repeat outs = .ok ({ q with buffer := st2.buffer, tail := st2.t }, ts) ∧
        st2.count = st.count + ts.length ∧
        st2.out.take st2.count = st.out.take st.count ++ ts ∧
        (ts = [] → st2 = st) := by
  intro outs
  induction outs with
  | nil =>
    intro st q _ ht hb _
    refine ⟨st, [], rfl, ?_, rfl, by simp, fun _ => rfl⟩
    rw [pop_repeat_nil, ← ht, ← hb]
  | cons out outs ih =>
    intro st q hq ht hb hlen
    simp only [List.length_cons] at hlen ⊢
    by_cases he : q.tail = q.head
    · have hst : st.t = q.head := by rw [← ht, he]
      refine ⟨st, [], by simp only [SpscQueue.pop_batch_loop, hst, if_true], ?_, rfl,
        by simp, fun _ => rfl⟩
      simp only [SpscQueue.pop_repeat, pop_empty q out he, Bool.false_eq_true, if_false]
      rw [← ht, ← hb]
    · have hst : st.t ≠ q.head := by rw [← ht]; exact he
      have htl : st.t < st.buffer.length := by
        rw [← ht, ← hb, hq.length_eq]
        exact hq.tail_lt
      have hcl : st.count < st.out.length := by omega
      have e1 : st.buffer[st.t]? = some (st.buffer[st.t]) := List.getElem?_eq_getElem htl
      have e2 : st.out[st.count]? = some (st.out[st.count]) := List.getElem?_eq_getElem hcl
      have hsrc : q.buffer.getD q.tail Task.empty = st.buffer[st.t] := by
        rw [hb, ht, List.getD_eq_getElem?_getD, e1]
        rfl
      have hnext : ((st.t + 1) % SIZE_MOD) &&& (2 ^ k - 1) = (q.tail + 1) % 2 ^ k := by
        rw [← ht]
        exact next_index k q.tail hq.hk hq.tail_lt
      obtain ⟨st2, ts, hl, hp, hc, ho, _⟩ := ih
        { t := ((st.t + 1) % SIZE_MOD) &&& (2 ^ k - 1),
          count := st.count + 1,
          buffer := st.buffer.set st.t Task.empty,
          out := st.out.set st.count (st.buffer[st.t]),
          released := st.released ++ (st.out[st.count]).coro.toList }
        { q with buffer := q.buffer.set q.tail Task.empty, tail := (q.tail + 1) % 2 ^ k }
        (WF_pop k q hq) hnext.symm (by rw [hb, ht])
        (by simp only [List.length_set]; omega)
      refine ⟨st2, st.buffer[st.t] :: ts, ?_, ?_, ?_, ?_, fun h => by cases h⟩
      · have hstep : SpscQueue.pop_batch_loop (2 ^ k - 1) q.head (outs.length + 1) st =
            SpscQueue.pop_batch_loop (2 ^ k - 1) q.head outs.length
              { t := ((st.t + 1) % SIZE_MOD) &&& (2 ^ k - 1),
                count := st.count + 1,
                buffer := st.buffer.set st.t Task.empty,
                out := st.out.set st.count (st.buffer[st.t]),
                released := st.released ++ (st.out[st.count]).coro.toList } := by
          simp only [SpscQueue.pop_batch_loop, hst, if_false, e1, e2, Task.moveAssign]
          rfl
        rw [hstep]
        exact hl
      · simp only [SpscQueue.pop_repeat, pop_nonempty k q out hq he, if_true, hp, hsrc]
      · simp only [List.length_cons]
        rw [hc]
        show st.count + 1 + ts.length = st.count + (ts.length + 1)
        omega
      · rw [ho]
        show (st.out.set st.count (st.buffer[st.t])).take (st.count + 1) ++ ts = _
        rw [take_succ_set _ _ _ hcl, List.append_assoc]
        rfl

/-- On a well-formed queue `pop_batch(out, n)` with `n <= out.size()` does what `n` calls
of `pop` do that stop at the first one that returns false. -/
theorem pop_batch_eq_pops (k : Nat) (q : SpscQueue) (hq : q.WF k) (out outs : List Task)
    (hout : outs.length ≤ out.length) :
    ∃ pr ts, q.pop_batch out outs.length = .ok pr ∧ q.pop_repeat outs = .ok (pr.q, ts) ∧
      (pr.ok = true → pr.out = ts) ∧ (pr.ok = false → ts = [] ∧ pr.out = out) ∧
      (pr.ok = true ↔ q.first_pop outs = some true) ∧
      ts = q.live.take (min outs.length q.size) := by
  obtain ⟨st2, ts, hl, hp, hc, ho, hnil⟩ := loop_eq_pops k outs
    { t := q.tail, count := 0, buffer := q.buffer, out := out, released := [] } q hq rfl rfl
    (by simpa using hout)
  rw [← hq.mask_eq] at hl
  have hc2 : st2.count = ts.length := by simpa using hc
  have ho2 : st2.out.take st2.count = ts := by simpa using ho
  have hfirst : (0 < ts.length) ↔ q.first_pop outs = some true := by
    cases outs with
    | nil =>
      simp only [SpscQueue.pop_repeat, Except.ok.injEq, Prod.mk.injEq] at hp
      rw [← hp.2]
      simp [SpscQueue.first_pop]
    | cons o os =>
      by_cases he : q.tail = q.head
      · simp only [SpscQueue.pop_repeat, pop_empty q o he, Bool.false_eq_true, if_false,
          Except.ok.injEq, Prod.mk.injEq] at hp
        rw [← hp.2]
        simp [SpscQueue.first_pop, pop_empty q o he]
      · simp only [SpscQueue.pop_repeat, pop_nonempty k q o hq he, if_true] at hp
        cases hrest : SpscQueue.pop_repeat
            { q with buffer := q.buffer.set q.tail Task.empty,
                     tail := (q.tail + 1) % 2 ^ k } os with
        | error e => rw [hrest] at hp; cases hp
        | ok r2 =>
          rw [hrest] at hp
          simp only [Except.ok.injEq, Prod.mk.injEq] at hp
          rw [← hp.2]
          simp [SpscQueue.first_pop, pop_nonempty k q o hq he]
  obtain ⟨h0, h1, _⟩ := pop_batch_spec k q out outs.length (min outs.length q.size) hq rfl
  by_cases hcount : 0 < st2.count
  · have hpb : q.pop_batch out outs.length = .ok
        { ok := true, q := { q with buffer := st2.buffer, tail := st2.t },
          out := st2.out.take st2.count,
          released := st2.released ++ Task.destructAll (st2.out.drop st2.count) } := by
      simp only [SpscQueue.pop_batch, hl, hcount, if_true]
    have hm : 0 < min outs.length q.size := by
      by_contra hm0
      rw [h0 (Nat.eq_zero_of_not_pos hm0)] at hpb
      cases hpb
    obtain ⟨r, er, _, _, _, _, hrout, _⟩ := h1 hm
      (Nat.le_trans (Nat.min_le_left _ _) hout)
    rw [hpb] at er
    cases er
    refine ⟨_, ts, hpb, hp, fun _ => ho2, (fun h => by cases h), ?_, ?_⟩
    · rw [← hfirst, ← hc2]
      exact ⟨fun _ => hcount, fun _ => rfl⟩
    · rw [← ho2]
      exact hrout
  · have hz : st2.count = 0 := Nat.eq_zero_of_not_pos hcount
    have hts : ts = [] := List.eq_nil_of_length_eq_zero (by rw [← hc2, hz])
    have hst := hnil hts
    have hpb : q.pop_batch out outs.length =
        .ok { ok := false, q := q, out := out, released := [] } := by
      simp only [SpscQueue.pop_batch, hl, hcount, if_false]
    have hm : min outs.length q.size = 0 := by
      by_contra hm0
      obtain ⟨r, er, hrok, _⟩ := h1 (Nat.pos_of_ne_zero hm0)
        (Nat.le_trans (Nat.min_le_left _ _) hout)
      rw [hpb] at er
      cases er
      cases hrok
    refine ⟨_, ts, hpb, ?_, (fun h => by cases h), fun _ => ⟨hts, rfl⟩, ?_, ?_⟩
    · rw [hp, hst]
    · rw [← hfirst, hts]
      exact ⟨(fun h => by cases h), fun h => by cases h⟩
    · rw [hts, hm, List.take_zero]


/-- C33 (`pop_batch` and repeated `pop`). In every state reached from a fresh queue of
capacity `2 ^ k`, with `n <= out.size()`: `pop_batch(out, n)` returns, and so do `n` calls
of `pop` of which the first that returns false is the last; both leave the same queue
(every member, every slot); when `pop_batch` returns true, `out` holds the tasks that the
`pop` calls handed out, in the same order, and when it returns false no `pop` call handed
out a task and `out` is as before; `pop_batch` returns true exactly when there is a first
`pop` call and it returns true (for `n = 0` no `pop` call is made and `pop_batch` returns
false); the tasks handed out are the `min(n, size)` oldest entries. The `n` calls of `pop`
are given by the objects `outs` they are called on. -/
theorem C33_pop_batch_pops (k : Nat) (hk : k < 64) (q0 : SpscQueue)
    (hnew : SpscQueue.new (2 ^ k) = some q0) (cs : List Call) (r : History)
    (hrun : (History.start q0).run cs = .ok r) (out outs : List Task)
    (hout : outs.length ≤ out.length) :
    ∃ pr ts, r.q.pop_batch out outs.length = .ok pr ∧
      r.q.pop_repeat outs = .ok (pr.q, ts) ∧
      (pr.ok = true → pr.out = ts) ∧ (pr.ok = false → ts = [] ∧ pr.out = out) ∧
      (pr.ok = true ↔ r.q.first_pop outs = some true) ∧
      (outs = [] → pr.ok = false) ∧
      ts = r.q.live.take (min outs.length r.q.size) := by
  obtain ⟨q, e, hwf, hh, ht⟩ := WF_new k hk
  rw [e] at hnew
  obtain rfl : q = q0 := Option.some.inj hnew
  have hinv := run_inv k cs _ r (start_inv k q hwf hh ht) hrun
  obtain ⟨pr, ts, h1, h2, h3, h4, h5, h6⟩ := pop_batch_eq_pops k r.q hinv.wf out outs hout
  refine ⟨pr, ts, h1, h2, h3, h4, h5, ?_, h6⟩
  intro hnil
  subst hnil
  cases hok : pr.ok with
  | false => rfl
  | true =>
    have := h5.mp hok
    cases this

/-- C33 on the queue of capacity 4 after three pushes and a pop: `pop_batch(out, 3)` and
three calls of `pop` both hand out the tasks 2 and 3 and leave the same empty queue. -/
theorem C33_pop_batch_pops_witness :
    (2 < 64 ∧ SpscQueue.new (2 ^ 2) = some freshQueue4 ∧
      (History.start freshQueue4).run sampleCalls = .ok sampleHistory ∧
      (List.replicate 3 Task.empty).length ≤ (List.replicate 3 Task.empty).length) ∧
    (∃ pr ts, sampleHistory.q.pop_batch (List.replicate 3 Task.empty) 3 = .ok pr ∧
      sampleHistory.q.pop_repeat (List.replicate 3 Task.empty) = .ok (pr.q, ts) ∧
      (pr.ok = true → pr.out = ts) ∧ (pr.ok = false → ts = [] ∧ pr.out =
        List.replicate 3 Task.empty) ∧
      (pr.ok = true ↔ sampleHistory.q.first_pop (List.replicate 3 Task.empty) = some true) ∧
      (List.replicate 3 Task.empty = [] → pr.ok = false) ∧
      ts = sampleHistory.q.live.take (min 3 sampleHistory.q.size)) ∧
    sampleHistory.q.pop_repeat (List.replicate 3 Task.empty)
      = .ok (⟨4, 3, [⟨none⟩, ⟨none⟩, ⟨none⟩, ⟨none⟩], 3, 3⟩, [⟨some 2⟩, ⟨some 3⟩]) ∧
    sampleHistory.q.pop_batch (List.replicate 3 Task.empty) 3
      = .ok ⟨true, ⟨4, 3, [⟨none⟩, ⟨none⟩, ⟨none⟩, ⟨none⟩], 3, 3⟩, [⟨some 2⟩, ⟨some 3⟩],
          []⟩ :=
  ⟨⟨by decide, rfl, rfl, Nat.le_refl _⟩,
    C33_pop_batch_pops 2 (by decide) freshQueue4 rfl sampleCalls sampleHistory rfl
      (List.replicate 3 Task.empty) (List.replicate 3 Task.empty) (Nat.le_refl _),
    rfl, rfl⟩


/-- The window of all `C` slots from `t` on is the buffer rotated by `t`. -/
theorem window_full (buf : List Task) (C t : Nat) (hlen : buf.length = C) :
    window buf C t C = buf.rotate t := by
  apply List.ext_getElem?
  intro i
  by_cases hi : i < C
  · have hC : 0 < C := by omega
    rw [List.getElem?_rotate (by rw [hlen]; exact hi), hlen]
    simp only [window, List.getElem?_map, List.getElem?_range hi, Option.map_some']
    have hlt : (t + i) % C < buf.length := by rw [hlen]; exact Nat.mod_lt _ hC
    rw [Nat.add_comm i t, List.getElem?_eq_getElem hlt, List.getD_eq_getElem?_getD,
      List.getElem?_eq_getElem hlt]
    rfl
  · rw [List.getElem?_eq_none (by rw [window_length]; omega),
      List.getElem?_eq_none (by rw [List.length_rotate, hlen]; omega)]

theorem window_add (buf : List Task) (C t a b : Nat) :
    window buf C t (a + b) = window buf C t a ++
      (List.map (fun x => a + x) (List.range b)).map
        (fun i => buf.getD ((t + i) % C) Task.empty) := by
  simp only [window, List.range_add, List.map_append]

/-- The handles in the slots of a well-formed and clean queue are those of its live
entries. -/
theorem buffer_perm_live (k : Nat) (q : SpscQueue) (hq : q.WF k) (hc : q.Clean) :
    (Task.destructAll q.buffer).Perm (Task.destructAll q.live) := by
  have hC : 0 < 2 ^ k := Nat.two_pow_pos k
  have hn : q.size < 2 ^ k := size_lt k q hq
  have hsplit : window q.buffer (2 ^ k) q.tail (2 ^ k) =
      q.live ++ (List.map (fun x => q.size + x) (List.range (2 ^ k - q.size))).map
        (fun i => q.buffer.getD ((q.tail + i) % 2 ^ k) Task.empty) := by
    have h2 : q.size + (2 ^ k - q.size) = 2 ^ k := by omega
    have h3 := window_add q.buffer (2 ^ k) q.tail q.size (2 ^ k - q.size)
    rw [h2] at h3
    rw [h3]
    unfold SpscQueue.live
    rw [hq.capacity_eq]
  have hrest : Task.destructAll
      ((List.map (fun x => q.size + x) (List.range (2 ^ k - q.size))).map
        (fun i => q.buffer.getD ((q.tail + i) % 2 ^ k) Task.empty)) = [] := by
    unfold Task.destructAll
    rw [List.filterMap_eq_nil_iff]
    intro a ha
    simp only [List.mem_map, List.mem_range] at ha
    obtain ⟨i, ⟨x, hx, rfl⟩, rfl⟩ := ha
    have hcl : ringClean q.buffer (2 ^ k) q.head q.tail := by
      have := hc
      unfold SpscQueue.Clean at this
      rwa [hq.capacity_eq] at this
    have hsz : q.size = ringSize (2 ^ k) q.head q.tail := by
      unfold SpscQueue.size
      rw [hq.capacity_eq]
    have htl := hq.tail_lt
    have hj : (q.tail + (q.size + x)) % 2 ^ k < 2 ^ k := Nat.mod_lt _ hC
    have hle : ringSize (2 ^ k) q.head q.tail ≤
        ringSize (2 ^ k) ((q.tail + (q.size + x)) % 2 ^ k) q.tail := by
      rw [← hsz]
      unfold ringSize
      have a := mod_cases (q.tail + (q.size + x)) (2 ^ k) (by omega)
      have b := mod_cases ((q.tail + (q.size + x)) % 2 ^ k + 2 ^ k - q.tail) (2 ^ k)
        (by omega)
      omega
    rw [hcl _ hj hle]
    rfl
  have h1 : Task.destructAll (q.buffer.rotate q.tail) = Task.destructAll q.live := by
    rw [← window_full q.buffer (2 ^ k) q.tail hq.length_eq, hsplit]
    unfold Task.destructAll at hrest ⊢
    rw [List.filterMap_append, hrest, List.append_nil]
  rw [← h1]
  exact ((List.rotate_perm q.buffer q.tail).filterMap Task.coro).symm

/-- A call that returns on a well-formed and clean queue leaves a clean queue. -/
theorem step_clean (k : Nat) (s s2 : History) (c : Call) (h : s.Inv k) (hc : s.q.Clean)
    (hs : s.step c = .ok s2) : s2.q.Clean := by
  have hq := h.wf
  have hcl : ringClean s.q.buffer (2 ^ k) s.q.head s.q.tail := by
    have := hc
    unfold SpscQueue.Clean at this
    rwa [hq.capacity_eq] at this
  cases c with
  | push t =>
    by_cases hfull : (s.q.head + 1) % 2 ^ k = s.q.tail
    · simp only [History.step, push_full k s.q t hq hfull] at hs
      cases hs
      exact hc
    · simp only [History.step, push_free k s.q t hq hfull] at hs
      cases hs
      show ringClean _ s.q.capacity _ _
      rw [hq.capacity_eq]
      exact ringClean_push _ _ _ _ t hq.head_lt hq.tail_lt hfull hcl
  | pop out =>
    by_cases he : s.q.tail = s.q.head
    · simp only [History.step, pop_empty s.q out he] at hs
      cases hs
      exact hc
    · simp only [History.step, pop_nonempty k s.q out hq he] at hs
      cases hs
      show ringClean _ s.q.capacity _ _
      rw [hq.capacity_eq]
      exact ringClean_pop _ _ _ _ hq.head_lt hq.tail_lt he hcl
  | pop_batch out max_batch =>
    obtain ⟨h0, h1, h2⟩ := pop_batch_spec k s.q out max_batch (min max_batch s.q.size) hq rfl
    by_cases hm : min max_batch s.q.size = 0
    · simp only [History.step, h0 hm] at hs
      cases hs
      exact hc
    · by_cases hlen : min max_batch s.q.size ≤ out.length
      · obtain ⟨r, e, _, _, _, _, _, _, _, hcl2⟩ := h1 (Nat.pos_of_ne_zero hm) hlen
        simp only [History.step, e] at hs
        cases hs
        exact hcl2 hc
      · simp only [History.step, h2 (Nat.lt_of_not_le hlen)] at hs
        cases hs

theorem run_clean (k : Nat) (cs : List Call) :
    ∀ (s r : History), s.Inv k → s.q.Clean → s.run cs = .ok r → r.q.Clean := by
  induction cs with
  | nil =>
    intro s r _ hc hr
    cases hr
    exact hc
  | cons c cs ih =>
    intro s r h hc hr
    unfold History.run at hr
    cases hs : s.step c with
    | error e => rw [hs] at hr; cases hr
    | ok s2 =>
      rw [hs] at hr
      exact ih s2 r (step_inv k s s2 c h hs) (step_clean k s s2 c h hc hs) hr


/-- A slot that is none of the slots `tail`, `tail + 1`, ... of the live window is at a
distance from `tail` that is not below the size. -/
theorem outside_window (C h t j : Nat) (ht : t < C) (hj : j < C)
    (hout : ∀ i, i < ringSize C h t → (t + i) % C ≠ j) :
    ringSize C h t ≤ ringSize C j t := by
  by_contra hlt
  exact hout (ringSize C j t) (Nat.lt_of_not_le hlt) (ring_index_head C j t hj ht)

/-- A push on a well-formed and clean queue releases no handle, and when it returns true
the argument is left empty. -/
theorem push_clean (k : Nat) (q : SpscQueue) (t : Task) (hq : q.WF k) (hc : q.Clean) :
    ∃ pr, q.push t = .ok pr ∧ pr.released = none ∧ (pr.ok = true → pr.t = Task.empty) := by
  by_cases hfull : (q.head + 1) % 2 ^ k = q.tail
  · exact ⟨_, push_full k q t hq hfull, rfl, fun h => by cases h⟩
  · refine ⟨_, push_free k q t hq hfull, ?_, fun _ => rfl⟩
    have hcl : ringClean q.buffer (2 ^ k) q.head q.tail := by
      have := hc
      unfold SpscQueue.Clean at this
      rwa [hq.capacity_eq] at this
    show (q.buffer.getD q.head Task.empty).coro = none
    rw [ringClean_head _ _ _ _ hq.head_lt hcl]
    rfl

/-- C34 (slot hygiene). In every state reached from a fresh queue of capacity `2 ^ k` by
`push`, `pop` and `pop_batch` calls: every slot that is none of the slots `tail`,
`tail + 1`, ... (modulo the capacity) of the live window holds an empty task; a further
`push` of any task returns, releases no target, and leaves its argument empty when it
returns true; the tasks pushed are those handed out by the pops followed by the live
entries, and the handles in the slots of the buffer are the handles of the live entries,
so the handles pushed are, occurrence by occurrence, those handed out together with those
in the slots; when the handles pushed are pairwise distinct, no handle is in two slots or
both in a slot and handed out. -/
theorem C34_slot_hygiene (k : Nat) (hk : k < 64) (q0 : SpscQueue)
    (hnew : SpscQueue.new (2 ^ k) = some q0) (cs : List Call) (r : History)
    (hrun : (History.start q0).run cs = .ok r) :
    (∀ j, j < 2 ^ k → (∀ i, i < r.q.size → (r.q.tail + i) % 2 ^ k ≠ j) →
      r.q.buffer.getD j Task.empty = Task.empty) ∧
    (∀ t, ∃ pr, r.q.push t = .ok pr ∧ pr.released = none ∧
      (pr.ok = true → pr.t = Task.empty)) ∧
    r.pushed = r.popped ++ r.q.live ∧
    (Task.destructAll r.q.buffer).Perm (Task.destructAll r.q.live) ∧
    (Task.destructAll r.pushed).Perm
      (Task.destructAll r.popped ++ Task.destructAll r.q.buffer) ∧
    ((Task.destructAll r.pushed).Nodup →
      (Task.destructAll r.popped ++ Task.destructAll r.q.buffer).Nodup) := by
  obtain ⟨q, e, hwf, hcl, _, _⟩ := clean_new k hk
  rw [e] at hnew
  obtain rfl : q = q0 := Option.some.inj hnew
  obtain ⟨q1, e1, _, hh, ht⟩ := WF_new k hk
  rw [e] at e1
  obtain rfl : q = q1 := Option.some.inj e1
  have hinv := run_inv k cs _ r (start_inv k q hwf hh ht) hrun
  have hclean : r.q.Clean := run_clean k cs _ r (start_inv k q hwf hh ht) hcl hrun
  have hperm := buffer_perm_live k r.q hinv.wf hclean
  have hall : (Task.destructAll r.pushed).Perm
      (Task.destructAll r.popped ++ Task.destructAll r.q.buffer) := by
    rw [hinv.fifo, destructAll_append]
    exact List.Perm.append_left _ hperm.symm
  refine ⟨?_, fun t => push_clean k r.q t hinv.wf hclean, hinv.fifo, hperm, hall,
    fun hnd => hall.nodup_iff.mp hnd⟩
  intro j hj hout
  have hrc : ringClean r.q.buffer (2 ^ k) r.q.head r.q.tail := by
    have := hclean
    unfold SpscQueue.Clean at this
    rwa [hinv.wf.capacity_eq] at this
  refine hrc j hj (outside_window _ _ _ _ hinv.wf.tail_lt hj ?_)
  intro i hi
  refine hout i ?_
  unfold SpscQueue.size
  rw [hinv.wf.capacity_eq]
  exact hi

/-- C34 on the queue of capacity 4 after three pushes and a pop: the slots 0 and 3 are
outside the live window and empty, the handles 2 and 3 are in the slots 1 and 2, and the
handle 1 was handed out. -/
theorem C34_slot_hygiene_witness :
    (2 < 64 ∧ SpscQueue.new (2 ^ 2) = some freshQueue4 ∧
      (History.start freshQueue4).run sampleCalls = .ok sampleHistory) ∧
    ((∀ j, j < 2 ^ 2 → (∀ i, i < sampleHistory.q.size →
        (sampleHistory.q.tail + i) % 2 ^ 2 ≠ j) →
      sampleHistory.q.buffer.getD j Task.empty = Task.empty) ∧
    (∀ t, ∃ pr, sampleHistory.q.push t = .ok pr ∧ pr.released = none ∧
      (pr.ok = true → pr.t = Task.empty)) ∧
    sampleHistory.pushed = sampleHistory.popped ++ sampleHistory.q.live ∧
    (Task.destructAll sampleHistory.q.buffer).Perm (Task.destructAll sampleHistory.q.live) ∧
    (Task.destructAll sampleHistory.pushed).Perm
      (Task.destructAll sampleHistory.popped ++ Task.destructAll sampleHistory.q.buffer) ∧
    ((Task.destructAll sampleHistory.pushed).Nodup →
      (Task.destructAll sampleHistory.popped ++
        Task.destructAll sampleHistory.q.buffer).Nodup)) ∧
    Task.destructAll sampleHistory.q.buffer = [2, 3] ∧
    Task.destructAll sampleHistory.popped = [1] ∧
    sampleHistory.q.live = [⟨some 2⟩, ⟨some 3⟩] :=
  ⟨⟨by decide, rfl, rfl⟩,
    C34_slot_hygiene 2 (by decide) freshQueue4 rfl sampleCalls sampleHistory rfl,
    by decide, by decide, by decide⟩


/-- What `mod_inv` returns for a modulus of at least 2 and an argument coprime to it: the
`g` of `ext_gcd` is 1 or -1, and the result is in range and an inverse up to the sign of
`g`. -/
theorem mod_inv_spec (a m : Int) (fuel : Nat) (hm : 2 ≤ m) (hg : Int.gcd a m = 1)
    (hfuel : m.natAbs < fuel) :
    ∃ g x y r, math.ext_gcd fuel a m = some (g, x, y) ∧ (g = 1 ∨ g = -1) ∧
      (0 ≤ a → g = 1) ∧
      math.mod_inv fuel a m = some (.ok r) ∧ 0 ≤ r ∧ r < m ∧ (a * r) % m = g % m := by
  obtain ⟨g, x, y, e, hbez, hnat, hpos⟩ :=
    ext_gcd_loop_spec a m fuel a m 1 0 0 1 (by ring) (by ring) hfuel
  have hg1 : g = 1 ∨ g = -1 := by
    rw [hg] at hnat
    omega
  have hgp : 0 ≤ a → g = 1 := by
    intro ha
    have := hpos ha (by omega)
    omega
  have hne : ¬ (g ≠ 1 ∧ g ≠ -1) := by
    rcases hg1 with h | h <;> simp [h]
  have hdiv := Int.tmod_add_tdiv x m
  have hlt : x.tmod m < m := Int.tmod_lt_of_pos x (by omega)
  have hgt : -m < x.tmod m := by
    have h1 := natAbs_tmod x m
    have h2 : x.natAbs % m.natAbs < m.natAbs := Nat.mod_lt _ (by omega)
    omega
  refine ⟨g, x, y, if x.tmod m < 0 then x.tmod m + m else x.tmod m, e, hg1, hgp, ?_, ?_, ?_,
    ?_⟩
  · unfold math.mod_inv
    have e2 : math.ext_gcd fuel a m = some (g, x, y) := e
    rw [e2]
    simp only [hne, if_false]
  · split <;> omega
  · split <;> omega
  · apply Int.emod_eq_emod_iff_emod_sub_eq_zero.mpr
    apply Int.emod_eq_zero_of_dvd
    by_cases hneg : x.tmod m < 0
    · rw [if_pos hneg]
      refine ⟨a * (1 - x.tdiv m) - y, ?_⟩
      have : x.tmod m = x - m * x.tdiv m := by omega
      rw [this, ← hbez]
      ring
    · rw [if_neg hneg]
      refine ⟨a * (- x.tdiv m) - y, ?_⟩
      have : x.tmod m = x - m * x.tdiv m := by omega
      rw [this, ← hbez]
      ring

/-- C35 (`mod_inv`). For the modulus 5 and the argument -1, which are coprime, `mod_inv`
returns 1, and `-1 * 1` is 4 modulo 5, not 1: `ext_gcd(-1, 5)` returns `g = -1`, which
`mod_inv` accepts without changing the sign of `x`. For every modulus `m >= 2` and every
`a` coprime to `m`, `mod_inv` returns an `r` with `0 <= r < m` and `a * r` congruent to
1 or to -1 modulo `m`, according to the `g` that `ext_gcd` returns; for `a >= 0` that is
1, and `a * r` is 1 modulo `m`. -/
theorem C35_mod_inv :
    (Int.gcd (-1) 5 = 1 ∧ math.ext_gcd 6 (-1) 5 = some (-1, 1, 0) ∧
      math.mod_inv 6 (-1) 5 = some (.ok 1) ∧ ((-1 : Int) * 1) % 5 = 4) ∧
    (∀ (a m : Int) (fuel : Nat), 2 ≤ m → Int.gcd a m = 1 → m.natAbs < fuel →
      ∃ g x y r, math.ext_gcd fuel a m = some (g, x, y) ∧ (g = 1 ∨ g = -1) ∧
        math.mod_inv fuel a m = some (.ok r) ∧ 0 ≤ r ∧ r < m ∧
        (g = 1 → (a * r) % m = 1) ∧ (g = -1 → (a * r) % m = m - 1) ∧
        (0 ≤ a → (a * r) % m = 1)) := by
  refine ⟨⟨by decide, by decide, rfl, by decide⟩, ?_⟩
  intro a m fuel hm hg hfuel
  obtain ⟨g, x, y, r, e, hg1, hgp, hr, h0, h1, hmod⟩ := mod_inv_spec a m fuel hm hg hfuel
  have hone : (1 : Int) % m = 1 := Int.emod_eq_of_lt (by omega) (by omega)
  have hneg : (-1 : Int) % m = m - 1 := by
    rw [← Int.add_emod_self, Int.emod_eq_of_lt (by omega) (by omega)]
    ring
  refine ⟨g, x, y, r, e, hg1, hr, h0, h1, ?_, ?_, ?_⟩
  · intro h
    rw [hmod, h, hone]
  · intro h
    rw [hmod, h, hneg]
  · intro ha
    rw [hmod, hgp ha, hone]


theorem binom_factor (n k i : Nat) (hn : n < 2 ^ 32) (hk : k ≤ n) (hi : i ≤ k) :
    ((n + UINT_MOD - k) % UINT_MOD + i) % UINT_MOD = n - k + i := by
  unfold UINT_MOD
  omega

theorem binom_k_eq (n k : Nat) (hn : n < 2 ^ 32) (hk : k ≤ n) :
    math.binom_k n k = min k (n - k) := by
  unfold math.binom_k UINT_MOD
  have h : (n + 2 ^ 32 - k) % 2 ^ 32 = n - k := by omega
  rw [h]
  split <;> omega

/-- While no product exceeds 64 bits, the value of `res` after iteration `j` is a binomial
coefficient, and the division of iteration `j` is exact. -/
theorem binom_acc_choose (n k : Nat) (hn : n < 2 ^ 32) (hk : k ≤ n) :
    ∀ j, j ≤ k → (∀ i, 1 ≤ i → i ≤ j → math.binom_product n k i < 2 ^ 64) →
      math.binom_acc n k j = Nat.choose (n - k + j) j ∧
      (1 ≤ j → j ∣ math.binom_product n k j) := by
  intro j
  induction j with
  | zero =>
    intro _ _
    exact ⟨by simp [math.binom_acc], fun h => by omega⟩
  | succ j ih =>
    intro hj hno
    obtain ⟨ihacc, _⟩ := ih (by omega) (fun i h1 h2 => hno i h1 (by omega))
    have hprod : math.binom_product n k (j + 1) =
        Nat.choose (n - k + j) j * (n - k + (j + 1)) := by
      unfold math.binom_product
      rw [binom_factor n k (j + 1) hn hk hj, Nat.add_sub_cancel, ihacc]
    have hsucc : Nat.choose (n - k + j) j * (n - k + (j + 1)) =
        Nat.choose (n - k + (j + 1)) (j + 1) * (j + 1) := by
      have := Nat.succ_mul_choose_eq (n - k + j) j
      rw [Nat.mul_comm, ← Nat.add_assoc]
      exact this
    have hlt := hno (j + 1) (by omega) (Nat.le_refl _)
    constructor
    · show math.binom_body n k (j + 1) (math.binom_acc n k j) = _
      unfold math.binom_body
      rw [binom_factor n k (j + 1) hn hk hj, ihacc, hsucc]
      rw [hprod, hsucc] at hlt
      rw [Nat.mod_eq_of_lt (by unfold U64_MOD; exact hlt)]
      exact Nat.mul_div_cancel _ (by omega)
    · intro _
      rw [hprod, hsucc]
      exact Nat.dvd_mul_left _ _

/-- The loop of `binom` returns the value of `res` after its last iteration. -/
theorem binom_loop_acc (n k : Nat) (hk : k + 1 < 2 ^ 32) :
    ∀ (fuel i : Nat), i ≤ k → k - i < fuel →
      math.binom_loop n k (fuel + 1) (i + 1) (math.binom_acc n k i)
        = some (math.binom_acc n k k) := by
  intro fuel
  induction fuel with
  | zero => intro i _ h; omega
  | succ fuel ih =>
    intro i hi hf
    by_cases hik : i + 1 ≤ k
    · have hstep : math.binom_loop n k (fuel + 1 + 1) (i + 1) (math.binom_acc n k i) =
          math.binom_loop n k (fuel + 1) ((i + 1 + 1) % UINT_MOD)
            (math.binom_body n k (i + 1) (math.binom_acc n k i)) := by
        simp only [math.binom_loop, hik, if_true]
      have hmod : (i + 1 + 1) % UINT_MOD = i + 1 + 1 :=
        Nat.mod_eq_of_lt (by unfold UINT_MOD; omega)
      rw [hstep, hmod]
      exact ih (i + 1) hik (by omega)
    · have hik2 : i = k := by omega
      subst hik2
      simp only [math.binom_loop, hik, if_false]

/-- C36 (`binom`). For `n` and `k` of the type `unsigned`: when `k > n` the function
returns 0. Otherwise `k` is reduced to `min(k, n - k)`, and when none of the products
`res * (n - k + i)` that the loop forms exceeds 64 bits, the value of `res` after
iteration `i` is the binomial coefficient of `n - k + i` over `i` (with the reduced `k`),
the division by `i` is exact, and the function returns the binomial coefficient of `n`
over `k`. The loop runs `min(k, n - k)` times. -/
theorem C36_binom (n k fuel : Nat) (hn : n < 2 ^ 32) (hk : k < 2 ^ 32) (hfuel : k + 1 < fuel)
    (hno : 0 < k → k < n → ∀ i, 1 ≤ i → i ≤ math.binom_k n k →
      math.binom_product n (math.binom_k n k) i < 2 ^ 64) :
    math.binom fuel n k = some (Nat.choose n k) ∧
    (n < k → math.binom fuel n k = some 0) ∧
    (k ≤ n → math.binom_k n k = min k (n - k)) ∧
    (0 < k → k < n → ∀ i, i ≤ math.binom_k n k →
      math.binom_acc n (math.binom_k n k) i = Nat.choose (n - math.binom_k n k + i) i ∧
      (1 ≤ i → i ∣ math.binom_product n (math.binom_k n k) i)) := by
  have hacc : 0 < k → k < n → ∀ i, i ≤ math.binom_k n k →
      math.binom_acc n (math.binom_k n k) i = Nat.choose (n - math.binom_k n k + i) i ∧
      (1 ≤ i → i ∣ math.binom_product n (math.binom_k n k) i) := by
    intro h0 h1 i hi
    have hk2 := binom_k_eq n k hn (by omega)
    exact binom_acc_choose n (math.binom_k n k) hn (by omega) i hi
      (fun j hj1 hj2 => hno h0 h1 j hj1 (by omega))
  refine ⟨?_, ?_, fun h => binom_k_eq n k hn h, hacc⟩
  · by_cases h1 : k > n
    · simp only [math.binom, h1, if_true, Nat.choose_eq_zero_of_lt h1]
    · by_cases h2 : k = 0 ∨ k = n
      · simp only [math.binom, h1, if_false, h2, if_true]
        rcases h2 with h | h
        · rw [h, Nat.choose_zero_right]
        · rw [h, Nat.choose_self]
      · have hk0 : 0 < k := by omega
        have hkn : k < n := by omega
        have hk2 := binom_k_eq n k hn (by omega)
        obtain ⟨hfuel2, rfl⟩ : ∃ f, fuel = f + 1 := ⟨fuel - 1, by omega⟩
        simp only [math.binom, h1, if_false, h2]
        have hloop := binom_loop_acc n (math.binom_k n k) (by omega) hfuel2 0
          (Nat.zero_le _) (by omega)
        have hacc0 : math.binom_acc n (math.binom_k n k) 0 = 1 := rfl
        rw [hacc0] at hloop
        rw [hloop, (hacc hk0 hkn (math.binom_k n k) (Nat.le_refl _)).1]
        have hsub : n - math.binom_k n k + math.binom_k n k = n := by omega
        rw [hsub]
        by_cases hmin : k ≤ n - k
        · rw [hk2, Nat.min_eq_left hmin]
        · rw [hk2, Nat.min_eq_right (by omega), Nat.choose_symm (by omega)]
  · intro h
    simp only [math.binom, gt_iff_lt, h, if_true]

/-- C36 for `binom(62, 31)`, the middle coefficient of row 62: no product exceeds 64 bits
and the function returns 465428353255261088; the loop budget is 33. -/
theorem C36_binom_witness :
    (62 < 2 ^ 32 ∧ 31 < 2 ^ 32 ∧ 31 + 1 < 33 ∧
      (0 < 31 → 31 < 62 → ∀ i, 1 ≤ i → i ≤ math.binom_k 62 31 →
        math.binom_product 62 (math.binom_k 62 31) i < 2 ^ 64)) ∧
    (math.binom 33 62 31 = some (Nat.choose 62 31) ∧
      (62 < 31 → math.binom 33 62 31 = some 0) ∧
      (31 ≤ 62 → math.binom_k 62 31 = min 31 (62 - 31)) ∧
      (0 < 31 → 31 < 62 → ∀ i, i ≤ math.binom_k 62 31 →
        math.binom_acc 62 (math.binom_k 62 31) i
          = Nat.choose (62 - math.binom_k 62 31 + i) i ∧
        (1 ≤ i → i ∣ math.binom_product 62 (math.binom_k 62 31) i))) ∧
    math.binom 33 62 31 = some 465428353255261088 := by
  have hno : 0 < 31 → 31 < 62 → ∀ i, 1 ≤ i → i ≤ math.binom_k 62 31 →
      math.binom_product 62 (math.binom_k 62 31) i < 2 ^ 64 := by
    intro _ _
    have hk : math.binom_k 62 31 = 31 := by decide
    rw [hk]
    decide
  exact ⟨⟨by decide, by decide, by decide, hno⟩,
    C36_binom 62 31 33 (by decide) (by decide) (by decide) hno, by decide⟩


theorem horner_drop (a : List Nat) (i : Nat) :
    BigInt.horner (a.drop i) = a.getD i 0 + BigInt.BASE * BigInt.horner (a.drop (i + 1)) := by
  by_cases hi : i < a.length
  · rw [List.drop_eq_getElem_cons hi]
    simp only [BigInt.horner, List.getD_eq_getElem?_getD, List.getElem?_eq_getElem hi,
      Option.getD_some]
  · have h1 : a.drop i = [] := List.drop_eq_nil_of_le (by omega)
    have h2 : a.drop (i + 1) = [] := List.drop_eq_nil_of_le (by omega)
    rw [h1, h2, List.getD_eq_getElem?_getD, List.getElem?_eq_none (by omega)]
    simp [BigInt.horner]

/-- The sum of `digits[i] * BASE ^ i` by Horner's rule. -/
theorem value_eq_horner (ds : List Nat) : BigInt.value ⟨ds⟩ = BigInt.horner ds := by
  induction ds with
  | nil => rfl
  | cons d ds ih =>
    unfold BigInt.value at ih ⊢
    simp only [List.length_cons, List.range_succ_eq_map, List.map_cons, List.sum_cons,
      List.map_map, BigInt.horner]
    rw [← ih]
    simp only [List.getD_cons_zero, pow_zero, Nat.mul_one]
    congr 1
    rw [← List.sum_map_mul_left]
    congr 1
    apply List.map_congr_left
    intro i _
    simp only [Function.comp, List.getD_cons_succ, pow_succ]
    ring

theorem trim_last (a : List Nat) (i : Nat) (h : a.length = i + 1) (ht : BigInt.Trim a) :
    a.getD i 0 ≠ 0 := by
  intro h0
  apply ht
  rw [List.getLast?_eq_getElem?, h, Nat.add_sub_cancel]
  have hi : i < a.length := by omega
  rw [List.getD_eq_getElem?_getD, List.getElem?_eq_getElem hi, Option.getD_some] at h0
  rw [List.getElem?_eq_getElem hi, h0]

theorem trim_cons (d : Nat) (ds : List Nat) :
    BigInt.Trim (d :: ds) ↔ (ds = [] → d ≠ 0) ∧ (ds ≠ [] → BigInt.Trim ds) := by
  cases ds with
  | nil => simp [BigInt.Trim]
  | cons e es => simp [BigInt.Trim, List.getLast?_cons_cons]

/-- The loop of `operator+` from index `i` with carry at most 1, on limbs below `BASE`. -/
theorem add_loop_spec (a b : List Nat) (ha : ∀ d ∈ a, d < BigInt.BASE)
    (hb : ∀ d ∈ b, d < BigInt.BASE) (hn : max a.length b.length + 2 < 2 ^ 64) :
    ∀ (fuel i carry : Nat) (result : List Nat), carry ≤ 1 →
      (i ≤ max a.length b.length ∨ carry = 0) →
      ((max a.length b.length ≤ i ∧ carry = 0) → 1 ≤ fuel) →
      (¬ (max a.length b.length ≤ i ∧ carry = 0) → max a.length b.length - i + 2 ≤ fuel) →
      ∃ out, BigInt.add_loop a b (max a.length b.length) fuel i carry result
          = some (result ++ out) ∧
        BigInt.horner out = carry + BigInt.horner (a.drop i) + BigInt.horner (b.drop i) ∧
        (∀ d ∈ out, d < BigInt.BASE) ∧
        (out = [] ↔ (max a.length b.length ≤ i ∧ carry = 0)) ∧
        out.length + i ≤ max (max a.length b.length + 1) i ∧
        (BigInt.Trim a → BigInt.Trim b → BigInt.Trim out) := by
  have hal : a.length ≤ max a.length b.length := Nat.le_max_left _ _
  have hbl : b.length ≤ max a.length b.length := Nat.le_max_right _ _
  have hor : a.length = max a.length b.length ∨ b.length = max a.length b.length := by
    omega
  generalize max a.length b.length = n at hn hal hbl hor ⊢
  intro fuel
  induction fuel with
  | zero =>
    intro i carry result _ _ h1 h2
    by_cases hc : n ≤ i ∧ carry = 0
    · have := h1 hc
      omega
    · have := h2 hc
      omega
  | succ fuel ih =>
    intro i carry result hc1 hi h1 h2
    have hga : a.getD i 0 < BigInt.BASE := by
      by_cases hlt : i < a.length
      · rw [List.getD_eq_getElem?_getD, List.getElem?_eq_getElem hlt, Option.getD_some]
        exact ha _ (List.getElem_mem _)
      · rw [List.getD_eq_getElem?_getD, List.getElem?_eq_none (by omega)]
        decide
    have hgb : b.getD i 0 < BigInt.BASE := by
      by_cases hlt : i < b.length
      · rw [List.getD_eq_getElem?_getD, List.getElem?_eq_getElem hlt, Option.getD_some]
        exact hb _ (List.getElem_mem _)
      · rw [List.getD_eq_getElem?_getD, List.getElem?_eq_none (by omega)]
        decide
    have hza : ¬ i < a.length → a.getD i 0 = 0 := fun h => by
      rw [List.getD_eq_getElem?_getD, List.getElem?_eq_none (by omega)]
      rfl
    have hzb : ¬ i < b.length → b.getD i 0 = 0 := fun h => by
      rw [List.getD_eq_getElem?_getD, List.getElem?_eq_none (by omega)]
      rfl
    by_cases hcond : i < n ∨ carry ≠ 0
    · have hsum : (if i < b.length then
            ((if i < a.length then (carry + a.getD i 0) % U64_MOD else carry)
              + b.getD i 0) % U64_MOD
          else (if i < a.length then (carry + a.getD i 0) % U64_MOD else carry))
          = carry + a.getD i 0 + b.getD i 0 := by
        unfold BigInt.BASE at hga hgb
        unfold U64_MOD
        by_cases h3 : i < a.length <;> by_cases h4 : i < b.length
        · rw [if_pos h3, if_pos h4]
          omega
        · rw [if_pos h3, if_neg h4, hzb h4]
          omega
        · rw [if_neg h3, if_pos h4, hza h3]
          omega
        · rw [if_neg h3, if_neg h4, hza h3, hzb h4]
          omega
      have hinext : (i + 1) % SIZE_MOD = i + 1 := by
        unfold SIZE_MOD
        omega
      have hlimb : ((carry + a.getD i 0 + b.getD i 0) % BigInt.BASE) % UINT_MOD =
          (carry + a.getD i 0 + b.getD i 0) % BigInt.BASE := by
        unfold BigInt.BASE UINT_MOD
        omega
      have hstep : BigInt.add_loop a b (n) (fuel + 1) i carry result =
          BigInt.add_loop a b (n) fuel (i + 1)
            ((carry + a.getD i 0 + b.getD i 0) / BigInt.BASE)
            (result ++ [(carry + a.getD i 0 + b.getD i 0) % BigInt.BASE]) := by
        simp only [BigInt.add_loop, hcond, if_true, hsum, hinext, hlimb]
      have hcarry : (carry + a.getD i 0 + b.getD i 0) / BigInt.BASE ≤ 1 := by
        unfold BigInt.BASE at hga hgb ⊢
        omega
      have hnextc : i + 1 ≤ n ∨
          (carry + a.getD i 0 + b.getD i 0) / BigInt.BASE = 0 := by
        by_cases hlt : i < n
        · left
          omega
        · right
          have h3 : ¬ i < a.length := by omega
          have h4 : ¬ i < b.length := by omega
          rw [hza h3, hzb h4]
          unfold BigInt.BASE
          omega
      obtain ⟨out, e, hv, hl, hnil, hlen, htrim⟩ := ih (i + 1)
        ((carry + a.getD i 0 + b.getD i 0) / BigInt.BASE)
        (result ++ [(carry + a.getD i 0 + b.getD i 0) % BigInt.BASE]) hcarry hnextc
        (by intro _; omega) (by intro _; omega)
      refine ⟨(carry + a.getD i 0 + b.getD i 0) % BigInt.BASE :: out, ?_, ?_, ?_, ?_, ?_, ?_⟩
      · rw [hstep, e, List.append_assoc]
        rfl
      · rw [horner_drop a i, horner_drop b i]
        simp only [BigInt.horner]
        rw [hv]
        unfold BigInt.BASE
        omega
      · intro d hd
        rcases List.mem_cons.mp hd with h | h
        · rw [h]
          exact Nat.mod_lt _ (by decide)
        · exact hl d h
      · constructor
        · intro h
          cases h
        · rintro ⟨h3, h4⟩
          omega
      · simp only [List.length_cons]
        omega
      · intro hta htb
        rw [trim_cons]
        refine ⟨fun hout => ?_, fun hout => htrim hta htb⟩
        obtain ⟨h3, h4⟩ := hnil.mp hout
        have hmod : (carry + a.getD i 0 + b.getD i 0) % BigInt.BASE =
            carry + a.getD i 0 + b.getD i 0 := by
          unfold BigInt.BASE at h4 ⊢
          omega
        rw [hmod]
        by_cases hlt : i < n
        · by_cases hal : a.length = i + 1
          · have := trim_last a i hal hta
            omega
          · have hbl : b.length = i + 1 := by omega
            have := trim_last b i hbl htb
            omega
        · omega
    · have hex : n ≤ i ∧ carry = 0 := by omega
      refine ⟨[], ?_, ?_, (fun d hd => by cases hd), ⟨fun _ => hex, fun _ => rfl⟩, ?_,
        (fun _ _ => by simp [BigInt.Trim])⟩
      · simp only [BigInt.add_loop, hcond, if_false, List.append_nil]
      · rw [List.drop_eq_nil_of_le (by omega), List.drop_eq_nil_of_le (by omega), hex.2]
        rfl
      · simp only [List.length_nil]
        omega

/-- The loop of the constructor on a value below `BASE ^ fuel`. -/
theorem new_loop_spec :
    ∀ (fuel value : Nat) (digits : List Nat), value < BigInt.BASE ^ fuel →
      ∃ out, BigInt.new_loop (fuel + 1) value digits = some (digits ++ out) ∧
        BigInt.horner out = value ∧ (∀ d ∈ out, d < BigInt.BASE) ∧ BigInt.Trim out ∧
        out.length ≤ fuel := by
  intro fuel
  induction fuel with
  | zero =>
    intro value digits hv
    have h0 : value = 0 := by simpa using hv
    subst h0
    exact ⟨[], (by simp [BigInt.new_loop]), rfl, (fun d hd => by cases hd),
      (by simp [BigInt.Trim]), Nat.le_refl _⟩
  | succ fuel ih =>
    intro value digits hv
    by_cases hpos : value > 0
    · have hdiv : value / BigInt.BASE < BigInt.BASE ^ fuel := by
        rw [Nat.div_lt_iff_lt_mul (by decide)]
        rw [pow_succ] at hv
        exact hv
      obtain ⟨out, e, hval, hl, htrim, hlen⟩ := ih (value / BigInt.BASE)
        (digits ++ [(value % BigInt.BASE) % UINT_MOD]) hdiv
      have hlimb : (value % BigInt.BASE) % UINT_MOD = value % BigInt.BASE := by
        unfold BigInt.BASE UINT_MOD
        omega
      rw [hlimb] at e
      refine ⟨value % BigInt.BASE :: out, ?_, ?_, ?_, ?_,
        (by simp only [List.length_cons]; omega)⟩
      · have hstep : BigInt.new_loop (fuel + 1 + 1) value digits =
            BigInt.new_loop (fuel + 1) (value / BigInt.BASE)
              (digits ++ [value % BigInt.BASE]) := by
          simp only [BigInt.new_loop, hpos, if_true, hlimb]
        rw [hstep, e, List.append_assoc]
        rfl
      · simp only [BigInt.horner]
        rw [hval]
        exact Nat.mod_add_div _ _
      · intro d hd
        rcases List.mem_cons.mp hd with h | h
        · rw [h]
          exact Nat.mod_lt _ (by decide)
        · exact hl d h
      · rw [trim_cons]
        refine ⟨fun hout => ?_, fun _ => htrim⟩
        rw [hout] at hval
        have h0 : value / BigInt.BASE = 0 := hval.symm
        unfold BigInt.BASE at h0 ⊢
        omega
    · have h0 : value = 0 := by omega
      subst h0
      exact ⟨[], (by simp [BigInt.new_loop]), rfl, (fun d hd => by cases hd),
        (by simp [BigInt.Trim]), Nat.zero_le _⟩


/-- C38 (`BigInt` addition). For `a` and `b` whose limbs are below `10^9` (and whose
vectors are shorter than the largest `size_t` allows), `a + b` returns a `BigInt` whose
value, the sum of `digits[i] * (10^9)^i`, is the sum of the values of `a` and `b`, whose
limbs are below `10^9`, which has no most-significant zero limb when `a` and `b` have none,
and which has at most one limb more than the longer of the two. For every `v` below `2^64`
the constructor returns a `BigInt` of value `v` with limbs below `10^9` and no
most-significant zero limb. The loop budget of the sum is the number of limbs plus 2, that
of the constructor is 4. -/
theorem C38_bigint_add (a b : BigInt) (fuel : Nat)
    (ha : ∀ d ∈ a.digits, d < 10 ^ 9) (hb : ∀ d ∈ b.digits, d < 10 ^ 9)
    (hlen : max a.digits.length b.digits.length + 2 < 2 ^ 64)
    (hfuel : max a.digits.length b.digits.length + 2 ≤ fuel) :
    (∃ c, a.add fuel b = some c ∧ c.value = a.value + b.value ∧
      (∀ d ∈ c.digits, d < 10 ^ 9) ∧
      (BigInt.Trim a.digits → BigInt.Trim b.digits → BigInt.Trim c.digits) ∧
      c.digits.length ≤ max a.digits.length b.digits.length + 1) ∧
    (∀ v, v < 2 ^ 64 → ∀ f, 4 ≤ f →
      ∃ x, BigInt.new f v = some x ∧ x.value = v ∧ (∀ d ∈ x.digits, d < 10 ^ 9) ∧
        BigInt.Trim x.digits) := by
  have hbase : BigInt.BASE = 10 ^ 9 := by decide
  constructor
  · obtain ⟨out, e, hv, hl, _, hlen2, htrim⟩ := add_loop_spec a.digits b.digits
      (by rw [hbase]; exact ha) (by rw [hbase]; exact hb) hlen fuel 0 0 []
      (by omega) (Or.inr rfl) (by intro _; omega) (by intro _; omega)
    refine ⟨⟨out⟩, ?_, ?_, ?_, htrim, ?_⟩
    · unfold BigInt.add
      rw [e]
      rfl
    · have h1 := value_eq_horner out
      have h2 := value_eq_horner a.digits
      have h3 := value_eq_horner b.digits
      rw [h1, hv]
      simp only [List.drop_zero, Nat.zero_add]
      rw [← h2, ← h3]
    · intro d hd
      rw [← hbase]
      exact hl d hd
    · show out.length ≤ _
      omega
  · intro v hv f hf
    obtain ⟨f2, rfl⟩ : ∃ f2, f = f2 + 1 := ⟨f - 1, by omega⟩
    have hpow : v < BigInt.BASE ^ f2 := by
      have h3 : BigInt.BASE ^ 3 ≤ BigInt.BASE ^ f2 :=
        Nat.pow_le_pow_right (by decide) (by omega)
      have h4 : (2 : Nat) ^ 64 < BigInt.BASE ^ 3 := by decide
      omega
    obtain ⟨out, e, hval, hl, htrim, _⟩ := new_loop_spec f2 v [] hpow
    refine ⟨⟨out⟩, ?_, ?_, ?_, htrim⟩
    · unfold BigInt.new
      rw [e]
      rfl
    · rw [value_eq_horner out, hval]
    · intro d hd
      rw [← hbase]
      exact hl d hd

/-- C38 for `999999999999999999 + 1`: the carry runs through both limbs and makes a third,
and the sum has the value `10^18`. -/
theorem C38_bigint_add_witness :
    ((∀ d ∈ (BigInt.mk [999999999, 999999999]).digits, d < 10 ^ 9) ∧
      (∀ d ∈ (BigInt.mk [1]).digits, d < 10 ^ 9) ∧
      max (BigInt.mk [999999999, 999999999]).digits.length (BigInt.mk [1]).digits.length + 2
        < 2 ^ 64 ∧
      max (BigInt.mk [999999999, 999999999]).digits.length (BigInt.mk [1]).digits.length + 2
        ≤ 4) ∧
    (∃ c, BigInt.add 4 ⟨[999999999, 999999999]⟩ ⟨[1]⟩ = some c ∧
      c.value = (BigInt.mk [999999999, 999999999]).value + (BigInt.mk [1]).value ∧
      (∀ d ∈ c.digits, d < 10 ^ 9) ∧
      (BigInt.Trim [999999999, 999999999] → BigInt.Trim [1] → BigInt.Trim c.digits) ∧
      c.digits.length ≤ 2 + 1) ∧
    BigInt.add 4 ⟨[999999999, 999999999]⟩ ⟨[1]⟩ = some ⟨[0, 0, 1]⟩ ∧
    (BigInt.mk [0, 0, 1]).value = 10 ^ 18 ∧
    BigInt.new 4 18446744073709551615 = some ⟨[709551615, 446744073, 18]⟩ := by
  have h := C38_bigint_add ⟨[999999999, 999999999]⟩ ⟨[1]⟩ 4 (by decide) (by decide)
    (by decide) (by decide)
  exact ⟨⟨by decide, by decide, by decide, by decide⟩, h.1, by decide, by decide, by decide⟩


theorem decimal_nil (acc : Nat) : json.decimal acc [] = acc := rfl

theorem decimal_cons (acc : Nat) (c : Char) (cs : List Char) :
    json.decimal acc (c :: cs) = json.decimal (acc * 10 + (c.toNat - 48)) cs := rfl

theorem decimal_ge (cs : List Char) : ∀ acc : Nat, acc ≤ json.decimal acc cs := by
  induction cs with
  | nil => intro acc; exact Nat.le_refl _
  | cons c cs ih =>
    intro acc
    have := ih (acc * 10 + (c.toNat - 48))
    show acc ≤ json.decimal (acc * 10 + (c.toNat - 48)) cs
    omega

/-- The accumulation loop of `parse_number` on digits, without a sign: the value when it
fits `int64_t`, the `double` otherwise, and never an overflow. -/
theorem int_loop_pos (d : json.Double) (cs : List Char) :
    ∀ acc : Nat, (∀ x ∈ cs, 48 ≤ x.toNat ∧ x.toNat ≤ 57) → acc ≤ 2 ^ 63 - 1 →
      json.int_loop d false cs (acc : Int) =
        if json.decimal acc cs ≤ 2 ^ 63 - 1 then .ok (.int (json.decimal acc cs : Nat))
        else .ok (.double d) := by
  induction cs with
  | nil =>
    intro acc _ hacc
    rw [decimal_nil, if_pos hacc]
    rfl
  | cons c cs ih =>
    intro acc hdig hacc
    obtain ⟨h48, h57⟩ := hdig c (List.mem_cons_self _ _)
    have hnot : ¬ (c.toNat < 48 ∨ c.toNat > 57) := by omega
    have hdiv : (INT64_MAX - ((c.toNat : Int) - 48)).tdiv 10 =
        (INT64_MAX - ((c.toNat : Int) - 48)) / 10 :=
      Int.tdiv_eq_ediv (by unfold INT64_MAX; omega) (by decide)
    have hsub : ((c.toNat - 48 : Nat) : Int) = (c.toNat : Int) - 48 := by omega
    rw [decimal_cons]
    simp only [json.int_loop, hnot, if_false, Bool.false_eq_true, hdiv]
    by_cases hover : (acc : Int) > (INT64_MAX - ((c.toNat : Int) - 48)) / 10
    · rw [if_pos hover]
      have hbig : 2 ^ 63 - 1 < acc * 10 + (c.toNat - 48) := by
        unfold INT64_MAX at hover
        omega
      have := decimal_ge cs (acc * 10 + (c.toNat - 48))
      rw [if_neg (by omega)]
    · rw [if_neg hover]
      have hfit : acc * 10 + (c.toNat - 48) ≤ 2 ^ 63 - 1 := by
        unfold INT64_MAX at hover
        omega
      have hno : ¬ ((acc : Int) * 10 + ((c.toNat : Int) - 48) < INT64_MIN ∨
          INT64_MAX < (acc : Int) * 10 + ((c.toNat : Int) - 48)) := by
        unfold INT64_MIN INT64_MAX
        omega
      rw [if_neg hno]
      have hcast : (acc : Int) * 10 + ((c.toNat : Int) - 48) =
          ((acc * 10 + (c.toNat - 48) : Nat) : Int) := by omega
      rw [hcast]
      exact ih _ (fun x hx => hdig x (List.mem_cons_of_mem _ hx)) hfit

/-- The accumulation loop of `parse_number` on digits after a `-`: the negated value when
it fits `int64_t`, the `double` otherwise, and never an overflow. -/
theorem int_loop_neg (d : json.Double) (cs : List Char) :
    ∀ acc : Nat, (∀ x ∈ cs, 48 ≤ x.toNat ∧ x.toNat ≤ 57) → acc ≤ 2 ^ 63 →
      json.int_loop d true cs (-(acc : Int)) =
        if json.decimal acc cs ≤ 2 ^ 63 then .ok (.int (-(json.decimal acc cs : Nat)))
        else .ok (.double d) := by
  induction cs with
  | nil =>
    intro acc _ hacc
    rw [decimal_nil, if_pos hacc]
    rfl
  | cons c cs ih =>
    intro acc hdig hacc
    obtain ⟨h48, h57⟩ := hdig c (List.mem_cons_self _ _)
    have hnot : ¬ (c.toNat < 48 ∨ c.toNat > 57) := by omega
    have hdiv : (INT64_MIN + ((c.toNat : Int) - 48)).tdiv 10 =
        -((2 ^ 63 - ((c.toNat : Int) - 48)) / 10) := by
      have h1 : INT64_MIN + ((c.toNat : Int) - 48) = -(2 ^ 63 - ((c.toNat : Int) - 48)) := by
        unfold INT64_MIN
        omega
      rw [h1, Int.neg_tdiv, Int.tdiv_eq_ediv (by omega) (by decide)]
    rw [decimal_cons]
    simp only [json.int_loop, hnot, if_false, if_true, hdiv]
    by_cases hover : -(acc : Int) < -((2 ^ 63 - ((c.toNat : Int) - 48)) / 10)
    · rw [if_pos hover]
      have hbig : 2 ^ 63 < acc * 10 + (c.toNat - 48) := by omega
      have := decimal_ge cs (acc * 10 + (c.toNat - 48))
      rw [if_neg (by omega)]
    · rw [if_neg hover]
      have hfit : acc * 10 + (c.toNat - 48) ≤ 2 ^ 63 := by omega
      have hno : ¬ (-(acc : Int) * 10 - ((c.toNat : Int) - 48) < INT64_MIN ∨
          INT64_MAX < -(acc : Int) * 10 - ((c.toNat : Int) - 48)) := by
        unfold INT64_MIN INT64_MAX
        omega
      rw [if_neg hno]
      have hcast : -(acc : Int) * 10 - ((c.toNat : Int) - 48) =
          -((acc * 10 + (c.toNat - 48) : Nat) : Int) := by omega
      rw [hcast]
      exact ih _ (fun x hx => hdig x (List.mem_cons_of_mem _ hx)) hfit


theorem isdigit_of (x : Char) (h : 48 ≤ x.toNat ∧ x.toNat ≤ 57) : json.isdigit x = true := by
  simp only [json.isdigit, h, and_self, decide_True]

theorem dropWhile_digits (cs : List Char) (h : ∀ x ∈ cs, 48 ≤ x.toNat ∧ x.toNat ≤ 57) :
    cs.dropWhile json.isdigit = [] := by
  rw [List.dropWhile_eq_nil_iff]
  exact fun x hx => isdigit_of x (h x hx)

theorem takeWhile_digits (cs : List Char) (h : ∀ x ∈ cs, 48 ≤ x.toNat ∧ x.toNat ≤ 57) :
    cs.takeWhile json.isdigit = cs := by
  rw [List.takeWhile_eq_self_iff]
  exact fun x hx => isdigit_of x (h x hx)

/-- The digits of an integer literal: a first digit, further digits, and none after a
leading `0`. -/
theorem literal_digits (ds : List Char) (h : json.IntLiteral ds) :
    ∃ c cs, ds = c :: cs ∧ (48 ≤ c.toNat ∧ c.toNat ≤ 57) ∧
      (∀ x ∈ cs, 48 ≤ x.toNat ∧ x.toNat ≤ 57) ∧ (c = '0' → cs = []) := by
  rcases h with h | ⟨c, cs, h1, h2, h3, h4⟩
  · exact ⟨'0', [], h, (by decide), (fun x hx => by cases hx), fun _ => rfl⟩
  · refine ⟨c, cs, h1, ⟨by omega, h3⟩, h4, fun hc => ?_⟩
    rw [hc] at h2
    exact absurd h2 (by decide)

theorem literal_all_digits (ds : List Char) (h : json.IntLiteral ds) :
    ∀ x ∈ ds, 48 ≤ x.toNat ∧ x.toNat ≤ 57 := by
  obtain ⟨c, cs, rfl, hc, hcs, _⟩ := literal_digits ds h
  intro x hx
  rcases List.mem_cons.mp hx with hx | hx
  · rw [hx]
    exact hc
  · exact hcs x hx

theorem digit_ne (c : Char) (h : 48 ≤ c.toNat ∧ c.toNat ≤ 57) (x : Char)
    (hx : x.toNat < 48 ∨ 57 < x.toNat) : c ≠ x := by
  intro hc
  rw [hc] at h
  omega

theorem scan_int_literal (neg : Bool) (ds : List Char) (h : json.IntLiteral ds) :
    json.scan_int (json.literal neg ds) = .ok [] := by
  obtain ⟨c, cs, rfl, hc, hcs, hzero⟩ := literal_digits ds h
  have hp1 : (if json.peek (json.literal neg (c :: cs)) = '-'
      then json.advance (json.literal neg (c :: cs)) else json.literal neg (c :: cs))
      = c :: cs := by
    cases neg with
    | true => rfl
    | false =>
      have : c ≠ '-' := digit_ne c hc '-' (by decide)
      simp only [json.literal, Bool.false_eq_true, if_false, List.nil_append, json.peek,
        List.headD_cons, this]
  unfold json.scan_int
  simp only [hp1]
  by_cases h0 : c = '0'
  · rw [hzero h0, h0]
    rfl
  · have hpk : json.peek (c :: cs) = c := rfl
    rw [hpk, if_neg h0, isdigit_of c hc]
    simp only [Bool.not_true, Bool.false_eq_true, if_false, json.skip_digits]
    rw [dropWhile_digits (c :: cs) (fun x hx => by
      rcases List.mem_cons.mp hx with hx | hx
      · rw [hx]; exact hc
      · exact hcs x hx)]

theorem strtod_literal (neg : Bool) (ds : List Char) (h : json.IntLiteral ds) :
    json.strtod (json.literal neg ds) =
      if json.DBL_OVERFLOW ≤ json.decimal 0 ds then .huge neg
      else .nearest neg (json.decimal 0 ds) 0 := by
  have hall := literal_all_digits ds h
  obtain ⟨c, cs, hds, hc, _, _⟩ := literal_digits ds h
  have hneg : decide (json.peek (json.literal neg ds) = '-') = neg := by
    cases neg with
    | true => rfl
    | false =>
      have : c ≠ '-' := digit_ne c hc '-' (by decide)
      rw [hds]
      simp only [json.literal, Bool.false_eq_true, if_false, List.nil_append, json.peek,
        List.headD_cons, this, decide_False]
  have hs1 : (if neg = true then (json.literal neg ds).tail else json.literal neg ds)
      = ds := by
    cases neg with
    | true => rfl
    | false => rfl
  unfold json.strtod
  simp only [hneg, hs1, takeWhile_digits ds hall, dropWhile_digits ds hall]
  have hnil : json.peek [] = Char.ofNat 0 := rfl
  have h1 : ¬ (Char.ofNat 0 = '.') := by decide
  have h2 : ¬ (Char.ofNat 0 = 'e' ∨ Char.ofNat 0 = 'E') := by decide
  have h3 : ¬ (Char.ofNat 0 = '+' ∨ Char.ofNat 0 = '-') := by decide
  have h4 : ¬ (Char.ofNat 0 = '-') := by decide
  have h5 : ¬ (Char.ofNat 0 = '+') := by decide
  simp only [hnil, h1, h2, h3, h4, h5, or_false, if_false, List.append_nil,
    List.takeWhile_nil, decimal_nil, decide_False, Bool.false_eq_true, List.length_nil,
    Int.Nat.cast_ofNat_Int, Nat.cast_zero, sub_zero, le_refl, if_true, Int.toNat_zero,
    pow_zero, Nat.mul_one, Bool.decide_eq_true]
  by_cases hov : json.DBL_OVERFLOW ≤ json.decimal 0 ds
  · rw [if_pos hov, if_pos (decide_eq_true hov)]
  · rw [if_neg hov, if_neg (by rw [decide_eq_false hov]; exact Bool.false_ne_true)]


/-- The number parser on the text of an integer literal: it fails when `strtod` gives no
finite value, and otherwise returns what the accumulation loop returns, with `p` at the end
of the input. -/
theorem parse_number_literal (neg : Bool) (ds : List Char) (h : json.IntLiteral ds) :
    json.parse_number (json.literal neg ds) =
      if json.DBL_OVERFLOW ≤ json.decimal 0 ds then
        .error (.parse_error .nonFiniteNumber)
      else
        match json.int_loop (.nearest neg (json.decimal 0 ds) 0) neg ds 0 with
        | .error e => .error e
        | .ok n => .ok (n, []) := by
  obtain ⟨c, cs, hds, hc, _, _⟩ := literal_digits ds h
  have hfrac : json.scan_frac [] = .ok (false, []) := rfl
  have hexp : json.scan_exp false [] = .ok (false, []) := rfl
  have htake : (json.literal neg ds).take ((json.literal neg ds).length - ([] : List Char).length)
      = json.literal neg ds := by
    rw [List.length_nil, Nat.sub_zero, List.take_length]
  unfold json.parse_number
  simp only [scan_int_literal neg ds h, hfrac, hexp, htake, strtod_literal neg ds h]
  by_cases hov : json.DBL_OVERFLOW ≤ json.decimal 0 ds
  · rw [if_pos hov, if_pos hov]
    rfl
  · rw [if_neg hov, if_neg hov]
    simp only [json.Double.isfinite, Bool.not_true, Bool.false_eq_true, if_false,
      Bool.not_false, if_true]
    cases neg with
    | true => rfl
    | false =>
      have hne : c ≠ '-' := digit_ne c hc '-' (by decide)
      have hlit : json.literal false ds = c :: cs := by
        rw [hds]
        rfl
      rw [hlit]
      simp only [hne, decide_False, Bool.false_eq_true, if_false]
      rw [hds]

/-- The function `json::parse` on the text of an integer literal. -/
theorem parse_literal (neg : Bool) (ds : List Char) (h : json.IntLiteral ds) :
    json.parse (json.literal neg ds) =
      if json.DBL_OVERFLOW ≤ json.decimal 0 ds then
        some (.error (.parse_error .nonFiniteNumber))
      else
        match json.int_loop (.nearest neg (json.decimal 0 ds) 0) neg ds 0 with
        | .error e => some (.error e)
        | .ok n => some (.ok n) := by
  obtain ⟨c, cs, hds, hc, _, _⟩ := literal_digits ds h
  have hfirst : ∃ f rest, json.literal neg ds = f :: rest ∧
      (f = '-' ∨ (48 ≤ f.toNat ∧ f.toNat ≤ 57)) := by
    cases neg with
    | true => exact ⟨'-', ds, rfl, Or.inl rfl⟩
    | false => exact ⟨c, cs, by rw [hds]; rfl, Or.inr hc⟩
  obtain ⟨f, rest, hlit, hf⟩ := hfirst
  have hrange : 45 ≤ f.toNat ∧ f.toNat ≤ 57 := by
    rcases hf with hf | hf
    · rw [hf]
      decide
    · omega
  have hsp : json.isspace f = false := by
    simp only [json.isspace, decide_eq_false_iff_not]
    omega
  have hws : json.skip_ws (json.literal neg ds) = json.literal neg ds := by
    rw [hlit]
    unfold json.skip_ws
    rw [List.dropWhile_cons_of_neg (by rw [hsp]; exact Bool.false_ne_true)]
  have hpk : json.peek (json.literal neg ds) = f := by
    rw [hlit]
    rfl
  have hother : ¬ (f = 'n' ∨ f = 't' ∨ f = 'f' ∨ f = Char.ofNat 34 ∨ f = '[' ∨
      f = Char.ofNat 123) := by
    intro hx
    rcases hx with hx | hx | hx | hx | hx | hx <;>
      · rw [hx] at hrange
        revert hrange
        decide
  have hnum : f = '-' ∨ f = '.' ∨ json.isdigit f = true := by
    rcases hf with hf | hf
    · exact Or.inl hf
    · exact Or.inr (Or.inr (isdigit_of f hf))
  have hval : json.parse_value (json.literal neg ds)
      = some (json.parse_number (json.literal neg ds)) := by
    unfold json.parse_value
    simp only [hws, hpk, hother, if_false, hnum, if_true]
  have hend : (!json.eof (json.skip_ws [])) = false := rfl
  unfold json.parse
  rw [hval, parse_number_literal neg ds h]
  by_cases hov : json.DBL_OVERFLOW ≤ json.decimal 0 ds
  · rw [if_pos hov, if_pos hov]
  · rw [if_neg hov, if_neg hov]
    cases hloop : json.int_loop (.nearest neg (json.decimal 0 ds) 0) neg ds 0 with
    | error e => rfl
    | ok n =>
      simp only [hend, Bool.false_eq_true, if_false]


theorem int64_lt_overflow : (2 : Nat) ^ 63 < json.DBL_OVERFLOW := by
  unfold json.DBL_OVERFLOW
  have h1 : (2 : Nat) ^ 970 * 2 ≤ 2 ^ 1024 := by
    rw [← pow_succ]
    exact Nat.pow_le_pow_right (by decide) (by decide)
  have h2 : (2 : Nat) ^ 63 < 2 ^ 970 := Nat.pow_lt_pow_right (by decide) (by decide)
  generalize (2 : Nat) ^ 970 = a at h1 h2 ⊢
  generalize (2 : Nat) ^ 1024 = b at h1 ⊢
  omega

/-- What `json::parse` returns on the text of an integer literal, case by case. -/
theorem parse_integer_cases (neg : Bool) (ds : List Char) (hlit : json.IntLiteral ds) :
    (INT64_MIN ≤ json.literalValue neg ds → json.literalValue neg ds ≤ INT64_MAX →
      json.parse (json.literal neg ds) = some (.ok (.int (json.literalValue neg ds)))) ∧
    ((json.literalValue neg ds < INT64_MIN ∨ INT64_MAX < json.literalValue neg ds) →
      json.decimal 0 ds < json.DBL_OVERFLOW →
      json.parse (json.literal neg ds)
        = some (.ok (.double (.nearest neg (json.decimal 0 ds) 0)))) ∧
    (json.DBL_OVERFLOW ≤ json.decimal 0 ds →
      json.parse (json.literal neg ds) = some (.error (.parse_error .nonFiniteNumber))) := by
  have hall := literal_all_digits ds hlit
  have hparse := parse_literal neg ds hlit
  have h63 := int64_lt_overflow
  have hpos := int_loop_pos (.nearest neg (json.decimal 0 ds) 0) ds 0 hall (by omega)
  have hneg := int_loop_neg (.nearest neg (json.decimal 0 ds) 0) ds 0 hall (by omega)
  have hz : (-((0 : Nat) : Int)) = 0 := by simp
  rw [hz] at hneg
  have hz2 : (((0 : Nat) : Int)) = 0 := by simp
  rw [hz2] at hpos
  refine ⟨?_, ?_, ?_⟩
  · intro hlo hhi
    cases neg with
    | true =>
      have hr : json.decimal 0 ds ≤ 2 ^ 63 := by
        simp only [json.literalValue, if_true, INT64_MIN] at hlo
        omega
      rw [hparse, if_neg (by omega), hneg, if_pos hr]
      rfl
    | false =>
      have hr : json.decimal 0 ds ≤ 2 ^ 63 - 1 := by
        simp only [json.literalValue, Bool.false_eq_true, if_false, INT64_MAX] at hhi
        omega
      rw [hparse, if_neg (by omega), hpos, if_pos hr]
      rfl
  · intro hout hfin
    cases neg with
    | true =>
      have hr : ¬ json.decimal 0 ds ≤ 2 ^ 63 := by
        simp only [json.literalValue, if_true, INT64_MIN, INT64_MAX] at hout
        omega
      rw [hparse, if_neg (by omega), hneg, if_neg hr]
    | false =>
      have hr : ¬ json.decimal 0 ds ≤ 2 ^ 63 - 1 := by
        simp only [json.literalValue, Bool.false_eq_true, if_false, INT64_MIN,
          INT64_MAX] at hout
        omega
      rw [hparse, if_neg (by omega), hpos, if_neg hr]
  · intro hov
    rw [hparse, if_pos hov]

set_option maxRecDepth 100000 in
/-- C37, counterexample: the integer literal of `10 ^ 400`, a `1` followed by 400 zeros, is
outside the range of `int64_t`; `strtod` returns `HUGE_VAL` for it, and `json::parse`
fails with "non-finite number": it yields no `double`. -/
theorem C37_counterexample :
    json.IntLiteral json.bigLiteral ∧
    json.literalValue false json.bigLiteral = 10 ^ 400 ∧
    INT64_MAX < json.literalValue false json.bigLiteral ∧
    json.strtod (json.literal false json.bigLiteral) = .huge false ∧
    json.parse (json.literal false json.bigLiteral)
      = some (.error (.parse_error .nonFiniteNumber)) := by
  refine ⟨Or.inr ⟨'1', List.replicate 400 '0', rfl, by decide, by decide, ?_⟩, by decide,
    by decide, rfl, rfl⟩
  intro x hx
  rw [List.eq_of_mem_replicate hx]
  decide

/-- C37, amended: let the text be an integer literal, an optional `-` and then `0` or a
digit other than `0` followed by digits, of value `v`. When `v` is in the range of
`int64_t`, `json::parse` returns the integer `v`, also for `-2^63` and `2^63 - 1`. When
`v` is outside that range and `strtod` returns a finite value (the magnitude is below the
overflow threshold of `double`), it returns that `double`. When `strtod` returns
`HUGE_VAL`, it fails with "non-finite number". So an integer that `json::parse` returns is
`v` and is in range, and no accumulation step overflows. -/
theorem C37_parse_integer (neg : Bool) (ds : List Char) (hlit : json.IntLiteral ds) :
    (INT64_MIN ≤ json.literalValue neg ds → json.literalValue neg ds ≤ INT64_MAX →
      json.parse (json.literal neg ds) = some (.ok (.int (json.literalValue neg ds)))) ∧
    ((json.literalValue neg ds < INT64_MIN ∨ INT64_MAX < json.literalValue neg ds) →
      (json.strtod (json.literal neg ds)).isfinite = true →
      json.parse (json.literal neg ds)
        = some (.ok (.double (json.strtod (json.literal neg ds))))) ∧
    ((json.strtod (json.literal neg ds)).isfinite = false →
      json.parse (json.literal neg ds) = some (.error (.parse_error .nonFiniteNumber))) ∧
    ((json.strtod (json.literal neg ds)).isfinite = true ↔
      json.decimal 0 ds < json.DBL_OVERFLOW) ∧
    (∀ n, json.parse (json.literal neg ds) = some (.ok (.int n)) →
      n = json.literalValue neg ds ∧ INT64_MIN ≤ n ∧ n ≤ INT64_MAX) ∧
    json.parse (json.literal neg ds) ≠ some (.error .undefined) := by
  obtain ⟨h1, h2, h3⟩ := parse_integer_cases neg ds hlit
  have hst := strtod_literal neg ds hlit
  have hfin : (json.strtod (json.literal neg ds)).isfinite = true ↔
      json.decimal 0 ds < json.DBL_OVERFLOW := by
    rw [hst]
    by_cases hov : json.DBL_OVERFLOW ≤ json.decimal 0 ds
    · rw [if_pos hov]
      exact ⟨(fun h => by cases h), fun h => absurd hov (Nat.not_le_of_lt h)⟩
    · rw [if_neg hov]
      exact ⟨fun _ => Nat.lt_of_not_le hov, fun _ => rfl⟩
  have hcases : (INT64_MIN ≤ json.literalValue neg ds ∧
        json.literalValue neg ds ≤ INT64_MAX) ∨
      (json.literalValue neg ds < INT64_MIN ∨ INT64_MAX < json.literalValue neg ds) := by
    omega
  refine ⟨h1, ?_, ?_, hfin, ?_, ?_⟩
  · intro hout hf
    have hlt := hfin.mp hf
    rw [h2 hout hlt, hst, if_neg (Nat.not_le_of_lt hlt)]
  · intro hf
    refine h3 (Nat.le_of_not_lt fun hlt => ?_)
    rw [hfin.mpr hlt] at hf
    cases hf
  · intro n hn
    rcases hcases with ⟨hlo, hhi⟩ | hout
    · rw [h1 hlo hhi] at hn
      cases hn
      exact ⟨rfl, hlo, hhi⟩
    · by_cases hov : json.DBL_OVERFLOW ≤ json.decimal 0 ds
      · rw [h3 hov] at hn
        cases hn
      · rw [h2 hout (Nat.lt_of_not_le hov)] at hn
        cases hn
  · intro hn
    rcases hcases with ⟨hlo, hhi⟩ | hout
    · rw [h1 hlo hhi] at hn
      cases hn
    · by_cases hov : json.DBL_OVERFLOW ≤ json.decimal 0 ds
      · rw [h3 hov] at hn
        cases hn
      · rw [h2 hout (Nat.lt_of_not_le hov)] at hn
        cases hn

set_option maxRecDepth 100000 in
/-- C37, witness: the literal `-9223372036854775808` is parsed to the integer `-2^63`, and
the literal `9223372036854775808` to a `double`. -/
theorem C37_parse_integer_witness :
    json.IntLiteral json.minLiteral ∧
    json.literalValue true json.minLiteral = -(2 ^ 63) ∧
    json.parse (json.literal true json.minLiteral) = some (.ok (.int (-(2 ^ 63)))) ∧
    json.parse (json.literal false json.minLiteral)
      = some (.ok (.double (.nearest false (2 ^ 63) 0))) := by
  have hlit : json.IntLiteral json.minLiteral :=
    Or.inr ⟨'9', json.minLiteral.tail, rfl, by decide, by decide, by decide⟩
  have h := C37_parse_integer true json.minLiteral hlit
  have hv : json.literalValue true json.minLiteral = -(2 ^ 63) := by decide
  refine ⟨hlit, hv, ?_, rfl⟩
  rw [h.1 (by decide) (by decide), hv]


/-! ## One loop iteration, followed for a single computation -/

theorem mem_destructAll (ts : List Task) (h : Handle) (hm : Task.mk (some h) ∈ ts) :
    h ∈ Task.destructAll ts := by
  unfold Task.destructAll
  exact List.mem_filterMap.mpr ⟨_, hm, rfl⟩

theorem mem_destructAll_iff (ts : List Task) (h : Handle) :
    h ∈ Task.destructAll ts ↔ Task.mk (some h) ∈ ts := by
  constructor
  · intro hm
    unfold Task.destructAll at hm
    obtain ⟨t, ht, hc⟩ := List.mem_filterMap.mp hm
    cases t with
    | mk c =>
      simp only at hc
      rw [← hc]
      exact ht
  · exact mem_destructAll ts h

end Threadon
